import Mathlib

/-! Call lowering in the HILTI code generator

A shallow embedding of the call-boundary machinery of `hilti/codegen/codegen.cc`
and `hilti/codegen/abi.cc`: the calling-convention adapter
(`CodeGen::llvmAdaptFunctionArgs`), the x86-64 argument classifier and its users
(`abi::X86_64::classifyArguments`, `createFunctionTypeInternal`, `createCall`),
and the call emitter (`CodeGen::llvmDoCall`) with the reference-count and
safepoint bracketing it emits.

Around the call emitter, the embedding covers the body of a function as the
generator builds it: blocks and the exit block (`pushFunction`, `popFunction`,
`llvmReturn`, `llvmBuildExitBlock`, `llvmBuildFunctionCleanup`), locals
(`llvmAddLocal`), the propagation of exceptions (`llvmRaiseException`,
`llvmRethrowException`, `llvmTriggerExceptionHandling`, `llvmCheckCException`),
fibers and the resume wrapper (`llvmFiberStart`, `llvmBuildCWrapper`), and the
binding of callables (`llvmDoCallableBind`, `llvmCallableMakeFuncs`), the C
wrappers of a function and their cache (`llvmBuildCWrapper`,
`llvmCallInNewFiber`), unique names (`uniqueName`), and the extraction and
insertion of bits (`llvmExtractBits`, `llvmInsertBits`). Of the runtime it covers
the entry point `main` (`hilti/libhilti/main.c`), the doubly linked list with
its iterators (`libhilti/list.c`) over a heap of nodes, and the priority queue
of the timers (`libhilti/3rdparty/libpqueue/src/pqueue.c`) over an array of
addresses of timers; of the Bro plugin, the endpoints of an analyzer under
`Init`, `FeedChunk`, `FlipRoles` and `Done` (`bro/src/Pac2Analyzer.cc`).

Conventions of the embedding:

* `llvm::Type*` is the inductive `LType`; `llvm::Value*` is the symbolic term
  language `Value`; emitted instructions are collected, in emission order, in
  the `code` field of the generator state.
* `internalError(..)` and a failing `assert(..)` abort the compiler; both are
  `Except.error` carrying the message. So is the abort of `llvmCreateStore` on
  operands whose types do not match: where the sources store through it, the
  value comes with its `LType`, and a temporary is recorded with the type it
  was made for. The type passed is the one the sources fix where they do (the
  native return type for the result of a call, the type of a temporary found
  for reuse, the type in which results reach the exit block); elsewhere it is
  the type the value has by what it is: the LLVM type of the type of an
  expression for the value or the address the loader gives for it, the type of
  the parameter for an argument handed to a call or read in a wrapper.
* Collaborators that live outside the embedded files (the type builder, the
  loader, the coercer, libffi, LLVM's data layout) are fields of the values they
  describe or of the record `Target`.
* Pointers of the runtime are addresses into a list of the objects allocated; a
  read or a write through an address that holds no object is `Except.error`.
* A loop that the sources do not bound takes a number of rounds as fuel; a run
  that is not done when the fuel is used up gives `none` or the error
  `out of fuel`. Where the loop ends, the statements give the fuel that is
  enough; where it does not, they hold for every fuel.
* `size_t` is computed modulo `2 ^ 64`, `int` within `2 ^ 31`.
-/

set_option autoImplicit false

deriving instance DecidableEq for Except

namespace hilti

/-! ## LLVM types -/

mutual
/-- The `llvm::Type` kinds the call lowering distinguishes (`getTypeID()`); every
kind `_llvmToCif` rejects is `unsupported`, tagged with its type id. -/
inductive LType where
  | void
  | double
  | int (width : Nat)
  | ptr (pointee : LType)
  | struct (name : String) (elems : LTypes)
  | array (n : Nat) (elem : LType)
  | unsupported (id : Nat)
  deriving DecidableEq, Repr
/-- Element types of a struct type, in order. -/
inductive LTypes where
  | nil
  | cons (head : LType) (tail : LTypes)
  deriving DecidableEq, Repr
end

/-- Build the element sequence of a struct from a list. -/
def LTypes.ofList : List LType → LTypes
  | [] => .nil
  | t :: ts => .cons t (LTypes.ofList ts)

/-- `llvm::Type::isVoidTy()`. -/
def LType.isVoidTy : LType → Bool
  | .void => true
  | _ => false

/-- `llvm::dyn_cast<llvm::StructType>(t)` succeeds. -/
def LType.isStructTy : LType → Bool
  | .struct _ _ => true
  | _ => false

/-- `llvm::Type::getPointerTo()`. -/
def LType.getPointerTo (t : LType) : LType := .ptr t

/-! ## HILTI types and function types -/

/-- The fields of `TypeInfo` (type builder) that the call lowering reads. The
function pointers `cctor_func`, `dtor_func` and `obj_dtor_func` are recorded as
set / not set. -/
structure TypeInfo where
  pass_type_info : Bool
  cctor : String
  cctor_func : Bool
  dtor : String
  dtor_func : Bool
  obj_dtor : String
  obj_dtor_func : Bool
  deriving DecidableEq, Repr

/-- The argument type of a `type::Reference` (`argType()`), as `llvmDestroy`
uses it: its rendering, whether it has the trait `HeapType`, and its type
information. -/
structure RefArgType where
  render : String
  heapType : Bool
  info : TypeInfo
  deriving DecidableEq, Repr

/-- A `hilti::Type` as the code generator sees it: its rendering (which names
its RTTI object), for a `type::TypeType` the rendering of the wrapped type
(`typeType()`), what the type builder answers for it (`llvmType(type)`,
`typeInfo(type)`), whether it is `type::Void`, whether it has the traits
`ValueType` and `HeapType`, and for a `type::Reference` its argument type. -/
structure HiltiType where
  render : String
  typeType : Option String
  llvm : LType
  info : TypeInfo
  isVoid : Bool
  valueType : Bool
  heapType : Bool
  argType : Option RefArgType
  deriving DecidableEq, Repr

/-- `ast::isA<hilti::type::TypeType>(t)`. -/
def HiltiType.isTypeType (t : HiltiType) : Bool := t.typeType.isSome

/-- `type::function::CallingConvention`. -/
inductive CallingConvention where
  | DEFAULT
  | HILTI
  | HOOK
  | HILTI_C
  | C
  | CALLABLE
  deriving DecidableEq, Repr

/-- A `(name, type)` entry of a `parameter_list`. -/
abbrev Parameter := String × HiltiType

/-- A native `(name, llvm type)` parameter, an entry of `ABI::arg_list`. -/
abbrev NativeParam := String × LType

/-- A `type::Function`: result type, declared parameters, calling convention,
the two attributes the call emitter consults and `mayTriggerSafepoint()`. -/
structure FunctionType where
  result : HiltiType
  parameters : List Parameter
  cc : CallingConvention
  attrRef : Bool
  attrNoException : Bool
  mayTriggerSafepoint : Bool
  deriving DecidableEq, Repr

/-! ## Type helpers of the code generator -/

namespace symbols

/-- Modelled from the spec: `symbols.h` is not among the sources; this is the
name of the hidden exception-slot parameter. -/
def ArgException : String := "__excpt"

/-- Modelled from the spec: `symbols.h` is not among the sources; this is the
name of the hidden execution-context parameter. -/
def ArgExecutionContext : String := "__ctx"

end symbols

namespace CodeGen

/-- `CodeGen::llvmLibType(name)`: the struct type of that name in `libhilti.ll`.
The body of a library type is never inspected by the embedded code paths, so
it is left empty; a missing name (an internal error) is not modelled. -/
def llvmLibType (name : String) : LType := .struct name .nil

/-- `CodeGen::llvmTypeInt`. -/
def llvmTypeInt (width : Nat) : LType := .int width

/-- `CodeGen::llvmTypeVoid`. -/
def llvmTypeVoid : LType := .void

/-- `CodeGen::llvmTypePtr(t)`; a null `t` gives the generic `i8*`. -/
def llvmTypePtr (t : Option LType) : LType :=
  .ptr (match t with
        | some t => t
        | none => llvmTypeInt 8)

/-- `CodeGen::llvmTypeExecutionContext`. -/
def llvmTypeExecutionContext : LType := llvmLibType "hlt.execution_context"

/-- `CodeGen::llvmTypeExceptionPtr`. -/
def llvmTypeExceptionPtr : LType := llvmTypePtr (some (llvmLibType "hlt.exception"))

/-- `CodeGen::llvmTypeRtti`. -/
def llvmTypeRtti : LType := llvmLibType "hlt.type_info"

/-- `CodeGen::llvmType(type)`, answered by the type builder. -/
def llvmType (t : HiltiType) : LType := t.llvm

/-- `CodeGen::typeInfo(type)`, answered by the type builder. -/
def typeInfo (t : HiltiType) : TypeInfo := t.info

/-! ## The calling-convention adapter -/

/-- First switch of `llvmAdaptFunctionArgs`: the return type per convention. -/
def adaptReturnType (rtype : LType) : CallingConvention → Except String LType
  | .HILTI => .ok rtype
  | .CALLABLE => .ok rtype
  | .HOOK => .ok (llvmTypeInt 1)
  | .HILTI_C => .ok rtype
  | .C => .ok rtype
  | .DEFAULT => .error "unknown calling convention in llvmAddFunction"

/-- Body of the parameter loop of `llvmAdaptFunctionArgs`: the entries pushed
for one declared parameter. -/
def adaptParameter (cc : CallingConvention) (p : Parameter) :
    Except String (List NativeParam) :=
  match cc with
  | .HILTI | .HOOK | .CALLABLE => .ok [(p.1, llvmType p.2)]
  | .HILTI_C =>
    let ptype := p.2
    if ptype.isTypeType then
      .ok [("ti_" ++ p.1, llvmTypePtr (some llvmTypeRtti))]
    else if (typeInfo ptype).pass_type_info then
      .ok [("ti_" ++ p.1, llvmTypePtr (some llvmTypeRtti)), (p.1, llvmTypePtr none)]
    else
      .ok [(p.1, llvmType p.2)]
  | .C => .ok [(p.1, llvmType p.2)]
  | .DEFAULT => .error "unknown calling convention in llvmAddFunction"

/-- The parameter loop of `llvmAdaptFunctionArgs`, `llvm_args` being the vector
built so far. -/
def adaptParameters (cc : CallingConvention) :
    List Parameter → List NativeParam → Except String (List NativeParam)
  | [], llvm_args => .ok llvm_args
  | p :: ps, llvm_args =>
    match adaptParameter cc p with
    | .ok pushed => adaptParameters cc ps (llvm_args ++ pushed)
    | .error e => .error e

/-- Last switch of `llvmAdaptFunctionArgs`: the hidden parameters appended
after the visible ones. -/
def hiddenParameters (orig_rtype : LType) (cc : CallingConvention) (skip_ctx : Bool) :
    Except String (List NativeParam) :=
  match cc with
  | .HILTI | .CALLABLE =>
    .ok [(symbols.ArgExecutionContext, llvmTypePtr (some llvmTypeExecutionContext))]
  | .HOOK =>
    .ok ([(symbols.ArgExecutionContext, llvmTypePtr (some llvmTypeExecutionContext))]
          ++ (if ! orig_rtype.isVoidTy then [("__rval", llvmTypePtr (some orig_rtype))] else []))
  | .HILTI_C =>
    .ok ([(symbols.ArgException, llvmTypePtr (some llvmTypeExceptionPtr))]
          ++ (if ! skip_ctx then
                [(symbols.ArgExecutionContext, llvmTypePtr (some llvmTypeExecutionContext))]
              else []))
  | .C => .ok []
  | .DEFAULT => .error "unknown calling convention in llvmAddFunction"

/-- `CodeGen::llvmAdaptFunctionArgs(rtype, params, cc, skip_ctx)`: the native
return type and the native parameter list of a function. -/
def llvmAdaptFunctionArgs (rtype : LType) (params : List Parameter)
    (cc : CallingConvention) (skip_ctx : Bool) : Except String (LType × List NativeParam) :=
  let orig_rtype := rtype
  match adaptReturnType rtype cc with
  | .error e => .error e
  | .ok rtype =>
    match adaptParameters cc params [] with
    | .error e => .error e
    | .ok llvm_args =>
      match hiddenParameters orig_rtype cc skip_ctx with
      | .error e => .error e
      | .ok hidden => .ok (rtype, llvm_args ++ hidden)

/-- `CodeGen::llvmAdaptFunctionArgs(ftype)`: the overload taking a function
type; it never skips the context. -/
def llvmAdaptFunctionArgsOf (ftype : FunctionType) : Except String (LType × List NativeParam) :=
  llvmAdaptFunctionArgs (llvmType ftype.result) ftype.parameters ftype.cc false

end CodeGen

/-! ## The x86-64 ABI classifier (`abi.cc`) -/

mutual
/-- libffi's `ffi_type` descriptions that `_llvmToCif` produces. -/
inductive FfiType where
  | void
  | double
  | pointer
  | sint8
  | sint16
  | sint32
  | sint64
  | struct (elements : FfiTypes)
  deriving DecidableEq, Repr
/-- The `elements` array of a struct `ffi_type`, without its terminating null. -/
inductive FfiTypes where
  | nil
  | cons (head : FfiType) (tail : FfiTypes)
  deriving DecidableEq, Repr
end

/-- The `elements` array of `n` copies of one description. -/
def FfiTypes.replicate : Nat → FfiType → FfiTypes
  | 0, _ => .nil
  | n + 1, t => .cons t (FfiTypes.replicate n t)

/-- `cif->rtype->type == FFI_TYPE_STRUCT`. -/
def FfiType.isStruct : FfiType → Bool
  | .struct _ => true
  | _ => false

/-- `enum x86_64_reg_class` of libffi's `ffi64.h`. -/
inductive x86_64_reg_class where
  | X86_64_NO_CLASS
  | X86_64_INTEGER_CLASS
  | X86_64_INTEGERSI_CLASS
  | X86_64_SSE_CLASS
  | X86_64_SSESF_CLASS
  | X86_64_SSEDF_CLASS
  | X86_64_SSEUP_CLASS
  | X86_64_X87_CLASS
  | X86_64_X87UP_CLASS
  | X86_64_COMPLEX_X87_CLASS
  | X86_64_MEMORY_CLASS
  deriving DecidableEq, Repr

/-- What one call `ffi64_examine_argument(type, classes, 0, &ngpr, &nsse)` leaves
behind: the classes it wrote (`classes[0..n)`, so the returned `n` is their
number and `n == 0` means "in memory") and the two register counts. -/
structure Examined where
  classes : List x86_64_reg_class
  ngpr : Nat
  nsse : Nat
  deriving DecidableEq, Repr

/-- The services the classifier takes from outside `abi.cc`: libffi
(`ffi_prep_cif` yields the `flags` of the prepared cif, or nothing when it does
not return `FFI_OK`; `ffi64_examine_argument`) and LLVM's data layout
(`getTypeAllocSize`). -/
structure Target where
  ffi_prep_cif : FfiType → List FfiType → Option Nat
  ffi64_examine_argument : FfiType → Examined
  getTypeAllocSize : LType → Nat

namespace abi

/-- `MAX_GPR_REGS` of libffi's `ffi64.c`, named in the disabled register check. -/
def MAX_GPR_REGS : Nat := 6

/-- `MAX_SSE_REGS` of libffi's `ffi64.c`, named in the disabled register check. -/
def MAX_SSE_REGS : Nat := 8

/-- `FFI_TYPE_VOID` of `ffi.h`. -/
def FFI_TYPE_VOID : Nat := 0

mutual
/-- `_llvmToCif`: converts an LLVM type into libffi's description. -/
def _llvmToCif : LType → Except String FfiType
  | .void => .ok .void
  | .double => .ok .double
  | .ptr _ => .ok .pointer
  | .int w =>
    if w ≤ 8 then .ok .sint8
    else if w ≤ 16 then .ok .sint16
    else if w ≤ 32 then .ok .sint32
    else if w ≤ 64 then .ok .sint64
    else .error "integer bitwidth >64 in llvmToCif"
  | .struct _ elems =>
    match _llvmToCifElems elems with
    | .ok elems_ffi => .ok (.struct elems_ffi)
    | .error e => .error e
  | .array n elem =>
    match n with
    | 0 => .ok (.struct .nil)
    | n + 1 =>
      match _llvmToCif elem with
      | .ok e => .ok (.struct (FfiTypes.replicate (n + 1) e))
      | .error e => .error e
  | .unsupported _ => .error "unsupport argument type in llvmToCif"
/-- The element loop of the struct case of `_llvmToCif`. -/
def _llvmToCifElems : LTypes → Except String FfiTypes
  | .nil => .ok .nil
  | .cons t ts =>
    match _llvmToCif t with
    | .error e => .error e
    | .ok t_ffi =>
      match _llvmToCifElems ts with
      | .ok ts_ffi => .ok (.cons t_ffi ts_ffi)
      | .error e => .error e
end

/-- The argument loop of `ABI::getCIF`. -/
def getCIFArgs : List LType → Except String (List FfiType)
  | [] => .ok []
  | a :: as =>
    match _llvmToCif a with
    | .error e => .error e
    | .ok a_ffi =>
      match getCIFArgs as with
      | .ok as_ffi => .ok (a_ffi :: as_ffi)
      | .error e => .error e

/-- The prepared `ffi_cif` as far as it is read: `rtype`, `arg_types`, `flags`. -/
structure Cif where
  rtype : FfiType
  arg_types : List FfiType
  flags : Nat
  deriving DecidableEq, Repr

/-- `ABI::getCIF(rtype, args)`. -/
def getCIF (tg : Target) (rtype : LType) (args : List LType) : Except String Cif :=
  match _llvmToCif rtype with
  | .error e => .error e
  | .ok rtype_ffi =>
    match getCIFArgs args with
    | .error e => .error e
    | .ok args_ffi =>
      match tg.ffi_prep_cif rtype_ffi args_ffi with
      | some flags => .ok { rtype := rtype_ffi, arg_types := args_ffi, flags := flags }
      | none => .error "assertion failed: rc == FFI_OK"

namespace X86_64

/-- `abi::X86_64::ClassifiedArguments`. -/
structure ClassifiedArguments where
  return_in_mem : Bool
  return_type : LType
  args_in_mem : List Bool
  arg_types : List LType
  deriving DecidableEq, Repr

/-- The member `_classified_arguments`: classifications by function name, in
insertion order. -/
abbrev ClassifiedMap := List (String × ClassifiedArguments)

/-- `_classified_arguments.insert(std::make_pair(name, cargs))`: inserting under
a key that is present leaves the map as it is. -/
def ClassifiedMap.insert (m : ClassifiedMap) (name : String) (cargs : ClassifiedArguments) :
    ClassifiedMap :=
  match m.lookup name with
  | some _ => m
  | none => m ++ [(name, cargs)]

/-- `_classified_arguments.find(name)`. -/
def ClassifiedMap.find (m : ClassifiedMap) (name : String) : Option ClassifiedArguments :=
  m.lookup name

/-- The inner loop over `classes[0..n)` in `classifyArguments`: counts the
registers an argument uses and aborts on a class it does not know. -/
def countRegisters : List x86_64_reg_class → Nat × Nat → Except String (Nat × Nat)
  | [], counts => .ok counts
  | c :: cs, (gprcount, ssecount) =>
    match c with
    | .X86_64_INTEGER_CLASS | .X86_64_INTEGERSI_CLASS => countRegisters cs (gprcount + 1, ssecount)
    | .X86_64_SSE_CLASS | .X86_64_SSEDF_CLASS => countRegisters cs (gprcount, ssecount + 1)
    | .X86_64_SSESF_CLASS => countRegisters cs (gprcount, ssecount + 1)
    | .X86_64_NO_CLASS => countRegisters cs (gprcount, ssecount)
    | _ => .error "unsupported register form"

/-- State of the argument loop of `classifyArguments`. -/
structure ClassifyState where
  gprcount : Nat
  ssecount : Nat
  args_in_mem : List Bool
  arg_types : List LType
  deriving DecidableEq, Repr

/-- One iteration of the argument loop of `classifyArguments`, for the argument
of LLVM type `arg` with libffi description `ffi_arg`. The register limits are
not consulted: the source has that part of the condition commented out. -/
def classifyStep (tg : Target) (arg : NativeParam) (ffi_arg : FfiType) (s : ClassifyState) :
    Except String ClassifyState :=
  let new_llvm_type := arg.2
  let ex := tg.ffi64_examine_argument ffi_arg
  let n := ex.classes.length
  if n == 0 then
    .ok { s with args_in_mem := s.args_in_mem ++ [true],
                 arg_types := s.arg_types ++ [new_llvm_type] }
  else
    match countRegisters ex.classes (s.gprcount, s.ssecount) with
    | .error e => .error e
    | .ok (gprcount, ssecount) =>
      .ok { gprcount := gprcount, ssecount := ssecount,
            args_in_mem := s.args_in_mem ++ [false],
            arg_types := s.arg_types ++ [new_llvm_type] }

/-- The argument loop of `classifyArguments`: `args[i]` and `ffi_arg_types[i]`
for `i` from 0 on. -/
def classifyLoop (tg : Target) :
    List NativeParam → List FfiType → ClassifyState → Except String ClassifyState
  | [], _, s => .ok s
  | _ :: _, [], _ => .error "assertion failed: ffi_avn == args.size()"
  | a :: as, f :: fs, s =>
    match classifyStep tg a f s with
    | .error e => .error e
    | .ok s => classifyLoop tg as fs s

/-- The computation of `classifyArguments` up to the end of its argument loop:
the classification together with the final register counters. -/
def classifyArgumentsCore (tg : Target) (rtype : LType) (args : List NativeParam) :
    Except String (ClassifiedArguments × Nat × Nat) :=
  match getCIF tg rtype (args.map (fun a => a.2)) with
  | .error e => .error e
  | .ok cif =>
    let return_in_mem := cif.rtype.isStruct && (cif.flags % 256 == FFI_TYPE_VOID)
    let gprcount := if return_in_mem then 1 else 0
    match classifyLoop tg args cif.arg_types
            { gprcount := gprcount, ssecount := 0, args_in_mem := [], arg_types := [] } with
    | .error e => .error e
    | .ok s =>
      .ok ({ return_in_mem := return_in_mem, return_type := rtype,
             args_in_mem := s.args_in_mem, arg_types := s.arg_types },
           s.gprcount, s.ssecount)

/-- `abi::X86_64::classifyArguments(name, rtype, args, cc)`, with the member
`_classified_arguments` passed in and handed back. -/
def classifyArguments (tg : Target) (name : String) (rtype : LType) (args : List NativeParam)
    (_cc : CallingConvention) (m : ClassifiedMap) :
    Except String (ClassifiedArguments × ClassifiedMap) :=
  match classifyArgumentsCore tg rtype args with
  | .error e => .error e
  | .ok (cargs, _, _) =>
    if name.length != 0 then .ok (cargs, m.insert name cargs) else .ok (cargs, m)

/-- `abi::X86_64::classifyArguments(name)`: the lookup by name. -/
def classifyArgumentsByName (name : String) (m : ClassifiedMap) :
    Except String ClassifiedArguments :=
  match m.find name with
  | some cargs => .ok cargs
  | none => .error "assertion failed: i != _classified_arguments.end()"

/-- `ABI::mapToIntType(stype)`; `none` is the null result. -/
def mapToIntType (tg : Target) (stype : LType) : Option LType :=
  let i := 8 * tg.getTypeAllocSize stype
  if i < 128 then some (CodeGen.llvmTypeInt i) else none

/-- An `llvm::FunctionType` without varargs. -/
structure LFunctionType where
  ret : LType
  params : List LType
  deriving DecidableEq, Repr

/-- The native type of a register-passed argument or result of type `t`: a
struct for which `mapToIntType` has an answer becomes that integer type. -/
def adaptRegisterType (tg : Target) (t : LType) : LType :=
  if t.isStructTy then
    match mapToIntType tg t with
    | some itype => itype
    | none => t
  else t

/-- State of the argument loop of `createFunctionTypeInternal`. -/
structure SignatureState where
  ntypes : List LType
  nnames : List String
  byvals : List Nat
  deriving DecidableEq, Repr

/-- The argument loop of `createFunctionTypeInternal`, `i` being the index of
the first argument of the list. -/
def signatureLoop (tg : Target) (cargs : ClassifiedArguments) :
    List NativeParam → Nat → SignatureState → Except String SignatureState
  | [], _, s => .ok s
  | a :: as, i, s =>
    match cargs.args_in_mem[i]?, cargs.arg_types[i]? with
    | some in_mem, some t =>
      if in_mem then
        signatureLoop tg cargs as (i + 1)
          { byvals := s.byvals ++ [i], ntypes := s.ntypes ++ [t.getPointerTo],
            nnames := s.nnames ++ [a.1] }
      else
        signatureLoop tg cargs as (i + 1)
          { s with ntypes := s.ntypes ++ [adaptRegisterType tg t],
                   nnames := s.nnames ++ [a.1] }
    | _, _ => .error "index out of range"

/-- The tuple `createFunctionTypeInternal` returns. -/
structure NativeSignature where
  ftype : LFunctionType
  cargs : ClassifiedArguments
  nnames : List String
  byvals : List Nat
  arg_base : Nat
  deriving DecidableEq, Repr

/-- `abi::X86_64::createFunctionTypeInternal(rtype, args, cc, name)`. -/
def createFunctionTypeInternal (tg : Target) (rtype : LType) (args : List NativeParam)
    (cc : CallingConvention) (name : String) (m : ClassifiedMap) :
    Except String (NativeSignature × ClassifiedMap) :=
  match classifyArguments tg name rtype args cc m with
  | .error e => .error e
  | .ok (cargs, m) =>
    let s0 : SignatureState :=
      if cargs.return_in_mem then
        { ntypes := [rtype.getPointerTo], nnames := ["agg.sret"], byvals := [] }
      else { ntypes := [], nnames := [], byvals := [] }
    let rtype1 := if cargs.return_in_mem then LType.void else rtype
    let arg_base := if cargs.return_in_mem then 1 else 0
    if cargs.args_in_mem.length != args.length then
      .error "assertion failed: cargs.args_in_mem.size() == args.size()"
    else
      match signatureLoop tg cargs args 0 s0 with
      | .error e => .error e
      | .ok s =>
        let rtype2 :=
          if cargs.return_type.isStructTy && ! cargs.return_in_mem then
            match mapToIntType tg cargs.return_type with
            | some itype => itype
            | none => rtype1
          else rtype1
        .ok ({ ftype := { ret := rtype2, params := s.ntypes }, cargs := cargs,
               nnames := s.nnames, byvals := s.byvals, arg_base := arg_base }, m)

/-- `abi::X86_64::createFunctionType(rtype, args, cc)`. -/
def createFunctionType (tg : Target) (rtype : LType) (args : List NativeParam)
    (cc : CallingConvention) (m : ClassifiedMap) : Except String (LFunctionType × ClassifiedMap) :=
  match createFunctionTypeInternal tg rtype args cc "" m with
  | .error e => .error e
  | .ok (t, m) => .ok (t.ftype, m)

end X86_64

end abi

/-! ## Values, instructions and the generator state -/

/-- A `type::Exception` as exception handling uses it: its name and `level()`,
its depth in the inheritance chain of exception types. -/
structure ExceptionType where
  name : String
  level : Nat
  deriving DecidableEq, Repr

/-- A HILTI expression as the emitters use it: an identity, its type,
`hoisted()`, and whether it is a constant parameter, for which the loader has no
address (`llvmValueAddress` gives null). -/
structure Expression where
  id : String
  type : HiltiType
  hoisted : Bool
  constant_param : Bool
  deriving DecidableEq, Repr

/-- Symbolic `llvm::Value*`. Instructions without side effect (`bitcast`, `load`,
`isNull`, `icmpNE`, `extractValue`, `insertValue`, the intrinsic `expect`) are
terms over their operands. A temporary made by `llvmAddTmp` is identified by
its name, type and the initial value it was created with (`tmpNull` when there
was none); a slot made by `llvmCreateAlloca` by its type and the value the
emitter stores into it next. `value e` is what the loader gives for
`llvmValue(e)` with its default arguments; `exceptionTypeObject`, `initVal` and
`const` are the constants `llvmExceptionTypeObject(etype)`,
`typeInfo(type)->init_val` and a global made by `llvmAddConst`; `local` is the
slot of a local, `block` a basic block, `phi` the PHI node of the exit block. -/
inductive Value where
  | constNull (ty : LType)
  | constAsciiz (s : String)
  | expr (e : Expression) (coerce_to : HiltiType) (cctor : Option Bool)
  | address (e : Expression)
  | rtti (render : String)
  | argument (name : String)
  | function (name : String)
  | hookRun (hook : String)
  | tmp (tname : String) (ty : LType) (init : Value)
  | tmpNull (tname : String) (ty : LType)
  | alloca (ty : LType) (holds : Value)
  | bitcast (v : Value) (ty : LType)
  | load (p : Value)
  | callResult (callee : Value)
  | value (e : Expression)
  | constInt (val : Int) (width : Nat)
  | isNull (v : Value)
  | expect (v : Value) (e : Value)
  | icmpNE (a : Value) (b : Value)
  | extractValue (agg : Value) (idx : Nat)
  | insertValue (agg : Value) (val : Value) (idx : Nat)
  | exceptionTypeObject (etype : ExceptionType)
  | initVal (render : String)
  | local (name : String) (ty : LType)
  | block (name : String)
  | phi (ty : LType)
  | sizeOf (ty : LType)
  | const (name : String)
  deriving DecidableEq, Repr

/-- `llvm::CallingConv::ID` values the generator uses. -/
inductive LLVMCallingConv where
  | Fast
  | C
  deriving DecidableEq, Repr

/-- Emitted instructions and, for the emitters that are not unfolded here, a
marker for their whole output: `instructionCleanup` for
`llvmBuildInstructionCleanup()`, `excptCallback` for the caller's
`excpt_callback`, `checkCException` and `checkException` for the two exception
checks (`reraise` is `none` where the call leaves the argument to its default),
`valueInto` for the loader's `llvmValueInto`, `instructionCleanupNoFlush` for
`llvmBuildInstructionCleanup(false)`, `profilerStart` and `profilerStop` for the
calls of `hlt::profiler_start` and `hlt::profiler_stop`. The markers
`pushBuilder` and `popBuilder` record that the insertion point moves to the
named block and back; every block is entered once, when it is still empty. -/
inductive Instr where
  | alloca (tname : String) (ty : LType) (alignment : Nat)
  | store (v : Value) (p : Value)
  | call (callee : Value) (args : List Value) (cc : Option LLVMCallingConv)
  | stackmap (id : Nat) (args : List Value)
  | instructionCleanup
  | excptCallback
  | checkCException (excpt : Value) (reraise : Option Bool)
  | checkException
  | condBr (cond : Value) (true_ : Value) (false_ : Value)
  | br (target : Value)
  | ret (v : Value)
  | retVoid
  | unreachable
  | phi (ty : LType) (incoming : List (Value × String))
  | valueInto (dst : Value) (e : Expression)
  | instructionCleanupNoFlush
  | profilerStart (tag : String)
  | profilerStop (tag : Value)
  | pushBuilder (block : String)
  | popBuilder
  deriving DecidableEq, Repr

/-- The part of the generator's state the call emitter reads or writes: of the
current function (`_functions.back()`) the context value, the argument names,
whether `leave_func` is set, `dtors_after_call`, `tmps` and `stackmap_id`; the
liveness sets of the current statement in iteration order; `options().debug`;
the current location; whether `HAVE_LLVM_35` is defined; the classifier's
`_classified_arguments`; and the instructions emitted so far, into the entry
block (`entry`) and at the insertion point (`code`). An entry of `tmps` is the
temporary with the type it was allocated with, the element type of its
`getType()`. -/
structure CG where
  context : Option Value
  arguments : List String
  leave_func : Bool
  dtors_after_call : Bool
  tmps : List (String × Value × LType)
  stackmap_id : Nat
  liveness_in : List Expression
  liveness_dead : List Expression
  debug : Bool
  location : String
  have_llvm_35 : Bool
  classified : abi.X86_64.ClassifiedMap
  entry : List Instr
  code : List Instr
  deriving DecidableEq, Repr

namespace CodeGen

/-- Append instructions at the insertion point. -/
def emit (cg : CG) (is : List Instr) : CG := { cg with code := cg.code ++ is }

/-- Append instructions to the entry block. -/
def emitEntry (cg : CG) (is : List Instr) : CG := { cg with entry := cg.entry ++ is }

/-- `CodeGen::llvmCallingConvention`. -/
def llvmCallingConvention : CallingConvention → Except String LLVMCallingConv
  | .HILTI | .HOOK | .CALLABLE => .ok .Fast
  | .HILTI_C => .ok .C
  | .C => .ok .C
  | .DEFAULT => .error "unknown calling convention in llvmCallingConvention"

/-- `CodeGen::llvmConstNull(t)`; a null `t` gives the null `i8*`. -/
def llvmConstNull (t : Option LType) : Value :=
  match t with
  | some t => .constNull t
  | none => .constNull (llvmTypePtr (some (llvmTypeInt 8)))

/-- `CodeGen::llvmRtti(type)`: the RTTI constant, named after `type->render()`. -/
def llvmRtti (t : HiltiType) : Value := .rtti t.render

/-- `CodeGen::llvmExecutionContext`. -/
def llvmExecutionContext (cg : CG) : Except String Value :=
  match cg.context with
  | some ctx => .ok ctx
  | none =>
    if cg.arguments.contains symbols.ArgExecutionContext then
      .ok (.argument symbols.ArgExecutionContext)
    else .error "no context argument found in llvmExecutionContext"

/-- `CodeGen::llvmCurrentLocation(addl)`. -/
def llvmCurrentLocation (addl : String) (cg : CG) : Value :=
  .constAsciiz (if addl.length != 0 then cg.location ++ " [" ++ addl ++ "]" else cg.location)

/-- `_functions.back()->tmps.insert(..)`: records a temporary under its name
unless the name is taken. -/
def registerTmp (tname : String) (tmp : Value) (type : LType) (cg : CG) : CG :=
  match cg.tmps.lookup tname with
  | some _ => cg
  | none => { cg with tmps := cg.tmps ++ [(tname, tmp, type)] }

/-- `CodeGen::llvmCreateStore(val, ptr)` where the types of the operands are
known: aborts unless `ptr` points to the type of `val`. -/
def llvmCreateStore (val : Value) (val_ty : LType) (ptr : Value) (ptr_ty : LType) (cg : CG) :
    Except String CG :=
  match ptr_ty with
  | .ptr elem =>
    if elem != val_ty then .error "LLVM store mismatch in CodeGen: operand types do not match"
    else .ok (emit cg [.store val ptr])
  | _ => .error "LLVM store mismatch in CodeGen: target is not of pointer type"

/-- `CodeGen::llvmAddTmp(name, type, init, reuse, alignment)`; an initial value
comes with its LLVM type. The alloca goes to the entry block; an initial value
is stored at the insertion point by `llvmCreateStore`, which aborts when the
value is of another type than the temporary, be it the new one or the one
found under the name for reuse; the null default is stored in the entry
block. -/
def llvmAddTmp (name : String) (type : LType) (init : Option (Value × LType)) (reuse : Bool)
    (alignment : Nat) (cg : CG) : Except String (Value × CG) :=
  let tname := "__tmp_" ++ name
  let init := if reuse then some (init.getD (llvmConstNull (some type), type)) else init
  match (if reuse then cg.tmps.lookup tname else none) with
  | some (tmp, tmp_ty) =>
    let i := init.getD (llvmConstNull (some type), type)
    match llvmCreateStore i.1 i.2 tmp (.ptr tmp_ty) cg with
    | .error e => .error e
    | .ok cg => .ok (tmp, cg)
  | none =>
    let cg := emitEntry cg [.alloca tname type alignment]
    match init with
    | some v =>
      let tmp := Value.tmp tname type v.1
      match llvmCreateStore v.1 v.2 tmp (.ptr type) cg with
      | .error e => .error e
      | .ok cg => .ok (tmp, registerTmp tname tmp type cg)
    | none =>
      let tmp := Value.tmpNull tname type
      let cg := emitEntry cg [.store (llvmConstNull (some type)) tmp]
      .ok (tmp, registerTmp tname tmp type cg)

/-- `CodeGen::llvmCallC(name, args, add_hiltic_args, excpt_check)`. -/
def llvmCallC (llvm_func : String) (args : List Value) (add_hiltic_args excpt_check : Bool)
    (cg : CG) : Except String (Value × CG) :=
  let f := Value.function llvm_func
  if add_hiltic_args then
    match llvmAddTmp "excpt" llvmTypeExceptionPtr none true 0 cg with
    | .error e => .error e
    | .ok (excpt, cg) =>
      match llvmExecutionContext cg with
      | .error e => .error e
      | .ok ctx =>
        let cg := emit cg [.call f (args ++ [excpt, ctx]) none]
        let cg := if excpt_check then emit cg [.checkCException excpt none] else cg
        .ok (.callResult f, cg)
  else
    .ok (.callResult f, emit cg [.call f args none])

/-- `CodeGen::llvmDtor(val, type, is_ptr, location_addl)`; `val_ty` is the LLVM
type of `val`. -/
def llvmDtor (val : Value) (val_ty : LType) (type : HiltiType) (is_ptr : Bool)
    (location_addl : String) (cg : CG) : Except String CG :=
  let ti := typeInfo type
  if ti.dtor.length == 0 && ! ti.dtor_func then .ok cg
  else
    match (if ! is_ptr then llvmAddTmp "gcobj" (llvmType type) (some (val, val_ty)) false 0 cg
           else .ok (val, cg)) with
    | .error e => .error e
    | .ok (val, cg) =>
      let loc := if cg.debug then llvmCurrentLocation ("llvmDtor/" ++ location_addl) cg
                 else llvmConstNull none
      match llvmExecutionContext cg with
      | .error e => .error e
      | .ok ctx =>
        match llvmCallC "__hlt_object_dtor"
                [llvmRtti type, .bitcast val (llvmTypePtr none), .bitcast loc (llvmTypePtr none),
                 ctx]
                false false cg with
        | .error e => .error e
        | .ok (_, cg) => .ok cg

/-- `CodeGen::llvmCctor(val, type, is_ptr, location_addl)`; `val_ty` is the LLVM
type of `val`. -/
def llvmCctor (val : Value) (val_ty : LType) (type : HiltiType) (is_ptr : Bool)
    (location_addl : String) (cg : CG) : Except String CG :=
  let ti := typeInfo type
  if ti.cctor.length == 0 && ! ti.cctor_func then .ok cg
  else
    match (if ! is_ptr then llvmAddTmp "gcobj" (llvmType type) (some (val, val_ty)) false 0 cg
           else .ok (val, cg)) with
    | .error e => .error e
    | .ok (val, cg) =>
      let loc := if cg.debug then llvmCurrentLocation ("llvmCctor/" ++ location_addl) cg
                 else llvmConstNull none
      match llvmExecutionContext cg with
      | .error e => .error e
      | .ok ctx =>
        match llvmCallC "__hlt_object_cctor"
                [llvmRtti type, .bitcast val (llvmTypePtr none), .bitcast loc (llvmTypePtr none),
                 ctx]
                false false cg with
        | .error e => .error e
        | .ok (_, cg) => .ok cg

/-- An entry of `CodeGen::live_list`: address, type, `is_ptr`. -/
abbrev LiveValue := Value × HiltiType × Bool

/-- The loop of `liveValues` over the set `in`, `lives` being the list built so
far: an expression that is dead or hoisted is skipped; for any other one the
loader must have an address (`assert(val)`), which it has not for a constant
parameter. -/
def liveValuesLoop (dead : List Expression) :
    List Expression → List LiveValue → Except String (List LiveValue)
  | [], lives => .ok lives
  | l :: ls, lives =>
    if dead.contains l then liveValuesLoop dead ls lives
    else if l.hoisted then liveValuesLoop dead ls lives
    else if l.constant_param then .error "assertion failed: val"
    else liveValuesLoop dead ls (lives ++ [(Value.address l, l.type, true)])

/-- `CodeGen::liveValues`. -/
def liveValues (cg : CG) : Except String (List LiveValue) :=
  if cg.leave_func then liveValuesLoop cg.liveness_dead cg.liveness_in [] else .ok []

/-- The test `val->getType()->isPointerTy() || val->getType()->isAggregateType()`
of `llvmCreateStackmap`, on the type of the loaded live value. -/
def isPointerOrAggregate : LType → Bool
  | .ptr _ => true
  | .struct _ _ => true
  | .array _ _ => true
  | _ => false

/-- `CodeGen::llvmCreateStackmap`. -/
def llvmCreateStackmap (cg : CG) : Except String CG :=
  if ! cg.have_llvm_35 then .ok cg
  else
    let id := cg.stackmap_id + 1
    let cg := { cg with stackmap_id := id }
    match liveValues cg with
    | .error e => .error e
    | .ok lives =>
      let args := lives.filterMap (fun l =>
        if isPointerOrAggregate (llvmType l.2.1) then some (Value.load l.1) else none)
      .ok (emit cg [.stackmap id args])

/-- The LLVM type of the first component of a live value: the address of a
value of the type given when `is_ptr` is set, else such a value. -/
def liveValueType (l : LiveValue) : LType :=
  if l.2.2 then llvmTypePtr (some (llvmType l.2.1)) else llvmType l.2.1

/-- The loop of `llvmAdaptStackForSafepoint` over the live values. -/
def adaptLiveValues (pre : Bool) : List LiveValue → CG → Except String CG
  | [], cg => .ok cg
  | l :: ls, cg =>
    match (if pre then llvmCctor l.1 (liveValueType l) l.2.1 l.2.2 "adapt-for-savepoint-pre" cg
           else llvmDtor l.1 (liveValueType l) l.2.1 l.2.2 "adapt-for-savepoint-post" cg) with
    | .error e => .error e
    | .ok cg => adaptLiveValues pre ls cg

/-- `CodeGen::llvmAdaptStackForSafepoint(pre)`. -/
def llvmAdaptStackForSafepoint (pre : Bool) (cg : CG) : Except String CG :=
  match (if ! pre then llvmCreateStackmap cg else .ok cg) with
  | .error e => .error e
  | .ok cg =>
    match liveValues cg with
    | .error e => .error e
    | .ok lives => adaptLiveValues pre lives cg

end CodeGen

/-! ## Calls through the ABI -/

namespace abi

namespace X86_64

/-- The argument loop of `createCall`: `args[i]` for `i` from the given index
on, `nargs` being the vector built so far. The arguments are those of a call of
a function with the parameters `targs`: `args[i]` has the type of the `i`-th
parameter, `cargs.arg_types[i]`. -/
def callArgsLoop (tg : Target) (cargs : ClassifiedArguments) :
    List Value → Nat → List Value → CG → Except String (List Value × CG)
  | [], _, nargs, cg => .ok (nargs, cg)
  | llvm_val :: rest, i, nargs, cg =>
    match cargs.arg_types[i]?, cargs.args_in_mem[i]? with
    | some llvm_type, some in_mem =>
      if in_mem then
        match CodeGen.llvmAddTmp "agg.arg" llvm_type (some (llvm_val, llvm_type)) false 8 cg with
        | .error e => .error e
        | .ok (agg, cg) => callArgsLoop tg cargs rest (i + 1) (nargs ++ [agg]) cg
      else if llvm_type.isStructTy then
        match mapToIntType tg llvm_type with
        | some itype =>
          let tmp := Value.alloca llvm_type llvm_val
          let cg := CodeGen.emitEntry cg [.alloca "" llvm_type 0]
          let cg := CodeGen.emit cg [.store llvm_val tmp]
          let casted := Value.bitcast tmp (CodeGen.llvmTypePtr (some itype))
          callArgsLoop tg cargs rest (i + 1) (nargs ++ [Value.load casted]) cg
        | none => callArgsLoop tg cargs rest (i + 1) (nargs ++ [llvm_val]) cg
      else callArgsLoop tg cargs rest (i + 1) (nargs ++ [llvm_val]) cg
    | _, _ => .error "index out of range"

/-- `abi::X86_64::createCall(callee, args, rtype, targs, cc)`. -/
def createCall (tg : Target) (callee : Value) (args : List Value) (rtype : LType)
    (targs : List NativeParam) (cc : CallingConvention) (cg : CG) :
    Except String (Value × CG) :=
  match classifyArguments tg "" rtype targs cc cg.classified with
  | .error e => .error e
  | .ok (cargs, m) =>
    let cg := { cg with classified := m }
    match ((if cargs.return_in_mem then
              match CodeGen.llvmAddTmp "agg.sret" cargs.return_type none false 8 cg with
              | .error e => .error e
              | .ok (agg_ret, cg) => .ok ([agg_ret], some agg_ret, cg)
            else .ok ([], none, cg)) : Except String (List Value × Option Value × CG)) with
    | .error e => .error e
    | .ok (nargs, agg_ret, cg) =>
    if cargs.args_in_mem.length != args.length then
      .error "assertion failed: cargs.args_in_mem.size() == args.size()"
    else
      match callArgsLoop tg cargs args 0 nargs cg with
      | .error e => .error e
      | .ok (nargs, cg) =>
        match CodeGen.llvmCallingConvention cc with
        | .error e => .error e
        | .ok llvm_cc =>
          let cg := CodeGen.emit cg [.call callee nargs (some llvm_cc)]
          let ci := Value.callResult callee
          match agg_ret with
          | some agg_ret => .ok (.load agg_ret, cg)
          | none =>
            if cargs.return_type.isStructTy then
              match mapToIntType tg cargs.return_type with
              | some itype =>
                let tmp := Value.alloca itype ci
                let cg := CodeGen.emitEntry cg [.alloca "" itype 0]
                let cg := CodeGen.emit cg [.store ci tmp]
                let casted := Value.bitcast tmp (CodeGen.llvmTypePtr (some cargs.return_type))
                .ok (.load casted, cg)
              | none => .ok (ci, cg)
            else .ok (ci, cg)

end X86_64

end abi

/-! ## The call emitter -/

namespace CodeGen

/-- First switch of `llvmDoCall`: whether the convention hands the result over
already copy-constructed (`result_is_cctored`). -/
def resultIsCctored (ftype : FunctionType) : Except String Bool :=
  match ftype.cc with
  | .HILTI | .HOOK => .ok false
  | .HILTI_C => .ok ftype.attrRef
  | .C => .ok ftype.attrRef
  | .CALLABLE => .error "llvmDoCall doesn't do callables (yet?)"
  | .DEFAULT => .error "unknown calling convention in llvmCall"

/-- Body of the parameter loop of `llvmDoCall`: the native arguments pushed for
the parameter `p` and the argument expression `arg`. The value the loader gives
for the coerced argument has the LLVM type of the type of the coerced
argument. -/
def callArgument (coerceTo : Expression → HiltiType → Expression) (cc : CallingConvention)
    (p : Parameter) (arg : Expression) (cg : CG) : Except String (List Value × CG) :=
  let ptype := p.2
  let coerced := coerceTo arg ptype
  let arg_type := coerced.type
  match cc with
  | .HILTI | .HOOK =>
    if arg_type.isTypeType then
      .error "assertion failed: ! ast::isA<hilti::type::TypeType>(arg_type)"
    else .ok ([Value.expr coerced ptype (some false)], cg)
  | .HILTI_C =>
    if arg_type.isTypeType then
      match arg.type.typeType with
      | some inner => .ok ([Value.rtti inner], cg)
      | none => .error "assertion failed: tty"
    else
      let arg_value := Value.expr coerced ptype none
      if (typeInfo ptype).pass_type_info then
        let rtti := llvmRtti arg_type
        let arg_llvm_type := llvmType arg_type
        match llvmAddTmp "arg" arg_llvm_type (some (arg_value, arg_llvm_type)) false 0 cg with
        | .error e => .error e
        | .ok (tmp, cg) => .ok ([rtti, Value.bitcast tmp (llvmTypePtr none)], cg)
      else .ok ([arg_value], cg)
  | .C =>
    if arg_type.isTypeType then
      .error "assertion failed: ! ast::isA<hilti::type::TypeType>(arg_type)"
    else .ok ([Value.expr coerced ptype none], cg)
  | _ => .error "unknown calling convention in llvmCall"

/-- The parameter loop of `llvmDoCall`: one argument expression is consumed per
declared parameter. -/
def callArguments (coerceTo : Expression → HiltiType → Expression) (cc : CallingConvention) :
    List Parameter → List Expression → List Value → CG → Except String (List Value × CG)
  | [], _, llvm_args, cg => .ok (llvm_args, cg)
  | _ :: _, [], _, _ => .error "argument list shorter than parameter list"
  | p :: ps, arg :: args, llvm_args, cg =>
    match callArgument coerceTo cc p arg cg with
    | .error e => .error e
    | .ok (pushed, cg) => callArguments coerceTo cc ps args (llvm_args ++ pushed) cg

/-- Third switch of `llvmDoCall`: the hidden arguments, and the exception slot
when the convention has one. -/
def hiddenArguments (ftype : FunctionType) (hook_result : Option Value) (cg : CG) :
    Except String (List Value × Option Value × CG) :=
  match ftype.cc with
  | .HILTI =>
    match llvmExecutionContext cg with
    | .error e => .error e
    | .ok ctx => .ok ([ctx], none, cg)
  | .HOOK =>
    match llvmExecutionContext cg with
    | .error e => .error e
    | .ok ctx =>
      match hook_result with
      | some r => .ok ([ctx, r], none, cg)
      | none => .ok ([ctx], none, cg)
  | .HILTI_C =>
    match (if ! ftype.attrNoException then llvmAddTmp "excpt" llvmTypeExceptionPtr none true 0 cg
           else .ok (llvmConstNull (some (llvmTypePtr (some llvmTypeExceptionPtr))), cg)) with
    | .error e => .error e
    | .ok (excpt, cg) =>
      match llvmExecutionContext cg with
      | .error e => .error e
      | .ok ctx => .ok ([excpt, ctx], some excpt, cg)
  | .C => .ok ([], none, cg)
  | _ => .error "unknown calling convention in llvmCall"

/-- The argument vector `llvmDoCall` hands to the ABI layer: its parameter loop
followed by its third switch. Also yields the exception slot, if any. -/
def nativeArguments (coerceTo : Expression → HiltiType → Expression) (ftype : FunctionType)
    (args : List Expression) (hook_result : Option Value) (cg : CG) :
    Except String (List Value × Option Value × CG) :=
  match callArguments coerceTo ftype.cc ftype.parameters args [] cg with
  | .error e => .error e
  | .ok (llvm_args, cg) =>
    match hiddenArguments ftype hook_result cg with
    | .error e => .error e
    | .ok (hidden, excpt, cg) => .ok (llvm_args ++ hidden, excpt, cg)

/-- The reference-count adjustment `llvmDoCall` makes on the call result;
`result_ty` is the LLVM type of `result`. -/
def adjustResult (result : Value) (result_ty : LType) (ftype : FunctionType)
    (result_is_cctored cctor_result : Bool) (cg : CG) : Except String CG :=
  match (if result_is_cctored && ! cctor_result then
           llvmDtor result result_ty ftype.result false "llvmDoCall" cg
         else .ok cg) with
  | .error e => .error e
  | .ok cg =>
    if ! result_is_cctored && cctor_result then
      llvmCctor result result_ty ftype.result false "llvmDoCall" cg
    else .ok cg

/-- The exception check that ends `llvmDoCall`. -/
def checkAfterCall (ftype : FunctionType) (excpt : Option Value) (excpt_check : Bool) (cg : CG) :
    CG :=
  match ftype.cc, excpt with
  | .HILTI_C, some excpt =>
    if ! ftype.attrNoException then emit cg [.checkCException excpt (some excpt_check)] else cg
  | .HILTI_C, none => cg
  | _, _ =>
    if excpt_check && ! ftype.attrNoException then emit cg [.checkException] else cg

/-- `CodeGen::llvmFunctionHookRun(hook)`: the function the linker creates to run
the hook, referred to by the hook's name. -/
def llvmFunctionHookRun (hook : String) : Value := .hookRun hook

/-- The redirection `if ( hook ) llvm_func = llvmFunctionHookRun(hook);` of
`llvmDoCall`. -/
def redirectToHook (llvm_func : Value) (hook : Option String) : Value :=
  match hook with
  | some h => llvmFunctionHookRun h
  | none => llvm_func

/-- `CodeGen::llvmDoCall(..)` up to and including the call of `excpt_callback`:
gives the result, the exception slot if the convention has one, and the state
in which the closing exception check is emitted. The result of the call has the
return type of the native signature, `t.first`: for a hook the `i1` that tells
whether a hook function ran, else the LLVM type of the declared result. -/
def llvmDoCallBody (tg : Target) (coerceTo : Expression → HiltiType → Expression)
    (llvm_func : Value) (hook : Option String) (ftype : FunctionType) (args : List Expression)
    (cctor_result : Bool) (hook_result : Option Value) (cg : CG) :
    Except String (Value × Option Value × CG) :=
  let cleanup_precall := false
  match resultIsCctored ftype with
  | .error e => .error e
  | .ok result_is_cctored =>
  match nativeArguments coerceTo ftype args hook_result cg with
  | .error e => .error e
  | .ok (llvm_args, excpt, cg) =>
  let llvm_func := redirectToHook llvm_func hook
  let cg := if cleanup_precall && cg.dtors_after_call then
      { emit cg [.instructionCleanup] with dtors_after_call := false } else cg
  match llvmAdaptFunctionArgsOf ftype with
  | .error e => .error e
  | .ok t =>
  match (if ftype.mayTriggerSafepoint then llvmAdaptStackForSafepoint true cg else .ok cg) with
  | .error e => .error e
  | .ok cg =>
  match abi.X86_64.createCall tg llvm_func llvm_args t.1 t.2 ftype.cc cg with
  | .error e => .error e
  | .ok (result, cg) =>
  match (if ftype.mayTriggerSafepoint then llvmAdaptStackForSafepoint false cg else .ok cg) with
  | .error e => .error e
  | .ok cg =>
  let cg := if ! cleanup_precall && cg.dtors_after_call then
      { emit cg [.instructionCleanup] with dtors_after_call := false } else cg
  match adjustResult result t.1 ftype result_is_cctored cctor_result cg with
  | .error e => .error e
  | .ok cg =>
  .ok (result, excpt, emit cg [.excptCallback])

/-- `CodeGen::llvmDoCall(llvm_func, func, hook, ftype, args, cctor_result,
hook_result, excpt_check, excpt_callback)`; `hook` is the name of the hook when
one is given. The closing exception check is left as a marker. -/
def llvmDoCall (tg : Target) (coerceTo : Expression → HiltiType → Expression)
    (llvm_func : Value) (hook : Option String) (ftype : FunctionType) (args : List Expression)
    (cctor_result : Bool) (hook_result : Option Value) (excpt_check : Bool) (cg : CG) :
    Except String (Value × CG) :=
  match llvmDoCallBody tg coerceTo llvm_func hook ftype args cctor_result hook_result cg with
  | .error e => .error e
  | .ok (result, excpt, cg) => .ok (result, checkAfterCall ftype excpt excpt_check cg)

/-- `CodeGen::llvmFiberYield(fiber, blockable_ty, blockable_val)`;
`blockable_val_ty` is `blockable_val->getType()` and `blockable` says whether
`typeInfo(blockable_ty)->blockable` is non-empty. -/
def llvmFiberYield (fiber : Value) (blockable_ty : Option (HiltiType × Bool))
    (blockable_val : Value) (blockable_val_ty : LType) (cg : CG) : Except String CG :=
  match ((match blockable_ty with
         | some (ty, blockable) =>
           if ! blockable then
             .error "assertion failed: typeInfo(blockable_ty)->blockable.size()"
           else
             match llvmAddTmp "obj" blockable_val_ty (some (blockable_val, blockable_val_ty))
                     true 0 cg with
             | .error e => .error e
             | .ok (objptr, cg) =>
               llvmCallC "__hlt_object_blockable"
                 [llvmRtti ty, .bitcast objptr (llvmTypePtr none)] true true cg
         | none =>
           .ok (llvmConstNull (some (llvmTypePtr (some (llvmLibType "hlt.blockable")))), cg))
          : Except String (Value × CG)) with
  | .error e => .error e
  | .ok (blockable_val, cg) =>
  match llvmExecutionContext cg with
  | .error e => .error e
  | .ok ctx =>
  match llvmCallC "__hlt_context_set_blockable" [ctx, blockable_val] false false cg with
  | .error e => .error e
  | .ok (_, cg) =>
  match llvmAdaptStackForSafepoint true cg with
  | .error e => .error e
  | .ok cg =>
  match llvmCallC "hlt_fiber_yield" [fiber] false false cg with
  | .error e => .error e
  | .ok (_, cg) => llvmAdaptStackForSafepoint false cg

end CodeGen

/-! ## Vocabulary of the statements -/

namespace CodeGen

/-- The hidden exception-slot parameter of the BoundaryC convention. -/
def exceptionParam : NativeParam :=
  (symbols.ArgException, llvmTypePtr (some llvmTypeExceptionPtr))

/-- The hidden execution-context parameter. -/
def contextParam : NativeParam :=
  (symbols.ArgExecutionContext, llvmTypePtr (some llvmTypeExecutionContext))

end CodeGen

namespace abi

namespace X86_64

/-- The native parameter type expected for an argument of type `t`: a pointer
when the argument is classified in-memory, else `t` itself or the integer type
that stands in for a small struct. -/
def passedType (tg : Target) (in_mem : Bool) (t : LType) : LType :=
  if in_mem then t.getPointerTo else adaptRegisterType tg t

/-- The native value expected for the argument `v` of type `t`: the address of a
temporary holding `v` when the argument is classified in-memory, else `v`
itself, read back through a slot as the integer type that stands in for a small
struct. -/
def passedValue (tg : Target) (in_mem : Bool) (t : LType) (v : Value) : Value :=
  if in_mem then .tmp "__tmp_agg.arg" t v
  else if t.isStructTy then
    match mapToIntType tg t with
    | some itype => .load (.bitcast (.alloca t v) (CodeGen.llvmTypePtr (some itype)))
    | none => v
  else v

/-- Positions, counted from `i`, at which a list of flags is set. -/
def setPositions : List Bool → Nat → List Nat
  | [], _ => []
  | b :: bs, i => (if b then [i] else []) ++ setPositions bs (i + 1)

/-- Pointwise `passedValue` over the classification, the types and the values. -/
def passedValues (tg : Target) : List Bool → List LType → List Value → List Value
  | b :: bs, t :: ts, v :: vs => passedValue tg b t v :: passedValues tg bs ts vs
  | _, _, _ => []

end X86_64

end abi

/-- The temporary `__tmp_excpt` of the current function, when it has been made,
was made for a pointer to an exception, the one type `llvmAddTmp("excpt", ..)`
is called with. -/
def ExcptTmp (cg : CG) : Prop :=
  ∀ tmp ty, cg.tmps.lookup "__tmp_excpt" = some (tmp, ty) → ty = CodeGen.llvmTypeExceptionPtr

/-- `Frame a b`: state `b` differs from `a` at most in the temporaries, the
stackmap counter and the instructions emitted (`tmps`, `stackmap_id`, `entry`,
`code`), and the temporary `__tmp_excpt` has kept its type. -/
structure Frame (a b : CG) : Prop where
  context : b.context = a.context
  arguments : b.arguments = a.arguments
  leave_func : b.leave_func = a.leave_func
  dtors_after_call : b.dtors_after_call = a.dtors_after_call
  liveness_in : b.liveness_in = a.liveness_in
  liveness_dead : b.liveness_dead = a.liveness_dead
  debug : b.debug = a.debug
  location : b.location = a.location
  have_llvm_35 : b.have_llvm_35 = a.have_llvm_35
  classified : b.classified = a.classified
  excpt_tmp : ExcptTmp a → ExcptTmp b

namespace CodeGen

/-- Whether `llvmCctor` emits anything for the type (the negation of its early
return). -/
def hasCctor (t : HiltiType) : Bool :=
  ! ((typeInfo t).cctor.length == 0 && ! (typeInfo t).cctor_func)

/-- Whether `llvmDtor` emits anything for the type (the negation of its early
return). -/
def hasDtor (t : HiltiType) : Bool :=
  ! ((typeInfo t).dtor.length == 0 && ! (typeInfo t).dtor_func)

/-- The location operand of a reference-count call. -/
def locationOperand (cg : CG) (tag : String) : Value :=
  if cg.debug then llvmCurrentLocation tag cg else llvmConstNull none

/-- The copy-construct call on the object at address `addr`. -/
def cctorCall (cg : CG) (ctx addr : Value) (t : HiltiType) (location_addl : String) : Instr :=
  .call (.function "__hlt_object_cctor")
    [llvmRtti t, .bitcast addr (llvmTypePtr none),
     .bitcast (locationOperand cg ("llvmCctor/" ++ location_addl)) (llvmTypePtr none), ctx] none

/-- The destruct call on the object at address `addr`. -/
def dtorCall (cg : CG) (ctx addr : Value) (t : HiltiType) (location_addl : String) : Instr :=
  .call (.function "__hlt_object_dtor")
    [llvmRtti t, .bitcast addr (llvmTypePtr none),
     .bitcast (locationOperand cg ("llvmDtor/" ++ location_addl)) (llvmTypePtr none), ctx] none

/-- Copy-constructs of the live values, in their order: one call per value whose
type has a copy constructor. -/
def pinCode (cg : CG) (ctx : Value) : List LiveValue → List Instr
  | [] => []
  | l :: ls =>
    (if hasCctor l.2.1 then [cctorCall cg ctx l.1 l.2.1 "adapt-for-savepoint-pre"] else [])
      ++ pinCode cg ctx ls

/-- Destructs of the live values, in their order: one call per value whose type
has a destructor. -/
def unpinCode (cg : CG) (ctx : Value) : List LiveValue → List Instr
  | [] => []
  | l :: ls =>
    (if hasDtor l.2.1 then [dtorCall cg ctx l.1 l.2.1 "adapt-for-savepoint-post"] else [])
      ++ unpinCode cg ctx ls

/-- The stackmap instruction `llvmCreateStackmap` emits in state `cg` for the
live values `lives`, if any. -/
def stackmapCode (cg : CG) (lives : List LiveValue) : List Instr :=
  if cg.have_llvm_35 then
    [.stackmap (cg.stackmap_id + 1)
      (lives.filterMap (fun l =>
        if isPointerOrAggregate (llvmType l.2.1) then some (Value.load l.1) else none))]
  else []

/-- The object a reference-count call of the runtime function `fname` works on:
the second operand, seen through the pointer cast and, for a value that was put
into a `gcobj` temporary to take its address, through that temporary. -/
def refcountTarget (fname : String) : Instr → Option Value
  | .call (.function f) [_, .bitcast (.tmp "__tmp_gcobj" _ v) _, _, _] none =>
    if f == fname then some v else none
  | .call (.function f) [_, .bitcast addr _, _, _] none =>
    if f == fname then some addr else none
  | _ => none

/-- Whether the convention hands the call result over owned (+1): a BoundaryC or
PlainC function type carrying the `ref` attribute. -/
def returnsOwned (ftype : FunctionType) : Bool :=
  match ftype.cc with
  | .HILTI_C | .C => ftype.attrRef
  | _ => false

/-- The reference-count adjustment expected on a call result of type `rt`: a
destruct when it comes owned and is wanted borrowed, a copy-construct when it
comes borrowed and is wanted owned, nothing when the two agree. The result is
stored into a `gcobj` temporary to take its address; a type without destructor
(copy constructor) needs no call. -/
def resultAdjustCode (cg : CG) (ctx result : Value) (rt : HiltiType)
    (owned cctor_result : Bool) : List Instr :=
  if owned && ! cctor_result then
    (if hasDtor rt then
      [.store result (.tmp "__tmp_gcobj" (llvmType rt) result),
       dtorCall cg ctx (.tmp "__tmp_gcobj" (llvmType rt) result) rt "llvmDoCall"]
     else [])
  else if ! owned && cctor_result then
    (if hasCctor rt then
      [.store result (.tmp "__tmp_gcobj" (llvmType rt) result),
       cctorCall cg ctx (.tmp "__tmp_gcobj" (llvmType rt) result) rt "llvmDoCall"]
     else [])
  else []

/-- What `llvmDoCall` requires of the argument `a` passed for the parameter `p`:
outside BoundaryC the coerced argument is not type-valued (asserted); under
BoundaryC it is type-valued exactly when the parameter is, and then the
argument expression itself is type-valued (asserted). -/
def argumentAccepted (coerceTo : Expression → HiltiType → Expression) (cc : CallingConvention)
    (p : Parameter) (a : Expression) : Prop :=
  match cc with
  | .HILTI_C =>
    (coerceTo a p.2).type.isTypeType = p.2.isTypeType ∧
    ((coerceTo a p.2).type.isTypeType = true → a.type.isTypeType = true)
  | _ => (coerceTo a p.2).type.isTypeType = false

/-- What `llvmDoCall` requires of the result for its reference-count adjustment:
the native result of a hook is the `i1` that tells whether a hook function ran,
so a hook cannot be asked for an owned result of a type with a copy constructor,
unless that type is itself `i1`; the store into the `gcobj` temporary aborts
otherwise. -/
def resultAdjustable (ftype : FunctionType) (cctor_result : Bool) : Prop :=
  ftype.cc = .HOOK → cctor_result = true → hasCctor ftype.result = true →
    llvmType ftype.result = llvmTypeInt 1

/-- A call `llvmDoCall` can emit without aborting: a convention it handles, one
accepted argument per parameter, a hook result receiver exactly when the hook
has a result, an execution context in reach, a native signature the ABI
classifier accepts, an exception temporary that is one, and, when the call may
trigger a safepoint, an address for every live value (`assert(val)` in
`liveValues`). -/
structure WellFormedCall (tg : Target) (coerceTo : Expression → HiltiType → Expression)
    (ftype : FunctionType) (args : List Expression) (hook_result : Option Value) (cg : CG) :
    Prop where
  convention : ftype.cc = .HILTI ∨ ftype.cc = .HOOK ∨ ftype.cc = .HILTI_C ∨ ftype.cc = .C
  arguments : List.Forall₂ (argumentAccepted coerceTo ftype.cc) ftype.parameters args
  receiver : ftype.cc = .HOOK → hook_result.isSome = ! (llvmType ftype.result).isVoidTy
  context : ∃ ctx, llvmExecutionContext cg = .ok ctx
  classified : ∃ t r, llvmAdaptFunctionArgsOf ftype = .ok t ∧
    abi.X86_64.classifyArgumentsCore tg t.1 t.2 = .ok r
  temporaries : ExcptTmp cg
  live : ftype.mayTriggerSafepoint = true → ∃ lives, liveValues cg = .ok lives

end CodeGen

/-- Whether an instruction is a stackmap. -/
def Instr.isStackmap : Instr → Bool
  | .stackmap _ _ => true
  | _ => false

/-- Whether an instruction is a store. -/
def Instr.isStore : Instr → Bool
  | .store _ _ => true
  | _ => false

/-! ## A sample target -/

namespace sysv

mutual
/-- Scalar fields of a type placed at or after offset `off`, each aligned to
its size: `(offset, size, is floating point)` per field, and the end offset. -/
def layout : FfiType → Nat → List (Nat × Nat × Bool) × Nat
  | .struct elems, off => layoutElems elems off
  | .void, off => ([], off)
  | .double, off => let o := (off + 7) / 8 * 8; ([(o, 8, true)], o + 8)
  | .pointer, off => let o := (off + 7) / 8 * 8; ([(o, 8, false)], o + 8)
  | .sint64, off => let o := (off + 7) / 8 * 8; ([(o, 8, false)], o + 8)
  | .sint32, off => let o := (off + 3) / 4 * 4; ([(o, 4, false)], o + 4)
  | .sint16, off => let o := (off + 1) / 2 * 2; ([(o, 2, false)], o + 2)
  | .sint8, off => ([(off, 1, false)], off + 1)
/-- Layout of the elements of a struct, one after the other. -/
def layoutElems : FfiTypes → Nat → List (Nat × Nat × Bool) × Nat
  | .nil, off => ([], off)
  | .cons t ts, off =>
    let r := layout t off
    let rs := layoutElems ts r.2
    (r.1 ++ rs.1, rs.2)
end

/-- Register class of the eightbyte number `k` of a layout: integer as soon as
one field in it is an integer or pointer, floating point when all are. -/
def eightbyteClass (fields : List (Nat × Nat × Bool)) (k : Nat) : x86_64_reg_class :=
  let inside := fields.filter (fun f => f.1 / 8 == k)
  if inside.isEmpty then .X86_64_NO_CLASS
  else if inside.all (fun f => f.2.2) then .X86_64_SSEDF_CLASS
  else .X86_64_INTEGER_CLASS

/-- Modelled from the spec: libffi (`ffi64_examine_argument`) is not among the
sources. Following section 4.1, a value is classified eightbyte by eightbyte
into integer and floating-point register classes; a value of more than two
eightbytes, and `void`, gets no class at all, which is the answer 0 ("in
memory"). Only scalars and structs of scalars are covered. -/
def examine_argument (t : FfiType) : Examined :=
  let l := layout t 0
  let n := (l.2 + 7) / 8
  if l.2 == 0 || n > 2 then { classes := [], ngpr := 0, nsse := 0 }
  else
    let classes := (List.range n).map (eightbyteClass l.1)
    { classes := classes,
      ngpr := classes.count .X86_64_INTEGER_CLASS,
      nsse := classes.count .X86_64_SSEDF_CLASS }

/-- The `type` code of a libffi type (`FFI_TYPE_*` of `ffi.h`). -/
def typeCode : FfiType → Nat
  | .void => 0
  | .double => 3
  | .sint8 => 6
  | .sint16 => 8
  | .sint32 => 10
  | .sint64 => 12
  | .struct _ => 13
  | .pointer => 14

/-- Modelled from the spec: libffi (`ffi_prep_cif`) is not among the sources.
The low byte of the prepared `flags` is the type code of the return type, and
`FFI_TYPE_VOID` for a return value that goes to memory; preparation always
succeeds. -/
def prep_cif (rtype : FfiType) (_args : List FfiType) : Option Nat :=
  if (examine_argument rtype).classes.isEmpty then some 0 else some (typeCode rtype)

mutual
/-- Allocation size of an LLVM type under the x86-64 data layout, fields aligned
to their size; `(end offset)` of the type placed at `off`. -/
def allocEnd : LType → Nat → Nat
  | .struct _ elems, off => allocEndElems elems off
  | .array n elem, off => off + n * allocEnd elem 0
  | .ptr _, off => (off + 7) / 8 * 8 + 8
  | .double, off => (off + 7) / 8 * 8 + 8
  | .int w, off =>
    let b := if w ≤ 8 then 1 else if w ≤ 16 then 2 else if w ≤ 32 then 4 else 8
    (off + b - 1) / b * b + b
  | .void, off => off
  | .unsupported _, off => off
/-- End offset of a sequence of struct elements. -/
def allocEndElems : LTypes → Nat → Nat
  | .nil, off => off
  | .cons t ts, off => allocEndElems ts (allocEnd t off)
end

/-- Modelled from the spec: libffi and LLVM's data layout are not among the
sources; this is the sample x86-64 target the statements are evaluated on. -/
def target : Target :=
  { ffi_prep_cif := prep_cif,
    ffi64_examine_argument := examine_argument,
    getTypeAllocSize := fun t => allocEnd t 0 }

end sysv

/-! ## Sample inputs -/

namespace sample

/-- Type information of a type without reference counting. -/
def plain : TypeInfo :=
  { pass_type_info := false, cctor := "", cctor_func := false, dtor := "", dtor_func := false,
    obj_dtor := "", obj_dtor_func := false }

/-- Type information of a reference-counted type. -/
def managed : TypeInfo :=
  { pass_type_info := false, cctor := "ref_cctor", cctor_func := false, dtor := "ref_dtor",
    dtor_func := false, obj_dtor := "", obj_dtor_func := false }

/-- A 64-bit integer type. -/
def tInt64 : HiltiType :=
  { render := "int<64>", typeType := none, llvm := .int 64, info := plain, isVoid := false,
    valueType := true, heapType := false, argType := none }

/-- A reference to bytes. -/
def tBytes : HiltiType :=
  { render := "ref<bytes>", typeType := none, llvm := .ptr (.struct "hlt.bytes" .nil),
    info := managed, isVoid := false, valueType := true, heapType := false,
    argType := some { render := "bytes", heapType := true,
                      info := { plain with obj_dtor := "hlt::bytes_dtor" } } }

/-- The wildcard type, passed with its type information. -/
def tAny : HiltiType :=
  { render := "any", typeType := none, llvm := .ptr (.int 8),
    info := { plain with pass_type_info := true }, isVoid := false, valueType := true,
    heapType := false, argType := none }

/-- A coercion that leaves every expression as it is. -/
def keepType : Expression → HiltiType → Expression := fun e _ => e

/-- An integer operand. -/
def eNum : Expression :=
  { id := "n", type := tInt64, hoisted := false, constant_param := false }

/-- A bytes operand held in a local. -/
def eData : Expression :=
  { id := "data", type := tBytes, hoisted := false, constant_param := false }

/-- A BoundaryC function `f(n : int<64>, x : any) -> ref<bytes>` that returns its
result owned and may trigger a safepoint. -/
def ftype : FunctionType :=
  { result := tBytes, parameters := [("n", tInt64), ("x", tAny)], cc := .HILTI_C,
    attrRef := true, attrNoException := false, mayTriggerSafepoint := true }

/-- A generator state inside a HILTI function in which the local `data` is
live. -/
def cg : CG :=
  { context := none, arguments := ["__ctx"], leave_func := true, dtors_after_call := false,
    tmps := [], stackmap_id := 0, liveness_in := [eData], liveness_dead := [], debug := false,
    location := "", have_llvm_35 := false, classified := [], entry := [], code := [] }

end sample

/-! ## Function states, blocks and exception handling -/

/-- An entry of `FunctionState::locals`: the slot of the local, its type and
whether it is hoisted. -/
abbrev Local := Value × HiltiType × Bool

/-- The state of the function being generated (`_functions.back()`) around the
state `cg` of the call emitter: the convention `cc` and `abort_on_excpt` given to
`pushFunction`; of the `llvm::Function` its return type, its arguments with
their types and, when it has the attribute `StructRet`, the type its first
argument points to; the names of the blocks created (`builders_by_name`);
whether the exit block exists and the pairs `exits`; the map `locals` in its
iteration order; `catches` and `locals_cleared_on_excpt`; the generator's
`_in_build_exit` and `options().profile`; the name under which `leave_func` is
reported; and the two types `builder::reference::type(builder::exception::type(
nullptr, nullptr))` and `builder::reference::type(builder::exception::typeAny())`
as the type builder describes them. -/
structure FunctionState where
  cg : CG
  cc : CallingConvention
  abort_on_excpt : Bool
  rtype : LType
  params : List NativeParam
  sret : Option LType
  builders_by_name : List String
  exit_block : Bool
  exits : List (Value × String)
  locals : List (String × Local)
  catches : List (Expression × ExceptionType)
  locals_cleared_on_excpt : List Expression
  in_build_exit : Nat
  profile : Nat
  leave_name : String
  ref_exception : HiltiType
  ref_exception_any : HiltiType
  deriving DecidableEq, Repr

/-- Whether an instruction ends a basic block. -/
def Instr.isTerminator : Instr → Bool
  | .condBr _ _ _ => true
  | .br _ => true
  | .ret _ => true
  | .retVoid => true
  | .unreachable => true
  | _ => false

/-- Walks the emitted instructions backwards from the insertion point, `depth`
counting the blocks entered and left again on the way, to the last instruction
of the current block: whether that is a terminator. A block just entered is
empty. -/
def terminatedFrom : List Instr → Nat → Bool
  | [], _ => false
  | .popBuilder :: rest, depth => terminatedFrom rest (depth + 1)
  | .pushBuilder _ :: _, 0 => false
  | .pushBuilder _ :: rest, depth + 1 => terminatedFrom rest depth
  | i :: _, 0 => i.isTerminator
  | _ :: rest, depth + 1 => terminatedFrom rest (depth + 1)

/-- Walks the emitted instructions backwards to the marker that entered the
current block. -/
def blockFrom : List Instr → Nat → Option String
  | [], _ => none
  | .popBuilder :: rest, depth => blockFrom rest (depth + 1)
  | .pushBuilder b :: _, 0 => some b
  | .pushBuilder _ :: rest, depth + 1 => blockFrom rest depth
  | _ :: rest, depth => blockFrom rest depth

/-- Append instructions at the insertion point of the function. -/
def FunctionState.emit (fs : FunctionState) (is : List Instr) : FunctionState :=
  { fs with cg := CodeGen.emit fs.cg is }

/-- `block()->getTerminator()` is not null. -/
def FunctionState.terminated (fs : FunctionState) : Bool :=
  terminatedFrom fs.cg.code.reverse 0

/-- `block()`, by name; an empty stack of builders has none. -/
def FunctionState.block (fs : FunctionState) : Except String String :=
  match blockFrom fs.cg.code.reverse 0 with
  | some b => .ok b
  | none => .error "no builder on the stack"

/-- Runs an emitter of the call emitter's state inside the function state. -/
def FunctionState.run {α : Type} (fs : FunctionState) (f : CG → Except String (α × CG)) :
    Except String (α × FunctionState) :=
  match f fs.cg with
  | .error e => .error e
  | .ok (a, cg) => .ok (a, { fs with cg := cg })

/-- Runs an emitter without result inside the function state. -/
def FunctionState.exec (fs : FunctionState) (f : CG → Except String CG) :
    Except String FunctionState :=
  match f fs.cg with
  | .error e => .error e
  | .ok cg => .ok { fs with cg := cg }

namespace CodeGen

/-- The name `newBuilder` tries at its `cnt`-th round. -/
def builderCandidate (name : String) (cnt : Nat) : String :=
  if cnt == 1 then "." ++ name else "." ++ name ++ "." ++ toString cnt

/-- The loop of `newBuilder(name)` looking for a block name that is not taken,
from round `cnt` on; one more round than there are names taken is enough. -/
def builderName (taken : List String) (name : String) : Nat → Nat → String
  | 0, cnt => builderCandidate name cnt
  | rounds + 1, cnt =>
    if taken.contains (builderCandidate name cnt) then builderName taken name rounds (cnt + 1)
    else builderCandidate name cnt

/-- `CodeGen::newBuilder(name)` with `reuse` false: creates a block and gives its
name. Modelled from the spec: `util::mangle` is not among the sources, the name
is used as given. -/
def newBuilder (name : String) (fs : FunctionState) : String × FunctionState :=
  let n := builderName fs.builders_by_name name (fs.builders_by_name.length + 1) 1
  (n, { fs with builders_by_name := fs.builders_by_name ++ [n] })

/-- `CodeGen::pushBuilder(builder)`. -/
def pushBuilder (block : String) (fs : FunctionState) : FunctionState :=
  fs.emit [.pushBuilder block]

/-- `CodeGen::popBuilder()`. -/
def popBuilder (fs : FunctionState) : FunctionState := fs.emit [.popBuilder]

/-- `CodeGen::llvmDebugPrint(stream, msg)`. -/
def llvmDebugPrint (stream msg : String) (cg : CG) : Except String CG :=
  if ! cg.debug then .ok cg
  else
    match llvmCallC "__hlt_debug_print" [.constAsciiz stream, .constAsciiz msg] false false cg with
    | .error e => .error e
    | .ok (_, cg) => .ok cg

/-- `CodeGen::llvmCurrentException()`. -/
def llvmCurrentException (cg : CG) : Except String (Value × CG) :=
  match llvmExecutionContext cg with
  | .error e => .error e
  | .ok ctx => llvmCallC "__hlt_context_get_exception" [ctx] false false cg

/-- `CodeGen::llvmClearException()`. -/
def llvmClearException (cg : CG) : Except String CG :=
  match llvmExecutionContext cg with
  | .error e => .error e
  | .ok ctx =>
    match llvmCallC "__hlt_context_clear_exception" [ctx] false false cg with
    | .error e => .error e
    | .ok (_, cg) => .ok cg

/-- `CodeGen::llvmExceptionFiber(excpt)`. -/
def llvmExceptionFiber (excpt : Value) (cg : CG) : Except String (Value × CG) :=
  llvmCallC "__hlt_exception_fiber" [excpt] false false cg

/-- `CodeGen::llvmGCAssign(dst, val, type, plusone, dtor_first)`; `val_ty` and
`dst_ty` are the LLVM types of `val` and `dst`. -/
def llvmGCAssign (dst : Value) (dst_ty : LType) (val : Value) (val_ty : LType)
    (type : HiltiType) (plusone dtor_first : Bool) (cg : CG) : Except String CG :=
  if ! type.valueType then
    .error "assertion failed: type::hasTrait<type::trait::ValueType>(type)"
  else
    match (if dtor_first then llvmDtor dst dst_ty type true "gc-assign" cg else .ok cg) with
    | .error e => .error e
    | .ok cg =>
      match llvmCreateStore val val_ty dst dst_ty cg with
      | .error e => .error e
      | .ok cg => if ! plusone then llvmCctor dst dst_ty type true "gc-assign" cg else .ok cg

/-- `CodeGen::llvmGCClear(addr, type, tag)`; the slot has the type of the value
stored in it. -/
def llvmGCClear (addr : Value) (type : HiltiType) (tag : String) (cg : CG) : Except String CG :=
  if ! type.valueType then
    .error "assertion failed: type::hasTrait<type::trait::ValueType>(type)"
  else
    match llvmDtor addr (llvmTypePtr (some (llvmType type))) type true ("gc-clear/" ++ tag) cg with
    | .error e => .error e
    | .ok cg => .ok (emit cg [.store (.initVal type.render) addr])

/-- `CodeGen::llvmDestroy(val, type, location_addl)`. -/
def llvmDestroy (val : Value) (type : HiltiType) (location_addl : String) (cg : CG) :
    Except String CG :=
  let (render, heap, ti) := match type.argType with
    | some a => (a.render, a.heapType, a.info)
    | none => (type.render, type.heapType, type.info)
  if ! heap then .error "assertion failed: type::hasTrait<type::trait::HeapType>(type)"
  else if ti.obj_dtor.length == 0 && ! ti.obj_dtor_func then .ok cg
  else
    let loc := if cg.debug then llvmCurrentLocation ("llvmDestroy/" ++ location_addl) cg
               else llvmConstNull none
    match llvmExecutionContext cg with
    | .error e => .error e
    | .ok ctx =>
      match llvmCallC "__hlt_object_destroy"
              [.rtti render, .bitcast val (llvmTypePtr none), .bitcast loc (llvmTypePtr none), ctx]
              false false cg with
      | .error e => .error e
      | .ok (_, cg) => .ok cg

end CodeGen

/-! ## Returning, rethrowing and catching -/

namespace CodeGen

/-- `CodeGen::llvmReinterpret(val, ntype)`; `val_ty` is the type of `val`. -/
def llvmReinterpret (val : Value) (val_ty ntype : LType) (cg : CG) : Value × CG :=
  if val_ty == ntype then (val, cg)
  else
    let tmp := Value.alloca val_ty val
    let cg := emitEntry cg [.alloca "" val_ty 0]
    let cg := emit cg [.store val tmp]
    (.load (.bitcast tmp (llvmTypePtr (some ntype))), cg)

/-- The exit block, as the target of a branch. -/
def exitBlock : Value := .block ".exit"

/-- The type in which results reach the exit block: the type the function
returns, through its first argument when that has the attribute `StructRet`. -/
def exitType (fs : FunctionState) : LType :=
  match fs.sret with
  | some pointee => pointee
  | none => fs.rtype

/-- `CodeGen::llvmReturn(rtype, result, result_cctored)`; a result comes with
its LLVM type. -/
def llvmReturn (rtype : Option HiltiType) (result : Option (Value × LType))
    (result_cctored : Bool) (fs : FunctionState) : Except String FunctionState :=
  if fs.terminated then
    if result_cctored then .error "assertion failed: false" else .ok fs
  else
    let fs := { fs with exit_block := true }
    match result with
    | none => .ok (fs.emit [.br exitBlock])
    | some (result, result_ty) =>
      let (result, cg) := llvmReinterpret result result_ty (exitType fs) fs.cg
      let fs := { fs with cg := cg }
      match fs.block with
      | .error e => .error e
      | .ok b =>
        let fs := { fs with exits := fs.exits ++ [(result, b)] }
        match (if result_cctored then
                 match rtype with
                 | some rtype =>
                   fs.exec (llvmDtor result (exitType fs) rtype false "llvm-return2")
                 | none => .error "no type given for the result"
               else .ok fs) with
        | .error e => .error e
        | .ok fs => .ok (fs.emit [.br exitBlock])

/-- Modelled from the spec: the default of the parameter `dtor_first` of
`llvmGCAssign` is declared in `codegen.h`, which is not among the sources; the
call that wants no destruct first passes `false` explicitly. -/
def gcAssignDtorFirst : Bool := true

/-- The part of `llvmRethrowException` for the BoundaryC convention: the pending
exception goes into the argument before the last, `--(--llvm_func->arg_end())`,
and is cleared in the context. The pending exception has the type
`hlt.exception*` that `__hlt_context_get_exception` returns. -/
def rethrowThroughSlot (fs : FunctionState) : Except String FunctionState :=
  match fs.run llvmCurrentException with
  | .error e => .error e
  | .ok (ctx_excpt, fs) =>
    match fs.params.reverse with
    | _ :: slot :: _ =>
      match fs.exec (llvmGCAssign (.argument slot.1) slot.2 ctx_excpt
              llvmTypeExceptionPtr fs.ref_exception_any false gcAssignDtorFirst) with
      | .error e => .error e
      | .ok fs => fs.exec llvmClearException
    | _ => .error "the function has no second-to-last argument"

/-- The type of which `llvmRethrowException` returns a null value. -/
def rethrowType (fs : FunctionState) : LType :=
  match fs.sret with
  | some pointee => if fs.rtype.isVoidTy then pointee else fs.rtype
  | none => fs.rtype

/-- `CodeGen::llvmRethrowException()`. -/
def llvmRethrowException (fs : FunctionState) : Except String FunctionState :=
  match (if fs.cc == .HILTI_C then rethrowThroughSlot fs else .ok fs) with
  | .error e => .error e
  | .ok fs =>
    if (rethrowType fs).isVoidTy then llvmReturn none none false fs
    else llvmReturn none (some (llvmConstNull (some (rethrowType fs)), rethrowType fs)) false fs

/-- `CodeGen::llvmMatchException(etype, excpt)`. -/
def llvmMatchException (etype : ExceptionType) (excpt : Value) (cg : CG) :
    Except String (Value × CG) :=
  match llvmCallC "__hlt_exception_match" [excpt, .exceptionTypeObject etype] false false cg with
  | .error e => .error e
  | .ok (match_, cg) => .ok (.icmpNE match_ (.constInt 0 8), cg)

end CodeGen

/-- `std::list::merge(x, comp)` of the C++ library: merges `x` into the list,
taking the front of `x` when `comp(front of x, front of this)`. -/
def listMerge {α : Type} (comp : α → α → Bool) : List α → List α → List α
  | [], ys => ys
  | x :: xs, [] => x :: xs
  | x :: xs, y :: ys =>
    if comp y x then y :: listMerge comp (x :: xs) ys
    else x :: listMerge comp xs (y :: ys)
termination_by xs ys => xs.length + ys.length

/-- The inner loop of `std::list::sort`: the carry is merged into the bins in
turn until it meets an empty one, which takes it. -/
def sortCarry {α : Type} (comp : α → α → Bool) (carry : List α) : List (List α) → List (List α)
  | [] => [carry]
  | [] :: bins => carry :: bins
  | (x :: xs) :: bins => [] :: sortCarry comp (listMerge comp (x :: xs) carry) bins

/-- The outer loop of `std::list::sort`: every element in turn is the carry. -/
def sortBins {α : Type} (comp : α → α → Bool) : List α → List (List α) → List (List α)
  | [], bins => bins
  | x :: xs, bins => sortBins comp xs (sortCarry comp [x] bins)

/-- The closing loop of `std::list::sort`: each bin takes, by a merge, what the
bins before it hold. -/
def sortCollect {α : Type} (comp : α → α → Bool) : List (List α) → List α → List α
  | [], acc => acc
  | bin :: bins, acc => sortCollect comp bins (listMerge comp bin acc)

/-- `std::list::sort(comp)`. The C++ library is not part of the repository; this
is the merge sort by which libstdc++ implements it. -/
def listSort {α : Type} (comp : α → α → Bool) (l : List α) : List α :=
  match sortBins comp l [] with
  | [] => []
  | bin :: bins => sortCollect comp bins bin

namespace CodeGen

/-- The comparison `llvmTriggerExceptionHandling` sorts the catch clauses by. -/
def catchBefore (a b : Expression × ExceptionType) : Bool := decide (a.2.level ≥ b.2.level)

/-- The loop of `llvmTriggerExceptionHandling` over the sorted catch clauses;
`current` is the pending exception once it has been fetched. -/
def catchTests : List (Expression × ExceptionType) → Option Value → FunctionState →
    Except String (Option Value × FunctionState)
  | [], current, fs => .ok (current, fs)
  | c :: cs, current, fs =>
    let (next, fs) := newBuilder "excpt-catch-next" fs
    match ((match current with
            | some v => .ok (v, fs)
            | none => fs.run llvmCurrentException) : Except String (Value × FunctionState)) with
    | .error e => .error e
    | .ok (current, fs) =>
      match fs.run (llvmMatchException c.2 current) with
      | .error e => .error e
      | .ok (match_, fs) =>
        let fs := fs.emit [.condBr match_ (.value c.1) (.block next)]
        catchTests cs (some current) (pushBuilder next fs)

/-- Body of the loop of `llvmTriggerExceptionHandling` over
`locals_cleared_on_excpt`. -/
def clearLocal (l : Expression) (cg : CG) : Except String CG :=
  if l.hoisted then llvmDestroy (.value l) l.type "trigger-excpt-handling/hoist" cg
  else if ! l.constant_param then llvmGCClear (.address l) l.type "trigger-excpt-handling" cg
  else llvmDtor (.value l) (llvmType l.type) l.type false "trigger-excpt-handling/const-param" cg

/-- The loop of `llvmTriggerExceptionHandling` over `locals_cleared_on_excpt`. -/
def clearLocals : List Expression → CG → Except String CG
  | [], cg => .ok cg
  | l :: ls, cg =>
    match clearLocal l cg with
    | .error e => .error e
    | .ok cg => clearLocals ls cg

/-- The start of `llvmTriggerExceptionHandling` when the exception is not known
to be set: the pending exception is fetched and, when it is null, control goes
on in the block `cont`; the handling is emitted into a block of its own. -/
def checkPending (cont : String) (fs : FunctionState) :
    Except String (Option Value × FunctionState) :=
  let (catch_, fs) := newBuilder "excpt-catch" fs
  match fs.run llvmCurrentException with
  | .error e => .error e
  | .ok (current, fs) =>
    let is_null := Value.expect (.isNull current) (.constInt 1 1)
    let fs := fs.emit [.condBr is_null (.block cont) (.block catch_)]
    .ok (some current, pushBuilder catch_ fs)

/-- The handling `llvmTriggerExceptionHandling` emits for a pending exception:
the tests against the catch clauses, sorted, then the cleanup of the locals and
the rethrow; the insertion point ends in the block `cont`. -/
def handlePending (cont : String) (current : Option Value) (fs : FunctionState) :
    Except String FunctionState :=
  match fs.exec (llvmDebugPrint "hilti-flow" "exception raised") with
  | .error e => .error e
  | .ok fs =>
  let fs := fs.emit [.instructionCleanupNoFlush]
  match catchTests (listSort catchBefore fs.catches) current fs with
  | .error e => .error e
  | .ok (_, fs) =>
  match fs.exec (clearLocals fs.locals_cleared_on_excpt) with
  | .error e => .error e
  | .ok fs =>
  match llvmRethrowException fs with
  | .error e => .error e
  | .ok fs => .ok (pushBuilder cont fs)

/-- `CodeGen::llvmTriggerExceptionHandling(known_exception)`. -/
def llvmTriggerExceptionHandling (known_exception : Bool) (fs : FunctionState) :
    Except String FunctionState :=
  let (cont, fs) := newBuilder "excpt-check-done" fs
  match (if ! known_exception then checkPending cont fs else .ok (none, fs)) with
  | .error e => .error e
  | .ok (current, fs) => handlePending cont current fs

/-- `CodeGen::llvmRaiseException(excpt, dtor)`; `excpt` is a reference to an
exception, of the LLVM type of such references. -/
def llvmRaiseException (excpt : Value) (dtor : Bool) (fs : FunctionState) :
    Except String FunctionState :=
  match llvmExecutionContext fs.cg with
  | .error e => .error e
  | .ok ctx =>
    match fs.run (llvmCallC "__hlt_context_set_exception" [ctx, excpt] false false) with
    | .error e => .error e
    | .ok (_, fs) =>
      match (if dtor then
               fs.exec (llvmDtor excpt (llvmType fs.ref_exception) fs.ref_exception false
                 "raise-exception")
             else .ok fs) with
      | .error e => .error e
      | .ok fs => llvmTriggerExceptionHandling true fs

/-- `CodeGen::llvmExceptionNew(exception, l, arg)`; `etype` is what the lookup of
the name `exception` in the module's scope gives, `l` the location as a
string. -/
def llvmExceptionNew (exception : String) (etype : Option ExceptionType) (l : String)
    (arg : Option Value) (cg : CG) : Except String (Value × CG) :=
  match etype with
  | none => .error ("unknown exception " ++ exception)
  | some etype =>
    let arg := match arg with
      | some a => Value.bitcast a (llvmTypePtr none)
      | none => llvmConstNull none
    match llvmExecutionContext cg with
    | .error e => .error e
    | .ok ctx =>
      llvmCallC "hlt_exception_new" [.exceptionTypeObject etype, arg, .constAsciiz l, ctx]
        false false cg

/-- `CodeGen::llvmRaiseException(exception, l, arg)`. -/
def llvmRaiseExceptionByName (exception : String) (etype : Option ExceptionType) (l : String)
    (arg : Option Value) (fs : FunctionState) : Except String FunctionState :=
  match fs.run (llvmExceptionNew exception etype l arg) with
  | .error e => .error e
  | .ok (excpt, fs) => llvmRaiseException excpt false fs

/-- `CodeGen::llvmCheckCException(excpt, reraise)`. -/
def llvmCheckCException (excpt : Value) (reraise : Bool) (fs : FunctionState) :
    Except String FunctionState :=
  if fs.in_build_exit != 0 then .ok fs
  else
    let eval := Value.load excpt
    let is_null := Value.expect (.isNull eval) (.constInt 1 1)
    let (cont, fs) := newBuilder "no-excpt" fs
    let (raise, fs) := newBuilder "excpt-c" fs
    let fs := fs.emit [.condBr is_null (.block cont) (.block raise)]
    let fs := pushBuilder raise fs
    match (if reraise then llvmRaiseException eval true fs
           else
             match llvmExecutionContext fs.cg with
             | .error e => .error e
             | .ok ctx =>
               match fs.run (llvmCallC "__hlt_context_set_exception" [ctx, .load excpt]
                       false false) with
               | .error e => .error e
               | .ok (_, fs) =>
                 match fs.exec (llvmDtor excpt (llvmTypePtr (some llvmTypeExceptionPtr))
                         fs.ref_exception_any true "llvmDoCall/excpt") with
                 | .error e => .error e
                 | .ok fs => .ok (fs.emit [.br (.block cont)])) with
    | .error e => .error e
    | .ok fs => .ok (pushBuilder cont (popBuilder fs))

/-- `CodeGen::llvmCheckException()`. -/
def llvmCheckException (fs : FunctionState) : Except String FunctionState :=
  if fs.in_build_exit != 0 then .ok fs
  else if ! fs.abort_on_excpt then llvmTriggerExceptionHandling false fs
  else
    let fs := fs.emit [.instructionCleanupNoFlush]
    match fs.run llvmCurrentException with
    | .error e => .error e
    | .ok (excpt, fs) =>
      let is_null := Value.expect (.isNull excpt) (.constInt 1 1)
      let (cont, fs) := newBuilder "no-excpt" fs
      let (abort, fs) := newBuilder "excpt-abort" fs
      let fs := fs.emit [.condBr is_null (.block cont) (.block abort)]
      let fs := pushBuilder abort fs
      match llvmExecutionContext fs.cg with
      | .error e => .error e
      | .ok ctx =>
        match fs.run (llvmCallC "__hlt_exception_print_uncaught_abort" [excpt, ctx]
                false false) with
        | .error e => .error e
        | .ok (_, fs) => .ok (pushBuilder cont (popBuilder (fs.emit [.unreachable])))

/-- The exception check that ends `llvmDoCall`, with `llvmCheckCException` and
`llvmCheckException` emitting their code. -/
def checkAfterCallUnfolded (ftype : FunctionType) (excpt : Option Value) (excpt_check : Bool)
    (fs : FunctionState) : Except String FunctionState :=
  match ftype.cc, excpt with
  | .HILTI_C, some excpt =>
    if ! ftype.attrNoException then llvmCheckCException excpt excpt_check fs else .ok fs
  | .HILTI_C, none => .ok fs
  | _, _ =>
    if excpt_check && ! ftype.attrNoException then llvmCheckException fs else .ok fs

/-- `CodeGen::llvmDoCall(..)` inside a function state, its closing exception
check unfolded. -/
def llvmDoCallUnfolded (tg : Target) (coerceTo : Expression → HiltiType → Expression)
    (llvm_func : Value) (hook : Option String) (ftype : FunctionType) (args : List Expression)
    (cctor_result : Bool) (hook_result : Option Value) (excpt_check : Bool)
    (fs : FunctionState) : Except String (Value × FunctionState) :=
  match llvmDoCallBody tg coerceTo llvm_func hook ftype args cctor_result hook_result fs.cg with
  | .error e => .error e
  | .ok (result, excpt, cg) =>
    match checkAfterCallUnfolded ftype excpt excpt_check { fs with cg := cg } with
    | .error e => .error e
    | .ok fs => .ok (result, fs)

end CodeGen

/-! ## Locals, the exit block and function bodies -/

/-- An `llvm::Function` as the emitters read it: name, return type, arguments
with their types, and whether the first argument has the attribute
`StructRet`. -/
structure LFunction where
  name : String
  rtype : LType
  params : List NativeParam
  structRet : Bool
  deriving DecidableEq, Repr

namespace abi

namespace X86_64

/-- `abi::X86_64::createFunction(name, rtype, args, linkage, module, cc)`. -/
def createFunction (tg : Target) (name : String) (rtype : LType) (args : List NativeParam)
    (cc : CallingConvention) (m : ClassifiedMap) : Except String (LFunction × ClassifiedMap) :=
  match createFunctionTypeInternal tg rtype args cc name m with
  | .error e => .error e
  | .ok (t, m) =>
    .ok ({ name := name, rtype := t.ftype.ret, params := t.nnames.zip t.ftype.params,
           structRet := t.cargs.return_in_mem }, m)

end X86_64

end abi

namespace CodeGen

/-- `CodeGen::llvmBuildFunctionCleanup()`, over the entries of `locals`. -/
def llvmBuildFunctionCleanup : List (String × Local) → CG → Except String CG
  | [], cg => .ok cg
  | (_, (val, type, hoisted)) :: rest, cg =>
    match (if hoisted then llvmDestroy val type "function-cleanup-hoist" cg else .ok cg) with
    | .error e => .error e
    | .ok cg => llvmBuildFunctionCleanup rest cg

/-- `CodeGen::llvmStringFromData(str)`; the constant made from the data is named
after it. -/
def llvmStringFromData (str : String) (cg : CG) : Except String (Value × CG) :=
  llvmCallC "hlt_string_from_data"
    [.bitcast (.const ("string:" ++ str)) (llvmTypePtr none), .constInt str.utf8ByteSize 64]
    true false cg

/-- `CodeGen::llvmProfilerStart(tag)` for a tag that is a string and the
defaults of the other parameters: the string is made from the data, then
`hlt::profiler_start` is called with it. -/
def llvmProfilerStart (tag : String) (fs : FunctionState) : Except String FunctionState :=
  if fs.profile == 0 then .ok fs
  else
    match fs.run (llvmStringFromData tag) with
    | .error e => .error e
    | .ok (_, fs) => .ok (fs.emit [.profilerStart tag])

/-- `CodeGen::llvmProfilerStop(tag)` for a tag that is an LLVM value. -/
def llvmProfilerStopValue (tag : Value) (fs : FunctionState) : FunctionState :=
  if fs.profile == 0 then fs else fs.emit [.profilerStop tag]

/-- `CodeGen::llvmProfilerStop(tag)` for a tag that is a string. -/
def llvmProfilerStop (tag : String) (fs : FunctionState) : Except String FunctionState :=
  if fs.profile == 0 then .ok fs
  else
    match fs.run (llvmStringFromData tag) with
    | .error e => .error e
    | .ok (ltag, fs) => .ok (llvmProfilerStopValue ltag fs)

/-- The part of `llvmBuildExitBlock` that reports leaving the function. -/
def leaveFunction (fs : FunctionState) : Except String FunctionState :=
  if ! fs.cg.leave_func then .ok fs
  else
    match fs.exec (llvmDebugPrint "hilti-flow" ("leaving " ++ fs.leave_name)) with
    | .error e => .error e
    | .ok fs =>
      if fs.profile ≥ 1 then
        match fs.run (llvmStringFromData ("func/" ++ fs.leave_name)) with
        | .error e => .error e
        | .ok (str, fs) => .ok (llvmProfilerStopValue str fs)
      else .ok fs

/-- The end of `llvmBuildExitBlock`: the return of the value of the PHI node,
through the first argument when that has the attribute `StructRet`, and
`--_in_build_exit`. -/
def exitReturn (phi : Option Value) (fs : FunctionState) : Except String FunctionState :=
  match phi with
  | none => .ok { fs.emit [.retVoid] with in_build_exit := fs.in_build_exit - 1 }
  | some phi =>
    match fs.sret, fs.params with
    | some pointee, first :: _ =>
      let (result, cg) := llvmReinterpret phi (exitType fs) pointee fs.cg
      let fs := { fs with cg := cg }
      .ok { fs.emit [.store result (.argument first.1), .retVoid]
            with in_build_exit := fs.in_build_exit - 1 }
    | some _, [] => .error "the function has no first argument"
    | none, _ =>
      let (result, cg) := llvmReinterpret phi (exitType fs) fs.rtype fs.cg
      let fs := { fs with cg := cg }
      .ok { fs.emit [.ret result] with in_build_exit := fs.in_build_exit - 1 }

/-- `CodeGen::llvmBuildExitBlock()`. -/
def llvmBuildExitBlock (fs : FunctionState) : Except String FunctionState :=
  if ! fs.exit_block then .ok fs
  else
    let fs := { fs with in_build_exit := fs.in_build_exit + 1 }
    let fs := pushBuilder ".exit" fs
    let phi : Option Value := if fs.exits.length != 0 then some (.phi (exitType fs)) else none
    let fs := if fs.exits.length != 0 then fs.emit [.phi (exitType fs) fs.exits] else fs
    match fs.exec (llvmBuildFunctionCleanup fs.locals) with
    | .error e => .error e
    | .ok fs =>
      match leaveFunction fs with
      | .error e => .error e
      | .ok fs => exitReturn phi fs

/-- `CodeGen::pushFunction(function, push_builder, abort_on_excpt, is_init_func,
cc)`: the state of the new function, made inside the generator state `outer`,
whose settings it takes over. -/
def pushFunction (function : LFunction) (push_builder abort_on_excpt : Bool)
    (cc : CallingConvention) (outer : FunctionState) : FunctionState :=
  { cg := { outer.cg with
              context := none, arguments := function.params.map (fun a => a.1),
              leave_func := false, dtors_after_call := false, tmps := [], entry := [],
              code := if push_builder then [.pushBuilder ".entry"] else [] },
    cc := cc,
    abort_on_excpt := abort_on_excpt,
    rtype := function.rtype,
    params := function.params,
    sret := if function.structRet then
              match function.params with
              | (_, .ptr pointee) :: _ => some pointee
              | _ => none
            else none,
    builders_by_name := if push_builder then [".entry"] else [],
    exit_block := false,
    exits := [],
    locals := [],
    catches := [],
    locals_cleared_on_excpt := [],
    in_build_exit := outer.in_build_exit,
    profile := outer.profile,
    leave_name := "",
    ref_exception := outer.ref_exception,
    ref_exception_any := outer.ref_exception_any }

/-- `CodeGen::popFunction()`: completes the body of the function; gives its final
state. `llvmNormalizeBlocks` removes blocks without instructions only. -/
def popFunction (fs : FunctionState) : Except String FunctionState :=
  match (if ! fs.terminated then llvmReturn none none false fs else .ok fs) with
  | .error e => .error e
  | .ok fs => llvmBuildExitBlock fs

end CodeGen

/-! ## Fibers, the resume wrapper and callables -/

namespace CodeGen

/-- `CodeGen::llvmAddFunction(name, rtype, params, internal, cc, skip_ctx)`;
`known` is what `_module->getFunction(name)` gives. -/
def llvmAddFunction (tg : Target) (known : Option LFunction) (name : String) (rtype : LType)
    (params : List Parameter) (cc : CallingConvention) (skip_ctx : Bool)
    (m : abi.X86_64.ClassifiedMap) : Except String (LFunction × abi.X86_64.ClassifiedMap) :=
  match llvmCallingConvention cc with
  | .error e => .error e
  | .ok _ =>
    match known with
    | some func => .ok (func, m)
    | none =>
      match llvmAdaptFunctionArgs rtype params cc skip_ctx with
      | .error e => .error e
      | .ok t => abi.X86_64.createFunction tg name t.1 t.2 cc m

/-- `CodeGen::llvmAddFunction(name, rtype, params, internal, force_name)` for
native parameters, with `force_name` set. -/
def llvmAddFunctionNative (name : String) (rtype : LType) (params : List NativeParam) :
    LFunction :=
  { name := name, rtype := rtype, params := params, structRet := false }

/-- Modelled from the spec: `Location` is not among the sources; this is the
string `Location::None` converts to. -/
def locationNone : String := "<no location>"

/-- The start of `llvmFiberStart`: for a fiber with a result, the temporary
`fiber.result`, which is registered with the fiber. -/
def fiberResultPtr (fiber : Value) (rtype : HiltiType) (fs : FunctionState) :
    Except String (Option Value × FunctionState) :=
  if ! rtype.isVoid then
    match llvmAddTmp "fiber.result" (llvmType rtype) none true 0 fs.cg with
    | .error e => .error e
    | .ok (rptr, cg) =>
      match llvmCallC "hlt_fiber_set_result_ptr"
              [fiber, .bitcast rptr (llvmTypePtr none)] false false cg with
      | .error e => .error e
      | .ok (_, cg) => .ok (some rptr, { fs with cg := cg })
  else .ok (none, fs)

/-- The end of `llvmFiberStart`: the branch on the result of `hlt_fiber_start`,
the block `yielded`, in which a yield exception for the fiber is set in the
context, and the move into the block `done`. -/
def fiberStarted (fiber ctx result : Value) (done yield : String) (fs : FunctionState) :
    Except String FunctionState :=
  let is_null := Value.isNull result
  let fs := fs.emit [.condBr is_null (.block yield) (.block done)]
  let fs := pushBuilder yield fs
  match fs.run (llvmCallC "hlt_exception_new_yield" [fiber, .constAsciiz locationNone, ctx]
          false false) with
  | .error e => .error e
  | .ok (excpt, fs) =>
  match fs.run (llvmCallC "__hlt_context_set_exception" [ctx, excpt] false false) with
  | .error e => .error e
  | .ok (_, fs) =>
  let fs := fs.emit [.br (.block done)]
  let fs := popBuilder fs
  .ok (pushBuilder done fs)

/-- `CodeGen::llvmFiberStart(fiber, rtype)`. -/
def llvmFiberStart (fiber : Value) (rtype : HiltiType) (fs : FunctionState) :
    Except String (Option Value × FunctionState) :=
  match llvmProfilerStart "fiber/start" fs with
  | .error e => .error e
  | .ok fs =>
  match fiberResultPtr fiber rtype fs with
  | .error e => .error e
  | .ok (rptr, fs) =>
  match llvmExecutionContext fs.cg with
  | .error e => .error e
  | .ok ctx =>
  match fs.run (llvmCallC "hlt_fiber_start" [fiber, ctx] false false) with
  | .error e => .error e
  | .ok (result, fs) =>
  let (done, fs) := newBuilder "done" fs
  let (yield, fs) := newBuilder "yielded" fs
  match llvmProfilerStop "fiber/start" fs with
  | .error e => .error e
  | .ok fs =>
  match fiberStarted fiber ctx result done yield fs with
  | .error e => .error e
  | .ok fs => .ok (rptr.map Value.load, fs)

/-- The argument `yield_excpt` of the resume wrapper and the one after it:
`arg_begin()`, stepped over the `StructRet` argument, and its successor. -/
def resumeArguments (fs : FunctionState) : Except String (NativeParam × NativeParam) :=
  match (if fs.sret.isSome then fs.params.drop 1 else fs.params) with
  | yield_excpt :: next :: _ => .ok (yield_excpt, next)
  | _ => .error "the function has too few arguments"

/-- The adjustment of the result in the resume wrapper: the result of the fiber
comes owned and is destructed, unless the function has none. The result was
loaded from the temporary `fiber.result`, of the LLVM type of `rtype`. -/
def resumeAdjustResult (rtype : HiltiType) (result : Option Value) (fs : FunctionState) :
    Except String FunctionState :=
  match rtype.isVoid, result with
  | false, some result =>
    fs.exec (llvmDtor result (llvmType rtype) rtype false "cwrapper/result-adjust")
  | false, none => .error "no result"
  | true, _ => .ok fs

/-- The return that ends the resume wrapper. -/
def resumeReturn (rtype : HiltiType) (result : Option Value) (fs : FunctionState) :
    Except String FunctionState :=
  match rtype.isVoid, result with
  | false, some result => llvmReturn (some rtype) (some (result, llvmType rtype)) false fs
  | false, none => .error "no result"
  | true, _ => llvmReturn none none false fs

/-- The body `llvmBuildCWrapper` emits into the resume function, from
`llvmClearException()` to `llvmReturn(..)`; `path` is
`func->id()->pathAsString()` and `rtype` the result type of the function. The
argument `yield_excpt` was declared a reference to an exception and is
destructed as a value of the LLVM type of such references. -/
def resumeWrapperBody (path : String) (rtype : HiltiType) (fs : FunctionState) :
    Except String FunctionState :=
  match fs.exec llvmClearException with
  | .error e => .error e
  | .ok fs =>
  match resumeArguments fs with
  | .error e => .error e
  | .ok (yield_excpt, next) =>
  match fs.run (llvmExceptionFiber (.argument yield_excpt.1)) with
  | .error e => .error e
  | .ok (fiber, fs) =>
  let fiber := Value.bitcast fiber (llvmTypePtr (some (llvmLibType "hlt.fiber")))
  match fs.run (llvmCallC "__hlt_exception_clear_fiber" [.argument yield_excpt.1] false false) with
  | .error e => .error e
  | .ok (_, fs) =>
  match fs.exec (llvmDtor (.argument yield_excpt.1) (llvmType fs.ref_exception_any)
          fs.ref_exception_any false "c-wrapper/resume") with
  | .error e => .error e
  | .ok fs =>
  match fs.exec (llvmDebugPrint "hilti-flow" ("entering resume fiber for " ++ path)) with
  | .error e => .error e
  | .ok fs =>
  match llvmFiberStart fiber rtype fs with
  | .error e => .error e
  | .ok (result, fs) =>
  match fs.exec (llvmDebugPrint "hilti-flow" ("left resume fiber for " ++ path)) with
  | .error e => .error e
  | .ok fs =>
  match resumeAdjustResult rtype result fs with
  | .error e => .error e
  | .ok fs =>
  match fs.run llvmCurrentException with
  | .error e => .error e
  | .ok (ctx_excpt, fs) =>
  match fs.exec (llvmGCAssign (.argument next.1) next.2 ctx_excpt llvmTypeExceptionPtr
          fs.ref_exception_any false false) with
  | .error e => .error e
  | .ok fs => resumeReturn rtype result fs

/-- The second half of `CodeGen::llvmBuildCWrapper(func)`, which builds the
resume function of a function that may yield: `name` is the mangled name of the
wrapper, `known` what the module has under that name, `default_cc` the default
of the parameter `cc` of `pushFunction` (declared in `codegen.h`). Gives the
function and the final state of its body. -/
def llvmBuildCWrapperResume (tg : Target) (known : Option LFunction) (default_cc : CallingConvention)
    (name path : String) (rtype : HiltiType) (outer : FunctionState) :
    Except String (LFunction × FunctionState) :=
  match llvmAddFunction tg known name (llvmType rtype)
          [("yield_excpt", outer.ref_exception_any)] .HILTI_C false outer.cg.classified with
  | .error e => .error e
  | .ok (llvm_func, m) =>
    let fs := pushFunction llvm_func true false default_cc
      { outer with cg := { outer.cg with classified := m } }
    match resumeWrapperBody path rtype fs with
    | .error e => .error e
    | .ok fs =>
      match popFunction fs with
      | .error e => .error e
      | .ok fs => .ok (llvm_func, fs)

/-- The generator's `_value_cache` and the bodies of the functions it has
completed, by name. -/
structure ModuleState where
  value_cache : List (String × Value)
  bodies : List (String × List Instr)
  deriving DecidableEq, Repr

/-- `CodeGen::lookupCachedValue(component, key)`. -/
def lookupCachedValue (component key : String) (ms : ModuleState) : Option Value :=
  ms.value_cache.lookup (component ++ "::" ++ key)

/-- `CodeGen::cacheValue(component, key, val)`: `std::map::insert`, which keeps
an entry that is present. -/
def cacheValue (component key : String) (val : Value) (ms : ModuleState) : ModuleState :=
  match ms.value_cache.lookup (component ++ "::" ++ key) with
  | some _ => ms
  | none => { ms with value_cache := ms.value_cache ++ [(component ++ "::" ++ key, val)] }

/-- The loop of the destructor function of a callable over its bound slots:
slot `i` is destructed with the type of the parameter `i`, of whose LLVM type it
was made. -/
def callableDtorLoop (callable : Value) (arg_start : Nat) :
    List Parameter → Nat → CG → Except String CG
  | [], _, cg => .ok cg
  | p :: ps, i, cg =>
    match llvmDtor (.extractValue callable (arg_start + i)) (llvmType p.2) p.2 false
            "callable.run.dtor" cg with
    | .error e => .error e
    | .ok cg => callableDtorLoop callable arg_start ps (i + 1) cg

/-- The destructor function `llvmCallableMakeFuncs` builds: its body destructs
the first `fparams.size() - unbound_args.size()` slots after the header of the
callable. -/
def callableDtorFunction (default_cc : CallingConvention) (name : String) (sty : LType)
    (arg_start : Nat) (ftype : FunctionType) (unbound_args : List Parameter)
    (outer : FunctionState) : Except String (LFunction × FunctionState) :=
  let dtor := llvmAddFunctionNative (".callable.dtor" ++ name) llvmTypeVoid
    [("callable", llvmTypePtr (some (llvmLibType "hlt.callable"))),
     (symbols.ArgExecutionContext, llvmTypePtr (some llvmTypeExecutionContext))]
  let fs := pushFunction dtor true false default_cc outer
  let callable := Value.load (.bitcast (.argument "callable") (llvmTypePtr (some sty)))
  match fs.exec (callableDtorLoop callable arg_start
          (ftype.parameters.take (ftype.parameters.length - unbound_args.length)) 0) with
  | .error e => .error e
  | .ok fs =>
    match llvmReturn none none false fs with
    | .error e => .error e
    | .ok fs =>
      match popFunction fs with
      | .error e => .error e
      | .ok fs => .ok (dtor, fs)

/-- `CodeGen::llvmCallableMakeFuncs(..)`: the lookup in the cache under the name
of the target, the destructor function, and the per-function object
`callable.func<name>`, which is cached. The run function, its C wrapper and the
clone-init function, which the source builds in between, are not part of this
embedding; they touch neither the cache nor the destructor function. -/
def llvmCallableMakeFuncs (default_cc : CallingConvention) (ftype : FunctionType)
    (sty : LType) (arg_start : Nat) (name : String) (unbound_args : List Parameter)
    (outer : FunctionState) (ms : ModuleState) : Except String (Value × ModuleState) :=
  match lookupCachedValue "callable-func" name ms with
  | some cached => .ok (cached, ms)
  | none =>
    match ((if ftype.parameters.length != 0 then
              match callableDtorFunction default_cc name sty arg_start ftype unbound_args outer with
              | .error e => .error e
              | .ok (dtor, fs) =>
                .ok { ms with bodies := ms.bodies ++ [(dtor.name, fs.cg.code)] }
            else .ok ms) : Except String ModuleState) with
    | .error e => .error e
    | .ok ms =>
      let ctyfuncglob := Value.const ("callable.func" ++ name)
      .ok (ctyfuncglob, cacheValue "callable-func" name ctyfuncglob ms)

/-- Modelled from the spec: the rendering of a `type::Callable` is not among the
sources; the type is named by its result and the types of its unbound
arguments. -/
def callableRender (result : HiltiType) (unbound_args : List Parameter) : String :=
  "callable<" ++ ", ".intercalate (result.render :: unbound_args.map (fun p => p.2.render)) ++ ">"

/-- `CodeGen::llvmObjectNew(type, llvm_type, ref)`, the type given by its
rendering. -/
def llvmObjectNew (render : String) (llvm_type : LType) (ref : Bool) (cg : CG) :
    Except String (Value × CG) :=
  match llvmExecutionContext cg with
  | .error e => .error e
  | .ok ctx =>
    match llvmCallC (if ref then "__hlt_object_new_ref" else "__hlt_object_new")
            [.rtti render, .sizeOf llvm_type, .constAsciiz "llvm.object.new", ctx]
            false false cg with
    | .error e => .error e
    | .ok (result, cg) => .ok (.bitcast result (llvmTypePtr (some llvm_type)), cg)

/-- The loop of `llvmDoCallableBind` over the arguments bound: each is copied,
by a deep copy or a copy-construct, and put into its slot of the struct `s`. -/
def bindArguments (deep_copy_args : Bool) (arg_start : Nat) :
    List Expression → Nat → Value → CG → Except String (Value × CG)
  | [], _, s, cg => .ok (s, cg)
  | a :: as, i, s, cg =>
    let val := Value.value a
    match ((if deep_copy_args then
              let ty := llvmType a.type
              let src := Value.alloca ty val
              let dst := Value.alloca ty (llvmConstNull (some ty))
              let cg := emitEntry cg [.alloca "" ty 0, .alloca "" ty 0]
              let cg := emit cg [.store val src]
              match llvmCallC "hlt_clone_deep"
                      [.bitcast dst (llvmTypePtr none), llvmRtti a.type,
                       .bitcast src (llvmTypePtr none)] true true cg with
              | .error e => .error e
              | .ok (_, cg) => .ok (.load dst, cg)
            else
              match llvmCctor val (llvmType a.type) a.type false "callable.call" cg with
              | .error e => .error e
              | .ok cg => .ok (val, cg)) : Except String (Value × CG)) with
    | .error e => .error e
    | .ok (val, cg) =>
      bindArguments deep_copy_args arg_start as (i + 1) (.insertValue s val (arg_start + i)) cg

/-- `CodeGen::llvmDoCallableBind(..)`; `name` is the name of the target (of the
LLVM function, or of the hook), `cty_elems` the element types of the library
type `hlt.callable`. -/
def llvmDoCallableBind (default_cc : CallingConvention) (cty_elems : List LType) (name : String)
    (ftype : FunctionType) (args : List Expression) (deep_copy_args cctor_callable : Bool)
    (fs : FunctionState) (ms : ModuleState) :
    Except String (Value × FunctionState × ModuleState) :=
  if ftype.parameters.length < args.length then
    .error "more arguments bound than the function has parameters"
  else
    let unbound_args := ftype.parameters.drop args.length
    let stypes := cty_elems ++ args.map (fun a => llvmType a.type)
    let sty := LType.struct (".callable.args" ++ name) (LTypes.ofList stypes)
    match fs.run (llvmObjectNew (callableRender ftype.result unbound_args) sty cctor_callable) with
    | .error e => .error e
    | .ok (c, fs) =>
      let s := Value.load c
      match llvmCallableMakeFuncs default_cc ftype sty cty_elems.length name unbound_args
              fs ms with
      | .error e => .error e
      | .ok (func_val, ms) =>
        match stypes[1]? with
        | none => .error "index out of range"
        | some t =>
          let s := Value.insertValue s (.bitcast func_val t) 1
          match fs.run (bindArguments deep_copy_args cty_elems.length args 0 s) with
          | .error e => .error e
          | .ok (s, fs) =>
            .ok (.bitcast c (llvmTypePtr (some (llvmLibType "hlt.callable"))),
                 fs.emit [.store s c], ms)

end CodeGen

/-! ## The runtime entry point (`hilti/libhilti/main.c`) -/

namespace libhilti

/-- An `hlt_exception` as the runtime passes it on: its kind and whether
`hlt_exception_is_yield` holds of it. -/
structure Exception where
  kind : String
  is_yield : Bool
  deriving DecidableEq, Repr

/-- What `main` does that can be seen from outside, in order.
`hlt_exception_print_uncaught`, which is not among the sources, prints and
returns; the code generator has `__hlt_exception_print_uncaught_abort` for the
variant that ends the process. -/
inductive Event where
  | usage (prog : String)
  | hlt_init
  | hlt_config_set (num_workers : Int)
  | hlt_threading_start
  | main_run
  | hlt_threading_stop
  | hlt_exception_print_uncaught (excpt : Exception)
  deriving DecidableEq, Repr

/-- A finished process: its exit status and what it did. -/
structure Process where
  status : Int
  events : List Event
  deriving DecidableEq, Repr

/-- The program linked with `main` and the runtime under it: what `main_run` and
`hlt_threading_stop` leave in the exception slot they are given, and `atoi`. -/
structure Program where
  main_run : Option Exception → Option Exception
  hlt_threading_stop : Option Exception → Option Exception
  atoi : String → Int

/-- The option loop of `main`: `opts` are the results of `getopt_long` in turn,
each with `optarg`; gives the number of threads, or nothing when `usage` was
called. -/
def parseOptions : List (Char × String) → Program → Int → Option Int
  | [], _, threads => some threads
  | (c, optarg) :: rest, prog, _ =>
    if c == 't' then parseOptions rest prog (prog.atoi optarg) else none

/-- `main(argc, argv)`: `opts` are the options `getopt_long` finds and `operands`
is `argc - optind` after the loop. `usage` ends the process with status 1. -/
def main (prog : Program) (argv0 : String) (opts : List (Char × String)) (operands : Nat) :
    Process :=
  match parseOptions opts prog 2 with
  | none => { status := 1, events := [.usage argv0] }
  | some threads =>
    if operands != 0 then { status := 1, events := [.usage argv0] }
    else
      let excpt : Option Exception := none
      let excpt := prog.main_run excpt
      let excpt := prog.hlt_threading_stop excpt
      let before := [Event.hlt_init, .hlt_config_set threads, .hlt_threading_start, .main_run,
        .hlt_threading_stop]
      match excpt with
      | some e => { status := 0, events := before ++ [.hlt_exception_print_uncaught e] }
      | none => { status := 0, events := before }

end libhilti

/-! ## Feeding a parser in chunks (`bro/src/Pac2Analyzer.cc`) -/

namespace bro

/-- An `hlt_bytes` object as `FeedChunk` uses it: its content and whether it is
frozen. -/
structure Bytes where
  content : List Nat
  frozen : Bool
  deriving DecidableEq, Repr

/-- A `binpac_parser`, by name. -/
structure Parser where
  name : String
  deriving DecidableEq, Repr

/-- `Pac2_Analyzer::Endpoint`: the parser, the input fed so far and the yield
exception to resume with. -/
structure Endpoint where
  parser : Option Parser
  data : Option Bytes
  resume : Option libhilti.Exception
  deriving DecidableEq, Repr

/-- The calls `FeedChunk` makes into the parser, and the report of a parse
error. -/
inductive Call where
  | parse_func (data : Bytes)
  | resume_func (resume : libhilti.Exception)
  | parseError (excpt : libhilti.Exception)
  deriving DecidableEq, Repr

/-- One call of `FeedChunk` as its surroundings decide it: the chunk, `eod`,
what `ParserForAnalyzer` has for the endpoint, and the exception that the parse
or resume call of this round leaves in `excpt`. -/
structure Chunk where
  data : List Nat
  eod : Bool
  parser_for_analyzer : Option Parser
  excpt : Option libhilti.Exception
  deriving DecidableEq, Repr

/-- `Pac2_Analyzer::Init()` for one endpoint. -/
def Endpoint.init : Endpoint := { parser := none, data := none, resume := none }

/-- Modelled from the spec: the bytes functions of the runtime are not among the
sources. `hlt_bytes_new_from_data_copy` makes an object of the data given. -/
def hlt_bytes_new_from_data_copy (data : List Nat) : Bytes := { content := data, frozen := false }

/-- Modelled from the spec: `hlt_bytes_append_raw_copy` appends the data. -/
def hlt_bytes_append_raw_copy (b : Bytes) (data : List Nat) : Bytes :=
  { b with content := b.content ++ data }

/-- Modelled from the spec: `hlt_bytes_freeze(b, 1, ..)` freezes the object. -/
def hlt_bytes_freeze (b : Bytes) : Bytes := { b with frozen := true }

/-- The end of `FeedChunk`, from `if ( excpt )` on: the result, and the endpoint
with `resume` and `data` updated. -/
def finishChunk (endp : Endpoint) (excpt : Option libhilti.Exception) (eod : Bool) :
    Int × Endpoint × List Call :=
  match excpt with
  | some e =>
    if e.is_yield then
      let endp := { endp with resume := some e }
      (-1, if eod then { endp with data := none } else endp, [])
    else (0, { endp with data := none }, [.parseError e])
  | none => (1, { endp with data := none }, [])

/-- `Pac2_Analyzer::FeedChunk(len, data, is_orig, eod)` on the endpoint chosen by
`is_orig`: the result, the endpoint afterwards and the calls made; the failing
`assert` is an error. -/
def FeedChunk (endp : Endpoint) (c : Chunk) : Except String (Int × Endpoint × List Call) :=
  if endp.parser.isSome && endp.data.isNone then .ok (0, endp, [])
  else
    match ((match endp.parser with
            | some p => some p
            | none => c.parser_for_analyzer) : Option Parser) with
    | none => .ok (1, endp, [])
    | some p =>
      let endp := { endp with parser := some p }
      match endp.data with
      | none =>
        let data := hlt_bytes_new_from_data_copy c.data
        let data := if c.eod then hlt_bytes_freeze data else data
        let endp := { endp with data := some data }
        let (result, endp, calls) := finishChunk endp c.excpt c.eod
        .ok (result, endp, Call.parse_func data :: calls)
      | some data =>
        match endp.resume with
        | none => .error "assertion failed: endp->data && endp->resume"
        | some resume =>
          let data := if c.data.length != 0 then hlt_bytes_append_raw_copy data c.data else data
          let data := if c.eod then hlt_bytes_freeze data else data
          let endp := { endp with data := some data, resume := none }
          let (result, endp, calls) := finishChunk endp c.excpt c.eod
          .ok (result, endp, Call.resume_func resume :: calls)

/-- A sequence of `FeedChunk` calls on one endpoint: the results in turn, each
with the calls made, and the endpoint at the end. -/
def feedAll : Endpoint → List Chunk → Except String (List (Int × List Call) × Endpoint)
  | endp, [] => .ok ([], endp)
  | endp, c :: cs =>
    match FeedChunk endp c with
    | .error e => .error e
    | .ok (result, endp, calls) =>
      match feedAll endp cs with
      | .error e => .error e
      | .ok (rest, endp) => .ok ((result, calls) :: rest, endp)

/-- Whether a call is an invocation of `parse_func`. -/
def Call.isParse : Call → Bool
  | .parse_func _ => true
  | _ => false

end bro

/-! ## Lists of the runtime (`libhilti/list.c`) -/

namespace libhilti

/-- `__hlt_list_node`: the links, the timer, `invalid` and the data; nodes are
addressed by their index in the heap. -/
structure ListNode where
  next : Option Nat
  prev : Option Nat
  timer : Option Nat
  invalid : Int
  data : Nat
  deriving DecidableEq, Repr

/-- `__hlt_list`. -/
structure HltList where
  head : Option Nat
  tail : Option Nat
  size : Int
  tmgr : Option Nat
  timeout : Nat
  strategy : Nat
  deriving DecidableEq, Repr

/-- The nodes allocated, by address. -/
abbrev Heap := List ListNode

/-- The exception kinds `list.c` sets. -/
inductive ListException where
  | Underflow
  | InvalidIterator
  | OutOfMemory
  | Timer
  deriving DecidableEq, Repr

/-- The timer functions of the runtime that `list.c` calls, by what they leave
in the exception slot, and the test `hlt_enum_equal(strategy,
Hilti_ExpireStrategy_Access, ..)`. -/
structure Timers where
  hlt_timer_cancel : Nat → Option ListException → Option ListException
  hlt_timer_update : Nat → Option ListException → Option ListException
  is_access_strategy : Nat → Bool

/-- Modelled from the spec: `hlt_set_exception` is not among the sources; it
puts an exception of the given kind into the slot. -/
def hlt_set_exception (_excpt : Option ListException) (kind : ListException) :
    Option ListException := some kind

/-- Writes the field `prev` of the node at `p`. -/
def setPrev (h : Heap) (p : Nat) (v : Option Nat) : Heap :=
  match h[p]? with
  | some n => h.set p { n with prev := v }
  | none => h

/-- Writes the field `next` of the node at `p`. -/
def setNext (h : Heap) (p : Nat) (v : Option Nat) : Heap :=
  match h[p]? with
  | some n => h.set p { n with next := v }
  | none => h

/-- `_unlink(l, n, excpt, ctx)`; `ctx` says whether a context is passed.
Modelled from the spec: the `GC_*` macros of `memory.h` are not among the
sources; they assign and adjust reference counts, which are left out here. -/
def _unlink (tm : Timers) (h : Heap) (l : HltList) (n : Nat) (excpt : Option ListException)
    (ctx : Bool) : Except String (Heap × HltList × Option ListException) :=
  match h[n]? with
  | none => .error "invalid node"
  | some node =>
    let (h, l) := match node.next with
      | some nx => (setPrev h nx node.prev, l)
      | none => (h, { l with tail := node.prev })
    let (h, l) := match node.prev with
      | some pv => (setNext h pv node.next, l)
      | none => (h, { l with head := node.next })
    match h[n]? with
    | none => .error "invalid node"
    | some node =>
      let l := { l with size := l.size - 1 }
      let excpt := match node.timer with
        | some t => if ctx then tm.hlt_timer_cancel t excpt else excpt
        | none => excpt
      .ok (h.set n { node with next := none, prev := none, invalid := 1, timer := none },
           l, excpt)

/-- `_access(l, n, excpt, ctx)`. -/
def _access (tm : Timers) (h : Heap) (l : HltList) (n : Nat) (excpt : Option ListException) :
    Option ListException :=
  if l.tmgr.isNone || ! tm.is_access_strategy l.strategy || l.timeout == 0 then excpt
  else
    match h[n]? with
    | some node =>
      match node.timer with
      | none => excpt
      | some t => tm.hlt_timer_update t excpt
    | none => excpt

/-- `hlt_list_pop_front(l, excpt, ctx)`. -/
def hlt_list_pop_front (tm : Timers) (h : Heap) (l : HltList) (excpt : Option ListException) :
    Except String (Heap × HltList × Option ListException) :=
  match l.head with
  | none => .ok (h, l, hlt_set_exception excpt .Underflow)
  | some n => _unlink tm h l n excpt true

/-- `hlt_list_pop_back(l, excpt, ctx)`. -/
def hlt_list_pop_back (tm : Timers) (h : Heap) (l : HltList) (excpt : Option ListException) :
    Except String (Heap × HltList × Option ListException) :=
  match l.tail with
  | none => .ok (h, l, hlt_set_exception excpt .Underflow)
  | some n => _unlink tm h l n excpt true

/-- `hlt_list_front(l, excpt, ctx)`: the result points to the data of a node,
given by the node's address, or is null. -/
def hlt_list_front (tm : Timers) (h : Heap) (l : HltList) (excpt : Option ListException) :
    Option Nat × Option ListException :=
  match l.head with
  | none => (none, hlt_set_exception excpt .Underflow)
  | some n => (some n, _access tm h l n excpt)

/-- `hlt_list_back(l, excpt, ctx)`. -/
def hlt_list_back (tm : Timers) (h : Heap) (l : HltList) (excpt : Option ListException) :
    Option Nat × Option ListException :=
  match l.tail with
  | none => (none, hlt_set_exception excpt .Underflow)
  | some n => (some n, _access tm h l n excpt)

/-- The nodes at the addresses `ps` are linked in this order, the first one after
`prev`. -/
def Chain (h : Heap) : Option Nat → List Nat → Prop
  | _, [] => True
  | prev, p :: ps =>
    ∃ n, h[p]? = some n ∧ n.prev = prev ∧ n.next = ps.head? ∧ Chain h (some p) ps

/-- The list `l` consists, in the heap `h`, of the nodes at the addresses `ps`,
in this order. -/
structure IsList (h : Heap) (l : HltList) (ps : List Nat) : Prop where
  nodup : ps.Nodup
  head : l.head = ps.head?
  tail : l.tail = ps.getLast?
  size : l.size = ps.length
  chain : Chain h none ps

/-- The data of the node at `p`. -/
def dataAt (h : Heap) (p : Nat) : Option Nat := (h[p]?).map (fun n => n.data)

end libhilti

namespace libhilti

/-- A program whose `main_run` leaves an `Overflow` exception in the slot. -/
def sampleRaising : Program :=
  { main_run := fun _ => some { kind := "Overflow", is_yield := false },
    hlt_threading_stop := fun e => e,
    atoi := fun _ => 0 }

end libhilti

namespace bro

/-- Between calls: an endpoint with input pending has a parser and an exception to resume with. -/
def Endpoint.Consistent (endp : Endpoint) : Prop :=
  endp.data.isSome = true → endp.parser.isSome = true ∧ endp.resume.isSome = true

end bro

namespace libhilti

/-- Timer functions that report a failure whenever they are called. -/
def sampleTimers : Timers :=
  { hlt_timer_cancel := fun _ _ => some .Timer,
    hlt_timer_update := fun _ _ => some .Timer,
    is_access_strategy := fun _ => true }

/-- A heap with the two nodes of the list `[7, 9]`. -/
def sampleHeap : Heap :=
  [{ next := some 1, prev := none, timer := none, invalid := 0, data := 7 },
   { next := none, prev := some 0, timer := none, invalid := 0, data := 9 }]

/-- The list `[7, 9]`, without timer manager. -/
def sampleList : HltList :=
  { head := some 0, tail := some 1, size := 2, tmgr := none, timeout := 0, strategy := 0 }

end libhilti

/-! ## Vocabulary of the statements on function bodies -/

/-- An instruction that neither moves the insertion point nor ends a block. -/
def Instr.isPlain : Instr → Bool
  | .pushBuilder _ => false
  | .popBuilder => false
  | i => ! i.isTerminator

namespace CodeGen

/-- The exception type an instruction tests the pending exception against, if it
is a call of `__hlt_exception_match`. -/
def matchTest : Instr → Option ExceptionType
  | .call (.function f) [_, .exceptionTypeObject etype] none =>
    if f == "__hlt_exception_match" then some etype else none
  | _ => none

/-- The exception types tested by the calls of `__hlt_exception_match` in a piece
of code, in the order of the calls. -/
def matchTests (code : List Instr) : List ExceptionType := code.filterMap matchTest

/-- The runtime function an instruction calls, if it is a call of a function
given by name. -/
def callee : Instr → Option String
  | .call (.function f) _ _ => some f
  | _ => none

/-- The names of the functions called in a piece of code, in the order of the
calls. -/
def callees (code : List Instr) : List String := code.filterMap callee

end CodeGen

/-- `SameFunction a b`: the function state `b` differs from `a` at most in what
`Frame` allows for the generator state, in the blocks created, in whether the
exit block exists and in the values that reach it. -/
structure SameFunction (a b : FunctionState) : Prop where
  frame : Frame a.cg b.cg
  cc : b.cc = a.cc
  abort_on_excpt : b.abort_on_excpt = a.abort_on_excpt
  rtype : b.rtype = a.rtype
  params : b.params = a.params
  sret : b.sret = a.sret
  locals : b.locals = a.locals
  catches : b.catches = a.catches
  locals_cleared_on_excpt : b.locals_cleared_on_excpt = a.locals_cleared_on_excpt
  in_build_exit : b.in_build_exit = a.in_build_exit
  profile : b.profile = a.profile
  leave_name : b.leave_name = a.leave_name
  ref_exception : b.ref_exception = a.ref_exception
  ref_exception_any : b.ref_exception_any = a.ref_exception_any

namespace CodeGen

/-- What `llvmDestroy` reads of a type: rendering, heap trait and type
information of the type referred to (`argType()`) when the type is a reference,
of the type itself otherwise. -/
def destroyTarget (t : HiltiType) : String × Bool × TypeInfo :=
  match t.argType with
  | some a => (a.render, a.heapType, a.info)
  | none => (t.render, t.heapType, t.info)

/-- Whether `llvmDestroy` emits anything for the type (the negation of its early
return). -/
def hasObjDtor (t : HiltiType) : Bool :=
  ! ((destroyTarget t).2.2.obj_dtor.length == 0 && ! (destroyTarget t).2.2.obj_dtor_func)

/-- The call that destroys the object at address `addr`. -/
def destroyCall (cg : CG) (ctx addr : Value) (t : HiltiType) (location_addl : String) : Instr :=
  .call (.function "__hlt_object_destroy")
    [.rtti (destroyTarget t).1, .bitcast addr (llvmTypePtr none),
     .bitcast (locationOperand cg ("llvmDestroy/" ++ location_addl)) (llvmTypePtr none), ctx] none

end CodeGen

namespace sample

/-- A generator state outside of any function. -/
def generator : FunctionState :=
  { cg := { context := none, arguments := [], leave_func := false, dtors_after_call := false,
            tmps := [], stackmap_id := 0, liveness_in := [], liveness_dead := [], debug := false,
            location := "", have_llvm_35 := false, classified := [], entry := [], code := [] },
    cc := .HILTI, abort_on_excpt := false, rtype := .void, params := [], sret := none,
    builders_by_name := [], exit_block := false, exits := [], locals := [], catches := [],
    locals_cleared_on_excpt := [], in_build_exit := 0, profile := 0, leave_name := "",
    ref_exception := tBytes, ref_exception_any := tBytes }

/-- The state at the start of the body of a function `f(__ctx)` without
result. -/
def emptyBody : FunctionState :=
  CodeGen.pushFunction
    { name := "f", rtype := .void, params := [CodeGen.contextParam], structRet := false }
    true false .HILTI generator

end sample

namespace CodeGen

/-- The pending exception as `llvmCurrentException` gives it. -/
def pendingException : Value := .callResult (.function "__hlt_context_get_exception")

/-- The call by which `llvmCurrentException` fetches the pending exception. -/
def fetchException (ctx : Value) : Instr :=
  .call (.function "__hlt_context_get_exception") [ctx] none

/-- The code of the loop of `llvmTriggerExceptionHandling` over catch clauses,
each given with the name of the block that follows its test: the test of the
pending exception `cur` against the type of the clause, the branch to the
handler of the clause on a match and to the next block otherwise, and the move
of the insertion point into that block. -/
def catchTestsCode (cur : Value) : List ((Expression × ExceptionType) × String) → List Instr
  | [] => []
  | (c, next) :: rest =>
    [.call (.function "__hlt_exception_match") [cur, .exceptionTypeObject c.2] none,
     .condBr (.icmpNE (.callResult (.function "__hlt_exception_match")) (.constInt 0 8))
       (.value c.1) (.block next),
     .pushBuilder next] ++ catchTestsCode cur rest

/-- The conditions under which the exception handling of a function can be
emitted, which the source asserts or relies on: an execution context is at
hand; a local cleared on an exception that is hoisted has a heap type, one that
is neither hoisted nor a constant parameter a value type; and in a function of
the BoundaryC convention the type of exception references is a value type and
the argument before the last is a pointer to an exception pointer. -/
structure CanHandle (fs : FunctionState) (ctx : Value) : Prop where
  context : llvmExecutionContext fs.cg = .ok ctx
  cleared : ∀ l ∈ fs.locals_cleared_on_excpt,
    (l.hoisted = true → (destroyTarget l.type).2.1 = true) ∧
    (l.hoisted = false → l.constant_param = false → l.type.valueType = true)
  slot : fs.cc = .HILTI_C →
    fs.ref_exception_any.valueType = true ∧
    ∃ front slot last, fs.params = front ++ [slot, last] ∧
      slot.2 = llvmTypePtr (some llvmTypeExceptionPtr)

/-- The code `llvmGCAssign` emits for a store of `val` into `dst`. -/
def gcAssignCode (cg : CG) (ctx dst val : Value) (type : HiltiType) (plusone dtor_first : Bool) :
    List Instr :=
  (if dtor_first && hasDtor type then [dtorCall cg ctx dst type "gc-assign"] else [])
    ++ [.store val dst]
    ++ (if ! plusone && hasCctor type then [cctorCall cg ctx dst type "gc-assign"] else [])

end CodeGen

namespace sample

/-- The type of a block label. -/
def tLabel : HiltiType :=
  { render := "label", typeType := none, llvm := .ptr (.int 8), info := plain, isVoid := false,
    valueType := true, heapType := false, argType := none }

/-- The handler of the catch clause for the exception type `Base`. -/
def eCatchBase : Expression :=
  { id := "@catch_base", type := tLabel, hoisted := false, constant_param := false }

/-- The handler of the catch clause for the exception type `Derived`. -/
def eCatchDerived : Expression :=
  { id := "@catch_derived", type := tLabel, hoisted := false, constant_param := false }

/-- A function body in which a catch clause for `Base`, of level 1, has been
registered before one for `Derived`, of level 2. -/
def bodyWithCatches : FunctionState :=
  { emptyBody with
    catches := [(eCatchBase, { name := "Base", level := 1 }),
                (eCatchDerived, { name := "Derived", level := 2 })] }

end sample

namespace CodeGen

/-- The call by which a pending exception is stored into the execution
context. -/
def setException (ctx excpt : Value) : Instr :=
  .call (.function "__hlt_context_set_exception") [ctx, excpt] none

end CodeGen

namespace sample

/-- The state at the start of the body of a PlainC function `init(__ctx)`
without result. -/
def plainCBody : FunctionState :=
  CodeGen.pushFunction
    { name := "init", rtype := .void, params := [("__ctx", .ptr (.int 8))], structRet := false }
    true false .C generator

/-- The code of that function when its body raises the exception `e` and it is
then completed by `popFunction`. -/
def plainCRaise : Except String (List Instr) :=
  match CodeGen.llvmRaiseException (.const "e") false plainCBody with
  | .error e => .error e
  | .ok fs =>
    match CodeGen.popFunction fs with
    | .error e => .error e
    | .ok fs => .ok fs.cg.code

end sample

namespace CodeGen

/-- The test `llvmCheckCException` emits on the exception slot of a call: the
slot is loaded and, when its value is null, control goes on in the block
`cont`, otherwise in the block `raise`. -/
def slotCheck (slot : Value) (cont raise : String) : Instr :=
  .condBr (.expect (.isNull (.load slot)) (.constInt 1 1)) (.block cont) (.block raise)

end CodeGen

namespace sample

/-- A function body in the sample generator state. -/
def callerBody : FunctionState :=
  { generator with cg := cg, params := [CodeGen.contextParam] }

/-- The same body while its exit block is being built. -/
def exitBody : FunctionState := { callerBody with in_build_exit := 1 }

/-- The code of the sample call `f(n, data)`, with exception check, emitted
while the exit block is being built. -/
def exitCallCode : List Instr :=
  match CodeGen.llvmDoCallUnfolded sysv.target keepType (.function "f") none ftype
      [eNum, eData] false none true exitBody with
  | .error _ => []
  | .ok (_, fs) => fs.cg.code

end sample

namespace sample

/-- A reference to an exception. -/
def tException : HiltiType :=
  { render := "ref<exception>", typeType := none, llvm := CodeGen.llvmTypeExceptionPtr, info := managed,
    isVoid := false, valueType := true, heapType := false, argType := none }

end sample

namespace CodeGen

/-- Whether an instruction, if it is a call, calls one of the named functions. -/
def callsOnly (names : List String) : Instr → Bool
  | .call (.function f) _ _ => names.contains f
  | .call _ _ _ => false
  | _ => true

end CodeGen

namespace sample

/-- A generator state outside of any function in which the reference to any
exception is `ref<exception>`. -/
def resumeGenerator : FunctionState := { generator with ref_exception_any := tException }

end sample

namespace sample

/-- A second bytes operand held in a local. -/
def eMore : Expression :=
  { id := "more", type := tBytes, hoisted := false, constant_param := false }

/-- A HILTI function type `f(a : ref<bytes>, b : ref<bytes>) -> int<64>`. -/
def ftypeTwo : FunctionType :=
  { result := tInt64, parameters := [("a", tBytes), ("b", tBytes)], cc := .HILTI,
    attrRef := false, attrNoException := false, mayTriggerSafepoint := false }

/-- Modelled from the spec: the library type `hlt.callable` is not among the
sources; it is taken with two elements, the header of the object and the pointer
to the per-function object, which `llvmDoCallableBind` puts into element 1. -/
def callableElems : List LType := [.struct "hlt.gchdr" .nil, CodeGen.llvmTypePtr none]

/-- A module in which nothing is cached and no function is completed. -/
def emptyModule : CodeGen.ModuleState := { value_cache := [], bodies := [] }

/-- A bind of the function `f` of type `ftypeTwo` to the arguments `args`, with
copy-constructs, in the function and module state `s`. -/
def bindF (args : List Expression) (s : FunctionState × CodeGen.ModuleState) :
    Except String (Value × FunctionState × CodeGen.ModuleState) :=
  CodeGen.llvmDoCallableBind .HILTI callableElems "f" ftypeTwo args false false s.1 s.2

/-- The states after `f` has been bound to the arguments `args` in an empty
function body of an empty module. -/
def boundTo (args : List Expression) : FunctionState × CodeGen.ModuleState :=
  match bindF args (emptyBody, emptyModule) with
  | .ok (_, fs, ms) => (fs, ms)
  | .error _ => (emptyBody, emptyModule)

/-- The values copy-constructed by the code emitted between two states of a
function body, in order. -/
def copiedSince (before after : FunctionState) : List Value :=
  (after.cg.code.drop before.cg.code.length).filterMap
    (CodeGen.refcountTarget "__hlt_object_cctor")

/-- The functions completed in a module, each with the values its body
destructs, in order. -/
def destructedIn (ms : CodeGen.ModuleState) : List (String × List Value) :=
  ms.bodies.map (fun b => (b.1, b.2.filterMap (CodeGen.refcountTarget "__hlt_object_dtor")))

/-- The slot `i` of the bound arguments as the destructor function of a callable
of `f` built for `n` bound arguments reads it. -/
def boundSlot (n i : Nat) : Value :=
  .extractValue
    (.load (.bitcast (.argument "callable")
      (CodeGen.llvmTypePtr (some (.struct ".callable.argsf"
        (LTypes.ofList (callableElems ++ List.replicate n (CodeGen.llvmType tBytes))))))))
    (callableElems.length + i)

end sample

namespace sample

/-- An Internal function `g(n : int<64>) -> int<64>`. -/
def ftypeInternal : FunctionType :=
  { result := tInt64, parameters := [("n", tInt64)], cc := .HILTI,
    attrRef := false, attrNoException := false, mayTriggerSafepoint := false }

/-- A hook `h(n : int<64>) -> int<64>`. -/
def ftypeHook : FunctionType := { ftypeInternal with cc := .HOOK }

end sample

namespace CodeGen

/-- `CodeGen::uniqueName(component, str)` on the generator's `_unique_names`;
`module_id` is `linkerModuleIdentifier()`. Modelled from the spec: `_unique_names`
is declared in `codegen.h`, which is not among the sources; it is taken as the
map with unique keys that `find(idx)`, `i->second` and `insert(make_pair(idx,
..))` go with, in which `insert` keeps an entry that is present. -/
def uniqueName (module_id component str : String) (unique_names : List (String × Int)) :
    String × List (String × Int) :=
  let idx := component ++ "::" ++ str
  let cnt : Int := match unique_names.lookup idx with
    | some c => c
    | none => 1
  let unique_names := match unique_names.lookup idx with
    | some _ => unique_names
    | none => unique_names ++ [(idx, cnt + 1)]
  (if cnt == 1 then ".hlt." ++ str ++ "." ++ module_id
   else ".hlt." ++ str ++ "." ++ module_id ++ "." ++ toString cnt,
   unique_names)

/-- Successive calls of `uniqueName` with the same component and string: the
names returned, in order, and the map at the end. -/
def uniqueNames (module_id component str : String) :
    Nat → List (String × Int) → List String × List (String × Int)
  | 0, unique_names => ([], unique_names)
  | n + 1, unique_names =>
    let (name, unique_names) := uniqueName module_id component str unique_names
    let (rest, unique_names) := uniqueNames module_id component str n unique_names
    (name :: rest, unique_names)

end CodeGen

/-- The integer values that `llvmExtractBits` and `llvmInsertBits` build with the
IR builder: a constant of a width, an operand handed in, and the instructions
`sub`, `add`, `lshr`, `shl` and `and` created over them. -/
inductive IntValue where
  | const (val : Nat) (width : Nat)
  | operand (name : String)
  | sub (a b : IntValue)
  | add (a b : IntValue)
  | lshr (a b : IntValue)
  | shl (a b : IntValue)
  | and (a b : IntValue)
  deriving DecidableEq, Repr

/-- Modelled from the spec: the meaning of the LLVM instructions is not among
the sources. The value of an integer value of width `w` at run time, the
operands having the values `env` gives them: `sub`, `add` and `shl` wrap around
modulo `2^w`, and a shift by `w` bits or more has no defined result. -/
def IntValue.eval (w : Nat) (env : String → Nat) : IntValue → Option Nat
  | .const val _ => some val
  | .operand name => some (env name % 2 ^ w)
  | .sub a b =>
    match a.eval w env, b.eval w env with
    | some x, some y => some ((x + 2 ^ w - y) % 2 ^ w)
    | _, _ => none
  | .add a b =>
    match a.eval w env, b.eval w env with
    | some x, some y => some ((x + y) % 2 ^ w)
    | _, _ => none
  | .lshr a b =>
    match a.eval w env, b.eval w env with
    | some x, some y => if y < w then some (x / 2 ^ y) else none
    | _, _ => none
  | .shl a b =>
    match a.eval w env, b.eval w env with
    | some x, some y => if y < w then some (x * 2 ^ y % 2 ^ w) else none
    | _, _ => none
  | .and a b =>
    match a.eval w env, b.eval w env with
    | some x, some y => some (x &&& y)
    | _, _ => none

namespace CodeGen

/-- `CodeGen::llvmConstInt(val, width)` as a value to compute with: the
`int64_t` is handed to `ConstantInt::get` as a `uint64_t` and cut to `width`
bits. -/
def llvmConstIntValue (val : Int) (width : Nat) : Except String IntValue :=
  if width ≤ 64 then .ok (.const ((val % 2 ^ 64).toNat % 2 ^ width) width)
  else .error "assertion failed: width <= 64"

/-- `CodeGen::llvmExtractBits(value, low, high)`; `width` is the bit width of the
type of `value`. -/
def llvmExtractBits (width : Nat) (value low high : IntValue) : Except String IntValue :=
  match llvmConstIntValue width width with
  | .error e => .error e
  | .ok c =>
    let bits := IntValue.sub c high
    let bits := IntValue.add bits low
    match llvmConstIntValue 1 width with
    | .error e => .error e
    | .ok one =>
      let bits := IntValue.sub bits one
      match llvmConstIntValue (-1) width with
      | .error e => .error e
      | .ok ones =>
        let mask := IntValue.lshr ones bits
        let value := IntValue.lshr value low
        .ok (.and value mask)

/-- `CodeGen::llvmInsertBits(value, low, high)`; `width` is the bit width of the
type of `value`. -/
def llvmInsertBits (width : Nat) (value low high : IntValue) : Except String IntValue :=
  let value := IntValue.shl value low
  match llvmConstIntValue width width with
  | .error e => .error e
  | .ok c =>
    let bits := IntValue.sub c high
    match llvmConstIntValue 1 width with
    | .error e => .error e
    | .ok one =>
      let bits := IntValue.sub bits one
      match llvmConstIntValue (-1) width with
      | .error e => .error e
      | .ok ones =>
        let mask := IntValue.lshr ones bits
        .ok (.and value mask)

end CodeGen

namespace bro

/-- `Pac2_Analyzer`: its two endpoints. -/
structure Analyzer where
  orig : Endpoint
  resp : Endpoint
  deriving DecidableEq, Repr

/-- The calls made on an analyzer from outside. -/
inductive Op where
  | Init
  | Done
  | FlipRoles
  | FeedChunk (is_orig : Bool) (c : Chunk)
  deriving DecidableEq, Repr

/-- `is_orig ? &orig : &resp`. -/
def Analyzer.endpoint (a : Analyzer) (is_orig : Bool) : Endpoint :=
  if is_orig then a.orig else a.resp

/-- Writes the endpoint chosen by `is_orig`. -/
def Analyzer.setEndpoint (a : Analyzer) (is_orig : Bool) (endp : Endpoint) : Analyzer :=
  if is_orig then { a with orig := endp } else { a with resp := endp }

/-- `Pac2_Analyzer::Init()`. -/
def Analyzer.Init (_a : Analyzer) : Analyzer := { orig := Endpoint.init, resp := Endpoint.init }

/-- `Pac2_Analyzer::Done()`: the objects are released, then `Init()`. -/
def Analyzer.Done (a : Analyzer) : Analyzer := a.Init

/-- `Pac2_Analyzer::FlipRoles()`. -/
def Analyzer.FlipRoles (a : Analyzer) : Analyzer :=
  let tmp := a.orig
  { orig := a.resp, resp := tmp }

/-- One call on the analyzer: the analyzer afterwards and the calls into the
parser made on the way. -/
def Analyzer.step (a : Analyzer) : Op → Except String (Analyzer × List Call)
  | .Init => .ok (a.Init, [])
  | .Done => .ok (a.Done, [])
  | .FlipRoles => .ok (a.FlipRoles, [])
  | .FeedChunk is_orig c =>
    match FeedChunk (a.endpoint is_orig) c with
    | .error e => .error e
    | .ok (_, endp, calls) => .ok (a.setEndpoint is_orig endp, calls)

/-- A sequence of calls on the analyzer: the analyzer at the end and, for each
call, the calls into the parser it made. -/
def Analyzer.run : Analyzer → List Op → Except String (Analyzer × List (List Call))
  | a, [] => .ok (a, [])
  | a, op :: ops =>
    match a.step op with
    | .error e => .error e
    | .ok (a, calls) =>
      match Analyzer.run a ops with
      | .error e => .error e
      | .ok (a, rest) => .ok (a, calls :: rest)

/-- The calls into the parser made, over a sequence of calls on the analyzer, for
the endpoint that is `orig` (or `resp`) at its start; `FlipRoles` moves the
endpoint to the other side. -/
def callsFor : Bool → List Op → List (List Call) → List Call
  | is_orig, .FlipRoles :: ops, _ :: rest => callsFor (! is_orig) ops rest
  | is_orig, .FeedChunk o _ :: ops, calls :: rest =>
    (if o == is_orig then calls else []) ++ callsFor is_orig ops rest
  | is_orig, _ :: ops, _ :: rest => callsFor is_orig ops rest
  | _, _, _ => []

/-- An endpoint whose parsing has finished: the parser is set, the data is
not. -/
def Endpoint.Finished (endp : Endpoint) : Prop :=
  endp.parser.isSome = true ∧ endp.data.isNone = true

end bro

namespace CodeGen

/-- What `llvmBuildCWrapper(func)` and `llvmCallInNewFiber(func, ..)` read of the
function: `name` is `mangleGlobal(func->id(), func->module())`, `resume_name`
the mangled name of the resume function, `path` is
`func->id()->pathAsString()`, `llvm_name` the name of the function that
`llvmFunction(func)` gives; then the type, whether there is a body, and
`func->type()->mayYield()`. -/
structure WrappedFunction where
  name : String
  resume_name : String
  path : String
  llvm_name : String
  ftype : FunctionType
  has_body : Bool
  may_yield : Bool
  deriving DecidableEq, Repr

/-- The module under generation: the functions of `_module`, in the order of
their creation, next to the cache and the bodies completed. A body completed for
a function that has one already is recorded after it: its blocks are added to
the function. -/
structure GeneratedModule where
  functions : List LFunction
  ms : ModuleState
  deriving DecidableEq, Repr

/-- `_module->getFunction(name)`. -/
def GeneratedModule.getFunction (m : GeneratedModule) (name : String) : Option LFunction :=
  m.functions.find? (fun f => f.name == name)

/-- The module after `llvmAddFunction` has given `func`: a function that was
not known is new in the module. -/
def GeneratedModule.withFunction (m : GeneratedModule) (known : Option LFunction)
    (func : LFunction) : GeneratedModule :=
  match known with
  | some _ => m
  | none => { m with functions := m.functions ++ [func] }

/-- The module after the body of `func` has been completed. -/
def GeneratedModule.withBody (m : GeneratedModule) (func : LFunction) (fs : FunctionState) :
    GeneratedModule :=
  { m with ms := { m.ms with bodies := m.ms.bodies ++ [(func.name, fs.cg.code)] } }

/-- `CodeGen::llvmMemorySafepoint(where)`. -/
def llvmMemorySafepoint (location : String) (cg : CG) : Except String CG :=
  match llvmExecutionContext cg with
  | .error e => .error e
  | .ok ctx =>
    match llvmCallC "__hlt_memory_safepoint" [ctx, .constAsciiz location] false false cg with
    | .error e => .error e
    | .ok (_, cg) => .ok cg

/-- The expressions `builder::codegen::create(a->type(), arg++)` that the entry
wrapper makes of the arguments of its function, one per declared parameter; an
expression made of a value is named after the value. -/
def wrapperParams (ftype : FunctionType) (llvm_func : LFunction) : List Expression :=
  (ftype.parameters.zip llvm_func.params).map
    (fun pa => { id := pa.2.1, type := pa.1.2, hoisted := false, constant_param := false })

/-- The first loop of `llvmCallInNewFiber`: the arguments go into the struct
`sval`, argument `i` into element `i`. -/
def fiberArguments : List Expression → Nat → Value → CG → Value × CG
  | [], _, sval, cg => (sval, cg)
  | a :: as, i, sval, cg =>
    let (val, cg) := llvmReinterpret (.value a) (llvmType a.type) (llvmType a.type) cg
    fiberArguments as (i + 1) (.insertValue sval val i) cg

/-- The expressions `builder::codegen::create(args[i]->type(), val)` that the
function run in the fiber makes of the elements of the struct it receives. -/
def fiberParams (args : List Expression) : List Expression :=
  args.map (fun a => { id := "fiber.args." ++ a.id, type := a.type, hoisted := false,
                       constant_param := false })

/-- The function `.fiber.run<name>` that `llvmCallInNewFiber` builds when the
cache has none for the target: it takes the context from the fiber, calls the
target on the elements of the struct, and stores the result where the fiber
wants it. Gives the function and the final state of its body. The fifth
argument `type::function::C` of the `llvmAddFunction` call is its `force_name`,
taken as set. -/
def fiberRunFunction (tg : Target) (coerceTo : Expression → HiltiType → Expression)
    (default_cc : CallingConvention) (f : WrappedFunction) (args : List Expression)
    (sty : LType) (result_cctored : Bool) (outer : FunctionState) :
    Except String (LFunction × FunctionState) :=
  let lfunc := llvmAddFunctionNative (".fiber.run" ++ f.llvm_name) llvmTypeVoid
    [("fiber", llvmTypePtr (some (llvmLibType "hlt.fiber"))),
     ("fiber.args", llvmTypePtr (some sty))]
  let fs := pushFunction lfunc true false default_cc outer
  let fiber := Value.argument "fiber"
  match fs.run (llvmCallC "hlt_fiber_context" [fiber] false false) with
  | .error e => .error e
  | .ok (context, fs) =>
  let fs := { fs with cg := { fs.cg with context := some context } }
  match llvmProfilerStart "fiber/inner" fs with
  | .error e => .error e
  | .ok fs =>
  match llvmDoCallUnfolded tg coerceTo (.function f.llvm_name) none f.ftype (fiberParams args)
          result_cctored none false fs with
  | .error e => .error e
  | .ok (result, fs) =>
  match llvmProfilerStop "fiber/inner" fs with
  | .error e => .error e
  | .ok fs =>
  let fs := { fs with cg := { fs.cg with context := none } }
  match ((if ! f.ftype.result.isVoid then
            match fs.run (llvmCallC "hlt_fiber_get_result_ptr" [fiber] false false) with
            | .error e => .error e
            | .ok (rptr, fs) =>
              fs.exec (llvmCreateStore result (llvmType f.ftype.result)
                (.bitcast rptr (llvmTypePtr (some (llvmType f.ftype.result))))
                (llvmTypePtr (some (llvmType f.ftype.result))))
          else .ok fs) : Except String FunctionState) with
  | .error e => .error e
  | .ok fs =>
  match popFunction (fs.emit [.retVoid]) with
  | .error e => .error e
  | .ok fs => .ok (lfunc, fs)

/-- `CodeGen::llvmCallInNewFiber(func, args, result_cctored)`. -/
def llvmCallInNewFiber (tg : Target) (coerceTo : Expression → HiltiType → Expression)
    (default_cc : CallingConvention) (f : WrappedFunction) (args : List Expression)
    (result_cctored : Bool) (fs : FunctionState) (m : GeneratedModule) :
    Except String (Option Value × FunctionState × GeneratedModule) :=
  let stypes := args.map (fun a => llvmType a.type)
  let sty := LType.struct "" (LTypes.ofList stypes)
  let (sval, cg) := fiberArguments args 0 (llvmConstNull (some sty)) fs.cg
  let fs := { fs with cg := cg }
  match ((match lookupCachedValue "fiber-func" f.llvm_name m.ms with
          | some cached => .ok (cached, m)
          | none =>
            match fiberRunFunction tg coerceTo default_cc f args sty result_cctored fs with
            | .error e => .error e
            | .ok (lfunc, inner) =>
              let m := (m.withFunction none lfunc).withBody lfunc inner
              .ok (.function lfunc.name,
                   { m with ms := cacheValue "fiber-func" f.llvm_name (.function lfunc.name) m.ms }))
          : Except String (Value × GeneratedModule)) with
  | .error e => .error e
  | .ok (lfunc, m) =>
  match llvmProfilerStart "fiber/create" fs with
  | .error e => .error e
  | .ok fs =>
  match llvmAddTmp "fiber.arg" sty (some (sval, sty)) true 0 fs.cg with
  | .error e => .error e
  | .ok (tmp, cg) =>
  let fs := { fs with cg := cg }
  let funcp := Value.bitcast lfunc (llvmTypePtr none)
  let svalp := Value.bitcast tmp (llvmTypePtr none)
  match llvmExecutionContext fs.cg with
  | .error e => .error e
  | .ok ctx =>
  match fs.run (llvmCallC "hlt_fiber_create" [funcp, ctx, svalp, ctx] false false) with
  | .error e => .error e
  | .ok (fiber, fs) =>
  match llvmProfilerStop "fiber/create" fs with
  | .error e => .error e
  | .ok fs =>
  match llvmFiberStart fiber f.ftype.result fs with
  | .error e => .error e
  | .ok (result, fs) => .ok (result, fs, m)

/-- The call of the wrapped function in the entry function of
`llvmBuildCWrapper`, between the two debug messages: directly, followed by a
safepoint, for a function that may not yield, in a new fiber otherwise. -/
def entryWrapperCall (tg : Target) (coerceTo : Expression → HiltiType → Expression)
    (default_cc : CallingConvention) (f : WrappedFunction) (params : List Expression)
    (fs : FunctionState) (m : GeneratedModule) :
    Except String (Option Value × FunctionState × GeneratedModule) :=
  if ! f.may_yield then
    match fs.exec (llvmDebugPrint "hilti-flow" ("entering entry wrapper for " ++ f.path)) with
    | .error e => .error e
    | .ok fs =>
    match llvmDoCallUnfolded tg coerceTo (.function f.llvm_name) none f.ftype params true none
            false fs with
    | .error e => .error e
    | .ok (result, fs) =>
    match fs.exec (llvmMemorySafepoint "cstub-noyield") with
    | .error e => .error e
    | .ok fs =>
    match fs.exec (llvmDebugPrint "hilti-flow" ("left entry wrapper for " ++ f.path)) with
    | .error e => .error e
    | .ok fs => .ok (some result, fs, m)
  else
    match fs.exec (llvmDebugPrint "hilti-flow" ("entering entry fiber for " ++ f.path)) with
    | .error e => .error e
    | .ok fs =>
    match llvmCallInNewFiber tg coerceTo default_cc f params true fs m with
    | .error e => .error e
    | .ok (result, fs, m) =>
    match fs.exec (llvmDebugPrint "hilti-flow" ("left entry fiber for " ++ f.path)) with
    | .error e => .error e
    | .ok fs => .ok (result, fs, m)

/-- The body `llvmBuildCWrapper` emits into the entry function, from
`llvmClearException()` to `llvmReturn(..)`. -/
def entryWrapperBody (tg : Target) (coerceTo : Expression → HiltiType → Expression)
    (default_cc : CallingConvention) (f : WrappedFunction) (llvm_func : LFunction)
    (fs : FunctionState) (m : GeneratedModule) :
    Except String (FunctionState × GeneratedModule) :=
  match fs.exec llvmClearException with
  | .error e => .error e
  | .ok fs =>
  match entryWrapperCall tg coerceTo default_cc f (wrapperParams f.ftype llvm_func) fs m with
  | .error e => .error e
  | .ok (result, fs, m) =>
  match resumeAdjustResult f.ftype.result result fs with
  | .error e => .error e
  | .ok fs =>
  match fs.run llvmCurrentException with
  | .error e => .error e
  | .ok (ctx_excpt, fs) =>
  match fs.params.reverse with
  | _ :: slot :: _ =>
    match fs.exec (llvmGCAssign (.argument slot.1) slot.2 ctx_excpt llvmTypeExceptionPtr
            fs.ref_exception_any false gcAssignDtorFirst) with
    | .error e => .error e
    | .ok fs =>
      match resumeReturn f.ftype.result result fs with
      | .error e => .error e
      | .ok fs => .ok (fs, m)
  | _ => .error "the function has no second-to-last argument"

/-- The generator state outside of any function after a function body has been
completed in `fs`: the classifications made on the way stay. -/
def afterFunction (outer fs : FunctionState) : FunctionState :=
  { outer with cg := { outer.cg with classified := fs.cg.classified } }

/-- `CodeGen::llvmBuildCWrapper(func)`: the entry function and, for a function
that may yield, the resume function. The two are cached at the end under the
variable `name`, which holds the name of the resume function by then. -/
def llvmBuildCWrapper (tg : Target) (coerceTo : Expression → HiltiType → Expression)
    (default_cc : CallingConvention) (f : WrappedFunction) (outer : FunctionState)
    (m : GeneratedModule) : Except String ((Value × Option Value) × GeneratedModule) :=
  let rf1 := lookupCachedValue "c-wrappers" ("entry-" ++ f.name) m.ms
  let rf2 := lookupCachedValue "c-wrappers" ("resume-" ++ f.name) m.ms
  match rf1 with
  | some rf1 => .ok ((rf1, rf2), m)
  | none =>
  if ! f.has_body then
    .error "llvmBuildCWrapper: not implemented for function without body; should return prototypes."
  else if f.ftype.cc != .HILTI then
    .error "assertion failed: ftype->callingConvention() == type::function::HILTI"
  else
  match llvmAddFunction tg (m.getFunction f.name) f.name (llvmType f.ftype.result)
          f.ftype.parameters .HILTI_C false outer.cg.classified with
  | .error e => .error e
  | .ok (llvm_func, classified) =>
  let m := m.withFunction (m.getFunction f.name) llvm_func
  let rf1 := Value.function llvm_func.name
  let fs := pushFunction llvm_func true false default_cc
    { outer with cg := { outer.cg with classified := classified } }
  match entryWrapperBody tg coerceTo default_cc f llvm_func fs m with
  | .error e => .error e
  | .ok (fs, m) =>
  match popFunction fs with
  | .error e => .error e
  | .ok fs =>
  let m := m.withBody llvm_func fs
  if ! f.may_yield then .ok ((rf1, none), m)
  else
  match llvmBuildCWrapperResume tg (m.getFunction f.resume_name) default_cc f.resume_name f.path
          f.ftype.result (afterFunction outer fs) with
  | .error e => .error e
  | .ok (resume_func, fs) =>
  let m := (m.withFunction (m.getFunction f.resume_name) resume_func).withBody resume_func fs
  let rf2 := Value.function resume_func.name
  let name := f.resume_name
  let ms := cacheValue "c-wrappers" ("entry-" ++ name) rf1 m.ms
  let ms := cacheValue "c-wrappers" ("resume-" ++ name) rf2 ms
  .ok ((rf1, some rf2), { m with ms := ms })

end CodeGen

namespace sample

/-- An Internal function `f() -> int<64>` with a body that may not yield. -/
def wrappedPlain : CodeGen.WrappedFunction :=
  { name := "m_f", resume_name := "m_f_resume", path := "m::f", llvm_name := "hlt.m.f",
    ftype := { result := tInt64, parameters := [], cc := .HILTI, attrRef := false,
               attrNoException := false, mayTriggerSafepoint := false },
    has_body := true, may_yield := false }

/-- The same function, one that may yield. -/
def wrappedYielding : CodeGen.WrappedFunction := { wrappedPlain with may_yield := true }

/-- A module without functions in which nothing is cached. -/
def emptyGenerated : CodeGen.GeneratedModule := { functions := [], ms := emptyModule }

/-- Two calls of `llvmBuildCWrapper` for the function `f`, the second in the
module the first leaves: the results of the two and the module at the end. -/
def wrappedTwice (f : CodeGen.WrappedFunction) :
    Except String ((Value × Option Value) × (Value × Option Value) × CodeGen.GeneratedModule) :=
  match CodeGen.llvmBuildCWrapper sysv.target keepType .HILTI f resumeGenerator emptyGenerated with
  | .error e => .error e
  | .ok (first, m) =>
    match CodeGen.llvmBuildCWrapper sysv.target keepType .HILTI f resumeGenerator m with
    | .error e => .error e
    | .ok (second, m) => .ok (first, second, m)

end sample

namespace libhilti

/-- The functions of the timer manager that `_make_node` calls, by their result
and what they leave in the exception slot: `hlt_timer_mgr_current(mgr, ..)`,
`__hlt_timer_new_list(cookie, ..)` for the node of the cookie, and
`hlt_timer_mgr_schedule(mgr, t, timer, ..)`. -/
structure TimerMgr where
  hlt_timer_mgr_current : Nat → Option ListException → Nat × Option ListException
  hlt_timer_new_list : Nat → Option ListException → Nat × Option ListException
  hlt_timer_mgr_schedule : Nat → Nat → Nat → Option ListException → Option ListException

/-- `hlt_list_new(elemtype, tmgr, excpt, ctx)`; `unset` is what `hlt_enum_unset`
gives. -/
def hlt_list_new (tmgr : Option Nat) (unset : Nat) : HltList :=
  { head := none, tail := none, size := 0, tmgr := tmgr, timeout := 0, strategy := unset }

/-- The timer `_make_node` gives the node at `n`: one scheduled at the current
time plus the timeout of the list, computed in 64 bits, when the list has a
timer manager and a timeout and that time is not zero. -/
def nodeTimer (sched : TimerMgr) (l : HltList) (n : Nat) (excpt : Option ListException) :
    Option Nat × Option ListException :=
  match (if l.timeout != 0 then l.tmgr else none) with
  | some mgr =>
    let (current, excpt) := sched.hlt_timer_mgr_current mgr excpt
    let t := (current + l.timeout) % 2 ^ 64
    if t != 0 then
      let (timer, excpt) := sched.hlt_timer_new_list n excpt
      (some timer, sched.hlt_timer_mgr_schedule mgr t timer excpt)
    else (none, excpt)
  | none => (none, excpt)

/-- `_make_node(l, val, excpt, ctx)`: the address of the new node, which is the
next free one of the heap. Modelled from the spec: `GC_NEW_CUSTOM_SIZE_REF` of
`memory.h` is not among the sources; it gives a new object with all fields
zero. -/
def _make_node (sched : TimerMgr) (h : Heap) (l : HltList) (val : Nat)
    (excpt : Option ListException) : Nat × Heap × Option ListException :=
  let n := h.length
  let (timer, excpt) := nodeTimer sched l n excpt
  (n, h ++ [{ next := none, prev := none, timer := timer, invalid := 0, data := val }], excpt)

/-- `_link(l, n, pos, ctx)`: inserts the node `n` after the node `pos`, at the
front when `pos` is null. -/
def _link (h : Heap) (l : HltList) (n : Nat) (pos : Option Nat) :
    Except String (Heap × HltList) :=
  match pos with
  | some p =>
    match h[p]? with
    | none => .error "invalid node"
    | some pnode =>
      let (h, l) := match pnode.next with
        | some nx => (setPrev h nx (some n), l)
        | none => (h, { l with tail := some n })
      let h := setNext h n pnode.next
      let h := setNext h p (some n)
      let h := setPrev h n (some p)
      .ok (h, { l with size := l.size + 1 })
  | none =>
    let h := setNext h n l.head
    let (h, l) := match l.head with
      | some hd => (setPrev h hd (some n), l)
      | none => (h, { l with tail := some n })
    let l := { l with head := some n }
    .ok (h, { l with size := l.size + 1 })

/-- `hlt_list_push_front(l, type, val, excpt, ctx)`; `type_equal` is
`__hlt_type_equal(l->type, type)`. The node `_make_node` returns is not null: it
has been written to. -/
def hlt_list_push_front (sched : TimerMgr) (h : Heap) (l : HltList) (type_equal : Bool)
    (val : Nat) (excpt : Option ListException) :
    Except String (Heap × HltList × Option ListException) :=
  if ! type_equal then .error "assertion failed: __hlt_type_equal(l->type, type)"
  else
    let (n, h, excpt) := _make_node sched h l val excpt
    match _link h l n none with
    | .error e => .error e
    | .ok (h, l) => .ok (h, l, excpt)

/-- `hlt_list_push_back(l, type, val, excpt, ctx)`. -/
def hlt_list_push_back (sched : TimerMgr) (h : Heap) (l : HltList) (type_equal : Bool)
    (val : Nat) (excpt : Option ListException) :
    Except String (Heap × HltList × Option ListException) :=
  if ! type_equal then .error "assertion failed: __hlt_type_equal(l->type, type)"
  else
    let (n, h, excpt) := _make_node sched h l val excpt
    match _link h l n l.tail with
    | .error e => .error e
    | .ok (h, l) => .ok (h, l, excpt)

/-- The loop of `hlt_list_append` from the node `n` on, `fuel` bounding the
number of rounds: nothing is returned when the loop is still running after
them. -/
def appendLoop (sched : TimerMgr) (type_equal : Bool) :
    Nat → Heap → HltList → Option Nat → Option ListException →
    Option (Except String (Heap × HltList × Option ListException))
  | _, h, l1, none, excpt => some (.ok (h, l1, excpt))
  | 0, _, _, some _, _ => none
  | fuel + 1, h, l1, some n, excpt =>
    match h[n]? with
    | none => some (.error "invalid node")
    | some node =>
      match hlt_list_push_back sched h l1 type_equal node.data excpt with
      | .error e => some (.error e)
      | .ok (h, l1, excpt) =>
        match h[n]? with
        | none => some (.error "invalid node")
        | some node => appendLoop sched type_equal fuel h l1 node.next excpt

/-- `hlt_list_append(l1, l2, excpt, ctx)`, run for at most `fuel` rounds of its
loop; `type_equal` is `__hlt_type_equal(l1->type, l2->type)`. Gives the heap and
`l1` afterwards; when `l2` is the list `l1`, that is the list afterwards. -/
def hlt_list_append (sched : TimerMgr) (fuel : Nat) (h : Heap) (l1 l2 : HltList)
    (type_equal : Bool) (excpt : Option ListException) :
    Option (Except String (Heap × HltList × Option ListException)) :=
  if ! type_equal then some (.error "assertion failed: __hlt_type_equal(l1->type, l2->type)")
  else appendLoop sched type_equal fuel h l1 l2.head excpt

/-- `hlt_iterator_list`: the list, given as it is when the iterator is used, and
the node. -/
structure ListIterator where
  list : Option HltList
  node : Option Nat
  deriving DecidableEq, Repr

/-- `_invalid_node(n)`. -/
def _invalid_node (h : Heap) (n : Nat) : Except String Bool :=
  match h[n]? with
  | none => .error "invalid node"
  | some node => .ok (node.invalid != 0)

/-- The test `(i.node && _invalid_node(i.node)) || ! i.list`. -/
def iteratorInvalid (h : Heap) (i : ListIterator) : Except String Bool :=
  match i.node with
  | some n =>
    match _invalid_node h n with
    | .error e => .error e
    | .ok invalid => .ok (invalid || i.list.isNone)
  | none => .ok i.list.isNone

/-- `hlt_list_erase(i, excpt, ctx)`: the heap, the list of the iterator and the
exception slot afterwards. -/
def hlt_list_erase (tm : Timers) (h : Heap) (i : ListIterator) (excpt : Option ListException) :
    Except String (Heap × Option HltList × Option ListException) :=
  match iteratorInvalid h i with
  | .error e => .error e
  | .ok true => .ok (h, i.list, hlt_set_exception excpt .InvalidIterator)
  | .ok false =>
    match i.node, i.list with
    | none, _ => .ok (h, i.list, hlt_set_exception excpt .InvalidIterator)
    | some _, none => .error "no list"
    | some n, some l =>
      match _unlink tm h l n excpt true with
      | .error e => .error e
      | .ok (h, l, excpt) => .ok (h, some l, excpt)

/-- `hlt_list_insert(type, val, i, excpt, ctx)`; `type_equal` is
`__hlt_type_equal(i.list->type, type)`. -/
def hlt_list_insert (sched : TimerMgr) (h : Heap) (type_equal : Bool) (val : Nat)
    (i : ListIterator) (excpt : Option ListException) :
    Except String (Heap × Option HltList × Option ListException) :=
  match iteratorInvalid h i with
  | .error e => .error e
  | .ok true => .ok (h, i.list, hlt_set_exception excpt .InvalidIterator)
  | .ok false =>
    match i.list with
    | none => .error "no list"
    | some l =>
      if ! type_equal then .error "assertion failed: __hlt_type_equal(i.list->type, type)"
      else
        let (n, h, excpt) := _make_node sched h l val excpt
        match i.node with
        | none =>
          match _link h l n l.tail with
          | .error e => .error e
          | .ok (h, l) => .ok (h, some l, excpt)
        | some x =>
          match h[x]? with
          | none => .error "invalid node"
          | some xnode =>
            match _link h l n xnode.prev with
            | .error e => .error e
            | .ok (h, l) => .ok (h, some l, excpt)

/-- `hlt_iterator_list_incr(i, excpt, ctx)`. -/
def hlt_iterator_list_incr (h : Heap) (i : ListIterator) (excpt : Option ListException) :
    Except String (ListIterator × Option ListException) :=
  match iteratorInvalid h i with
  | .error e => .error e
  | .ok true => .ok (i, hlt_set_exception excpt .InvalidIterator)
  | .ok false =>
    match i.node with
    | none => .ok (i, excpt)
    | some n =>
      match h[n]? with
      | none => .error "invalid node"
      | some node => .ok ({ list := i.list, node := node.next }, excpt)

/-- `hlt_iterator_list_deref(i, excpt, ctx)`: the result points to the data of a
node, given by the node's address, or is null. -/
def hlt_iterator_list_deref (tm : Timers) (h : Heap) (i : ListIterator)
    (excpt : Option ListException) : Except String (Option Nat × Option ListException) :=
  match i.list, i.node with
  | none, _ => .ok (none, hlt_set_exception excpt .InvalidIterator)
  | some _, none => .ok (none, hlt_set_exception excpt .InvalidIterator)
  | some l, some n =>
    match _invalid_node h n with
    | .error e => .error e
    | .ok true => .ok (none, hlt_set_exception excpt .InvalidIterator)
    | .ok false => .ok (some n, _access tm h l n excpt)

/-- The nodes at the addresses `ps` are linked in this order, the first one
after `prev`, the last one before `next`. -/
def Seg (h : Heap) : Option Nat → List Nat → Option Nat → Prop
  | _, [], _ => True
  | prev, p :: ps, next =>
    ∃ n, h[p]? = some n ∧ n.prev = prev ∧ n.next = (ps.head?).or next ∧ Seg h (some p) ps next

/-- A list that is well-formed: its nodes are linked in order from `head` to
`tail`, `size` is their number, and none of them is marked invalid. -/
structure WellFormedList (h : Heap) (l : HltList) (ps : List Nat) : Prop where
  isList : IsList h l ps
  valid : ∀ p ∈ ps, ∀ n, h[p]? = some n → n.invalid = 0

/-- What the node at `q` carries besides its links: data, the mark `invalid` and
the timer. -/
def payloadAt (h : Heap) (q : Nat) : Option (Nat × Int × Option Nat) :=
  (h[q]?).map (fun n => (n.data, n.invalid, n.timer))

/-- The data of the nodes at `ps`, in order. -/
def contents (h : Heap) (ps : List Nat) : List (Option Nat) := ps.map (dataAt h)

/-- Timer-manager functions for the sample lists. -/
def sampleTimerMgr : TimerMgr :=
  { hlt_timer_mgr_current := fun _ e => (0, e),
    hlt_timer_new_list := fun n e => (n, e),
    hlt_timer_mgr_schedule := fun _ _ _ e => e }

/-- The node at `q` is marked invalid. -/
def Marked (h : Heap) (q : Nat) : Prop := ∃ node, h[q]? = some node ∧ node.invalid ≠ 0

/-- A call of one of the functions that change a list, with an element of the
type of the list; the iterator of `insert` and `erase` is given by its node,
and `expire` is `hlt_list_expire` for the cookie of a node. -/
inductive ListCall where
  | push_front (val : Nat)
  | push_back (val : Nat)
  | pop_front
  | pop_back
  | insert (val : Nat) (node : Option Nat)
  | erase (node : Option Nat)
  | expire (node : Nat)
  deriving DecidableEq, Repr

/-- The list of an iterator after a call through it. -/
def iteratorList : Except String (Heap × Option HltList × Option ListException) →
    Except String (Heap × HltList × Option ListException)
  | .ok (h, some l, excpt) => .ok (h, l, excpt)
  | .ok (_, none, _) => .error "no list"
  | .error e => .error e

/-- A call on the list `l`. -/
def ListCall.run (sched : TimerMgr) (tm : Timers) (h : Heap) (l : HltList)
    (excpt : Option ListException) :
    ListCall → Except String (Heap × HltList × Option ListException)
  | .push_front val => hlt_list_push_front sched h l true val excpt
  | .push_back val => hlt_list_push_back sched h l true val excpt
  | .pop_front => hlt_list_pop_front tm h l excpt
  | .pop_back => hlt_list_pop_back tm h l excpt
  | .insert val node => iteratorList (hlt_list_insert sched h true val ⟨some l, node⟩ excpt)
  | .erase node => iteratorList (hlt_list_erase tm h ⟨some l, node⟩ excpt)
  | .expire node =>
    match _unlink tm h l node none false with
    | .ok (h, l, _) => .ok (h, l, excpt)
    | .error e => .error e

/-- Calls on the list `l`, one after the other. -/
def runCalls (sched : TimerMgr) (tm : Timers) :
    List ListCall → Heap → HltList → Option ListException →
    Except String (Heap × HltList × Option ListException)
  | [], h, l, excpt => .ok (h, l, excpt)
  | c :: cs, h, l, excpt =>
    match c.run sched tm h l excpt with
    | .ok (h, l, excpt) => runCalls sched tm cs h l excpt
    | .error e => .error e

end libhilti

namespace pqueue

/-- The fields of `hlt_timer` that `pqueue.c` reads and writes. Modelled from the
spec: the struct is declared in `timer.h`, which is not among the sources. -/
structure hlt_timer where
  time : Nat
  queue_pos : Nat
  deriving DecidableEq, Repr

/-- The timers allocated, by address. -/
abbrev Memory := List hlt_timer

/-- `priority_queue_t`, with the array `d` given by its cells; a cell holds the
address of a timer. Modelled from the spec: the struct is declared in
`pqueue.h`, which is not among the sources; its fields are those `pqueue.c`
uses. -/
structure priority_queue_t where
  size : Nat
  avail : Nat
  step : Nat
  d : List Nat
  deriving DecidableEq, Repr

/-- `getpri(a)`. -/
def getpri (mem : Memory) (a : Nat) : Except String Nat :=
  match mem[a]? with
  | some t => .ok t.time
  | none => .error "invalid timer"

/-- `setpri(a, pri)`. -/
def setpri (mem : Memory) (a : Nat) (pri : Nat) : Except String Memory :=
  match mem[a]? with
  | some t => .ok (mem.set a { t with time := pri })
  | none => .error "invalid timer"

/-- `cmppri(next, curr)`. -/
def cmppri (next curr : Nat) : Bool := decide (next > curr)

/-- `getpos(a)`. -/
def getpos (mem : Memory) (a : Nat) : Except String Nat :=
  match mem[a]? with
  | some t => .ok t.queue_pos
  | none => .error "invalid timer"

/-- `setpos(a, pos)`. -/
def setpos (mem : Memory) (a : Nat) (pos : Nat) : Except String Memory :=
  match mem[a]? with
  | some t => .ok (mem.set a { t with queue_pos := pos })
  | none => .error "invalid timer"

/-- `left(i)` for a `size_t`. -/
def left (i : Nat) : Nat := (i <<< 1) % 2 ^ 64

/-- `right(i)` for a `size_t`. -/
def right (i : Nat) : Nat := ((i <<< 1) % 2 ^ 64 + 1) % 2 ^ 64

/-- `parent(i)`. -/
def parent (i : Nat) : Nat := i >>> 1

/-- Reads `q->d[i]`. -/
def cell (q : priority_queue_t) (i : Nat) : Except String Nat :=
  match q.d[i]? with
  | some a => .ok a
  | none => .error "index out of range"

/-- Writes `q->d[i]`. -/
def setCell (q : priority_queue_t) (i : Nat) (a : Nat) : Except String priority_queue_t :=
  if i < q.d.length then .ok { q with d := q.d.set i a } else .error "index out of range"

/-- Modelled from the spec: `hlt_malloc` and `hlt_realloc_no_init` of
`memory_.h` are not among the sources. An array of `bytes` bytes has a cell for
each `sizeof(void *)`, which is 8; the cells of the array `d` that fit are kept,
and new cells hold 0, which is never read before it is written. -/
def allocCells (d : List Nat) (bytes : Nat) : List Nat :=
  (d ++ List.replicate (bytes / 8) 0).take (bytes / 8)

/-- `sizeof(void *)`. -/
def sizeofPtr : Nat := 8

/-- `priority_queue_init(n)`; `alloc` says whether the allocations succeed. -/
def priority_queue_init (alloc : Bool) (n : Nat) : Option priority_queue_t :=
  if ! alloc then none
  else
    let n1 := (n + 1) % 2 ^ 64
    some { size := 1, avail := n1, step := n1, d := allocCells [] ((n1 * sizeofPtr) % 2 ^ 64) }

/-- `priority_queue_size(q)`. -/
def priority_queue_size (q : priority_queue_t) : Nat := (q.size + 2 ^ 64 - 1) % 2 ^ 64

/-- The loop of `bubble_up`; `fuel` bounds the number of rounds. Gives the
memory, the queue and `i` after the loop. -/
def bubble_up_loop (moving_pri : Nat) :
    Nat → Memory → priority_queue_t → Nat → Except String (Memory × priority_queue_t × Nat)
  | fuel, mem, q, i =>
    if i > 1 then
      let parent_node := parent i
      match cell q parent_node with
      | .error e => .error e
      | .ok p =>
        match getpri mem p with
        | .error e => .error e
        | .ok pri =>
          if cmppri pri moving_pri then
            match fuel with
            | 0 => .error "out of fuel"
            | fuel + 1 =>
              match setCell q i p with
              | .error e => .error e
              | .ok q =>
                match setpos mem p i with
                | .error e => .error e
                | .ok mem => bubble_up_loop moving_pri fuel mem q parent_node
          else .ok (mem, q, i)
    else .ok (mem, q, i)

/-- `bubble_up(q, i)`. The loop halves `i` in each round, so `i` rounds are
enough. -/
def bubble_up (mem : Memory) (q : priority_queue_t) (i : Nat) :
    Except String (Memory × priority_queue_t) :=
  match cell q i with
  | .error e => .error e
  | .ok moving_node =>
    match getpri mem moving_node with
    | .error e => .error e
    | .ok moving_pri =>
      match bubble_up_loop moving_pri i mem q i with
      | .error e => .error e
      | .ok (mem, q, i) =>
        match setCell q i moving_node with
        | .error e => .error e
        | .ok q =>
          match setpos mem moving_node i with
          | .error e => .error e
          | .ok mem => .ok (mem, q)

/-- `maxchild(q, i)`. -/
def maxchild (mem : Memory) (q : priority_queue_t) (i : Nat) : Except String Nat :=
  let child_node := left i
  if child_node ≥ q.size then .ok 0
  else if (child_node + 1) % 2 ^ 64 < q.size then
    match cell q child_node with
    | .error e => .error e
    | .ok a =>
      match getpri mem a with
      | .error e => .error e
      | .ok pa =>
        match cell q ((child_node + 1) % 2 ^ 64) with
        | .error e => .error e
        | .ok b =>
          match getpri mem b with
          | .error e => .error e
          | .ok pb => .ok (if cmppri pa pb then (child_node + 1) % 2 ^ 64 else child_node)
  else .ok child_node

/-- The loop of `percolate_down`; `fuel` bounds the number of rounds. -/
def percolate_down_loop (moving_pri : Nat) :
    Nat → Memory → priority_queue_t → Nat → Except String (Memory × priority_queue_t × Nat)
  | fuel, mem, q, i =>
    match maxchild mem q i with
    | .error e => .error e
    | .ok child_node =>
      if child_node != 0 then
        match cell q child_node with
        | .error e => .error e
        | .ok c =>
          match getpri mem c with
          | .error e => .error e
          | .ok pri =>
            if cmppri moving_pri pri then
              match fuel with
              | 0 => .error "out of fuel"
              | fuel + 1 =>
                match setCell q i c with
                | .error e => .error e
                | .ok q =>
                  match setpos mem c i with
                  | .error e => .error e
                  | .ok mem => percolate_down_loop moving_pri fuel mem q child_node
            else .ok (mem, q, i)
      else .ok (mem, q, i)

/-- `percolate_down(q, i)`. The loop moves `i` to a child below `q->size` in
each round, so `q->size` rounds are enough. -/
def percolate_down (mem : Memory) (q : priority_queue_t) (i : Nat) :
    Except String (Memory × priority_queue_t) :=
  match cell q i with
  | .error e => .error e
  | .ok moving_node =>
    match getpri mem moving_node with
    | .error e => .error e
    | .ok moving_pri =>
      match percolate_down_loop moving_pri q.size mem q i with
      | .error e => .error e
      | .ok (mem, q, i) =>
        match setCell q i moving_node with
        | .error e => .error e
        | .ok q =>
          match setpos mem moving_node i with
          | .error e => .error e
          | .ok mem => .ok (mem, q)

/-- The first step of `priority_queue_insert`, which allocates more memory if
necessary: the queue with room for one more timer, or nothing when the
allocation fails. -/
def grow (alloc : Bool) (q : priority_queue_t) : Option priority_queue_t :=
  if q.size ≥ q.avail then
    let newsize := (q.size + q.step) % 2 ^ 64
    if ! alloc then none
    else some { q with d := allocCells q.d ((sizeofPtr * newsize) % 2 ^ 64), avail := newsize }
  else some q

/-- `priority_queue_insert(q, d)`; `alloc` says whether an allocation
succeeds. Gives the memory, the queue and the value returned. -/
def priority_queue_insert (alloc : Bool) (mem : Memory) (q : Option priority_queue_t)
    (d : Nat) : Except String (Memory × Option priority_queue_t × Int) :=
  match q with
  | none => .ok (mem, none, 1)
  | some q =>
    match grow alloc q with
    | none => .ok (mem, some q, 1)
    | some q =>
      let i := q.size
      let q := { q with size := (q.size + 1) % 2 ^ 64 }
      match setCell q i d with
      | .error e => .error e
      | .ok q =>
        match bubble_up mem q i with
        | .error e => .error e
        | .ok (mem, q) => .ok (mem, some q, 0)

/-- `priority_queue_change_priority(q, new_pri, d)`. -/
def priority_queue_change_priority (mem : Memory) (q : priority_queue_t) (new_pri : Nat)
    (d : Nat) : Except String (Memory × priority_queue_t) :=
  match getpri mem d with
  | .error e => .error e
  | .ok old_pri =>
    match setpri mem d new_pri with
    | .error e => .error e
    | .ok mem =>
      match getpos mem d with
      | .error e => .error e
      | .ok posn =>
        if cmppri old_pri new_pri then bubble_up mem q posn else percolate_down mem q posn

/-- `priority_queue_remove(q, d)`. -/
def priority_queue_remove (mem : Memory) (q : priority_queue_t) (d : Nat) :
    Except String (Memory × priority_queue_t × Int) :=
  match getpos mem d with
  | .error e => .error e
  | .ok posn =>
    let q := { q with size := (q.size + 2 ^ 64 - 1) % 2 ^ 64 }
    match cell q q.size with
    | .error e => .error e
    | .ok last =>
      match setCell q posn last with
      | .error e => .error e
      | .ok q =>
        match getpri mem d with
        | .error e => .error e
        | .ok pd =>
          match cell q posn with
          | .error e => .error e
          | .ok a =>
            match getpri mem a with
            | .error e => .error e
            | .ok pa =>
              match (if cmppri pd pa then bubble_up mem q posn else percolate_down mem q posn) with
              | .error e => .error e
              | .ok (mem, q) => .ok (mem, q, 0)

/-- `priority_queue_pop(q)`: the memory, the queue and the pointer returned. -/
def priority_queue_pop (mem : Memory) (q : Option priority_queue_t) :
    Except String (Memory × Option priority_queue_t × Option Nat) :=
  match q with
  | none => .ok (mem, none, none)
  | some q =>
    if q.size = 1 then .ok (mem, some q, none)
    else
      match cell q 1 with
      | .error e => .error e
      | .ok head =>
        let q := { q with size := (q.size + 2 ^ 64 - 1) % 2 ^ 64 }
        match cell q q.size with
        | .error e => .error e
        | .ok last =>
          match setCell q 1 last with
          | .error e => .error e
          | .ok q =>
            match percolate_down mem q 1 with
            | .error e => .error e
            | .ok (mem, q) => .ok (mem, some q, some head)

/-- `priority_queue_peek(q)`. -/
def priority_queue_peek (q : Option priority_queue_t) : Except String (Option Nat) :=
  match q with
  | none => .ok none
  | some q =>
    if q.size = 1 then .ok none
    else
      match cell q 1 with
      | .error e => .error e
      | .ok d => .ok (some d)

/-- `left(pos)` and `right(pos)` for an `int`: the result when it is in the
range of `int`. -/
def intChild (pos : Nat) (add : Nat) : Except String Nat :=
  if (pos <<< 1) + add < 2 ^ 31 then .ok ((pos <<< 1) + add) else .error "signed overflow"

/-- The test of one child in `subtree_is_valid`: the child is at or past
`q->size`, or it does not rank before its parent and `below` holds for it. -/
def childIsValid (mem : Memory) (q : priority_queue_t) (pos child : Nat)
    (below : Nat → Except String Bool) : Except String Bool :=
  if child < q.size then
    match cell q pos with
    | .error e => .error e
    | .ok a =>
      match getpri mem a with
      | .error e => .error e
      | .ok pa =>
        match cell q child with
        | .error e => .error e
        | .ok c =>
          match getpri mem c with
          | .error e => .error e
          | .ok pc => if cmppri pa pc then .ok false else below child
  else .ok true

/-- `subtree_is_valid(q, pos)`; `fuel` bounds the depth of the recursion. -/
def subtree_is_valid (mem : Memory) (q : priority_queue_t) : Nat → Nat → Except String Bool
  | 0, _ => .error "out of fuel"
  | fuel + 1, pos =>
    match intChild pos 0 with
    | .error e => .error e
    | .ok l =>
      match childIsValid mem q pos l (subtree_is_valid mem q fuel) with
      | .error e => .error e
      | .ok false => .ok false
      | .ok true =>
        match intChild pos 1 with
        | .error e => .error e
        | .ok r => childIsValid mem q pos r (subtree_is_valid mem q fuel)

/-- `priority_queue_is_valid(q)`. A child is further on in the array than its
parent, so the recursion is not deeper than `q->size`. -/
def priority_queue_is_valid (mem : Memory) (q : priority_queue_t) : Except String Bool :=
  subtree_is_valid mem q q.size 1

/-- Calls `priority_queue_pop` until it returns null, for at most `fuel` calls:
the pointers returned, in order; nothing when the queue is not empty after
them. -/
def popAll : Nat → Memory → priority_queue_t →
    Option (Except String (Memory × priority_queue_t × List Nat))
  | fuel, mem, q =>
    match priority_queue_pop mem (some q) with
    | .error e => some (.error e)
    | .ok (_, none, _) => some (.error "no queue")
    | .ok (mem, some q, none) => some (.ok (mem, q, []))
    | .ok (mem, some q, some a) =>
      match fuel with
      | 0 => none
      | fuel + 1 =>
        match popAll fuel mem q with
        | some (.ok (mem, q, rest)) => some (.ok (mem, q, a :: rest))
        | r => r

/-- The time of the timer at `a`. -/
def timeAt (mem : Memory) (a : Nat) : Nat :=
  match mem[a]? with
  | some t => t.time
  | none => 0

/-- The time of the timer in the cell `j` of the array `d`. -/
def keyAt (mem : Memory) (d : List Nat) (j : Nat) : Nat :=
  match d[j]? with
  | some a => timeAt mem a
  | none => 0

/-- Heap order of the keys `k` at the indices from 1 to below `size`: no key is
less than the key at half the index. -/
def HeapOrder (k : Nat → Nat) (size : Nat) : Prop :=
  ∀ j, 2 ≤ j → j < size → k (j / 2) ≤ k j

/-- Heap order but for the key at `i`, which may be less than the key above it. -/
def UpOrder (k : Nat → Nat) (size i : Nat) : Prop :=
  (∀ j, 2 ≤ j → j < size → j ≠ i → k (j / 2) ≤ k j) ∧
  (∀ c, 2 ≤ i → c < size → c / 2 = i → k (i / 2) ≤ k c)

/-- Heap order but for the key at `i`, which may be greater than the keys below
it. -/
def DownOrder (k : Nat → Nat) (size i : Nat) : Prop :=
  (∀ j, 2 ≤ j → j < size → j / 2 ≠ i → k (j / 2) ≤ k j) ∧
  (∀ c, 2 ≤ i → c < size → c / 2 = i → k (i / 2) ≤ k c)

/-- The keys `k` with those at `i` and `c` exchanged. -/
def swapKeys (k : Nat → Nat) (i c : Nat) (j : Nat) : Nat :=
  if j = i then k c else if j = c then k i else k j

/-- The cells from 1 to below `size` of the array `d`, but for the cell `i`,
hold timers that know their index, none of them the timer `m`. -/
structure Hole (mem : Memory) (d : List Nat) (size i m : Nat) : Prop where
  timer : ∃ t, mem[m]? = some t
  placed : ∀ j, 1 ≤ j → j < size → j ≠ i →
    ∃ a t, d[j]? = some a ∧ mem[a]? = some t ∧ t.queue_pos = j ∧ a ≠ m

/-- The cells from 1 to below `size` of the array `d` hold timers that know
their index. -/
def Placed (mem : Memory) (d : List Nat) (size : Nat) : Prop :=
  ∀ j, 1 ≤ j → j < size → ∃ a t, d[j]? = some a ∧ mem[a]? = some t ∧ t.queue_pos = j

/-- The timer `a` is in one of the cells from 1 to below `size` of the array `d`. -/
def Holds (d : List Nat) (size a : Nat) : Prop := ∃ j, 1 ≤ j ∧ j < size ∧ d[j]? = some a

/-- A priority queue that is well-formed: it is in heap order as
`priority_queue_is_valid` checks it, and every timer in it knows its index. The
array has `avail` cells, of which those below `size` are in use, and grows in
steps of at least one cell. -/
structure WellFormedQueue (mem : Memory) (q : priority_queue_t) : Prop where
  size_pos : 1 ≤ q.size
  size_le : q.size ≤ q.avail
  cells : q.avail = q.d.length
  step_pos : 1 ≤ q.step
  placed : Placed mem q.d q.size
  valid : priority_queue_is_valid mem q = .ok true

/-- The timers in the queue, in the order of the array. -/
def stored (q : priority_queue_t) : List Nat := (q.d.take q.size).drop 1

/-- Three timers: those at 0 and 1 are in the sample queue, the one at 2 is
not. -/
def sampleMemory : Memory :=
  [{ time := 3, queue_pos := 1 }, { time := 8, queue_pos := 2 }, { time := 5, queue_pos := 0 }]

/-- A queue with the timers at 0 and 1 and room for one more. -/
def sampleQueue : priority_queue_t :=
  { size := 3, avail := 4, step := 4, d := [0, 0, 1, 0] }

end pqueue

namespace CodeGen

/-- The native argument `v` is what a call passes for the native parameter `np`,
`pairs` being the declared parameters with their argument expressions: the value
of the argument coerced to the type of its parameter, the type information that
goes before it, the pointer to the temporary that holds it, the exception slot,
the execution context, or the receiver of the result of a hook. -/
inductive Fits (coerceTo : Expression → HiltiType → Expression)
    (pairs : List (Parameter × Expression)) (ctx : Value) (excpt hook_result : Option Value) :
    NativeParam → Value → Prop
  | value (p : Parameter) (a : Expression) (cctor : Option Bool) (h : (p, a) ∈ pairs) :
    Fits coerceTo pairs ctx excpt hook_result (p.1, llvmType p.2)
      (.expr (coerceTo a p.2) p.2 cctor)
  | typeInfo (p : Parameter) (a : Expression) (render : String) (h : (p, a) ∈ pairs) :
    Fits coerceTo pairs ctx excpt hook_result ("ti_" ++ p.1, llvmTypePtr (some llvmTypeRtti))
      (.rtti render)
  | pointer (p : Parameter) (a : Expression) (ty : LType) (h : (p, a) ∈ pairs) :
    Fits coerceTo pairs ctx excpt hook_result (p.1, llvmTypePtr none)
      (.bitcast (.tmp "__tmp_arg" ty (.expr (coerceTo a p.2) p.2 none)) (llvmTypePtr none))
  | exception (e : Value) (h : excpt = some e) :
    Fits coerceTo pairs ctx excpt hook_result exceptionParam e
  | context : Fits coerceTo pairs ctx excpt hook_result contextParam ctx
  | receiver (r : Value) (t : LType) (h : hook_result = some r) :
    Fits coerceTo pairs ctx excpt hook_result ("__rval", llvmTypePtr (some t)) r

end CodeGen

namespace CodeGen

end CodeGen

/-! ## Properties of the calling-convention adapter -/

namespace CodeGen

theorem adaptParameters_acc (cc : CallingConvention) (ps : List Parameter)
    (acc : List NativeParam) :
    adaptParameters cc ps acc =
      match adaptParameters cc ps [] with
      | .ok vs => .ok (acc ++ vs)
      | .error e => .error e := by
  induction ps generalizing acc with
  | nil => simp [adaptParameters]
  | cons p ps ih =>
    simp only [adaptParameters]
    cases h : adaptParameter cc p with
    | error e => simp
    | ok pushed =>
      simp only [List.nil_append]
      rw [ih (acc ++ pushed), ih pushed]
      cases adaptParameters cc ps [] with
      | error e => simp
      | ok vs => simp [List.append_assoc]

theorem adaptParameters_inline (cc : CallingConvention) (ps : List Parameter)
    (h : ∀ p : Parameter, adaptParameter cc p = .ok [(p.1, llvmType p.2)]) :
    adaptParameters cc ps [] = .ok (ps.map (fun p => (p.1, llvmType p.2))) := by
  induction ps with
  | nil => simp [adaptParameters]
  | cons p ps ih =>
    simp only [adaptParameters, h p, List.nil_append]
    rw [adaptParameters_acc, ih]
    simp

theorem adaptParameters_HILTI_C_ok (ps : List Parameter) :
    ∃ vs, adaptParameters .HILTI_C ps [] = .ok vs := by
  induction ps with
  | nil => exact ⟨[], by simp [adaptParameters]⟩
  | cons p ps ih =>
    obtain ⟨vs, hvs⟩ := ih
    have hp : ∃ pushed, adaptParameter .HILTI_C p = .ok pushed := by
      unfold adaptParameter
      simp only
      split_ifs <;> exact ⟨_, rfl⟩
    obtain ⟨pushed, hpushed⟩ := hp
    refine ⟨pushed ++ vs, ?_⟩
    simp only [adaptParameters, hpushed, List.nil_append]
    rw [adaptParameters_acc, hvs]

/-- C1 (as amended): under BoundaryC (`HILTI_C`), for every return type and every
visible parameter list, the native parameter list is the adapted visible
parameters followed by exactly the exception-slot pointer and then the
execution-context pointer when `skip_ctx` is false (so for every function type
adapted through the one-argument overload), and followed by the exception-slot
pointer alone when `skip_ctx` is true. -/
theorem boundaryC_trailing_parameters (rtype : LType) (params : List Parameter) :
    ∃ visible,
      adaptParameters .HILTI_C params [] = .ok visible ∧
      llvmAdaptFunctionArgs rtype params .HILTI_C false
        = .ok (rtype, visible ++ [exceptionParam, contextParam]) ∧
      llvmAdaptFunctionArgs rtype params .HILTI_C true
        = .ok (rtype, visible ++ [exceptionParam]) := by
  obtain ⟨vs, hvs⟩ := adaptParameters_HILTI_C_ok params
  refine ⟨vs, hvs, ?_, ?_⟩
  · simp [llvmAdaptFunctionArgs, adaptReturnType, hvs, hiddenParameters, exceptionParam,
      contextParam]
  · simp [llvmAdaptFunctionArgs, adaptReturnType, hvs, hiddenParameters, exceptionParam]

/-- C1 (counterexample): with `skip_ctx` set, the BoundaryC signature of a
function without visible parameters is the exception slot alone, so it does not
end with the pair exception slot, execution context. -/
theorem boundaryC_skip_ctx_counterexample :
    llvmAdaptFunctionArgs .void [] .HILTI_C true = .ok (.void, [exceptionParam]) ∧
    ¬ ∃ front, [exceptionParam] = front ++ [exceptionParam, contextParam] := by
  refine ⟨by decide, ?_⟩
  rintro ⟨front, h⟩
  have := congrArg List.length h
  simp at this

/-- C2: for the Hook convention with native result type `R` and visible
parameters `P`, the adapter returns the 1-bit integer as return type and the
parameters of `P` in declaration order, then the execution context, then a
pointer-to-`R` receiver named `__rval` exactly when `R` is not void. -/
theorem hook_signature (R : LType) (P : List Parameter) (skip_ctx : Bool) :
    llvmAdaptFunctionArgs R P .HOOK skip_ctx
      = .ok (llvmTypeInt 1,
             P.map (fun p => (p.1, llvmType p.2)) ++ [contextParam]
               ++ (if R.isVoidTy then [] else [("__rval", llvmTypePtr (some R))])) := by
  have h := adaptParameters_inline .HOOK P (fun p => rfl)
  cases hR : R.isVoidTy <;>
    simp [llvmAdaptFunctionArgs, adaptReturnType, h, hiddenParameters, contextParam, hR]

/-- C3: for the Internal (`HILTI`) and Callable conventions the adapter returns
the declared return type unchanged and the visible parameters in order followed
by exactly one hidden parameter, the execution context; for PlainC (`C`) it
returns the declared return type and the visible parameters in order and
nothing else. -/
theorem internal_callable_plainC_signature (rtype : LType) (params : List Parameter)
    (skip_ctx : Bool) :
    llvmAdaptFunctionArgs rtype params .HILTI skip_ctx
      = .ok (rtype, params.map (fun p => (p.1, llvmType p.2)) ++ [contextParam]) ∧
    llvmAdaptFunctionArgs rtype params .CALLABLE skip_ctx
      = .ok (rtype, params.map (fun p => (p.1, llvmType p.2)) ++ [contextParam]) ∧
    llvmAdaptFunctionArgs rtype params .C skip_ctx
      = .ok (rtype, params.map (fun p => (p.1, llvmType p.2))) := by
  have h1 := adaptParameters_inline .HILTI params (fun p => rfl)
  have h2 := adaptParameters_inline .CALLABLE params (fun p => rfl)
  have h3 := adaptParameters_inline .C params (fun p => rfl)
  refine ⟨?_, ?_, ?_⟩ <;>
    simp [llvmAdaptFunctionArgs, adaptReturnType, h1, h2, h3, hiddenParameters, contextParam]

end CodeGen

/-! ## Properties of the ABI classifier -/

namespace abi

theorem getCIFArgs_length : ∀ (ts : List LType) (fs : List FfiType),
    getCIFArgs ts = .ok fs → fs.length = ts.length := by
  intro ts
  induction ts with
  | nil => intro fs h; simp [getCIFArgs] at h; subst h; rfl
  | cons t ts ih =>
    intro fs h
    simp only [getCIFArgs] at h
    cases h1 : _llvmToCif t with
    | error e => simp [h1] at h
    | ok f =>
      cases h2 : getCIFArgs ts with
      | error e => simp [h1, h2] at h
      | ok fs' =>
        simp [h1, h2] at h
        subst h
        simp [ih fs' h2]

namespace X86_64

theorem classifyStep_spec (tg : Target) (a : NativeParam) (f : FfiType)
    (s s' : ClassifyState) (h : classifyStep tg a f s = .ok s') :
    s'.args_in_mem = s.args_in_mem ++ [(tg.ffi64_examine_argument f).classes.length == 0] ∧
    s'.arg_types = s.arg_types ++ [a.2] := by
  unfold classifyStep at h
  simp only at h
  by_cases hn : ((tg.ffi64_examine_argument f).classes.length == 0) = true
  · rw [if_pos hn] at h
    cases h
    simp [hn]
  · rw [if_neg hn] at h
    cases hc : countRegisters (tg.ffi64_examine_argument f).classes (s.gprcount, s.ssecount) with
    | error e => simp [hc] at h
    | ok c =>
      obtain ⟨g, x⟩ := c
      simp only [hc] at h
      cases h
      simp only [Bool.not_eq_true] at hn
      simp [hn]

theorem classifyLoop_spec (tg : Target) : ∀ (args : List NativeParam) (ffis : List FfiType)
    (s s' : ClassifyState), args.length = ffis.length → classifyLoop tg args ffis s = .ok s' →
    s'.args_in_mem
      = s.args_in_mem ++ ffis.map (fun f => (tg.ffi64_examine_argument f).classes.length == 0) ∧
    s'.arg_types = s.arg_types ++ args.map (fun a => a.2) := by
  intro args
  induction args with
  | nil =>
    intro ffis s s' hlen h
    cases ffis with
    | nil => simp [classifyLoop] at h; subst h; simp
    | cons f fs => simp at hlen
  | cons a as ih =>
    intro ffis s s' hlen h
    cases ffis with
    | nil => simp at hlen
    | cons f fs =>
      simp only [classifyLoop] at h
      cases hs : classifyStep tg a f s with
      | error e => simp [hs] at h
      | ok s1 =>
        simp only [hs] at h
        have h1 := classifyStep_spec tg a f s s1 hs
        have h2 := ih fs s1 s' (by simpa using hlen) h
        rw [h2.1, h2.2, h1.1, h1.2]
        simp

/-- What a successful run of the classifier's core says about its result. -/
theorem classifyArgumentsCore_spec (tg : Target) (rtype : LType) (args : List NativeParam)
    (cargs : ClassifiedArguments) (g x : Nat)
    (h : classifyArgumentsCore tg rtype args = .ok (cargs, g, x)) :
    ∃ ffis, getCIFArgs (args.map (fun a => a.2)) = .ok ffis ∧
      cargs.args_in_mem
        = ffis.map (fun f => (tg.ffi64_examine_argument f).classes.length == 0) ∧
      cargs.arg_types = args.map (fun a => a.2) ∧
      cargs.args_in_mem.length = args.length ∧
      cargs.return_type = rtype := by
  unfold classifyArgumentsCore at h
  cases hc : getCIF tg rtype (args.map (fun a => a.2)) with
  | error e => simp [hc] at h
  | ok cif =>
    simp only [hc] at h
    unfold getCIF at hc
    cases h1 : _llvmToCif rtype with
    | error e => simp [h1] at hc
    | ok rf =>
      cases h2 : getCIFArgs (args.map (fun a => a.2)) with
      | error e => simp [h1, h2] at hc
      | ok ffis =>
        cases h3 : tg.ffi_prep_cif rf ffis with
        | none => simp [h1, h2, h3] at hc
        | some flags =>
          simp only [h1, h2, h3] at hc
          cases hc
          have hlen : args.length = ffis.length := by
            have := getCIFArgs_length _ _ h2
            simpa using this.symm
          simp only at h
          split at h
          · simp at h
          · rename_i s hs
            have hl := classifyLoop_spec tg args ffis _ s hlen hs
            simp only [Except.ok.injEq, Prod.mk.injEq] at h
            obtain ⟨hcargs, -, -⟩ := h
            subst hcargs
            refine ⟨ffis, rfl, ?_, ?_, ?_, rfl⟩
            · simpa using hl.1
            · simpa using hl.2
            · simp [hl.1, hlen]

theorem classifyArguments_ok (tg : Target) (name : String) (rtype : LType)
    (args : List NativeParam) (cc : CallingConvention) (m m' : ClassifiedMap)
    (cargs : ClassifiedArguments)
    (h : classifyArguments tg name rtype args cc m = .ok (cargs, m')) :
    (∃ g x, classifyArgumentsCore tg rtype args = .ok (cargs, g, x)) ∧
    m' = (if name.length != 0 then m.insert name cargs else m) := by
  unfold classifyArguments at h
  cases hc : classifyArgumentsCore tg rtype args with
  | error e => simp [hc] at h
  | ok r =>
    obtain ⟨c, g, x⟩ := r
    simp only [hc] at h
    split_ifs at h with hn
    · cases h
      exact ⟨⟨g, x, rfl⟩, by simp [hn]⟩
    · cases h
      exact ⟨⟨g, x, rfl⟩, by simp [hn]⟩

theorem classifyArguments_of_core (tg : Target) (name : String) (rtype : LType)
    (args : List NativeParam) (cc : CallingConvention) (m : ClassifiedMap)
    (cargs : ClassifiedArguments) (g x : Nat)
    (h : classifyArgumentsCore tg rtype args = .ok (cargs, g, x)) :
    classifyArguments tg name rtype args cc m
      = .ok (cargs, if name.length != 0 then m.insert name cargs else m) := by
  unfold classifyArguments
  simp only [h]
  split_ifs <;> rfl

/-- The types pushed by the signature loop, spelled out. -/
theorem signatureLoop_spec (tg : Target) (cargs : ClassifiedArguments) :
    ∀ (args : List NativeParam) (ims0 ims : List Bool) (tys0 tys : List LType)
      (s : SignatureState),
      cargs.args_in_mem = ims0 ++ ims → cargs.arg_types = tys0 ++ tys →
      ims0.length = tys0.length → ims.length = args.length → tys.length = args.length →
      signatureLoop tg cargs args ims0.length s
        = .ok { ntypes := s.ntypes ++ List.zipWith (passedType tg) ims tys,
                nnames := s.nnames ++ args.map (fun a => a.1),
                byvals := s.byvals ++ setPositions ims ims0.length } := by
  intro args
  induction args with
  | nil =>
    intro ims0 ims tys0 tys s _ _ _ h4 h5
    have e1 : ims = [] := List.length_eq_zero.mp (by simpa using h4)
    have e2 : tys = [] := List.length_eq_zero.mp (by simpa using h5)
    subst e1 e2
    simp [signatureLoop, setPositions]
  | cons a as ih =>
    intro ims0 ims tys0 tys s h1 h2 h3 h4 h5
    cases ims with
    | nil => simp at h4
    | cons b bs =>
      cases tys with
      | nil => simp at h5
      | cons t ts =>
        have g1 : cargs.args_in_mem[ims0.length]? = some b := by
          rw [h1, List.getElem?_append_right (le_refl _)]; simp
        have g2 : cargs.arg_types[ims0.length]? = some t := by
          rw [h2, h3, List.getElem?_append_right (le_refl _)]; simp
        have ih' := ih (ims0 ++ [b]) bs (tys0 ++ [t]) ts
        simp only [List.length_append, List.length_singleton] at ih'
        simp only [signatureLoop, g1, g2]
        cases b with
        | true =>
          simp only [if_true]
          rw [ih' _ (by simp [h1]) (by simp [h2]) (by simp [h3]) (by simpa using h4)
            (by simpa using h5)]
          simp [passedType, setPositions]
        | false =>
          simp only [Bool.false_eq_true, if_false]
          rw [ih' _ (by simp [h1]) (by simp [h2]) (by simp [h3]) (by simpa using h4)
            (by simpa using h5)]
          simp [passedType, setPositions]

/-- The signature built by `createFunctionTypeInternal`, spelled out. -/
theorem createFunctionTypeInternal_spec (tg : Target) (rtype : LType) (args : List NativeParam)
    (cc : CallingConvention) (name : String) (m m' : ClassifiedMap)
    (cargs : ClassifiedArguments)
    (h : classifyArguments tg name rtype args cc m = .ok (cargs, m')) :
    ∃ sig, createFunctionTypeInternal tg rtype args cc name m = .ok (sig, m') ∧
      sig.cargs = cargs ∧
      sig.ftype.params
        = (if cargs.return_in_mem then [rtype.getPointerTo] else [])
            ++ List.zipWith (passedType tg) cargs.args_in_mem (args.map (fun a => a.2)) ∧
      sig.nnames
        = (if cargs.return_in_mem then ["agg.sret"] else []) ++ args.map (fun a => a.1) ∧
      sig.byvals = setPositions cargs.args_in_mem 0 ∧
      sig.arg_base = (if cargs.return_in_mem then 1 else 0) ∧
      sig.ftype.ret
        = (if cargs.return_in_mem then LType.void else adaptRegisterType tg rtype) := by
  obtain ⟨⟨g, x, hcore⟩, -⟩ := classifyArguments_ok tg name rtype args cc m m' cargs h
  obtain ⟨ffis, -, -, hty, hlen, hrt⟩ := classifyArgumentsCore_spec tg rtype args cargs g x hcore
  have hl := signatureLoop_spec tg cargs args [] cargs.args_in_mem [] cargs.arg_types
  simp only [List.length_nil, List.nil_append, forall_const] at hl
  have htl : cargs.arg_types.length = args.length := by simp [hty]
  unfold createFunctionTypeInternal
  simp only [h]
  rw [if_neg (by simp [hlen])]
  rw [hl _ hlen htl]
  refine ⟨_, rfl, rfl, ?_, ?_, ?_, rfl, ?_⟩
  · cases cargs.return_in_mem <;> simp [hty]
  · cases cargs.return_in_mem <;> simp
  · cases cargs.return_in_mem <;> simp
  · rw [hrt]
    cases hr : cargs.return_in_mem
    · simp only [Bool.not_false, Bool.and_true, Bool.false_eq_true, if_false]
      unfold adaptRegisterType
      cases hs : rtype.isStructTy
      · simp
      · simp
    · simp

theorem lookup_append_singleton (m : ClassifiedMap) (k n : String) (c : ClassifiedArguments) :
    List.lookup k (m ++ [(n, c)])
      = match List.lookup k m with
        | some v => some v
        | none => if k == n then some c else none := by
  induction m with
  | nil =>
    simp only [List.nil_append, List.lookup]
    cases h : k == n <;> simp
  | cons e es ih =>
    obtain ⟨k', v'⟩ := e
    simp only [List.cons_append, List.lookup]
    cases h : k == k'
    · simpa using ih
    · simp

theorem find_insert_of_find (m : ClassifiedMap) (n k : String) (c v : ClassifiedArguments)
    (h : m.find k = some v) : (m.insert n c).find k = some v := by
  unfold ClassifiedMap.insert
  cases hn : List.lookup n m with
  | some w => simpa using h
  | none =>
    simp only [ClassifiedMap.find] at h ⊢
    rw [lookup_append_singleton, h]

theorem find_insert_self (m : ClassifiedMap) (n : String) (c : ClassifiedArguments) :
    (m.insert n c).find n = some ((m.find n).getD c) := by
  unfold ClassifiedMap.insert
  cases hn : List.lookup n m with
  | some w => simp [ClassifiedMap.find, hn]
  | none =>
    simp only [ClassifiedMap.find]
    rw [lookup_append_singleton, hn]
    simp

theorem insert_of_find (m : ClassifiedMap) (n : String) (c v : ClassifiedArguments)
    (h : m.find n = some v) : m.insert n c = m := by
  unfold ClassifiedMap.insert
  simp only [ClassifiedMap.find] at h
  simp [h]

/-- C5: whenever `classifyArguments` reports `return_in_mem` for the return type
`R`, `createFunctionTypeInternal` builds a function type returning void whose
first parameter is a pointer to `R`, named `agg.sret`, with `arg_base = 1` and
the arguments following in their original order (each with its passed type);
when `return_in_mem` is false nothing is prepended and `arg_base = 0`. -/
theorem sret_parameter_prepended (tg : Target) (R : LType) (args : List NativeParam)
    (cc : CallingConvention) (name : String) (m m' : ClassifiedMap)
    (cargs : ClassifiedArguments)
    (h : classifyArguments tg name R args cc m = .ok (cargs, m')) :
    ∃ sig, createFunctionTypeInternal tg R args cc name m = .ok (sig, m') ∧
      (cargs.return_in_mem = true →
        sig.ftype.ret = LType.void ∧
        sig.ftype.params
          = R.getPointerTo
              :: List.zipWith (passedType tg) cargs.args_in_mem (args.map (fun a => a.2)) ∧
        sig.nnames = "agg.sret" :: args.map (fun a => a.1) ∧
        sig.ftype.params.length = args.length + 1 ∧
        sig.arg_base = 1) ∧
      (cargs.return_in_mem = false →
        sig.ftype.params
          = List.zipWith (passedType tg) cargs.args_in_mem (args.map (fun a => a.2)) ∧
        sig.nnames = args.map (fun a => a.1) ∧
        sig.ftype.params.length = args.length ∧
        sig.arg_base = 0) := by
  obtain ⟨sig, hsig, -, hp, hn, -, hb, hr⟩ :=
    createFunctionTypeInternal_spec tg R args cc name m m' cargs h
  obtain ⟨⟨g, x, hcore⟩, -⟩ := classifyArguments_ok tg name R args cc m m' cargs h
  obtain ⟨ffis, -, -, -, hlen, -⟩ := classifyArgumentsCore_spec tg R args cargs g x hcore
  refine ⟨sig, hsig, ?_, ?_⟩
  · intro hrim
    simp only [hrim, if_true] at hp hn hb hr
    refine ⟨hr, by simpa using hp, by simpa using hn, ?_, hb⟩
    rw [hp]
    simp [hlen]
  · intro hrim
    simp only [hrim, Bool.false_eq_true, if_false, List.nil_append] at hp hn hb hr
    refine ⟨hp, hn, ?_, hb⟩
    rw [hp]
    simp [hlen]

/-- C5 (witness): a function returning a 24-byte struct and taking one pointer,
on the sample target. -/
theorem sret_parameter_prepended_witness :
    ∃ sig, createFunctionTypeInternal sysv.target
        (.struct "s" (LTypes.ofList [.int 64, .int 64, .int 64])) [("a", .ptr (.int 8))]
        .HILTI_C "f" []
        = .ok (sig, [("f", { return_in_mem := true,
                             return_type := .struct "s" (LTypes.ofList [.int 64, .int 64, .int 64]),
                             args_in_mem := [false],
                             arg_types := [.ptr (.int 8)] })]) ∧
      sig.ftype.ret = LType.void ∧ sig.nnames = ["agg.sret", "a"] ∧ sig.arg_base = 1 := by
  obtain ⟨sig, h1, h2, -⟩ := sret_parameter_prepended sysv.target
    (.struct "s" (LTypes.ofList [.int 64, .int 64, .int 64])) [("a", .ptr (.int 8))]
    .HILTI_C "f" []
    [("f", { return_in_mem := true,
             return_type := .struct "s" (LTypes.ofList [.int 64, .int 64, .int 64]),
             args_in_mem := [false], arg_types := [.ptr (.int 8)] })]
    { return_in_mem := true,
      return_type := .struct "s" (LTypes.ofList [.int 64, .int 64, .int 64]),
      args_in_mem := [false], arg_types := [.ptr (.int 8)] }
    (by decide)
  obtain ⟨h3, -, h4, -, h5⟩ := h2 rfl
  exact ⟨sig, h1, h3, h4, h5⟩

/-- C7 (as amended): an argument is marked in-memory exactly when
`ffi64_examine_argument` returns 0 for it (writes no class), and
register-passed otherwise; the registers consumed so far play no part. -/
theorem in_memory_iff_unclassified (tg : Target) (name : String) (rtype : LType)
    (args : List NativeParam) (cc : CallingConvention) (m m' : ClassifiedMap)
    (cargs : ClassifiedArguments)
    (h : classifyArguments tg name rtype args cc m = .ok (cargs, m')) :
    ∃ ffi_arg_types, getCIFArgs (args.map (fun a => a.2)) = .ok ffi_arg_types ∧
      cargs.args_in_mem
        = ffi_arg_types.map (fun f => (tg.ffi64_examine_argument f).classes.length == 0) := by
  obtain ⟨⟨g, x, hcore⟩, -⟩ := classifyArguments_ok tg name rtype args cc m m' cargs h
  obtain ⟨ffis, h1, h2, -⟩ := classifyArgumentsCore_spec tg rtype args cargs g x hcore
  exact ⟨ffis, h1, h2⟩

/-- C7 (witness): three arguments on the sample target, the second a 24-byte
struct. -/
theorem in_memory_iff_unclassified_witness :
    ∃ ffi_arg_types,
      getCIFArgs [.ptr (.int 8), .struct "t" (LTypes.ofList [.int 64, .int 64, .int 64]), .double]
        = .ok ffi_arg_types ∧
      [false, true, false]
        = ffi_arg_types.map
            (fun f => (sysv.target.ffi64_examine_argument f).classes.length == 0) :=
  in_memory_iff_unclassified sysv.target "" .void
    [("a", .ptr (.int 8)), ("b", .struct "t" (LTypes.ofList [.int 64, .int 64, .int 64])),
     ("c", .double)]
    .HILTI_C [] []
    { return_in_mem := false, return_type := .void, args_in_mem := [false, true, false],
      arg_types := [.ptr (.int 8), .struct "t" (LTypes.ofList [.int 64, .int 64, .int 64]),
                    .double] }
    (by decide)

/-- C7 (counterexample): on the sample target a function taking seven pointers
has all seven marked register-passed, although the first six already consume
all `MAX_GPR_REGS` general-purpose registers and the seventh needs one more. -/
theorem register_overflow_counterexample :
    classifyArgumentsCore sysv.target .void (List.replicate 6 ("p", .ptr (.int 8)))
      = .ok ({ return_in_mem := false, return_type := .void,
               args_in_mem := List.replicate 6 false,
               arg_types := List.replicate 6 (.ptr (.int 8)) }, 6, 0) ∧
    (sysv.target.ffi64_examine_argument .pointer).ngpr = 1 ∧
    6 + 1 > MAX_GPR_REGS ∧
    classifyArguments sysv.target "f" .void (List.replicate 7 ("p", .ptr (.int 8))) .HILTI_C []
      = .ok ({ return_in_mem := false, return_type := .void,
               args_in_mem := List.replicate 7 false,
               arg_types := List.replicate 7 (.ptr (.int 8)) },
             [("f", { return_in_mem := false, return_type := .void,
                      args_in_mem := List.replicate 7 false,
                      arg_types := List.replicate 7 (.ptr (.int 8)) })]) := by
  refine ⟨by decide, by decide, by decide, by decide⟩

/-- C8: classifying a named signature a second time returns the result of the
first classification and leaves the map as the first call left it; the lookup
by name then returns what the map held under the name before, else that
result, hence that same result whenever the name was new to the map or stored
there with this result; and whatever a map holds under a name it still holds
after any further classification call. -/
theorem classification_idempotent (tg : Target) (name : String) (rtype : LType)
    (args : List NativeParam) (cc : CallingConvention) (m m1 : ClassifiedMap)
    (r1 : ClassifiedArguments)
    (hname : name.length ≠ 0)
    (h1 : classifyArguments tg name rtype args cc m = .ok (r1, m1)) :
    classifyArguments tg name rtype args cc m1 = .ok (r1, m1) ∧
    classifyArgumentsByName name m1 = .ok ((m.find name).getD r1) ∧
    ((∀ c, m.find name = some c → c = r1) → classifyArgumentsByName name m1 = .ok r1) ∧
    (∀ (tg2 : Target) (name2 : String) (rtype2 : LType) (args2 : List NativeParam)
       (cc2 : CallingConvention) (m0 m2 : ClassifiedMap) (r2 : ClassifiedArguments)
       (n : String) (c : ClassifiedArguments),
       m0.find n = some c →
       classifyArguments tg2 name2 rtype2 args2 cc2 m0 = .ok (r2, m2) →
       m2.find n = some c) := by
  obtain ⟨⟨g, x, hcore⟩, hm1⟩ := classifyArguments_ok tg name rtype args cc m m1 r1 h1
  have hne : (name.length != 0) = true := by simpa using hname
  rw [if_pos hne] at hm1
  have hfind : m1.find name = some ((m.find name).getD r1) := by
    rw [hm1, find_insert_self]
  refine ⟨?_, ?_, ?_, ?_⟩
  · rw [classifyArguments_of_core tg name rtype args cc m1 r1 g x hcore, if_pos hne,
      insert_of_find m1 name r1 _ hfind]
  · simp [classifyArgumentsByName, hfind]
  · intro hm
    have : (m.find name).getD r1 = r1 := by
      cases hf : m.find name with
      | none => rfl
      | some c => simp [hm c hf]
    simp [classifyArgumentsByName, hfind, this]
  · intro tg2 name2 rtype2 args2 cc2 m0 m2 r2 n c hn h2
    obtain ⟨-, hm2⟩ := classifyArguments_ok tg2 name2 rtype2 args2 cc2 m0 m2 r2 h2
    rw [hm2]
    split_ifs
    · exact find_insert_of_find m0 name2 n r2 c hn
    · exact hn

/-- C8 (witness): the signature `f(i8*) -> void` classified on the sample target,
starting from an empty map. -/
theorem classification_idempotent_witness :
    classifyArguments sysv.target "f" .void [("a", .ptr (.int 8))] .HILTI_C
        [("f", { return_in_mem := false, return_type := .void, args_in_mem := [false],
                 arg_types := [.ptr (.int 8)] })]
      = .ok ({ return_in_mem := false, return_type := .void, args_in_mem := [false],
               arg_types := [.ptr (.int 8)] },
             [("f", { return_in_mem := false, return_type := .void, args_in_mem := [false],
                      arg_types := [.ptr (.int 8)] })]) ∧
    classifyArgumentsByName "f"
        [("f", { return_in_mem := false, return_type := .void, args_in_mem := [false],
                 arg_types := [.ptr (.int 8)] })]
      = .ok { return_in_mem := false, return_type := .void, args_in_mem := [false],
              arg_types := [.ptr (.int 8)] } :=
  ⟨(classification_idempotent sysv.target "f" .void [("a", .ptr (.int 8))] .HILTI_C []
      [("f", { return_in_mem := false, return_type := .void, args_in_mem := [false],
               arg_types := [.ptr (.int 8)] })]
      { return_in_mem := false, return_type := .void, args_in_mem := [false],
        arg_types := [.ptr (.int 8)] }
      (by decide) (by decide)).1,
   (classification_idempotent sysv.target "f" .void [("a", .ptr (.int 8))] .HILTI_C []
      [("f", { return_in_mem := false, return_type := .void, args_in_mem := [false],
               arg_types := [.ptr (.int 8)] })]
      { return_in_mem := false, return_type := .void, args_in_mem := [false],
        arg_types := [.ptr (.int 8)] }
      (by decide) (by decide)).2.2.1 (by intro c hc; simp [ClassifiedMap.find] at hc)⟩

end X86_64

end abi

/-! ## Properties of the emitters -/

/-- A function in which no temporary has been made yet. -/
theorem ExcptTmp.of_nil (cg : CG) (h : cg.tmps = []) : ExcptTmp cg := by
  intro tmp ty hl
  rw [h] at hl
  cases hl

theorem Frame.refl (a : CG) : Frame a a :=
  ⟨rfl, rfl, rfl, rfl, rfl, rfl, rfl, rfl, rfl, rfl, fun h => h⟩

theorem Frame.trans {a b c : CG} (h1 : Frame a b) (h2 : Frame b c) : Frame a c :=
  ⟨h2.context.trans h1.context, h2.arguments.trans h1.arguments,
   h2.leave_func.trans h1.leave_func, h2.dtors_after_call.trans h1.dtors_after_call,
   h2.liveness_in.trans h1.liveness_in,
   h2.liveness_dead.trans h1.liveness_dead, h2.debug.trans h1.debug,
   h2.location.trans h1.location, h2.have_llvm_35.trans h1.have_llvm_35,
   h2.classified.trans h1.classified, fun h => h2.excpt_tmp (h1.excpt_tmp h)⟩

namespace CodeGen

theorem frame_emit (cg : CG) (is : List Instr) : Frame cg (emit cg is) :=
  ⟨rfl, rfl, rfl, rfl, rfl, rfl, rfl, rfl, rfl, rfl, fun h => h⟩

theorem frame_emitEntry (cg : CG) (is : List Instr) : Frame cg (emitEntry cg is) :=
  ⟨rfl, rfl, rfl, rfl, rfl, rfl, rfl, rfl, rfl, rfl, fun h => h⟩

theorem llvmExecutionContext_frame {a b : CG} (h : Frame a b) :
    llvmExecutionContext b = llvmExecutionContext a := by
  unfold llvmExecutionContext
  rw [h.context, h.arguments]

theorem liveValues_frame {a b : CG} (h : Frame a b) : liveValues b = liveValues a := by
  unfold liveValues
  rw [h.leave_func, h.liveness_in, h.liveness_dead]

theorem tmpName_ne (name : String) (h : name ≠ "excpt") : "__tmp_" ++ name ≠ "__tmp_excpt" := by
  intro e
  apply h
  have e2 : ("__tmp_" ++ name).data = ("__tmp_" ++ "excpt").data := by rw [e]; rfl
  rw [String.data_append, String.data_append] at e2
  exact String.ext (List.append_cancel_left e2)

theorem frame_registerTmp (tname : String) (tmp : Value) (type : LType) (cg : CG)
    (h : tname ≠ "__tmp_excpt" ∨ type = llvmTypeExceptionPtr) :
    Frame cg (registerTmp tname tmp type cg) ∧ (registerTmp tname tmp type cg).code = cg.code := by
  unfold registerTmp
  cases hl : List.lookup tname cg.tmps
  · refine ⟨⟨rfl, rfl, rfl, rfl, rfl, rfl, rfl, rfl, rfl, rfl, ?_⟩, rfl⟩
    intro hx tmp' ty hlook
    simp only [List.lookup_append] at hlook
    cases hc : List.lookup "__tmp_excpt" cg.tmps with
    | some e =>
      rw [hc] at hlook
      simp only [Option.or, Option.some.injEq] at hlook
      subst hlook
      exact hx _ _ hc
    | none =>
      rw [hc] at hlook
      simp only [Option.or, List.lookup] at hlook
      rcases h with h | h
      · have hne : ("__tmp_excpt" == tname) = false := by
          simp only [beq_eq_false_iff_ne, ne_eq]
          exact fun e => h e.symm
        rw [hne] at hlook
        cases hlook
      · split at hlook
        · cases hlook
          exact h
        · cases hlook
  · exact ⟨Frame.refl cg, rfl⟩

/-- A temporary created, without reuse, with an initial value of its own
type. -/
theorem llvmAddTmp_init (name : String) (type : LType) (v : Value) (al : Nat) (cg : CG)
    (h : name ≠ "excpt") :
    ∃ cg', llvmAddTmp name type (some (v, type)) false al cg
        = .ok (.tmp ("__tmp_" ++ name) type v, cg') ∧
      cg'.code = cg.code ++ [.store v (.tmp ("__tmp_" ++ name) type v)] ∧
      Frame cg cg' := by
  obtain ⟨f1, f2⟩ := frame_registerTmp ("__tmp_" ++ name) (.tmp ("__tmp_" ++ name) type v) type
    (emit (emitEntry cg [.alloca ("__tmp_" ++ name) type al])
      [.store v (.tmp ("__tmp_" ++ name) type v)]) (Or.inl (tmpName_ne name h))
  refine ⟨_, ?_, f2, ((frame_emitEntry cg _).trans (frame_emit _ _)).trans f1⟩
  simp [llvmAddTmp, llvmCreateStore]

/-- A temporary created without an initial value and without reuse. -/
theorem llvmAddTmp_null (name : String) (type : LType) (al : Nat) (cg : CG)
    (h : name ≠ "excpt") :
    ∃ cg', llvmAddTmp name type none false al cg = .ok (.tmpNull ("__tmp_" ++ name) type, cg') ∧
      cg'.code = cg.code ∧ Frame cg cg' := by
  obtain ⟨f1, f2⟩ := frame_registerTmp ("__tmp_" ++ name) (.tmpNull ("__tmp_" ++ name) type) type
    (emitEntry (emitEntry cg [.alloca ("__tmp_" ++ name) type al])
      [.store (llvmConstNull (some type)) (.tmpNull ("__tmp_" ++ name) type)])
    (Or.inl (tmpName_ne name h))
  refine ⟨_, ?_, f2, ((frame_emitEntry cg _).trans (frame_emitEntry _ _)).trans f1⟩
  simp [llvmAddTmp]

/-- A temporary requested with reuse, the initial value being of the type of
the temporary and the temporary found under the name, if any, having been made
for this type: one store is emitted in either case. -/
theorem llvmAddTmp_reuse (name : String) (type : LType) (init : Option Value) (al : Nat)
    (cg : CG)
    (hold : ∀ tmp ty, cg.tmps.lookup ("__tmp_" ++ name) = some (tmp, ty) → ty = type)
    (hname : "__tmp_" ++ name ≠ "__tmp_excpt" ∨ type = llvmTypeExceptionPtr) :
    ∃ tmp cg' st, llvmAddTmp name type (init.map (fun v => (v, type))) true al cg
        = .ok (tmp, cg') ∧
      cg'.code = cg.code ++ [st] ∧ st.isStore = true ∧ Frame cg cg' := by
  unfold llvmAddTmp
  simp only [if_true]
  cases h : List.lookup ("__tmp_" ++ name) cg.tmps with
  | none =>
    obtain ⟨f1, f2⟩ := frame_registerTmp ("__tmp_" ++ name)
      (.tmp ("__tmp_" ++ name) type (init.getD (llvmConstNull (some type)))) type
      (emit (emitEntry cg [.alloca ("__tmp_" ++ name) type al])
        [.store (init.getD (llvmConstNull (some type)))
          (.tmp ("__tmp_" ++ name) type (init.getD (llvmConstNull (some type))))]) hname
    refine ⟨.tmp ("__tmp_" ++ name) type (init.getD (llvmConstNull (some type))),
      registerTmp ("__tmp_" ++ name)
        (.tmp ("__tmp_" ++ name) type (init.getD (llvmConstNull (some type)))) type
        (emit (emitEntry cg [.alloca ("__tmp_" ++ name) type al])
          [.store (init.getD (llvmConstNull (some type)))
            (.tmp ("__tmp_" ++ name) type (init.getD (llvmConstNull (some type))))]),
      .store (init.getD (llvmConstNull (some type)))
      (.tmp ("__tmp_" ++ name) type (init.getD (llvmConstNull (some type)))), ?_, f2, rfl,
      ((frame_emitEntry cg _).trans (frame_emit _ _)).trans f1⟩
    cases init <;> simp [llvmCreateStore]
  | some e =>
    obtain ⟨tmp, ty⟩ := e
    have hty := hold tmp ty h
    subst hty
    refine ⟨tmp, emit cg [.store (init.getD (llvmConstNull (some ty))) tmp],
      .store (init.getD (llvmConstNull (some ty))) tmp, ?_, rfl, rfl, frame_emit _ _⟩
    cases init <;> simp [llvmCreateStore]

/-- The exception temporary, requested for reuse as every call of the generator
does. -/
theorem llvmAddTmp_excpt (al : Nat) (cg : CG) (h : ExcptTmp cg) :
    ∃ tmp cg' st, llvmAddTmp "excpt" llvmTypeExceptionPtr none true al cg = .ok (tmp, cg') ∧
      cg'.code = cg.code ++ [st] ∧ st.isStore = true ∧ Frame cg cg' :=
  llvmAddTmp_reuse "excpt" llvmTypeExceptionPtr none al cg h (Or.inr rfl)

end CodeGen

namespace abi

namespace X86_64

/-- The values pushed by the argument loop of `createCall`, spelled out; the loop
emits stores only. -/
theorem callArgsLoop_spec (tg : Target) (cargs : ClassifiedArguments) :
    ∀ (args : List Value) (ims0 ims : List Bool) (tys0 tys : List LType)
      (nargs : List Value) (cg : CG),
      cargs.args_in_mem = ims0 ++ ims → cargs.arg_types = tys0 ++ tys →
      ims0.length = tys0.length → ims.length = args.length → tys.length = args.length →
      ∃ cg' stores,
        callArgsLoop tg cargs args ims0.length nargs cg
          = .ok (nargs ++ passedValues tg ims tys args, cg') ∧
        cg'.code = cg.code ++ stores ∧ (∀ st ∈ stores, st.isStore = true) ∧ Frame cg cg' := by
  intro args
  induction args with
  | nil =>
    intro ims0 ims tys0 tys nargs cg _ _ _ h4 h5
    have e1 : ims = [] := List.length_eq_zero.mp (by simpa using h4)
    have e2 : tys = [] := List.length_eq_zero.mp (by simpa using h5)
    subst e1 e2
    exact ⟨cg, [], by simp [callArgsLoop, passedValues], by simp, by simp, Frame.refl cg⟩
  | cons v vs ih =>
    intro ims0 ims tys0 tys nargs cg h1 h2 h3 h4 h5
    cases ims with
    | nil => simp at h4
    | cons b bs =>
      cases tys with
      | nil => simp at h5
      | cons t ts =>
        have g1 : cargs.args_in_mem[ims0.length]? = some b := by
          rw [h1, List.getElem?_append_right (le_refl _)]; simp
        have g2 : cargs.arg_types[ims0.length]? = some t := by
          rw [h2, h3, List.getElem?_append_right (le_refl _)]; simp
        have ih' := ih (ims0 ++ [b]) bs (tys0 ++ [t]) ts
        simp only [List.length_append, List.length_singleton] at ih'
        have ih'' := fun nargs cg => ih' nargs cg (by simp [h1]) (by simp [h2]) (by simp [h3])
          (by simpa using h4) (by simpa using h5)
        simp only [callArgsLoop, g1, g2]
        cases b with
        | true =>
          simp only [if_true]
          obtain ⟨cg0, e1, e2, e3⟩ := CodeGen.llvmAddTmp_init "agg.arg" t v 8 cg (by decide)
          obtain ⟨cg', stores, k1, k2, k3, k4⟩ :=
            ih'' (nargs ++ [Value.tmp ("__tmp_" ++ "agg.arg") t v]) cg0
          refine ⟨cg', Instr.store v (Value.tmp ("__tmp_" ++ "agg.arg") t v) :: stores,
            ?_, ?_, ?_, e3.trans k4⟩
          · rw [e1]
            simp only
            rw [k1]
            simp [passedValues, passedValue]
          · rw [k2, e2]
            simp
          · intro st hst
            rcases List.mem_cons.mp hst with h | h
            · rw [h]; rfl
            · exact k3 st h
        | false =>
          simp only [Bool.false_eq_true, if_false]
          cases hs : t.isStructTy
          · simp only [Bool.false_eq_true, if_false]
            obtain ⟨cg', stores, k1, k2, k3, k4⟩ := ih'' (nargs ++ [v]) cg
            refine ⟨cg', stores, ?_, k2, k3, k4⟩
            rw [k1]
            simp [passedValues, passedValue, hs]
          · simp only [if_true]
            cases hm : mapToIntType tg t with
            | none =>
              simp only
              obtain ⟨cg', stores, k1, k2, k3, k4⟩ := ih'' (nargs ++ [v]) cg
              refine ⟨cg', stores, ?_, k2, k3, k4⟩
              rw [k1]
              simp [passedValues, passedValue, hs, hm]
            | some itype =>
              simp only
              obtain ⟨cg', stores, k1, k2, k3, k4⟩ :=
                ih'' (nargs ++ [Value.load (Value.bitcast (Value.alloca t v)
                        (CodeGen.llvmTypePtr (some itype)))])
                  (CodeGen.emit (CodeGen.emitEntry cg [.alloca "" t 0])
                    [.store v (Value.alloca t v)])
              refine ⟨cg', Instr.store v (Value.alloca t v) :: stores, ?_, ?_, ?_,
                ((CodeGen.frame_emitEntry cg _).trans (CodeGen.frame_emit _ _)).trans k4⟩
              · rw [k1]
                simp [passedValues, passedValue, hs, hm]
              · rw [k2]
                simp [CodeGen.emit, CodeGen.emitEntry]
              · intro st hst
                rcases List.mem_cons.mp hst with h | h
                · rw [h]; rfl
                · exact k3 st h

/-- The call emitted by `createCall`, spelled out: stores into temporaries, the
call instruction, and possibly one more store to reinterpret the result. -/
theorem createCall_spec (tg : Target) (callee : Value) (args : List Value) (rtype : LType)
    (targs : List NativeParam) (cc : CallingConvention) (cg : CG)
    (cargs : ClassifiedArguments) (g x : Nat) (llvm_cc : LLVMCallingConv)
    (hcore : classifyArgumentsCore tg rtype targs = .ok (cargs, g, x))
    (hlen : args.length = targs.length)
    (hcc : CodeGen.llvmCallingConvention cc = .ok llvm_cc) :
    ∃ result cg' before after,
      createCall tg callee args rtype targs cc cg = .ok (result, cg') ∧
      cg'.code
        = cg.code ++ before
            ++ [Instr.call callee
                  ((if cargs.return_in_mem then [Value.tmpNull "__tmp_agg.sret" rtype] else [])
                    ++ passedValues tg cargs.args_in_mem (targs.map (fun a => a.2)) args)
                  (some llvm_cc)]
            ++ after ∧
      (∀ st ∈ before ++ after, st.isStore = true) ∧
      (cargs.return_in_mem = true → result = .load (.tmpNull "__tmp_agg.sret" rtype)) ∧
      Frame cg cg' ∧ (∀ e, result ≠ Value.address e) := by
  obtain ⟨ffis, -, -, hty, hlen2, hrt⟩ := classifyArgumentsCore_spec tg rtype targs cargs g x hcore
  have hclass := classifyArguments_of_core tg "" rtype targs cc cg.classified cargs g x hcore
  have hempty : (("".length != 0) = true) = False := by decide
  simp only [hempty, if_false] at hclass
  have hloop := callArgsLoop_spec tg cargs args [] cargs.args_in_mem [] cargs.arg_types
  simp only [List.length_nil, List.nil_append, forall_const] at hloop
  have hl1 : cargs.args_in_mem.length = args.length := by rw [hlen2, hlen]
  have hl2 : cargs.arg_types.length = args.length := by simp [hty, hlen]
  have hcg0 : Frame cg { cg with classified := cg.classified } :=
    ⟨rfl, rfl, rfl, rfl, rfl, rfl, rfl, rfl, rfl, rfl, fun h => h⟩
  unfold createCall
  simp only [hclass]
  cases hr : cargs.return_in_mem
  · simp only [Bool.false_eq_true, if_false]
    rw [if_neg (by simp [hl1])]
    obtain ⟨cg1, stores, k1, k2, k3, k4⟩ := hloop [] { cg with classified := cg.classified }
      hl1 hl2
    simp only [k1, hcc, List.nil_append]
    cases hs : cargs.return_type.isStructTy
    · refine ⟨_, _, stores, [], rfl, ?_, ?_, by simp, ?_⟩
      · simp [CodeGen.emit, k2, hty]
      · simpa using k3
      · exact ⟨(hcg0.trans k4).trans (CodeGen.frame_emit _ _), fun e h => by cases h⟩
    · simp only [if_true]
      cases hm : mapToIntType tg cargs.return_type with
      | none =>
        refine ⟨_, _, stores, [], rfl, ?_, ?_, by simp, ?_⟩
        · simp [CodeGen.emit, k2, hty]
        · simpa using k3
        · exact ⟨(hcg0.trans k4).trans (CodeGen.frame_emit _ _), fun e h => by cases h⟩
      | some itype =>
        refine ⟨_, _, stores,
          [Instr.store (Value.callResult callee) (Value.alloca itype (Value.callResult callee))],
          rfl, ?_, ?_, by simp, ?_⟩
        · simp [CodeGen.emit, CodeGen.emitEntry, k2, hty]
        · intro st hst
          rcases List.mem_append.mp hst with h | h
          · exact k3 st h
          · simp only [List.mem_singleton] at h
            rw [h]; rfl
        · exact ⟨(((hcg0.trans k4).trans (CodeGen.frame_emit _ _)).trans
            (CodeGen.frame_emitEntry _ _)).trans (CodeGen.frame_emit _ _), fun e h => by cases h⟩
  · simp only [if_true]
    obtain ⟨cg0, e1, e2, e3⟩ := CodeGen.llvmAddTmp_null "agg.sret" cargs.return_type 8
      { cg with classified := cg.classified } (by decide)
    rw [e1]
    simp only
    rw [if_neg (by simp [hl1])]
    obtain ⟨cg1, stores, k1, k2, k3, k4⟩ :=
      hloop [Value.tmpNull ("__tmp_" ++ "agg.sret") cargs.return_type] cg0 hl1 hl2
    simp only [k1, hcc]
    refine ⟨_, _, stores, [], rfl, ?_, ?_, ?_, ?_⟩
    · simp only [CodeGen.emit, k2]
      rw [e2, hty, hrt]
      simp
    · simpa using k3
    · intro _
      rw [hrt]
      rfl
    · exact ⟨((hcg0.trans e3).trans k4).trans (CodeGen.frame_emit _ _), fun e h => by cases h⟩

end X86_64

end abi

/-! ## Properties of the reference-count emitters -/

namespace CodeGen

theorem llvmCallC_plain (f : String) (args : List Value) (cg : CG) :
    llvmCallC f args false false cg
      = .ok (.callResult (.function f), emit cg [.call (.function f) args none]) := rfl

theorem locationOperand_frame {a b : CG} (h : Frame a b) (tag : String) :
    locationOperand b tag = locationOperand a tag := by
  unfold locationOperand llvmCurrentLocation
  rw [h.debug, h.location]

theorem cctorCall_frame {a b : CG} (h : Frame a b) (ctx addr : Value) (t : HiltiType)
    (addl : String) : cctorCall b ctx addr t addl = cctorCall a ctx addr t addl := by
  unfold cctorCall
  rw [locationOperand_frame h]

theorem dtorCall_frame {a b : CG} (h : Frame a b) (ctx addr : Value) (t : HiltiType)
    (addl : String) : dtorCall b ctx addr t addl = dtorCall a ctx addr t addl := by
  unfold dtorCall
  rw [locationOperand_frame h]

theorem pinCode_frame {a b : CG} (h : Frame a b) (ctx : Value) (ls : List LiveValue) :
    pinCode b ctx ls = pinCode a ctx ls := by
  induction ls with
  | nil => rfl
  | cons l ls ih => simp only [pinCode, ih, cctorCall_frame h]

theorem unpinCode_frame {a b : CG} (h : Frame a b) (ctx : Value) (ls : List LiveValue) :
    unpinCode b ctx ls = unpinCode a ctx ls := by
  induction ls with
  | nil => rfl
  | cons l ls ih => simp only [unpinCode, ih, dtorCall_frame h]

/-- `llvmDtor` on an address. -/
theorem llvmDtor_ptr (val : Value) (ty : LType) (t : HiltiType) (addl : String) (cg : CG)
    (ctx : Value) (hctx : llvmExecutionContext cg = .ok ctx) :
    ∃ cg', llvmDtor val ty t true addl cg = .ok cg' ∧
      cg'.code = cg.code ++ (if hasDtor t then [dtorCall cg ctx val t addl] else []) ∧
      Frame cg cg' := by
  unfold llvmDtor hasDtor
  simp only
  cases h : ((typeInfo t).dtor.length == 0 && ! (typeInfo t).dtor_func)
  · simp only [Bool.false_eq_true, if_false, Bool.not_true, hctx, llvmCallC_plain,
      Bool.not_false, if_true]
    exact ⟨_, rfl, rfl, frame_emit _ _⟩
  · simp only [if_true, Bool.not_true, Bool.false_eq_true, if_false, List.append_nil]
    exact ⟨_, rfl, rfl, Frame.refl _⟩

/-- `llvmCctor` on an address. -/
theorem llvmCctor_ptr (val : Value) (ty : LType) (t : HiltiType) (addl : String) (cg : CG)
    (ctx : Value) (hctx : llvmExecutionContext cg = .ok ctx) :
    ∃ cg', llvmCctor val ty t true addl cg = .ok cg' ∧
      cg'.code = cg.code ++ (if hasCctor t then [cctorCall cg ctx val t addl] else []) ∧
      Frame cg cg' := by
  unfold llvmCctor hasCctor
  simp only
  cases h : ((typeInfo t).cctor.length == 0 && ! (typeInfo t).cctor_func)
  · simp only [Bool.false_eq_true, if_false, Bool.not_true, hctx, llvmCallC_plain,
      Bool.not_false, if_true]
    exact ⟨_, rfl, rfl, frame_emit _ _⟩
  · simp only [if_true, Bool.not_true, Bool.false_eq_true, if_false, List.append_nil]
    exact ⟨_, rfl, rfl, Frame.refl _⟩

/-- `llvmDtor` on a value of the LLVM type of `t`: the value goes into a `gcobj`
temporary first. -/
theorem llvmDtor_val (val : Value) (t : HiltiType) (addl : String) (cg : CG) (ctx : Value)
    (hctx : llvmExecutionContext cg = .ok ctx) :
    ∃ cg', llvmDtor val (llvmType t) t false addl cg = .ok cg' ∧
      cg'.code
        = cg.code ++ (if hasDtor t then
            [.store val (.tmp "__tmp_gcobj" (llvmType t) val),
             dtorCall cg ctx (.tmp "__tmp_gcobj" (llvmType t) val) t addl] else []) ∧
      Frame cg cg' := by
  unfold llvmDtor hasDtor
  simp only
  cases h : ((typeInfo t).dtor.length == 0 && ! (typeInfo t).dtor_func)
  · obtain ⟨cg0, e1, e2, e3⟩ := llvmAddTmp_init "gcobj" (llvmType t) val 0 cg (by decide)
    have hctx' := (llvmExecutionContext_frame e3).trans hctx
    simp only [Bool.false_eq_true, if_false, Bool.not_false, if_true, e1, hctx', llvmCallC_plain]
    refine ⟨_, rfl, ?_, e3.trans (frame_emit _ _)⟩
    simp only [emit, e2, dtorCall, locationOperand, llvmCurrentLocation, e3.debug,
      e3.location]
    simp
  · simp only [if_true, Bool.not_true, Bool.false_eq_true, if_false, List.append_nil]
    exact ⟨_, rfl, rfl, Frame.refl _⟩

/-- `llvmCctor` on a value of the LLVM type of `t`: the value goes into a `gcobj`
temporary first. -/
theorem llvmCctor_val (val : Value) (t : HiltiType) (addl : String) (cg : CG) (ctx : Value)
    (hctx : llvmExecutionContext cg = .ok ctx) :
    ∃ cg', llvmCctor val (llvmType t) t false addl cg = .ok cg' ∧
      cg'.code
        = cg.code ++ (if hasCctor t then
            [.store val (.tmp "__tmp_gcobj" (llvmType t) val),
             cctorCall cg ctx (.tmp "__tmp_gcobj" (llvmType t) val) t addl] else []) ∧
      Frame cg cg' := by
  unfold llvmCctor hasCctor
  simp only
  cases h : ((typeInfo t).cctor.length == 0 && ! (typeInfo t).cctor_func)
  · obtain ⟨cg0, e1, e2, e3⟩ := llvmAddTmp_init "gcobj" (llvmType t) val 0 cg (by decide)
    have hctx' := (llvmExecutionContext_frame e3).trans hctx
    simp only [Bool.false_eq_true, if_false, Bool.not_false, if_true, e1, hctx', llvmCallC_plain]
    refine ⟨_, rfl, ?_, e3.trans (frame_emit _ _)⟩
    simp only [emit, e2, cctorCall, locationOperand, llvmCurrentLocation, e3.debug,
      e3.location]
    simp
  · simp only [if_true, Bool.not_true, Bool.false_eq_true, if_false, List.append_nil]
    exact ⟨_, rfl, rfl, Frame.refl _⟩

/-- Every live value reported is the address of an expression, with the type of
the expression. -/
theorem liveValuesLoop_shape (dead : List Expression) :
    ∀ (ls : List Expression) (acc lives : List LiveValue),
      liveValuesLoop dead ls acc = .ok lives →
      (∀ l ∈ acc, ∃ e, l = (Value.address e, e.type, true)) →
      ∀ l ∈ lives, ∃ e, l = (Value.address e, e.type, true) := by
  intro ls
  induction ls with
  | nil =>
    intro acc lives h hacc
    cases h
    exact hacc
  | cons x xs ih =>
    intro acc lives h hacc
    unfold liveValuesLoop at h
    split_ifs at h
    · exact ih acc lives h hacc
    · exact ih acc lives h hacc
    · refine ih _ lives h ?_
      intro l hl
      rcases List.mem_append.mp hl with hl | hl
      · exact hacc l hl
      · simp only [List.mem_singleton] at hl
        exact ⟨x, hl⟩

theorem liveValues_shape (cg : CG) (lives : List LiveValue) (h : liveValues cg = .ok lives) :
    ∀ l ∈ lives, ∃ e, l = (Value.address e, e.type, true) := by
  unfold liveValues at h
  split_ifs at h
  · exact liveValuesLoop_shape _ _ _ _ h (by simp)
  · cases h
    simp

theorem liveValues_is_ptr (cg : CG) (lives : List LiveValue) (h : liveValues cg = .ok lives) :
    ∀ l ∈ lives, l.2.2 = true := by
  intro l hl
  obtain ⟨e, he⟩ := liveValues_shape cg lives h l hl
  rw [he]

/-- The loop of `llvmAdaptStackForSafepoint`, spelled out. -/
theorem adaptLiveValues_spec (pre : Bool) (ctx : Value) : ∀ (ls : List LiveValue) (cg : CG),
    llvmExecutionContext cg = .ok ctx → (∀ l ∈ ls, l.2.2 = true) →
    ∃ cg', adaptLiveValues pre ls cg = .ok cg' ∧
      cg'.code = cg.code ++ (if pre then pinCode cg ctx ls else unpinCode cg ctx ls) ∧
      Frame cg cg' := by
  intro ls
  induction ls with
  | nil =>
    intro cg _ _
    refine ⟨cg, rfl, ?_, Frame.refl cg⟩
    cases pre <;> simp [pinCode, unpinCode]
  | cons l ls ih =>
    intro cg hctx hptr
    have hl : l.2.2 = true := hptr l (List.mem_cons_self _ _)
    have hls : ∀ l' ∈ ls, l'.2.2 = true := fun l' h => hptr l' (List.mem_cons_of_mem _ h)
    cases pre with
    | true =>
      obtain ⟨cg1, h1, h2, h3⟩ :=
        llvmCctor_ptr l.1 (liveValueType l) l.2.1 "adapt-for-savepoint-pre" cg ctx hctx
      obtain ⟨cg2, k1, k2, k3⟩ := ih cg1 ((llvmExecutionContext_frame h3).trans hctx) hls
      refine ⟨cg2, ?_, ?_, h3.trans k3⟩
      · simp only [adaptLiveValues, if_true, hl, h1]
        exact k1
      · rw [k2, h2]
        simp only [if_true, pinCode, pinCode_frame h3, List.append_assoc]
    | false =>
      obtain ⟨cg1, h1, h2, h3⟩ :=
        llvmDtor_ptr l.1 (liveValueType l) l.2.1 "adapt-for-savepoint-post" cg ctx hctx
      obtain ⟨cg2, k1, k2, k3⟩ := ih cg1 ((llvmExecutionContext_frame h3).trans hctx) hls
      refine ⟨cg2, ?_, ?_, h3.trans k3⟩
      · simp only [adaptLiveValues, Bool.false_eq_true, if_false, hl, h1]
        exact k1
      · rw [k2, h2]
        simp only [Bool.false_eq_true, if_false, unpinCode, unpinCode_frame h3,
          List.append_assoc]

theorem llvmCreateStackmap_spec (cg : CG) (lives : List LiveValue)
    (hlive : liveValues cg = .ok lives) :
    ∃ cg', llvmCreateStackmap cg = .ok cg' ∧
      cg'.code = cg.code ++ stackmapCode cg lives ∧ Frame cg cg' := by
  unfold llvmCreateStackmap stackmapCode
  by_cases h : cg.have_llvm_35 = true
  · rw [if_neg (by simp [h]), if_pos h]
    have hl : liveValues { cg with stackmap_id := cg.stackmap_id + 1 } = .ok lives := hlive
    simp only [hl]
    exact ⟨_, rfl, rfl, ⟨rfl, rfl, rfl, rfl, rfl, rfl, rfl, rfl, rfl, rfl, fun h => h⟩⟩
  · rw [if_pos (by simpa using h), if_neg h, List.append_nil]
    exact ⟨cg, rfl, rfl, Frame.refl cg⟩

/-- `llvmAdaptStackForSafepoint(true)`: the copy-constructs of the live values. -/
theorem llvmAdaptStackForSafepoint_pre (cg : CG) (ctx : Value) (lives : List LiveValue)
    (hctx : llvmExecutionContext cg = .ok ctx) (hlive : liveValues cg = .ok lives) :
    ∃ cg', llvmAdaptStackForSafepoint true cg = .ok cg' ∧
      cg'.code = cg.code ++ pinCode cg ctx lives ∧ Frame cg cg' := by
  obtain ⟨cg', h1, h2, h3⟩ :=
    adaptLiveValues_spec true ctx lives cg hctx (liveValues_is_ptr cg lives hlive)
  exact ⟨cg', by simpa [llvmAdaptStackForSafepoint, hlive] using h1, by simpa using h2, h3⟩

/-- `llvmAdaptStackForSafepoint(false)`: the stackmap, if any, and the destructs
of the live values. -/
theorem llvmAdaptStackForSafepoint_post (cg : CG) (ctx : Value) (lives : List LiveValue)
    (hctx : llvmExecutionContext cg = .ok ctx) (hlive : liveValues cg = .ok lives) :
    ∃ cg', llvmAdaptStackForSafepoint false cg = .ok cg' ∧
      cg'.code = cg.code ++ stackmapCode cg lives ++ unpinCode cg ctx lives ∧
      Frame cg cg' := by
  obtain ⟨cg0, e0, e1, e2⟩ := llvmCreateStackmap_spec cg lives hlive
  have hlive0 : liveValues cg0 = .ok lives := (liveValues_frame e2).trans hlive
  obtain ⟨cg', h1, h2, h3⟩ :=
    adaptLiveValues_spec false ctx lives cg0
      ((llvmExecutionContext_frame e2).trans hctx) (liveValues_is_ptr cg0 lives hlive0)
  refine ⟨cg', ?_, ?_, e2.trans h3⟩
  · simpa [llvmAdaptStackForSafepoint, e0, hlive0] using h1
  · rw [h2, e1]
    simp only [Bool.false_eq_true, if_false, unpinCode_frame e2]

/-! ## Properties of the call emitter: arguments -/

/-- Under BoundaryC, what is pushed for a parameter that is not type-valued:
the pair RTTI, address of a temporary for a `pass_type_info` parameter, the
value itself otherwise; next to it what the adapter pushes for the parameter. -/
theorem callArgument_boundaryC (coerceTo : Expression → HiltiType → Expression)
    (p : Parameter) (a : Expression) (cg : CG)
    (hacc : argumentAccepted coerceTo .HILTI_C p a) (hp : p.2.isTypeType = false) :
    ((typeInfo p.2).pass_type_info = true →
      adaptParameter .HILTI_C p
        = .ok [("ti_" ++ p.1, llvmTypePtr (some llvmTypeRtti)), (p.1, llvmTypePtr none)] ∧
      ∃ cg', callArgument coerceTo .HILTI_C p a cg
          = .ok ([llvmRtti (coerceTo a p.2).type,
                  .bitcast (.tmp "__tmp_arg" (llvmType (coerceTo a p.2).type)
                              (.expr (coerceTo a p.2) p.2 none)) (llvmTypePtr none)], cg') ∧
        cg'.code
          = cg.code ++ [.store (.expr (coerceTo a p.2) p.2 none)
                          (.tmp "__tmp_arg" (llvmType (coerceTo a p.2).type)
                            (.expr (coerceTo a p.2) p.2 none))] ∧
        Frame cg cg') ∧
    ((typeInfo p.2).pass_type_info = false →
      adaptParameter .HILTI_C p = .ok [(p.1, llvmType p.2)] ∧
      callArgument coerceTo .HILTI_C p a cg = .ok ([.expr (coerceTo a p.2) p.2 none], cg)) := by
  have hty : (coerceTo a p.2).type.isTypeType = false := by
    have := hacc.1
    rw [hp] at this
    exact this
  constructor
  · intro hpti
    obtain ⟨cg0, e1, e2, e3⟩ := llvmAddTmp_init "arg" (llvmType (coerceTo a p.2).type)
      (.expr (coerceTo a p.2) p.2 none) 0 cg (by decide)
    refine ⟨by simp [adaptParameter, hp, hpti], cg0, ?_, e2, e3⟩
    simp only [callArgument, hty, hpti, Bool.false_eq_true, if_false, if_true]
    rw [e1]
    rfl
  · intro hpti
    exact ⟨by simp [adaptParameter, hp, hpti], by simp [callArgument, hty, hpti]⟩

/-- One accepted argument: the call emitter pushes as many values as the adapter
pushes parameters, and emits stores only. -/
theorem callArgument_spec (coerceTo : Expression → HiltiType → Expression)
    (cc : CallingConvention) (p : Parameter) (a : Expression) (cg : CG)
    (hcc : cc = .HILTI ∨ cc = .HOOK ∨ cc = .HILTI_C ∨ cc = .C)
    (hacc : argumentAccepted coerceTo cc p a) :
    ∃ vals sig cg' stores,
      callArgument coerceTo cc p a cg = .ok (vals, cg') ∧
      adaptParameter cc p = .ok sig ∧
      vals.length = sig.length ∧
      cg'.code = cg.code ++ stores ∧ (∀ st ∈ stores, st.isStore = true) ∧ Frame cg cg' := by
  rcases hcc with h | h | h | h <;> subst h
  · have : (coerceTo a p.2).type.isTypeType = false := hacc
    exact ⟨[.expr (coerceTo a p.2) p.2 (some false)], [(p.1, llvmType p.2)], cg, [],
      by simp [callArgument, this], rfl, rfl, by simp, by simp, Frame.refl cg⟩
  · have : (coerceTo a p.2).type.isTypeType = false := hacc
    exact ⟨[.expr (coerceTo a p.2) p.2 (some false)], [(p.1, llvmType p.2)], cg, [],
      by simp [callArgument, this], rfl, rfl, by simp, by simp, Frame.refl cg⟩
  · cases hp : p.2.isTypeType
    · obtain ⟨h1, h2⟩ := callArgument_boundaryC coerceTo p a cg hacc hp
      cases hpti : (typeInfo p.2).pass_type_info
      · obtain ⟨k1, k2⟩ := h2 hpti
        exact ⟨_, _, cg, [], k2, k1, rfl, by simp, by simp, Frame.refl cg⟩
      · obtain ⟨k1, cg', k2, k3, k4⟩ := h1 hpti
        refine ⟨_, _, cg', _, k2, k1, rfl, k3, ?_, k4⟩
        intro st hst
        simp only [List.mem_singleton] at hst
        rw [hst]; rfl
    · have hty : (coerceTo a p.2).type.isTypeType = true := by
        have := hacc.1
        rw [hp] at this
        exact this
      have hat : a.type.isTypeType = true := hacc.2 hty
      unfold HiltiType.isTypeType at hat
      cases hin : a.type.typeType with
      | none => simp [hin] at hat
      | some inner =>
        refine ⟨[.rtti inner], [("ti_" ++ p.1, llvmTypePtr (some llvmTypeRtti))], cg, [],
          ?_, ?_, rfl, by simp, by simp, Frame.refl cg⟩
        · simp only [callArgument, hty, if_true, hin]
        · simp only [adaptParameter, hp, if_true]
  · have : (coerceTo a p.2).type.isTypeType = false := hacc
    exact ⟨[.expr (coerceTo a p.2) p.2 none], [(p.1, llvmType p.2)], cg, [],
      by simp [callArgument, this], rfl, rfl, by simp, by simp, Frame.refl cg⟩

/-- The parameter loops of the call emitter and of the adapter run in step over
a prefix of accepted arguments. -/
theorem callArguments_prefix (coerceTo : Expression → HiltiType → Expression)
    (cc : CallingConvention) (hcc : cc = .HILTI ∨ cc = .HOOK ∨ cc = .HILTI_C ∨ cc = .C)
    (ps : List Parameter) (as : List Expression)
    (h : List.Forall₂ (argumentAccepted coerceTo cc) ps as) :
    ∀ (qs : List Parameter) (bs : List Expression) (acc : List Value) (accS : List NativeParam)
      (cg : CG),
      ∃ vals sig cg1 stores,
        callArguments coerceTo cc (ps ++ qs) (as ++ bs) acc cg
          = callArguments coerceTo cc qs bs (acc ++ vals) cg1 ∧
        adaptParameters cc (ps ++ qs) accS = adaptParameters cc qs (accS ++ sig) ∧
        vals.length = sig.length ∧
        cg1.code = cg.code ++ stores ∧ (∀ st ∈ stores, st.isStore = true) ∧ Frame cg cg1 := by
  induction h with
  | nil =>
    intro qs bs acc accS cg
    exact ⟨[], [], cg, [], by simp, by simp, rfl, by simp, by simp, Frame.refl cg⟩
  | @cons p a ps as hpa _ ih =>
    intro qs bs acc accS cg
    obtain ⟨v1, s1, cg1, st1, h1, h2, h3, h4, h5, h6⟩ :=
      callArgument_spec coerceTo cc p a cg hcc hpa
    obtain ⟨v2, s2, cg2, st2, k1, k2, k3, k4, k5, k6⟩ := ih qs bs (acc ++ v1) (accS ++ s1) cg1
    refine ⟨v1 ++ v2, s1 ++ s2, cg2, st1 ++ st2, ?_, ?_, ?_, ?_, ?_, h6.trans k6⟩
    · show callArguments coerceTo cc (p :: (ps ++ qs)) (a :: (as ++ bs)) acc cg = _
      rw [callArguments, h1]
      simp only
      rw [k1, List.append_assoc]
    · show adaptParameters cc (p :: (ps ++ qs)) accS = _
      rw [adaptParameters, h2]
      simp only
      rw [k2, List.append_assoc]
    · simp [h3, k3]
    · rw [k4, h4, List.append_assoc]
    · intro st hst
      rcases List.mem_append.mp hst with h | h
      · exact h5 st h
      · exact k5 st h

/-- The hidden arguments against the hidden parameters. -/
theorem hiddenArguments_spec (ftype : FunctionType) (hook_result : Option Value) (cg : CG)
    (ctx : Value)
    (hcc : ftype.cc = .HILTI ∨ ftype.cc = .HOOK ∨ ftype.cc = .HILTI_C ∨ ftype.cc = .C)
    (hrecv : ftype.cc = .HOOK → hook_result.isSome = ! (llvmType ftype.result).isVoidTy)
    (hctx : llvmExecutionContext cg = .ok ctx) (htmp : ExcptTmp cg) :
    ∃ hidden excpt cg' stores hiddenS,
      hiddenArguments ftype hook_result cg = .ok (hidden, excpt, cg') ∧
      hiddenParameters (llvmType ftype.result) ftype.cc false = .ok hiddenS ∧
      hidden.length = hiddenS.length ∧
      (ftype.cc = .HILTI_C → ∃ e, excpt = some e ∧ hidden = [e, ctx]) ∧
      (ftype.cc ≠ .HILTI_C → excpt = none) ∧
      cg'.code = cg.code ++ stores ∧ (∀ st ∈ stores, st.isStore = true) ∧ Frame cg cg' := by
  rcases hcc with h | h | h | h
  · refine ⟨[ctx], none, cg, [], [contextParam], ?_, ?_, rfl, by simp [h], by simp, by simp,
      by simp, Frame.refl cg⟩
    · simp [hiddenArguments, h, hctx]
    · simp [hiddenParameters, h, contextParam]
  · have hr := hrecv h
    cases hres : hook_result with
    | none =>
      rw [hres] at hr
      have hv : (llvmType ftype.result).isVoidTy = true := by simpa using hr.symm
      refine ⟨[ctx], none, cg, [], [contextParam], ?_, ?_, rfl, by simp [h], by simp, by simp,
        by simp, Frame.refl cg⟩
      · simp [hiddenArguments, h, hctx]
      · simp [hiddenParameters, h, hv, contextParam]
    | some r =>
      rw [hres] at hr
      have hv : (llvmType ftype.result).isVoidTy = false := by simpa using hr.symm
      refine ⟨[ctx, r], none, cg, [],
        [contextParam, ("__rval", llvmTypePtr (some (llvmType ftype.result)))],
        ?_, ?_, rfl, by simp [h], by simp, by simp, by simp, Frame.refl cg⟩
      · simp [hiddenArguments, h, hctx]
      · simp [hiddenParameters, h, hv, contextParam]
  · cases hne : ftype.attrNoException
    · obtain ⟨tmp, cg0, st, e0, e1, e2, e3⟩ := llvmAddTmp_excpt 0 cg htmp
      have hctx' := (llvmExecutionContext_frame e3).trans hctx
      refine ⟨[tmp, ctx], some tmp, cg0, [st],
        [exceptionParam, contextParam], ?_, ?_, ?_, ?_, by simp [h], e1, ?_, e3⟩
      · simp only [hiddenArguments, h, hne, Bool.not_false, if_true, e0, hctx']
      · simp [hiddenParameters, h, exceptionParam, contextParam]
      · simp
      · intro _
        exact ⟨_, rfl, rfl⟩
      · intro s hs
        simp only [List.mem_singleton] at hs
        rw [hs]; exact e2
    · refine ⟨[llvmConstNull (some (llvmTypePtr (some llvmTypeExceptionPtr))), ctx],
        some (llvmConstNull (some (llvmTypePtr (some llvmTypeExceptionPtr)))), cg, [],
        [exceptionParam, contextParam], ?_, ?_, ?_, ?_, by simp [h],
        by simp, by simp, Frame.refl cg⟩
      · simp only [hiddenArguments, h, hne, Bool.not_true, Bool.false_eq_true, if_false, hctx]
      · simp [hiddenParameters, h, exceptionParam, contextParam]
      · simp
      · intro _
        exact ⟨_, rfl, rfl⟩
  · refine ⟨[], none, cg, [], [], ?_, ?_, rfl, by simp [h], by simp, by simp, by simp,
      Frame.refl cg⟩
    · simp [hiddenArguments, h]
    · simp [hiddenParameters, h]

theorem llvmAdaptFunctionArgsOf_boundaryC (ftype : FunctionType) (hcc : ftype.cc = .HILTI_C)
    (visible : List NativeParam)
    (h : adaptParameters .HILTI_C ftype.parameters [] = .ok visible) :
    llvmAdaptFunctionArgsOf ftype
      = .ok (llvmType ftype.result, visible ++ [exceptionParam, contextParam]) := by
  simp [llvmAdaptFunctionArgsOf, llvmAdaptFunctionArgs, hcc, adaptReturnType, h,
    hiddenParameters, exceptionParam, contextParam]

/-- The adapter's parameter list and the call emitter's argument vector around
one BoundaryC parameter `p` with argument `a`, given what each pushes for it. -/
theorem around_parameter (coerceTo : Expression → HiltiType → Expression)
    (ftype : FunctionType) (pre post : List Parameter) (p : Parameter)
    (apre apost : List Expression) (a : Expression) (hook_result : Option Value) (cg : CG)
    (S : List NativeParam) (V : List Value) (stores : List Instr)
    (hcc : ftype.cc = .HILTI_C)
    (hparams : ftype.parameters = pre ++ p :: post)
    (hpre : List.Forall₂ (argumentAccepted coerceTo .HILTI_C) pre apre)
    (hpost : List.Forall₂ (argumentAccepted coerceTo .HILTI_C) post apost)
    (hctx : ∃ ctx, llvmExecutionContext cg = .ok ctx) (htmp : ExcptTmp cg)
    (hS : adaptParameter .HILTI_C p = .ok S)
    (hV : ∀ cg1, ∃ cg2, callArgument coerceTo .HILTI_C p a cg1 = .ok (V, cg2) ∧
      cg2.code = cg1.code ++ stores ∧ Frame cg1 cg2) :
    ∃ sig_pre sig_post val_pre val_post excpt cg' front back,
      val_pre.length = sig_pre.length ∧ val_post.length = sig_post.length ∧
      llvmAdaptFunctionArgsOf ftype = .ok (llvmType ftype.result, sig_pre ++ S ++ sig_post) ∧
      nativeArguments coerceTo ftype (apre ++ a :: apost) hook_result cg
        = .ok (val_pre ++ V ++ val_post, excpt, cg') ∧
      cg'.code = cg.code ++ front ++ stores ++ back := by
  have hfour : CallingConvention.HILTI_C = .HILTI ∨ CallingConvention.HILTI_C = .HOOK ∨
      CallingConvention.HILTI_C = .HILTI_C ∨ CallingConvention.HILTI_C = .C :=
    Or.inr (Or.inr (Or.inl rfl))
  obtain ⟨ctx, hctx⟩ := hctx
  obtain ⟨v1, s1, cg1, st1, a1, a2, a3, a4, -, a6⟩ :=
    callArguments_prefix coerceTo .HILTI_C hfour pre apre hpre (p :: post) (a :: apost) [] [] cg
  obtain ⟨cg2, b1, b2, b3⟩ := hV cg1
  obtain ⟨v3, s3, cg3, st3, c1, c2, c3, c4, -, c6⟩ :=
    callArguments_prefix coerceTo .HILTI_C hfour post apost hpost [] [] (v1 ++ V) (s1 ++ S) cg2
  have hctx3 : llvmExecutionContext cg3 = .ok ctx :=
    (llvmExecutionContext_frame ((a6.trans b3).trans c6)).trans hctx
  obtain ⟨hidden, excpt, cg4, st4, hiddenS, d1, d2, d3, -, -, d6, -, -⟩ :=
    hiddenArguments_spec ftype hook_result cg3 ctx (Or.inr (Or.inr (Or.inl hcc)))
      (by intro h; rw [hcc] at h; cases h) hctx3 (((a6.trans b3).trans c6).excpt_tmp htmp)
  have hS' : hiddenS = [exceptionParam, contextParam] := by
    simp only [hcc, hiddenParameters, Bool.not_false, if_true, List.singleton_append,
      Except.ok.injEq] at d2
    rw [← d2]
    rfl
  have hvis : adaptParameters .HILTI_C ftype.parameters [] = .ok (s1 ++ S ++ s3) := by
    rw [hparams, a2]
    show adaptParameters .HILTI_C (p :: post) ([] ++ s1) = _
    rw [adaptParameters, hS]
    simp only [List.nil_append]
    have := c2
    simp only [List.append_nil] at this
    rw [this]
    simp [adaptParameters]
  have hvals : callArguments coerceTo .HILTI_C ftype.parameters (apre ++ a :: apost) [] cg
      = .ok (v1 ++ V ++ v3, cg3) := by
    rw [hparams, a1]
    show callArguments coerceTo .HILTI_C (p :: post) (a :: apost) ([] ++ v1) cg1 = _
    rw [callArguments, b1]
    simp only [List.nil_append]
    have := c1
    simp only [List.append_nil] at this
    rw [this]
    simp [callArguments]
  refine ⟨s1, s3 ++ hiddenS, v1, v3 ++ hidden, excpt, cg4, st1, st3 ++ st4, a3, ?_, ?_, ?_, ?_⟩
  · simp [c3, d3]
  · rw [llvmAdaptFunctionArgsOf_boundaryC ftype hcc _ hvis, hS']
    simp
  · simp only [nativeArguments, hcc]
    rw [hvals]
    simp only [d1]
    simp
  · rw [d6, c4, b2, a4]
    simp

/-- Under BoundaryC, what is pushed for a type-valued parameter: the RTTI of
the type the argument denotes, for the single native parameter `ti_<name>`. -/
theorem callArgument_typeValued (coerceTo : Expression → HiltiType → Expression)
    (p : Parameter) (a : Expression)
    (hacc : argumentAccepted coerceTo .HILTI_C p a) (hp : p.2.isTypeType = true) :
    ∃ inner, a.type.typeType = some inner ∧
      adaptParameter .HILTI_C p = .ok [("ti_" ++ p.1, llvmTypePtr (some llvmTypeRtti))] ∧
      ∀ cg, callArgument coerceTo .HILTI_C p a cg = .ok ([.rtti inner], cg) := by
  have hty : (coerceTo a p.2).type.isTypeType = true := by
    have := hacc.1
    rw [hp] at this
    exact this
  have hat : a.type.isTypeType = true := hacc.2 hty
  unfold HiltiType.isTypeType at hat
  cases hin : a.type.typeType with
  | none => simp [hin] at hat
  | some inner =>
    refine ⟨inner, rfl, ?_, ?_⟩
    · simp [adaptParameter, hp]
    · intro cg
      simp [callArgument, hty, hin]

/-- C4: under BoundaryC, a parameter whose type info has `pass_type_info` set
(and which is not type-valued) is passed as a pair: the adapter gives it two
consecutive native parameters, the RTTI pointer `ti_<name>` and the untyped
data pointer `<name>`, and the call emitter passes at the same two positions
the RTTI of the argument's type and the address of a temporary into which the
argument value is stored; a parameter that has neither `pass_type_info` nor a
type value gets one native parameter and the value is passed inline; a
type-valued parameter gets the one native parameter `ti_<name>`, for which the
RTTI of the denoted type is passed. The exception temporary of the function, if
it has been made, is the one `llvmAddTmp("excpt", ..)` makes. -/
theorem type_info_parameter_passed_as_pair (coerceTo : Expression → HiltiType → Expression)
    (ftype : FunctionType) (pre post : List Parameter) (p : Parameter)
    (apre apost : List Expression) (a : Expression) (hook_result : Option Value) (cg : CG)
    (hcc : ftype.cc = .HILTI_C)
    (hparams : ftype.parameters = pre ++ p :: post)
    (hpre : List.Forall₂ (argumentAccepted coerceTo .HILTI_C) pre apre)
    (hp : argumentAccepted coerceTo .HILTI_C p a)
    (hpost : List.Forall₂ (argumentAccepted coerceTo .HILTI_C) post apost)
    (hctx : ∃ ctx, llvmExecutionContext cg = .ok ctx) (htmp : ExcptTmp cg) :
    ∃ sig_pre sig_post val_pre val_post excpt cg',
      val_pre.length = sig_pre.length ∧ val_post.length = sig_post.length ∧
      (p.2.isTypeType = false → (typeInfo p.2).pass_type_info = true →
        llvmAdaptFunctionArgsOf ftype
          = .ok (llvmType ftype.result,
                 sig_pre ++ [("ti_" ++ p.1, llvmTypePtr (some llvmTypeRtti)),
                             (p.1, llvmTypePtr none)] ++ sig_post) ∧
        nativeArguments coerceTo ftype (apre ++ a :: apost) hook_result cg
          = .ok (val_pre
                   ++ [llvmRtti (coerceTo a p.2).type,
                       .bitcast (.tmp "__tmp_arg" (llvmType (coerceTo a p.2).type)
                                   (.expr (coerceTo a p.2) p.2 none)) (llvmTypePtr none)]
                   ++ val_post, excpt, cg') ∧
        Instr.store (.expr (coerceTo a p.2) p.2 none)
            (.tmp "__tmp_arg" (llvmType (coerceTo a p.2).type) (.expr (coerceTo a p.2) p.2 none))
          ∈ cg'.code) ∧
      (p.2.isTypeType = false → (typeInfo p.2).pass_type_info = false →
        llvmAdaptFunctionArgsOf ftype
          = .ok (llvmType ftype.result, sig_pre ++ [(p.1, llvmType p.2)] ++ sig_post) ∧
        nativeArguments coerceTo ftype (apre ++ a :: apost) hook_result cg
          = .ok (val_pre ++ [.expr (coerceTo a p.2) p.2 none] ++ val_post, excpt, cg')) ∧
      (p.2.isTypeType = true →
        ∃ inner, a.type.typeType = some inner ∧
          llvmAdaptFunctionArgsOf ftype
            = .ok (llvmType ftype.result,
                   sig_pre ++ [("ti_" ++ p.1, llvmTypePtr (some llvmTypeRtti))] ++ sig_post) ∧
          nativeArguments coerceTo ftype (apre ++ a :: apost) hook_result cg
            = .ok (val_pre ++ [.rtti inner] ++ val_post, excpt, cg')) := by
  cases hnt : p.2.isTypeType
  · cases hpti : (typeInfo p.2).pass_type_info
    · obtain ⟨sp, sq, vp, vq, excpt, cg', front, back, h1, h2, h3, h4, -⟩ :=
        around_parameter coerceTo ftype pre post p apre apost a hook_result cg
          [(p.1, llvmType p.2)] [.expr (coerceTo a p.2) p.2 none] [] hcc hparams hpre hpost hctx
          htmp
          ((callArgument_boundaryC coerceTo p a cg hp hnt).2 hpti).1
          (fun cg1 => ⟨cg1, ((callArgument_boundaryC coerceTo p a cg1 hp hnt).2 hpti).2,
            by simp, Frame.refl cg1⟩)
      exact ⟨sp, sq, vp, vq, excpt, cg', h1, h2, by simp, fun _ _ => ⟨h3, h4⟩, by simp⟩
    · obtain ⟨sp, sq, vp, vq, excpt, cg', front, back, h1, h2, h3, h4, h5⟩ :=
        around_parameter coerceTo ftype pre post p apre apost a hook_result cg
          [("ti_" ++ p.1, llvmTypePtr (some llvmTypeRtti)), (p.1, llvmTypePtr none)]
          [llvmRtti (coerceTo a p.2).type,
           .bitcast (.tmp "__tmp_arg" (llvmType (coerceTo a p.2).type)
                       (.expr (coerceTo a p.2) p.2 none)) (llvmTypePtr none)]
          [.store (.expr (coerceTo a p.2) p.2 none)
             (.tmp "__tmp_arg" (llvmType (coerceTo a p.2).type)
               (.expr (coerceTo a p.2) p.2 none))]
          hcc hparams hpre hpost hctx htmp
          ((callArgument_boundaryC coerceTo p a cg hp hnt).1 hpti).1
          (fun cg1 => ((callArgument_boundaryC coerceTo p a cg1 hp hnt).1 hpti).2)
      refine ⟨sp, sq, vp, vq, excpt, cg', h1, h2, fun _ _ => ⟨h3, h4, ?_⟩, by simp, by simp⟩
      rw [h5]
      simp
  · obtain ⟨inner, k1, k2, k3⟩ := callArgument_typeValued coerceTo p a hp hnt
    obtain ⟨sp, sq, vp, vq, excpt, cg', front, back, h1, h2, h3, h4, -⟩ :=
      around_parameter coerceTo ftype pre post p apre apost a hook_result cg
        [("ti_" ++ p.1, llvmTypePtr (some llvmTypeRtti))] [.rtti inner] [] hcc hparams hpre
        hpost hctx htmp k2 (fun cg1 => ⟨cg1, k3 cg1, by simp, Frame.refl cg1⟩)
    exact ⟨sp, sq, vp, vq, excpt, cg', h1, h2, by simp, by simp, fun _ => ⟨inner, k1, h3, h4⟩⟩

/-! ## Properties of the call emitter: the emitted call -/

theorem resultIsCctored_spec (ftype : FunctionType)
    (hcc : ftype.cc = .HILTI ∨ ftype.cc = .HOOK ∨ ftype.cc = .HILTI_C ∨ ftype.cc = .C) :
    resultIsCctored ftype = .ok (returnsOwned ftype) := by
  rcases hcc with h | h | h | h <;> simp [resultIsCctored, returnsOwned, h]

theorem llvmCallingConvention_ok (cc : CallingConvention)
    (hcc : cc = .HILTI ∨ cc = .HOOK ∨ cc = .HILTI_C ∨ cc = .C) :
    ∃ llvm_cc, llvmCallingConvention cc = .ok llvm_cc := by
  rcases hcc with h | h | h | h <;> subst h <;> exact ⟨_, rfl⟩

theorem llvmAdaptFunctionArgsOf_ok (ftype : FunctionType)
    (hcc : ftype.cc = .HILTI ∨ ftype.cc = .HOOK ∨ ftype.cc = .HILTI_C ∨ ftype.cc = .C)
    (sig hiddenS : List NativeParam)
    (h1 : adaptParameters ftype.cc ftype.parameters [] = .ok sig)
    (h2 : hiddenParameters (llvmType ftype.result) ftype.cc false = .ok hiddenS) :
    ∃ rt, llvmAdaptFunctionArgsOf ftype = .ok (rt, sig ++ hiddenS) := by
  unfold llvmAdaptFunctionArgsOf llvmAdaptFunctionArgs
  simp only [h1, h2]
  rcases hcc with h | h | h | h <;> simp [adaptReturnType, h]

/-- The argument vector of a well-formed call: as long as the native parameter
list, built with stores only. -/
theorem nativeArguments_spec (tg : Target) (coerceTo : Expression → HiltiType → Expression)
    (ftype : FunctionType) (args : List Expression) (hook_result : Option Value) (cg : CG)
    (wf : WellFormedCall tg coerceTo ftype args hook_result cg) :
    ∃ llvm_args excpt cg1 stores t r ctx,
      nativeArguments coerceTo ftype args hook_result cg = .ok (llvm_args, excpt, cg1) ∧
      llvmAdaptFunctionArgsOf ftype = .ok t ∧
      abi.X86_64.classifyArgumentsCore tg t.1 t.2 = .ok r ∧
      llvmExecutionContext cg = .ok ctx ∧
      llvm_args.length = t.2.length ∧
      cg1.code = cg.code ++ stores ∧ (∀ st ∈ stores, st.isStore = true) ∧ Frame cg cg1 := by
  obtain ⟨ctx, hctx⟩ := wf.context
  obtain ⟨t, r, ht, hr⟩ := wf.classified
  obtain ⟨v1, s1, cg1, st1, a1, a2, a3, a4, a5, a6⟩ :=
    callArguments_prefix coerceTo ftype.cc wf.convention ftype.parameters args wf.arguments
      [] [] [] [] cg
  simp only [List.append_nil, List.nil_append, callArguments, adaptParameters] at a1 a2
  obtain ⟨hidden, excpt, cg2, st2, hiddenS, d1, d2, d3, -, -, d6, d7, d8⟩ :=
    hiddenArguments_spec ftype hook_result cg1 ctx wf.convention wf.receiver
      ((llvmExecutionContext_frame a6).trans hctx) (a6.excpt_tmp wf.temporaries)
  obtain ⟨rt, hrt⟩ := llvmAdaptFunctionArgsOf_ok ftype wf.convention s1 hiddenS a2 d2
  have ht2 : t = (rt, s1 ++ hiddenS) := by
    rw [ht] at hrt
    exact Except.ok.inj hrt
  refine ⟨v1 ++ hidden, excpt, cg2, st1 ++ st2, t, r, ctx, ?_, ht, hr, hctx, ?_, ?_, ?_,
    a6.trans d8⟩
  · simp only [nativeArguments, a1, d1]
  · rw [ht2]
    simp [a3, d3]
  · rw [d6, a4, List.append_assoc]
  · intro st hst
    rcases List.mem_append.mp hst with h | h
    · exact a5 st h
    · exact d7 st h

/-- The reference-count adjustment on the call result, spelled out, for a result
of the LLVM type of the declared result or one that needs no copy-construct. -/
theorem adjustResult_spec (result : Value) (result_ty : LType) (ftype : FunctionType)
    (owned cctor_result : Bool) (cg : CG) (ctx : Value)
    (hctx : llvmExecutionContext cg = .ok ctx)
    (hty : result_ty = llvmType ftype.result ∨
      (owned = false ∧ (cctor_result = false ∨ hasCctor ftype.result = false))) :
    ∃ cg', adjustResult result result_ty ftype owned cctor_result cg = .ok cg' ∧
      cg'.code = cg.code ++ resultAdjustCode cg ctx result ftype.result owned cctor_result ∧
      Frame cg cg' := by
  rcases hty with hty | ⟨ho, hc⟩
  · subst hty
    unfold adjustResult resultAdjustCode
    cases owned <;> cases cctor_result
    · simp only [Bool.false_and, Bool.false_eq_true, if_false, Bool.not_false, Bool.true_and,
        List.append_nil]
      exact ⟨cg, rfl, rfl, Frame.refl cg⟩
    · obtain ⟨cg', h1, h2, h3⟩ := llvmCctor_val result ftype.result "llvmDoCall" cg ctx hctx
      simp only [Bool.false_and, Bool.false_eq_true, if_false, Bool.not_false, Bool.true_and,
        if_true]
      exact ⟨cg', h1, h2, h3⟩
    · obtain ⟨cg', h1, h2, h3⟩ := llvmDtor_val result ftype.result "llvmDoCall" cg ctx hctx
      simp only [Bool.not_false, Bool.and_true, if_true, h1, Bool.not_true, Bool.false_and,
        Bool.false_eq_true, if_false]
      exact ⟨cg', rfl, h2, h3⟩
    · simp only [Bool.not_true, Bool.and_false, Bool.false_eq_true, if_false, Bool.false_and,
        List.append_nil]
      exact ⟨cg, rfl, rfl, Frame.refl cg⟩
  · subst ho
    unfold adjustResult resultAdjustCode
    rcases hc with hc | hc
    · subst hc
      simp only [Bool.false_and, Bool.false_eq_true, if_false, Bool.not_false, Bool.true_and,
        List.append_nil]
      exact ⟨cg, rfl, rfl, Frame.refl cg⟩
    · have hc' : ((typeInfo ftype.result).cctor.length == 0
          && ! (typeInfo ftype.result).cctor_func) = true := by
        unfold hasCctor at hc
        simpa using hc
      cases cctor_result
      · simp only [Bool.false_and, Bool.false_eq_true, if_false, Bool.not_false, Bool.true_and,
          List.append_nil]
        exact ⟨cg, rfl, rfl, Frame.refl cg⟩
      · simp only [Bool.false_and, Bool.false_eq_true, if_false, Bool.not_false, Bool.true_and,
          if_true, hc, llvmCctor, hc', List.append_nil]
        exact ⟨cg, rfl, rfl, Frame.refl cg⟩

/-- The type of the native result: `i1` for a hook, else the LLVM type of the
declared result. -/
theorem nativeResultType (ftype : FunctionType) (t : LType × List NativeParam)
    (h : llvmAdaptFunctionArgsOf ftype = .ok t) :
    t.1 = (if ftype.cc = .HOOK then llvmTypeInt 1 else llvmType ftype.result) := by
  unfold llvmAdaptFunctionArgsOf llvmAdaptFunctionArgs at h
  cases hcc : ftype.cc <;> rw [hcc] at h <;> simp only [adaptReturnType] at h <;>
    first
    | cases h
    | (split at h
       · cases h
       · split at h
         · cases h
         · cases h
           simp)

/-- What the adjustment of the result needs, from the convention. -/
theorem resultAdjustable_spec (ftype : FunctionType) (cctor_result : Bool)
    (t : LType × List NativeParam) (h : llvmAdaptFunctionArgsOf ftype = .ok t)
    (hadj : resultAdjustable ftype cctor_result) :
    t.1 = llvmType ftype.result ∨
      (returnsOwned ftype = false ∧ (cctor_result = false ∨ hasCctor ftype.result = false)) := by
  have ht := nativeResultType ftype t h
  by_cases hcc : ftype.cc = .HOOK
  · have ho : returnsOwned ftype = false := by simp [returnsOwned, hcc]
    cases hc : cctor_result
    · exact Or.inr ⟨ho, Or.inl rfl⟩
    · cases hh : hasCctor ftype.result
      · exact Or.inr ⟨ho, Or.inr rfl⟩
      · left
        rw [ht, if_pos hcc, hadj hcc hc hh]
  · left
    rw [ht, if_neg hcc]

theorem safepointPre_spec (may : Bool) (cg : CG) (ctx : Value) (lives : List LiveValue)
    (hctx : llvmExecutionContext cg = .ok ctx) (hlive : may = true → liveValues cg = .ok lives) :
    ∃ cg', (if may then llvmAdaptStackForSafepoint true cg else .ok cg) = .ok cg' ∧
      cg'.code = cg.code ++ (if may then pinCode cg ctx lives else []) ∧
      Frame cg cg' := by
  cases may
  · exact ⟨cg, rfl, by simp, Frame.refl cg⟩
  · obtain ⟨cg', h1, h2, h3⟩ := llvmAdaptStackForSafepoint_pre cg ctx lives hctx (hlive rfl)
    exact ⟨cg', by simpa using h1, by simpa using h2, h3⟩

theorem safepointPost_spec (may : Bool) (cg : CG) (ctx : Value) (lives : List LiveValue)
    (hctx : llvmExecutionContext cg = .ok ctx) (hlive : may = true → liveValues cg = .ok lives) :
    ∃ cg' smap, (if may then llvmAdaptStackForSafepoint false cg else .ok cg) = .ok cg' ∧
      (∀ i ∈ smap, i.isStackmap = true) ∧
      cg'.code = cg.code ++ (if may then smap ++ unpinCode cg ctx lives else []) ∧
      Frame cg cg' := by
  cases may
  · exact ⟨cg, [], rfl, by simp, by simp, Frame.refl cg⟩
  · obtain ⟨cg', h1, h2, h3⟩ := llvmAdaptStackForSafepoint_post cg ctx lives hctx (hlive rfl)
    refine ⟨cg', stackmapCode cg lives, by simpa using h1, ?_, by simpa using h2, h3⟩
    intro i hi
    unfold stackmapCode at hi
    split_ifs at hi
    · simp only [List.mem_singleton] at hi
      rw [hi]; rfl
    · simp at hi

/-- The live values of a well-formed call, none when it triggers no
safepoint. -/
theorem WellFormedCall.lives {tg : Target} {coerceTo : Expression → HiltiType → Expression}
    {ftype : FunctionType} {args : List Expression} {hook_result : Option Value} {cg : CG}
    (wf : WellFormedCall tg coerceTo ftype args hook_result cg) :
    ∃ lives, ftype.mayTriggerSafepoint = true → liveValues cg = .ok lives := by
  cases h : ftype.mayTriggerSafepoint
  · exact ⟨[], fun h => by cases h⟩
  · obtain ⟨lives, hl⟩ := wf.live h
    exact ⟨lives, fun _ => hl⟩

/-- A yield that blocks on a value of another type than the temporary
`__tmp_obj` of the function was made for: the store into the temporary found
for reuse aborts. -/
theorem llvmFiberYield_reuse_abort (fiber : Value) (ty : HiltiType) (blockable_val tmp : Value)
    (blockable_val_ty tmp_ty : LType) (cg : CG)
    (hobj : cg.tmps.lookup "__tmp_obj" = some (tmp, tmp_ty))
    (hne : tmp_ty ≠ blockable_val_ty) :
    llvmFiberYield fiber (some (ty, true)) blockable_val blockable_val_ty cg
      = .error "LLVM store mismatch in CodeGen: operand types do not match" := by
  have hobj' : List.lookup ("__tmp_" ++ "obj") cg.tmps = some (tmp, tmp_ty) := hobj
  have h' : (tmp_ty != blockable_val_ty) = true := by
    simp only [bne_iff_ne, ne_eq]
    exact hne
  have hadd : llvmAddTmp "obj" blockable_val_ty (some (blockable_val, blockable_val_ty)) true 0 cg
      = .error "LLVM store mismatch in CodeGen: operand types do not match" := by
    unfold llvmAddTmp
    simp only [if_true, hobj', Option.getD_some, llvmCreateStore, h']
  unfold llvmFiberYield
  simp only [Bool.not_true, Bool.false_eq_true, if_false, hadd]

/-- A live value for which the loader has no address, a constant parameter that
is neither dead nor hoisted: `liveValues` aborts on its assertion. -/
theorem liveValues_constant_param (cg : CG) (e : Expression) (rest : List Expression)
    (hl : cg.leave_func = true) (hin : cg.liveness_in = e :: rest)
    (hd : cg.liveness_dead.contains e = false) (hh : e.hoisted = false)
    (hc : e.constant_param = true) :
    liveValues cg = .error "assertion failed: val" := by
  unfold liveValues
  rw [if_pos hl, hin]
  unfold liveValuesLoop
  simp only [hd, hh, hc, Bool.false_eq_true, if_false, if_true]

/-- The sample call is well formed on the sample target. -/
theorem sample_call_wellFormed :
    WellFormedCall sysv.target sample.keepType sample.ftype [sample.eNum, sample.eData] none
      sample.cg where
  convention := Or.inr (Or.inr (Or.inl rfl))
  arguments := List.Forall₂.cons ⟨rfl, fun h => by cases h⟩
    (List.Forall₂.cons ⟨rfl, fun h => by cases h⟩ List.Forall₂.nil)
  receiver := fun h => by cases h
  context := ⟨_, rfl⟩
  classified := ⟨_, _, rfl, rfl⟩
  temporaries := ExcptTmp.of_nil _ rfl
  live := fun _ => ⟨_, rfl⟩

/-- C4 (witness): the sample call `f(n, data)`, whose second parameter has type
`any`: the signature has the pair `ti_x`, `x` after `n`, and the call passes the
RTTI of `ref<bytes>` and the address of the temporary `__tmp_arg` there. -/
theorem type_info_parameter_passed_as_pair_witness :
    ∃ sig_pre sig_post val_pre val_post excpt cg',
      val_pre.length = sig_pre.length ∧
      llvmAdaptFunctionArgsOf sample.ftype
        = .ok (llvmType sample.ftype.result,
               sig_pre ++ [("ti_" ++ "x", llvmTypePtr (some llvmTypeRtti)),
                           ("x", llvmTypePtr none)] ++ sig_post) ∧
      nativeArguments sample.keepType sample.ftype ([sample.eNum] ++ sample.eData :: []) none
          sample.cg
        = .ok (val_pre
                 ++ [llvmRtti sample.tBytes,
                     .bitcast (.tmp "__tmp_arg" (llvmType sample.tBytes)
                                 (.expr sample.eData sample.tAny none)) (llvmTypePtr none)]
                 ++ val_post, excpt, cg') := by
  obtain ⟨sp, sq, vp, vq, excpt, cg', h1, -, h3, -⟩ :=
    type_info_parameter_passed_as_pair sample.keepType sample.ftype [("n", sample.tInt64)] []
      ("x", sample.tAny) [sample.eNum] [] sample.eData none sample.cg rfl rfl
      (List.Forall₂.cons ⟨rfl, fun h => by cases h⟩ List.Forall₂.nil)
      ⟨rfl, fun h => by cases h⟩ List.Forall₂.nil ⟨_, rfl⟩ (ExcptTmp.of_nil _ rfl)
  obtain ⟨h4, h5, -⟩ := h3 rfl rfl
  exact ⟨sp, sq, vp, vq, excpt, cg', h1, h4, h5⟩

end CodeGen

/-! ## Properties of the runtime entry point -/

namespace libhilti

/-- What `main` does once its options are accepted and no operand is left. -/
theorem parseOptions_main (prog : Program) (argv0 : String) (opts : List (Char × String))
    (threads : Int) (hopts : parseOptions opts prog 2 = some threads) :
    main prog argv0 opts 0
      = match prog.hlt_threading_stop (prog.main_run none) with
        | some e =>
          { status := 0,
            events := [Event.hlt_init, .hlt_config_set threads, .hlt_threading_start, .main_run,
              .hlt_threading_stop] ++ [.hlt_exception_print_uncaught e] }
        | none =>
          { status := 0,
            events := [Event.hlt_init, .hlt_config_set threads, .hlt_threading_start, .main_run,
              .hlt_threading_stop] } := by
  unfold main
  rw [hopts]
  rfl

/-- C17 (as amended): once the command line is accepted, `main` returns 0
whether or not `main_run` or `hlt_threading_stop` left an exception in the slot;
a pending exception is printed with `hlt_exception_print_uncaught` as the last
thing `main` does, and nothing of the kind is printed when none is pending. -/
theorem main_prints_uncaught_exits_zero (prog : Program) (argv0 : String)
    (opts : List (Char × String)) (threads : Int)
    (hopts : parseOptions opts prog 2 = some threads) :
    (main prog argv0 opts 0).status = 0 ∧
    (∀ e, prog.hlt_threading_stop (prog.main_run none) = some e →
      (main prog argv0 opts 0).events.getLast? = some (.hlt_exception_print_uncaught e)) ∧
    (prog.hlt_threading_stop (prog.main_run none) = none →
      ∀ e, Event.hlt_exception_print_uncaught e ∉ (main prog argv0 opts 0).events) := by
  rw [parseOptions_main prog argv0 opts threads hopts]
  cases h : prog.hlt_threading_stop (prog.main_run none) with
  | none => simp
  | some e => simp

/-- C17 (witness): the sample program started with `-t 4`. -/
theorem main_prints_uncaught_exits_zero_witness :
    (main sampleRaising "prog" [('t', "4")] 0).status = 0 :=
  (main_prints_uncaught_exits_zero sampleRaising "prog" [('t', "4")] 0 rfl).1

/-- C17 (counterexample): `main_run` leaves an `Overflow` exception; `main`
prints it and the exit status is 0, not non-zero. -/
theorem main_uncaught_exit_status_counterexample :
    sampleRaising.hlt_threading_stop (sampleRaising.main_run none)
      = some { kind := "Overflow", is_yield := false } ∧
    (main sampleRaising "prog" [] 0).events.getLast?
      = some (.hlt_exception_print_uncaught { kind := "Overflow", is_yield := false }) ∧
    ¬ (main sampleRaising "prog" [] 0).status ≠ 0 := by
  refine ⟨rfl, rfl, ?_⟩
  decide

end libhilti

/-! ## Properties of feeding in chunks -/

namespace bro

/-- The end of `FeedChunk`: the parser is kept, no parse call is made, the result
is -1 exactly for a yield exception, and input stays pending only after a yield
without `eod`, with the exception stored to resume with. -/
theorem finishChunk_spec (endp : Endpoint) (excpt : Option libhilti.Exception) (eod : Bool) :
    (finishChunk endp excpt eod).2.1.parser = endp.parser ∧
    (∀ c ∈ (finishChunk endp excpt eod).2.2, c.isParse = false) ∧
    ((finishChunk endp excpt eod).1 = -1 ↔ ∃ e, excpt = some e ∧ e.is_yield = true) ∧
    ((finishChunk endp excpt eod).2.1.data.isSome = true →
      endp.data.isSome = true ∧ eod = false ∧ (finishChunk endp excpt eod).1 = -1 ∧
      (finishChunk endp excpt eod).2.1.resume = excpt ∧ excpt.isSome = true) ∧
    ((finishChunk endp excpt eod).1 = -1 → eod = false →
      (finishChunk endp excpt eod).2.1.data = endp.data ∧
      (finishChunk endp excpt eod).2.1.resume = excpt) := by
  unfold finishChunk
  cases excpt with
  | none => simp
  | some e =>
    cases hy : e.is_yield <;> cases eod <;> simp [hy, Call.isParse]

/-- One call of `FeedChunk` on a consistent endpoint. -/
theorem FeedChunk_spec (endp : Endpoint) (c : Chunk) (h : endp.Consistent) :
    ∃ result endp' calls, FeedChunk endp c = .ok (result, endp', calls) ∧
      endp'.Consistent ∧
      (endp.parser.isSome = true → endp'.parser.isSome = true) ∧
      calls.countP Call.isParse ≤ (if endp.parser.isNone then 1 else 0) ∧
      (calls.countP Call.isParse = 1 → endp'.parser.isSome = true) ∧
      (result = -1 ↔ calls ≠ [] ∧ ∃ e, c.excpt = some e ∧ e.is_yield = true) ∧
      (result = -1 → c.eod = false → endp'.data.isSome = true ∧ endp'.resume = c.excpt) ∧
      (∀ e, endp.data.isSome = true → endp.resume = some e →
        ∃ rest, calls = Call.resume_func e :: rest ∧ ∀ x ∈ rest, x.isParse = false) := by
  obtain ⟨parser, data, resume⟩ := endp
  cases parser with
  | none =>
    cases data with
    | some d =>
      have := (h rfl).1
      simp at this
    | none =>
      cases hl : c.parser_for_analyzer with
      | none =>
        refine ⟨1, _, [], by simp [FeedChunk, hl], h, fun x => x, by simp, by simp, by simp,
          by simp, ?_⟩
        intro e hd'
        simp at hd'
      | some p =>
        obtain ⟨f1, f2, f3, f4, f5⟩ := finishChunk_spec
          { parser := some p, data := some (if c.eod = true then
              hlt_bytes_freeze (hlt_bytes_new_from_data_copy c.data)
              else hlt_bytes_new_from_data_copy c.data), resume := resume } c.excpt c.eod
        refine ⟨_, _, _, by simp only [FeedChunk, hl]; rfl, ?_, ?_, ?_, ?_, ?_, ?_, ?_⟩
        · intro hs
          obtain ⟨-, -, -, g4, g5⟩ := f4 hs
          rw [f1, g4]
          exact ⟨rfl, g5⟩
        · intro hx
          simp at hx
        · simp only [Option.isNone_none, if_true, List.countP_cons, Call.isParse]
          rw [List.countP_eq_zero.mpr]
          intro x hx
          simp [f2 x hx]
        · intro _
          rw [f1]; rfl
        · rw [f3]
          simp
        · intro hr he
          obtain ⟨g1, g2⟩ := f5 hr he
          rw [g1]
          exact ⟨rfl, g2⟩
        · intro e hd'
          simp at hd'
  | some p =>
    cases data with
    | none =>
      refine ⟨0, _, [], by simp [FeedChunk], h, fun x => x, by simp, by simp, by simp, by simp, ?_⟩
      intro e hd'
      simp at hd'
    | some d =>
      obtain ⟨-, hr⟩ := h rfl
      cases resume with
      | none => simp at hr
      | some r =>
        obtain ⟨f1, f2, f3, f4, f5⟩ := finishChunk_spec
          { parser := some p, data := some (if c.eod = true then
              hlt_bytes_freeze (if (c.data.length != 0) = true then
                hlt_bytes_append_raw_copy d c.data else d)
              else (if (c.data.length != 0) = true then hlt_bytes_append_raw_copy d c.data
                else d)),
            resume := none } c.excpt c.eod
        refine ⟨_, _, _, by simp only [FeedChunk]; rfl, ?_, ?_, ?_, ?_, ?_, ?_, ?_⟩
        · intro hs
          obtain ⟨-, -, -, g4, g5⟩ := f4 hs
          rw [f1, g4]
          exact ⟨rfl, g5⟩
        · intro _
          rw [f1]; rfl
        · simp only [Option.isNone_some, Bool.false_eq_true, if_false, List.countP_cons,
            Call.isParse]
          rw [List.countP_eq_zero.mpr]
          intro x hx
          simp [f2 x hx]
        · intro _
          rw [f1]; rfl
        · rw [f3]
          simp
        · intro hr' he
          obtain ⟨g1, g2⟩ := f5 hr' he
          rw [g1]
          exact ⟨rfl, g2⟩
        · intro e _ he
          cases he
          exact ⟨_, rfl, f2⟩

/-- A sequence of calls of `FeedChunk` from a consistent endpoint. -/
theorem feedAll_spec : ∀ (cs : List Chunk) (endp : Endpoint), endp.Consistent →
    ∃ rs endp', feedAll endp cs = .ok (rs, endp') ∧
      (rs.map (fun r => r.2.countP Call.isParse)).sum ≤ (if endp.parser.isNone then 1 else 0) ∧
      (∀ (i : Nat) (r : Int × List Call) (c : Chunk), rs[i]? = some r → cs[i]? = some c →
        (r.1 = -1 ↔ r.2 ≠ [] ∧ ∃ e, c.excpt = some e ∧ e.is_yield = true)) ∧
      (∀ (i : Nat) (r : Int × List Call) (c : Chunk) (r' : Int × List Call),
        rs[i]? = some r → cs[i]? = some c → rs[i + 1]? = some r' →
        r.1 = -1 → c.eod = false →
        ∃ e rest, c.excpt = some e ∧ r'.2 = Call.resume_func e :: rest ∧
          ∀ x ∈ rest, x.isParse = false) ∧
      (∀ (e : libhilti.Exception) (r : Int × List Call),
        endp.data.isSome = true → endp.resume = some e → rs[0]? = some r →
        ∃ rest, r.2 = Call.resume_func e :: rest ∧ ∀ x ∈ rest, x.isParse = false) := by
  intro cs
  induction cs with
  | nil =>
    intro endp _
    refine ⟨[], endp, rfl, by simp, ?_, ?_, ?_⟩
    · intro i r c h; simp at h
    · intro i r c r' h; simp at h
    · intro e r _ _ h; simp at h
  | cons c cs ih =>
    intro endp h
    obtain ⟨result, endp1, calls, s1, s2, s3, s4, s5, s6, s7, s8⟩ := FeedChunk_spec endp c h
    obtain ⟨rs, endp2, t1, t2, t3, t4, t5⟩ := ih endp1 s2
    refine ⟨(result, calls) :: rs, endp2, by simp [feedAll, s1, t1], ?_, ?_, ?_, ?_⟩
    · simp only [List.map_cons, List.sum_cons]
      cases hp : endp.parser with
      | some p =>
        have h1 := s3 (by rw [hp]; rfl)
        rw [hp] at s4
        simp only [Option.isNone_some, Bool.false_eq_true, if_false, Nat.le_zero_eq] at s4
        cases hp1 : endp1.parser with
        | none => rw [hp1] at h1; simp at h1
        | some p1 =>
          rw [hp1] at t2
          simp only [Option.isNone_some, Bool.false_eq_true, if_false, Nat.le_zero_eq] at t2
          simp [s4, t2]
      | none =>
        rw [hp] at s4
        simp only [Option.isNone_none, if_true] at s4 ⊢
        by_cases hc : calls.countP Call.isParse = 1
        · have h1 := s5 hc
          cases hp1 : endp1.parser with
          | none => rw [hp1] at h1; simp at h1
          | some p1 =>
            rw [hp1] at t2
            simp only [Option.isNone_some, Bool.false_eq_true, if_false, Nat.le_zero_eq] at t2
            omega
        · have : (List.map (fun r => List.countP Call.isParse r.2) rs).sum ≤ 1 := by
            apply le_trans t2
            split_ifs <;> omega
          omega
    · intro i r c' hr hc
      cases i with
      | zero =>
        simp only [List.getElem?_cons_zero, Option.some.injEq] at hr hc
        subst hr; subst hc
        exact s6
      | succ i =>
        simp only [List.getElem?_cons_succ] at hr hc
        exact t3 i r c' hr hc
    · intro i r c' r' hr hc hr' hres heod
      cases i with
      | zero =>
        simp only [List.getElem?_cons_zero, Option.some.injEq, zero_add,
          List.getElem?_cons_succ] at hr hc hr'
        subst hr; subst hc
        obtain ⟨-, e, he, -⟩ := s6.mp hres
        obtain ⟨g1, g2⟩ := s7 hres heod
        obtain ⟨rest, k1, k2⟩ := t5 e r' g1 (g2.trans he) hr'
        exact ⟨e, rest, he, k1, k2⟩
      | succ i =>
        simp only [List.getElem?_cons_succ] at hr hc hr'
        exact t4 i r c' r' hr hc hr' hres heod
    · intro e r hd hres hr
      simp only [List.getElem?_cons_zero, Option.some.injEq] at hr
      subst hr
      exact s8 e hd hres

/-- The calls one `FeedChunk` makes, by the state of the endpoint: with no
parser yet and one found, `parse_func` on the chunk; with no parser and none
found, nothing; `resume_func` only on an endpoint with input pending, with the
exception stored; and input stays pending only after a yield with `eod` false. -/
theorem FeedChunk_calls (endp : Endpoint) (c : Chunk) (h : endp.Consistent) :
    ∃ result endp' calls, FeedChunk endp c = .ok (result, endp', calls) ∧
      (endp.parser = none → c.parser_for_analyzer.isSome = true →
        endp'.parser.isSome = true ∧
        ∃ rest, calls = Call.parse_func (if c.eod then
            hlt_bytes_freeze (hlt_bytes_new_from_data_copy c.data)
            else hlt_bytes_new_from_data_copy c.data) :: rest ∧
          ∀ x ∈ rest, ∃ e, x = Call.parseError e) ∧
      (endp.parser = none → c.parser_for_analyzer = none → calls = [] ∧ endp' = endp) ∧
      (endp.parser.isSome = true → endp.data = none → calls = [] ∧ result = 0) ∧
      (∀ e, Call.resume_func e ∈ calls → endp.data.isSome = true ∧ endp.resume = some e) ∧
      (endp'.data.isSome = true → result = -1 ∧ c.eod = false ∧ endp'.resume = c.excpt) := by
  have hfin : ∀ (ep : Endpoint) (x : Call), x ∈ (finishChunk ep c.excpt c.eod).2.2 →
      ∃ e, x = Call.parseError e := by
    intro ep x hx
    unfold finishChunk at hx
    cases he : c.excpt with
    | none => simp [he] at hx
    | some e =>
      cases hy : e.is_yield
      · simp [he, hy] at hx
        exact ⟨e, hx⟩
      · simp [he, hy] at hx
  have hpend : ∀ (ep : Endpoint), (finishChunk ep c.excpt c.eod).2.1.data.isSome = true →
      (finishChunk ep c.excpt c.eod).1 = -1 ∧ c.eod = false ∧
      (finishChunk ep c.excpt c.eod).2.1.resume = c.excpt := by
    intro ep hs
    obtain ⟨-, -, -, f4, -⟩ := finishChunk_spec ep c.excpt c.eod
    obtain ⟨-, g2, g3, g4, -⟩ := f4 hs
    exact ⟨g3, g2, g4⟩
  obtain ⟨parser, data, resume⟩ := endp
  cases parser with
  | none =>
    cases data with
    | some d =>
      have := (h rfl).1
      simp at this
    | none =>
      cases hl : c.parser_for_analyzer with
      | none =>
        refine ⟨1, ⟨none, none, resume⟩, [], by simp [FeedChunk, hl], by simp, by simp, by simp,
          by simp, by simp⟩
      | some p =>
        refine ⟨_, _, _, by simp only [FeedChunk, hl]; rfl, ?_, by simp, by simp, ?_, ?_⟩
        · intro _ _
          refine ⟨?_, _, rfl, fun x hx => hfin _ x hx⟩
          rw [(finishChunk_spec _ c.excpt c.eod).1]
          rfl
        · intro e he
          rcases List.mem_cons.mp he with he | he
          · cases he
          · obtain ⟨e', he'⟩ := hfin _ _ he
            cases he'
        · intro hs
          exact hpend _ hs
  | some p =>
    cases data with
    | none =>
      refine ⟨0, ⟨some p, none, resume⟩, [], by simp [FeedChunk], by simp, by simp, by simp,
        by simp, ?_⟩
      intro hs
      simp at hs
    | some d =>
      obtain ⟨-, hr⟩ := h rfl
      cases resume with
      | none => simp at hr
      | some r =>
        refine ⟨_, _, _, by simp only [FeedChunk]; rfl, by simp, by simp, by simp, ?_, ?_⟩
        · intro e he
          rcases List.mem_cons.mp he with he | he
          · cases he
            exact ⟨rfl, rfl⟩
          · obtain ⟨e', he'⟩ := hfin _ _ he
            cases he'
        · intro hs
          exact hpend _ hs

/-- The calls of a sequence of `FeedChunk` calls from a consistent endpoint. -/
theorem feedAll_calls : ∀ (cs : List Chunk) (endp : Endpoint), endp.Consistent →
    ∃ rs endp', feedAll endp cs = .ok (rs, endp') ∧ rs.length = cs.length ∧
      (endp.parser = none →
        ∀ (i : Nat) (c : Chunk) (r : Int × List Call),
          (∀ (j : Nat) (c' : Chunk), j < i → cs[j]? = some c' → c'.parser_for_analyzer = none) →
          cs[i]? = some c → c.parser_for_analyzer.isSome = true → rs[i]? = some r →
          ∃ rest, r.2 = Call.parse_func (if c.eod then
              hlt_bytes_freeze (hlt_bytes_new_from_data_copy c.data)
              else hlt_bytes_new_from_data_copy c.data) :: rest ∧
            ∀ x ∈ rest, ∃ e, x = Call.parseError e) ∧
      (∀ (i : Nat) (r r' : Int × List Call) (c : Chunk) (e : libhilti.Exception),
        rs[i]? = some r → cs[i]? = some c → rs[i + 1]? = some r' → Call.resume_func e ∈ r'.2 →
        r.1 = -1 ∧ c.eod = false ∧ c.excpt = some e) ∧
      (∀ (r : Int × List Call) (e : libhilti.Exception),
        rs[0]? = some r → Call.resume_func e ∈ r.2 →
        endp.data.isSome = true ∧ endp.resume = some e) := by
  intro cs
  induction cs with
  | nil =>
    intro endp _
    refine ⟨[], endp, rfl, rfl, ?_, ?_, ?_⟩
    · intro _ i c r _ hc; simp at hc
    · intro i r r' c e hr; simp at hr
    · intro r e hr; simp at hr
  | cons c cs ih =>
    intro endp h
    obtain ⟨result, endp1, calls, s1, s2, -⟩ := FeedChunk_spec endp c h
    obtain ⟨result', endp1', calls', u1, u2, u3, u4, u5, u6⟩ := FeedChunk_calls endp c h
    rw [s1] at u1
    cases u1
    obtain ⟨rs, endp2, t1, t2, t3, t4, t5⟩ := ih endp1 s2
    refine ⟨(result, calls) :: rs, endp2, by simp [feedAll, s1, t1], by simp [t2], ?_, ?_, ?_⟩
    · intro hp i c' r hprev hc hsome hr
      cases i with
      | zero =>
        simp only [List.getElem?_cons_zero, Option.some.injEq] at hc hr
        subst hc; subst hr
        exact (u2 hp hsome).2
      | succ i =>
        simp only [List.getElem?_cons_succ] at hc hr
        have hc0 : c.parser_for_analyzer = none := hprev 0 c (by omega) (by simp)
        obtain ⟨-, hendp⟩ := u3 hp hc0
        subst hendp
        exact t3 hp i c' r (fun j c'' hj hc'' => hprev (j + 1) c'' (by omega) (by simpa using hc''))
          hc hsome hr
    · intro i r r' c' e hr hc hr' hmem
      cases i with
      | zero =>
        simp only [List.getElem?_cons_zero, Option.some.injEq, zero_add,
          List.getElem?_cons_succ] at hr hc hr'
        subst hr; subst hc
        obtain ⟨g1, g2⟩ := t5 r' e hr' hmem
        obtain ⟨k1, k2, k3⟩ := u6 g1
        exact ⟨k1, k2, k3.symm.trans g2⟩
      | succ i =>
        simp only [List.getElem?_cons_succ] at hr hc hr'
        exact t4 i r r' c' e hr hc hr' hmem
    · intro r e hr hmem
      simp only [List.getElem?_cons_zero, Option.some.injEq] at hr
      subst hr
      exact u5 e hmem

/-- C15: for every sequence of `FeedChunk` calls on an endpoint after `Init`, no
call fails and each gives a result. The first call for which
`ParserForAnalyzer` has a parser invokes `parse_func` on the chunk, and
`parse_func` is invoked at most once over the whole sequence. A call returns -1
exactly when it made a parse or resume call and that left a yield exception.
After a call that returned -1 with `eod` false, the next call starts by invoking
`resume_func` with the yield exception that call stored and does not invoke
`parse_func`; and `resume_func` is invoked nowhere else: not by the first call,
and by a later call only with the yield exception of the call before it, which
returned -1 with `eod` false. -/
theorem feedChunk_parses_once_then_resumes (cs : List Chunk) :
    ∃ rs endp, feedAll Endpoint.init cs = .ok (rs, endp) ∧ rs.length = cs.length ∧
      (rs.map (fun r => r.2.countP Call.isParse)).sum ≤ 1 ∧
      (∀ (i : Nat) (c : Chunk) (r : Int × List Call),
        (∀ (j : Nat) (c' : Chunk), j < i → cs[j]? = some c' → c'.parser_for_analyzer = none) →
        cs[i]? = some c → c.parser_for_analyzer.isSome = true → rs[i]? = some r →
        ∃ rest, r.2 = Call.parse_func (if c.eod then
            hlt_bytes_freeze (hlt_bytes_new_from_data_copy c.data)
            else hlt_bytes_new_from_data_copy c.data) :: rest ∧
          ∀ x ∈ rest, ∃ e, x = Call.parseError e) ∧
      (∀ (i : Nat) (r : Int × List Call) (c : Chunk) (r' : Int × List Call),
        rs[i]? = some r → cs[i]? = some c → rs[i + 1]? = some r' →
        r.1 = -1 → c.eod = false →
        ∃ e rest, c.excpt = some e ∧ r'.2 = Call.resume_func e :: rest ∧
          ∀ x ∈ rest, x.isParse = false) ∧
      (∀ (i : Nat) (r : Int × List Call) (c : Chunk), rs[i]? = some r → cs[i]? = some c →
        (r.1 = -1 ↔ r.2 ≠ [] ∧ ∃ e, c.excpt = some e ∧ e.is_yield = true)) ∧
      (∀ (r : Int × List Call) (e : libhilti.Exception),
        rs[0]? = some r → Call.resume_func e ∉ r.2) ∧
      (∀ (i : Nat) (r r' : Int × List Call) (c : Chunk) (e : libhilti.Exception),
        rs[i]? = some r → cs[i]? = some c → rs[i + 1]? = some r' → Call.resume_func e ∈ r'.2 →
        r.1 = -1 ∧ c.eod = false ∧ c.excpt = some e) := by
  obtain ⟨rs, endp, h1, h2, h3, h4, -⟩ := feedAll_spec cs Endpoint.init (by intro h; cases h)
  obtain ⟨rs', endp', k1, k2, k3, k4, k5⟩ := feedAll_calls cs Endpoint.init (by intro h; cases h)
  rw [h1] at k1
  cases k1
  refine ⟨rs, endp, h1, k2, h2, k3 rfl, h4, h3, ?_, k4⟩
  intro r e hr hmem
  obtain ⟨g1, -⟩ := k5 r e hr hmem
  simp [Endpoint.init] at g1

/-- C15 (a run): the first chunk finds the parser `http` and the parse yields
with `y`; the second chunk resumes with `y` and the parse ends. `FeedChunk`
returns -1 after calling `parse_func` on the first chunk, then 1 after calling
`resume_func` on `y`; a third chunk is ignored. -/
theorem feedChunk_yield_then_resume_run :
    feedAll Endpoint.init
        [{ data := [71, 69], eod := false, parser_for_analyzer := some { name := "http" },
           excpt := some { kind := "Yield", is_yield := true } },
         { data := [84], eod := false, parser_for_analyzer := none, excpt := none },
         { data := [10], eod := true, parser_for_analyzer := none, excpt := none }]
      = .ok ([(-1, [Call.parse_func { content := [71, 69], frozen := false }]),
              (1, [Call.resume_func { kind := "Yield", is_yield := true }]),
              (0, [])],
             { parser := some { name := "http" }, data := none, resume := none }) := by
  decide

end bro

/-! ## Properties of the runtime's lists -/

namespace libhilti

theorem chain_congr (h h' : Heap) : ∀ (ps : List Nat) (prev : Option Nat),
    (∀ q ∈ ps, h'[q]? = h[q]?) → Chain h prev ps → Chain h' prev ps := by
  intro ps
  induction ps with
  | nil => intro _ _ _; trivial
  | cons p ps ih =>
    intro prev hq hc
    obtain ⟨n, h1, h2, h3, h4⟩ := hc
    refine ⟨n, ?_, h2, h3, ih (some p) (fun q hq' => hq q (List.mem_cons_of_mem _ hq')) h4⟩
    rw [hq p (List.mem_cons_self _ _)]
    exact h1

theorem setPrev_same (h : Heap) (p : Nat) (v : Option Nat) (n : ListNode)
    (hp : h[p]? = some n) : (setPrev h p v)[p]? = some { n with prev := v } := by
  unfold setPrev
  rw [hp]
  obtain ⟨hlt, -⟩ := List.getElem?_eq_some.mp hp
  exact List.getElem?_set_self hlt

theorem setPrev_other (h : Heap) (p q : Nat) (v : Option Nat) (hne : p ≠ q) :
    (setPrev h p v)[q]? = h[q]? := by
  unfold setPrev
  cases h[p]? with
  | none => rfl
  | some n => exact List.getElem?_set_ne hne

theorem setNext_same (h : Heap) (p : Nat) (v : Option Nat) (n : ListNode)
    (hp : h[p]? = some n) : (setNext h p v)[p]? = some { n with next := v } := by
  unfold setNext
  rw [hp]
  obtain ⟨hlt, -⟩ := List.getElem?_eq_some.mp hp
  exact List.getElem?_set_self hlt

theorem setNext_other (h : Heap) (p q : Nat) (v : Option Nat) (hne : p ≠ q) :
    (setNext h p v)[q]? = h[q]? := by
  unfold setNext
  cases h[p]? with
  | none => rfl
  | some n => exact List.getElem?_set_ne hne

/-- Every address of a chain holds a node. -/
theorem chain_mem (h : Heap) : ∀ (ps : List Nat) (prev : Option Nat), Chain h prev ps →
    ∀ q ∈ ps, ∃ n, h[q]? = some n := by
  intro ps
  induction ps with
  | nil => intro _ _ q hq; simp at hq
  | cons p ps ih =>
    intro prev hc q hq
    obtain ⟨n, h1, -, -, h4⟩ := hc
    rcases List.mem_cons.mp hq with e | e
    · exact ⟨n, by rw [e]; exact h1⟩
    · exact ih (some p) h4 q e

/-- The last node of a chain has no successor; its predecessor is the node
before it. -/
theorem chain_last (h : Heap) (p : Nat) : ∀ (init : List Nat) (prev : Option Nat),
    Chain h prev (init ++ [p]) →
    ∃ n, h[p]? = some n ∧ n.next = none ∧ n.prev = (init.getLast?).or prev := by
  intro init
  induction init with
  | nil =>
    intro prev hc
    obtain ⟨n, h1, h2, h3, -⟩ := hc
    exact ⟨n, h1, h3, by simpa using h2⟩
  | cons a init ih =>
    intro prev hc
    obtain ⟨-, -, -, -, h4⟩ := hc
    obtain ⟨n, k1, k2, k3⟩ := ih (some a) h4
    refine ⟨n, k1, k2, ?_⟩
    rw [k3]
    cases init with
    | nil => rfl
    | cons b init =>
      obtain ⟨x, hx⟩ : ∃ x, (b :: init).getLast? = some x :=
        ⟨_, List.getLast?_eq_getLast _ (List.cons_ne_nil _ _)⟩
      rw [List.getLast?_cons_cons, hx]
      rfl

/-- Cutting the last node off a chain: the node before it loses its successor,
the nodes before that stay as they are. -/
theorem chain_dropLast (h h' : Heap) (pv p : Nat) (npv : ListNode)
    (hpv : h[pv]? = some npv) (hpv' : h'[pv]? = some { npv with next := none })
    (hother : ∀ q, q ≠ pv → q ≠ p → h'[q]? = h[q]?) :
    ∀ (init : List Nat) (prev : Option Nat), (init ++ [pv, p]).Nodup →
      Chain h prev (init ++ [pv, p]) → Chain h' prev (init ++ [pv]) := by
  intro init
  induction init with
  | nil =>
    intro prev _ hc
    obtain ⟨n, h1, h2, -, -⟩ := hc
    rw [hpv] at h1
    cases h1
    exact ⟨_, hpv', h2, rfl, trivial⟩
  | cons a init ih =>
    intro prev hnd hc
    obtain ⟨n, h1, h2, h3, h4⟩ := hc
    have hnd' : (init ++ [pv, p]).Nodup := (List.nodup_cons.mp hnd).2
    have ha : a ∉ init ++ [pv, p] := (List.nodup_cons.mp hnd).1
    have hapv : a ≠ pv := fun e => ha (by simp [e])
    have hap : a ≠ p := fun e => ha (by simp [e])
    refine ⟨n, ?_, h2, ?_, ih (some a) hnd' h4⟩
    · rw [hother a hapv hap]
      exact h1
    · rw [h3]
      cases init <;> rfl

/-- `_unlink` of the first node of a list whose nodes have no timers. -/
theorem unlink_head (tm : Timers) (h : Heap) (l : HltList) (p : Nat) (rest : List Nat)
    (excpt : Option ListException) (hl : IsList h l (p :: rest))
    (hno : ∀ q ∈ p :: rest, ∀ n, h[q]? = some n → n.timer = none) :
    ∃ h' l', _unlink tm h l p excpt true = .ok (h', l', excpt) ∧ IsList h' l' rest ∧
      l'.tmgr = l.tmgr ∧ ∀ q ∈ rest, dataAt h' q = dataAt h q := by
  obtain ⟨hnd, hhead, htail, hsize, hchain⟩ := hl
  obtain ⟨n, h1, h2, h3, h4⟩ := hchain
  have ht : n.timer = none := hno p (List.mem_cons_self _ _) n h1
  have hlt : p < h.length := (List.getElem?_eq_some.mp h1).1
  have hp : p ∉ rest := (List.nodup_cons.mp hnd).1
  cases rest with
  | nil =>
    simp only [List.head?_nil] at h3
    have e : _unlink tm h l p excpt true
        = .ok (h.set p { n with next := none, prev := none, invalid := 1, timer := none },
               { l with head := none, tail := none, size := l.size - 1 }, excpt) := by
      simp only [_unlink, h1, h3, h2, ht]
    refine ⟨_, _, e, ⟨List.nodup_nil, rfl, rfl, ?_, trivial⟩, rfl, by simp⟩
    simp only [hsize]
    simp
  | cons q rest =>
    simp only [List.head?_cons] at h3
    obtain ⟨nq, k1, k2, k3, k4⟩ := h4
    have hpq : p ≠ q := fun e => hp (by simp [e])
    have hqp : q ≠ p := fun e => hpq e.symm
    have e1 : (setPrev h q none)[p]? = some n := by
      rw [setPrev_other h q p none hqp]; exact h1
    have hnd' : (q :: rest).Nodup := (List.nodup_cons.mp hnd).2
    have hq : q ∉ rest := (List.nodup_cons.mp hnd').1
    have e : _unlink tm h l p excpt true
        = .ok ((setPrev h q none).set p
                 { n with next := none, prev := none, invalid := 1, timer := none },
               { l with head := some q, size := l.size - 1 }, excpt) := by
      simp only [_unlink, h1, h3, h2, e1, ht]
    refine ⟨_, _, e, ⟨hnd', rfl, ?_, ?_, ?_⟩, rfl, ?_⟩
    · simp only [htail, List.getLast?_cons_cons]
    · simp only [hsize, List.length_cons]
      push_cast
      ring
    · refine ⟨{ nq with prev := none }, ?_, rfl, k3, ?_⟩
      · rw [List.getElem?_set_ne hpq]
        exact setPrev_same h q none nq k1
      · apply chain_congr h _ rest (some q) _ k4
        intro x hx
        have hxp : p ≠ x := fun e => hp (by simp [e, hx])
        have hxq : q ≠ x := fun e => hq (by rw [e]; exact hx)
        rw [List.getElem?_set_ne hxp, setPrev_other h q x none hxq]
    · intro x hx
      have hxp : p ≠ x := fun e => hp (by rw [e]; exact hx)
      unfold dataAt
      rw [List.getElem?_set_ne hxp]
      by_cases hxq : x = q
      · subst hxq
        rw [setPrev_same h x none nq k1, k1]
        rfl
      · rw [setPrev_other h q x none (fun e => hxq e.symm)]

/-- `_unlink` of the last node of a list whose nodes have no timers. -/
theorem unlink_last (tm : Timers) (h : Heap) (l : HltList) (init : List Nat) (p : Nat)
    (excpt : Option ListException) (hl : IsList h l (init ++ [p]))
    (hno : ∀ q ∈ init ++ [p], ∀ n, h[q]? = some n → n.timer = none) :
    ∃ h' l', _unlink tm h l p excpt true = .ok (h', l', excpt) ∧ IsList h' l' init ∧
      l'.tmgr = l.tmgr ∧ ∀ q ∈ init, dataAt h' q = dataAt h q := by
  rcases List.eq_nil_or_concat init with hinit | ⟨init', pv, hinit⟩
  · subst hinit
    obtain ⟨h', l', e1, e2, e3, e4⟩ := unlink_head tm h l p [] excpt hl hno
    exact ⟨h', l', e1, e2, e3, e4⟩
  · rw [List.concat_eq_append] at hinit
    subst hinit
    obtain ⟨hnd, hhead, htail, hsize, hchain⟩ := hl
    have hnd2 : (init' ++ [pv, p]).Nodup := by simpa using hnd
    have hchain2 : Chain h none (init' ++ [pv, p]) := by simpa using hchain
    obtain ⟨n, h1, h2, h3⟩ := chain_last h p (init' ++ [pv]) none hchain
    simp only [List.getLast?_concat, Option.or_some] at h3
    have ht : n.timer = none := hno p (by simp) n h1
    have hpvp : pv ≠ p := by
      intro e
      exact (List.nodup_append.mp hnd).2.2 (List.mem_append_right _ (List.mem_singleton_self pv))
        (by rw [e]; exact List.mem_singleton_self p)
    obtain ⟨npv, g1⟩ := chain_mem h (init' ++ [pv, p]) none hchain2 pv (by simp)
    have e1 : (setNext h pv none)[p]? = some n := by
      rw [setNext_other h pv p none hpvp]; exact h1
    have e : _unlink tm h l p excpt true
        = .ok ((setNext h pv none).set p
                 { n with next := none, prev := none, invalid := 1, timer := none },
               { l with tail := some pv, size := l.size - 1 }, excpt) := by
      simp only [_unlink, h1, h2, h3, e1, ht]
    refine ⟨_, _, e, ⟨(List.nodup_append.mp hnd).1, ?_, ?_, ?_, ?_⟩, rfl, ?_⟩
    · simp only [hhead]
      cases init' <;> rfl
    · simp
    · simp only [hsize, List.length_append, List.length_singleton]
      push_cast
      ring
    · apply chain_dropLast h _ pv p npv g1 _ _ init' none hnd2 hchain2
      · rw [List.getElem?_set_ne (fun e => hpvp e.symm)]
        exact setNext_same h pv none npv g1
      · intro q hq1 hq2
        rw [List.getElem?_set_ne (fun e => hq2 e.symm),
          setNext_other h pv q none (fun e => hq1 e.symm)]
    · intro x hx
      have hxp : p ≠ x := by
        intro e
        have := (List.nodup_append.mp hnd).2.2
        exact this hx (by simp [e])
      unfold dataAt
      rw [List.getElem?_set_ne hxp]
      by_cases hxq : x = pv
      · subst hxq
        rw [setNext_same h x none npv g1, g1]
        rfl
      · rw [setNext_other h pv x none (fun e => hxq e.symm)]

/-- C18: on a list that has no element, `hlt_list_pop_front`,
`hlt_list_pop_back`, `hlt_list_front` and `hlt_list_back` set the exception
`Underflow`, leave the heap and the list as they are, and `front` and `back`
return null. On a list with elements and without timer manager, none of them
touches the exception slot; `pop_front` leaves the list of the elements after
the first, `pop_back` the list of the elements before the last, the data of the
elements left unchanged; `front` and `back` return the data of the first and of
the last element. -/
theorem list_ends_underflow_or_access (tm : Timers) (h : Heap) (l : HltList) (ps : List Nat)
    (excpt : Option ListException) (hl : IsList h l ps) (htm : l.tmgr = none)
    (hno : ∀ q ∈ ps, ∀ n, h[q]? = some n → n.timer = none) :
    (ps = [] →
      hlt_list_pop_front tm h l excpt = .ok (h, l, some .Underflow) ∧
      hlt_list_pop_back tm h l excpt = .ok (h, l, some .Underflow) ∧
      hlt_list_front tm h l excpt = (none, some .Underflow) ∧
      hlt_list_back tm h l excpt = (none, some .Underflow)) ∧
    (∀ p rest, ps = p :: rest →
      (∃ h' l', hlt_list_pop_front tm h l excpt = .ok (h', l', excpt) ∧ IsList h' l' rest ∧
        ∀ q ∈ rest, dataAt h' q = dataAt h q) ∧
      hlt_list_front tm h l excpt = (some p, excpt)) ∧
    (∀ init p, ps = init ++ [p] →
      (∃ h' l', hlt_list_pop_back tm h l excpt = .ok (h', l', excpt) ∧ IsList h' l' init ∧
        ∀ q ∈ init, dataAt h' q = dataAt h q) ∧
      hlt_list_back tm h l excpt = (some p, excpt)) := by
  refine ⟨?_, ?_, ?_⟩
  · intro e
    subst e
    have hh : l.head = none := hl.head
    have ht : l.tail = none := hl.tail
    simp [hlt_list_pop_front, hlt_list_pop_back, hlt_list_front, hlt_list_back, hh, ht,
      hlt_set_exception]
  · intro p rest e
    subst e
    have hh : l.head = some p := hl.head
    obtain ⟨h', l', e1, e2, -, e4⟩ := unlink_head tm h l p rest excpt hl hno
    refine ⟨⟨h', l', ?_, e2, e4⟩, ?_⟩
    · simp only [hlt_list_pop_front, hh]
      exact e1
    · simp [hlt_list_front, hh, _access, htm]
  · intro init p e
    subst e
    have ht : l.tail = some p := by rw [hl.tail]; simp
    obtain ⟨h', l', e1, e2, -, e4⟩ := unlink_last tm h l init p excpt hl hno
    refine ⟨⟨h', l', ?_, e2, e4⟩, ?_⟩
    · simp only [hlt_list_pop_back, ht]
      exact e1
    · simp [hlt_list_back, ht, _access, htm]

/-- The sample heap and list are the list of the nodes at 0 and 1. -/
theorem sampleList_isList : IsList sampleHeap sampleList [0, 1] :=
  { nodup := by decide
    head := rfl
    tail := rfl
    size := rfl
    chain := ⟨_, rfl, rfl, rfl, _, rfl, rfl, rfl, trivial⟩ }

/-- C18 (witness): on the sample list `[7, 9]`, `pop_front` leaves the list of the
node at 1 and sets no exception, and `front` returns the data of the node at
0. -/
theorem list_ends_underflow_or_access_witness :
    (∃ h' l', hlt_list_pop_front sampleTimers sampleHeap sampleList none = .ok (h', l', none) ∧
      IsList h' l' [1] ∧ ∀ q ∈ [1], dataAt h' q = dataAt sampleHeap q) ∧
    hlt_list_front sampleTimers sampleHeap sampleList none = (some 0, none) :=
  (list_ends_underflow_or_access sampleTimers sampleHeap sampleList [0, 1] none
    sampleList_isList rfl
    (by
      intro q hq n hn
      simp only [List.mem_cons, List.mem_singleton, List.not_mem_nil, or_false] at hq
      rcases hq with e | e <;> subst e <;> simp [sampleHeap] at hn <;> rw [← hn])).2.1 0 [1] rfl

end libhilti

/-! ## Properties of blocks and insertion points -/

theorem terminatedFrom_plain (i : Instr) (rest : List Instr) (h : i.isPlain = true) :
    terminatedFrom (i :: rest) 0 = false := by
  cases i <;> simp_all [terminatedFrom, Instr.isPlain, Instr.isTerminator]

theorem blockFrom_plain (i : Instr) (rest : List Instr) (d : Nat) (h : i.isPlain = true) :
    blockFrom (i :: rest) d = blockFrom rest d := by
  cases i <;> simp_all [blockFrom, Instr.isPlain]

theorem blockFrom_terminator (i : Instr) (rest : List Instr) (d : Nat)
    (h : i.isTerminator = true) : blockFrom (i :: rest) d = blockFrom rest d := by
  cases i <;> simp_all [blockFrom, Instr.isTerminator]

/-- After plain instructions the insertion point is in the same block. -/
theorem blockFrom_append_plain (code : List Instr) : ∀ (is : List Instr),
    (∀ i ∈ is, i.isPlain = true) →
    blockFrom (code ++ is).reverse 0 = blockFrom code.reverse 0 := by
  intro is
  induction is using List.reverseRecOn with
  | nil => intro _; simp
  | append_singleton is i ih =>
    intro h
    rw [← List.append_assoc, List.reverse_append, List.reverse_singleton, List.singleton_append,
      blockFrom_plain _ _ _ (h i (by simp))]
    exact ih (fun j hj => h j (by simp [hj]))

/-- After plain instructions the block is not terminated. -/
theorem terminatedFrom_append_plain (code : List Instr) (is : List Instr) (hne : is ≠ [])
    (h : ∀ i ∈ is, i.isPlain = true) : terminatedFrom (code ++ is).reverse 0 = false := by
  obtain ⟨is', i, e⟩ := (List.eq_nil_or_concat is).resolve_left hne
  rw [List.concat_eq_append] at e
  subst e
  rw [← List.append_assoc, List.reverse_append, List.reverse_singleton, List.singleton_append]
  exact terminatedFrom_plain _ _ (h i (by simp))

theorem blockFrom_push (code : List Instr) (b : String) :
    blockFrom (code ++ [Instr.pushBuilder b]).reverse 0 = some b := by
  rw [List.reverse_append]
  rfl

theorem terminatedFrom_push (code : List Instr) (b : String) :
    terminatedFrom (code ++ [Instr.pushBuilder b]).reverse 0 = false := by
  rw [List.reverse_append]
  rfl

/-! ## Properties of the emitters inside a function -/

theorem SameFunction.same (a : FunctionState) : SameFunction a a :=
  ⟨Frame.refl _, rfl, rfl, rfl, rfl, rfl, rfl, rfl, rfl, rfl, rfl, rfl, rfl, rfl⟩

theorem SameFunction.andThen {a b c : FunctionState} (h1 : SameFunction a b)
    (h2 : SameFunction b c) : SameFunction a c :=
  ⟨h1.frame.trans h2.frame, h2.cc.trans h1.cc, h2.abort_on_excpt.trans h1.abort_on_excpt,
   h2.rtype.trans h1.rtype, h2.params.trans h1.params, h2.sret.trans h1.sret,
   h2.locals.trans h1.locals, h2.catches.trans h1.catches,
   h2.locals_cleared_on_excpt.trans h1.locals_cleared_on_excpt,
   h2.in_build_exit.trans h1.in_build_exit, h2.profile.trans h1.profile,
   h2.leave_name.trans h1.leave_name, h2.ref_exception.trans h1.ref_exception,
   h2.ref_exception_any.trans h1.ref_exception_any⟩

/-- Replacing the generator state inside its frame keeps the function. -/
theorem SameFunction.of_frame (fs : FunctionState) (cg : CG) (h : Frame fs.cg cg) :
    SameFunction fs { fs with cg := cg } :=
  ⟨h, rfl, rfl, rfl, rfl, rfl, rfl, rfl, rfl, rfl, rfl, rfl, rfl, rfl⟩

theorem FunctionState.exec_ok (fs : FunctionState) (f : CG → Except String CG) (cg : CG)
    (h : f fs.cg = .ok cg) : fs.exec f = .ok { fs with cg := cg } := by
  unfold FunctionState.exec
  rw [h]

theorem FunctionState.run_ok {α : Type} (fs : FunctionState) (f : CG → Except String (α × CG))
    (a : α) (cg : CG) (h : f fs.cg = .ok (a, cg)) : fs.run f = .ok (a, { fs with cg := cg }) := by
  unfold FunctionState.run
  rw [h]

namespace CodeGen

theorem llvmCurrentException_spec (cg : CG) (ctx : Value)
    (hctx : llvmExecutionContext cg = .ok ctx) :
    llvmCurrentException cg
      = .ok (.callResult (.function "__hlt_context_get_exception"),
             emit cg [.call (.function "__hlt_context_get_exception") [ctx] none]) := by
  unfold llvmCurrentException
  rw [hctx]
  rfl

theorem llvmClearException_spec (cg : CG) (ctx : Value)
    (hctx : llvmExecutionContext cg = .ok ctx) :
    llvmClearException cg
      = .ok (emit cg [.call (.function "__hlt_context_clear_exception") [ctx] none]) := by
  unfold llvmClearException
  rw [hctx]
  rfl

theorem llvmDebugPrint_spec (stream msg : String) (cg : CG) :
    ∃ cg', llvmDebugPrint stream msg cg = .ok cg' ∧
      cg'.code = cg.code ++ (if cg.debug then
        [.call (.function "__hlt_debug_print") [.constAsciiz stream, .constAsciiz msg] none]
        else []) ∧
      Frame cg cg' := by
  unfold llvmDebugPrint
  by_cases h : cg.debug = true
  · rw [h]
    exact ⟨_, rfl, rfl, frame_emit _ _⟩
  · rw [Bool.not_eq_true] at h
    rw [h]
    exact ⟨_, rfl, by simp, Frame.refl _⟩

theorem llvmDestroy_spec (val : Value) (t : HiltiType) (addl : String) (cg : CG) (ctx : Value)
    (hctx : llvmExecutionContext cg = .ok ctx) (hheap : (destroyTarget t).2.1 = true) :
    ∃ cg', llvmDestroy val t addl cg = .ok cg' ∧
      cg'.code = cg.code ++ (if hasObjDtor t then [destroyCall cg ctx val t addl] else []) ∧
      Frame cg cg' := by
  unfold llvmDestroy hasObjDtor destroyCall locationOperand
  unfold destroyTarget at *
  cases h : t.argType with
  | none =>
    rw [h] at hheap
    simp only at hheap
    simp only [hheap, Bool.not_true, Bool.false_eq_true, if_false]
    cases h2 : (t.info.obj_dtor.length == 0 && ! t.info.obj_dtor_func)
    · simp only [Bool.false_eq_true, if_false, hctx, llvmCallC_plain, Bool.not_false, if_true]
      exact ⟨_, rfl, rfl, frame_emit _ _⟩
    · simp only [if_true, Bool.not_true, Bool.false_eq_true, if_false, List.append_nil]
      exact ⟨_, rfl, rfl, Frame.refl _⟩
  | some a =>
    rw [h] at hheap
    simp only at hheap
    simp only [hheap, Bool.not_true, Bool.false_eq_true, if_false]
    cases h2 : (a.info.obj_dtor.length == 0 && ! a.info.obj_dtor_func)
    · simp only [Bool.false_eq_true, if_false, hctx, llvmCallC_plain, Bool.not_false, if_true]
      exact ⟨_, rfl, rfl, frame_emit _ _⟩
    · simp only [if_true, Bool.not_true, Bool.false_eq_true, if_false, List.append_nil]
      exact ⟨_, rfl, rfl, Frame.refl _⟩

theorem isPlain_store (i : Instr) (h : i.isStore = true) : i.isPlain = true := by
  cases i <;> simp_all [Instr.isStore, Instr.isPlain, Instr.isTerminator]

theorem llvmReinterpret_spec (val : Value) (val_ty ntype : LType) (cg : CG) :
    ∃ code, (llvmReinterpret val val_ty ntype cg).2.code = cg.code ++ code ∧
      (∀ i ∈ code, i.isStore = true) ∧ Frame cg (llvmReinterpret val val_ty ntype cg).2 := by
  unfold llvmReinterpret
  by_cases h : (val_ty == ntype) = true
  · rw [if_pos h]
    exact ⟨[], by simp, by simp, Frame.refl _⟩
  · rw [if_neg h]
    refine ⟨[.store val (.alloca val_ty val)], rfl, ?_, (frame_emitEntry _ _).trans (frame_emit _ _)⟩
    simp [Instr.isStore]

theorem llvmDebugPrint_code (stream msg : String) (cg : CG) :
    ∃ cg' code, llvmDebugPrint stream msg cg = .ok cg' ∧ cg'.code = cg.code ++ code ∧
      Frame cg cg' ∧
      ∀ i ∈ code, i = .call (.function "__hlt_debug_print")
        [.constAsciiz stream, .constAsciiz msg] none := by
  obtain ⟨cg', e1, e2, e3⟩ := llvmDebugPrint_spec stream msg cg
  refine ⟨cg', _, e1, e2, e3, ?_⟩
  intro i hi
  split at hi
  · simpa using hi
  · simp at hi

end CodeGen

/-! ## Properties of the sort of the catch clauses -/

theorem listMerge_perm {α : Type} (comp : α → α → Bool) (xs ys : List α) :
    (listMerge comp xs ys).Perm (xs ++ ys) := by
  induction xs, ys using listMerge.induct comp with
  | case1 ys => simp [listMerge]
  | case2 x xs => simp [listMerge]
  | case3 x xs y ys h ih =>
    rw [listMerge, if_pos h]
    exact (ih.cons y).trans List.perm_middle.symm
  | case4 x xs y ys h ih =>
    rw [listMerge, if_neg h]
    exact ih.cons x

/-- Merging two lists that are in order gives a list in order, for a comparison
that is total and transitive. -/
theorem listMerge_sorted {α : Type} (comp : α → α → Bool)
    (htot : ∀ a b, comp a b = false → comp b a = true)
    (htrans : ∀ a b c, comp a b = true → comp b c = true → comp a c = true)
    (xs ys : List α) :
    xs.Pairwise (fun a b => comp a b = true) → ys.Pairwise (fun a b => comp a b = true) →
    (listMerge comp xs ys).Pairwise (fun a b => comp a b = true) := by
  induction xs, ys using listMerge.induct comp with
  | case1 ys => intro _ h; simpa [listMerge] using h
  | case2 x xs => intro h _; simpa [listMerge] using h
  | case3 x xs y ys h ih =>
    intro hx hy
    rw [listMerge, if_pos h]
    rw [List.pairwise_cons] at hy
    refine List.Pairwise.cons ?_ (ih hx hy.2)
    intro z hz
    rw [(listMerge_perm comp (x :: xs) ys).mem_iff, List.mem_append, List.mem_cons] at hz
    rw [List.pairwise_cons] at hx
    rcases hz with (hz | hz) | hz
    · rw [hz]
      exact h
    · exact htrans _ _ _ h (hx.1 z hz)
    · exact hy.1 z hz
  | case4 x xs y ys h ih =>
    intro hx hy
    rw [listMerge, if_neg h]
    rw [List.pairwise_cons] at hx
    refine List.Pairwise.cons ?_ (ih hx.2 hy)
    intro z hz
    rw [(listMerge_perm comp xs (y :: ys)).mem_iff, List.mem_append, List.mem_cons] at hz
    rw [List.pairwise_cons] at hy
    have hxy : comp x y = true := htot _ _ (by simpa using h)
    rcases hz with hz | hz | hz
    · exact hx.1 z hz
    · rw [hz]
      exact hxy
    · exact htrans _ _ _ hxy (hy.1 z hz)

theorem sortCarry_spec {α : Type} (comp : α → α → Bool)
    (htot : ∀ a b, comp a b = false → comp b a = true)
    (htrans : ∀ a b c, comp a b = true → comp b c = true → comp a c = true)
    (bins : List (List α)) : ∀ (carry : List α),
    carry.Pairwise (fun a b => comp a b = true) →
    (∀ b ∈ bins, b.Pairwise (fun a b => comp a b = true)) →
    (∀ b ∈ sortCarry comp carry bins, b.Pairwise (fun a b => comp a b = true)) ∧
    (sortCarry comp carry bins).flatten.Perm (carry ++ bins.flatten) := by
  induction bins with
  | nil =>
    intro carry hc _
    simp [sortCarry, hc]
  | cons bin bins ih =>
    intro carry hc hb
    cases bin with
    | nil =>
      refine ⟨?_, by simp [sortCarry]⟩
      intro b hb'
      simp only [sortCarry, List.mem_cons] at hb'
      rcases hb' with hb' | hb'
      · rw [hb']
        exact hc
      · exact hb b (List.mem_cons_of_mem _ hb')
    | cons x xs =>
      obtain ⟨i1, i2⟩ := ih (listMerge comp (x :: xs) carry)
        (listMerge_sorted comp htot htrans _ _ (hb _ (List.mem_cons_self _ _)) hc)
        (fun b hb' => hb b (List.mem_cons_of_mem _ hb'))
      refine ⟨?_, ?_⟩
      · intro b hb'
        simp only [sortCarry, List.mem_cons] at hb'
        rcases hb' with hb' | hb'
        · rw [hb']
          exact List.Pairwise.nil
        · exact i1 b hb'
      · simp only [sortCarry, List.flatten_cons, List.nil_append]
        refine i2.trans ?_
        refine ((listMerge_perm comp (x :: xs) carry).append_right _).trans ?_
        rw [← List.append_assoc]
        exact List.perm_append_comm.append_right _

theorem sortBins_spec {α : Type} (comp : α → α → Bool)
    (htot : ∀ a b, comp a b = false → comp b a = true)
    (htrans : ∀ a b c, comp a b = true → comp b c = true → comp a c = true)
    (l : List α) : ∀ (bins : List (List α)),
    (∀ b ∈ bins, b.Pairwise (fun a b => comp a b = true)) →
    (∀ b ∈ sortBins comp l bins, b.Pairwise (fun a b => comp a b = true)) ∧
    (sortBins comp l bins).flatten.Perm (l ++ bins.flatten) := by
  induction l with
  | nil =>
    intro bins hb
    exact ⟨hb, by simp [sortBins]⟩
  | cons x xs ih =>
    intro bins hb
    obtain ⟨c1, c2⟩ := sortCarry_spec comp htot htrans bins [x] (List.pairwise_singleton _ _) hb
    obtain ⟨i1, i2⟩ := ih (sortCarry comp [x] bins) c1
    refine ⟨i1, ?_⟩
    simp only [sortBins]
    refine i2.trans ?_
    refine (c2.append_left xs).trans ?_
    simp only [List.singleton_append, List.cons_append]
    exact List.perm_middle

theorem sortCollect_spec {α : Type} (comp : α → α → Bool)
    (htot : ∀ a b, comp a b = false → comp b a = true)
    (htrans : ∀ a b c, comp a b = true → comp b c = true → comp a c = true)
    (bins : List (List α)) : ∀ (acc : List α),
    acc.Pairwise (fun a b => comp a b = true) →
    (∀ b ∈ bins, b.Pairwise (fun a b => comp a b = true)) →
    (sortCollect comp bins acc).Pairwise (fun a b => comp a b = true) ∧
    (sortCollect comp bins acc).Perm (acc ++ bins.flatten) := by
  induction bins with
  | nil =>
    intro acc ha _
    simp [sortCollect, ha]
  | cons bin bins ih =>
    intro acc ha hb
    obtain ⟨i1, i2⟩ := ih (listMerge comp bin acc)
      (listMerge_sorted comp htot htrans _ _ (hb _ (List.mem_cons_self _ _)) ha)
      (fun b hb' => hb b (List.mem_cons_of_mem _ hb'))
    refine ⟨i1, ?_⟩
    simp only [sortCollect, List.flatten_cons]
    refine i2.trans ?_
    refine ((listMerge_perm comp bin acc).append_right _).trans ?_
    rw [← List.append_assoc]
    exact List.perm_append_comm.append_right _

/-- The sort gives a rearrangement of the list in which every element stands
before those it compares before, for a comparison that is total and
transitive. -/
theorem listSort_spec {α : Type} (comp : α → α → Bool)
    (htot : ∀ a b, comp a b = false → comp b a = true)
    (htrans : ∀ a b c, comp a b = true → comp b c = true → comp a c = true)
    (l : List α) :
    (listSort comp l).Pairwise (fun a b => comp a b = true) ∧ (listSort comp l).Perm l := by
  obtain ⟨b1, b2⟩ := sortBins_spec comp htot htrans l [] (by simp)
  unfold listSort
  cases h : sortBins comp l [] with
  | nil =>
    rw [h] at b2
    simp only [List.flatten_nil, List.append_nil] at b2
    simp only
    exact ⟨List.Pairwise.nil, b2⟩
  | cons bin bins =>
    rw [h] at b1 b2
    obtain ⟨c1, c2⟩ := sortCollect_spec comp htot htrans bins bin (b1 _ (List.mem_cons_self _ _))
      (fun b hb => b1 b (List.mem_cons_of_mem _ hb))
    simp only
    refine ⟨c1, c2.trans ?_⟩
    simpa using b2

namespace CodeGen

theorem catchBefore_total (a b : Expression × ExceptionType) (h : catchBefore a b = false) :
    catchBefore b a = true := by
  unfold catchBefore at *
  simp only [decide_eq_false_iff_not, decide_eq_true_eq] at *
  omega

theorem catchBefore_trans (a b c : Expression × ExceptionType) (h1 : catchBefore a b = true)
    (h2 : catchBefore b c = true) : catchBefore a c = true := by
  unfold catchBefore at *
  simp only [decide_eq_true_eq] at *
  omega

/-- The sorted catch clauses: the clauses registered, rearranged so that no
clause stands before one of greater level. -/
theorem sorted_catches (cs : List (Expression × ExceptionType)) :
    (listSort catchBefore cs).Pairwise (fun a b => a.2.level ≥ b.2.level) ∧
    (listSort catchBefore cs).Perm cs := by
  obtain ⟨h1, h2⟩ := listSort_spec catchBefore catchBefore_total catchBefore_trans cs
  refine ⟨h1.imp ?_, h2⟩
  intro a b h
  simpa [catchBefore] using h

end CodeGen

/-! ## Properties of returning and of exception handling -/

namespace CodeGen

theorem CanHandle.of_same {a b : FunctionState} {ctx : Value} (h : CanHandle a ctx)
    (s : SameFunction a b) : CanHandle b ctx := by
  refine ⟨(llvmExecutionContext_frame s.frame).trans h.context, ?_, ?_⟩
  · rw [s.locals_cleared_on_excpt]
    exact h.cleared
  · rw [s.cc, s.ref_exception_any, s.params]
    exact h.slot

theorem llvmCreateStore_spec (val : Value) (ty : LType) (ptr : Value) (cg : CG) :
    llvmCreateStore val ty ptr (.ptr ty) cg = .ok (emit cg [.store val ptr]) := by
  simp [llvmCreateStore]

theorem llvmGCAssign_spec (dst val : Value) (val_ty : LType) (type : HiltiType)
    (plusone dtor_first : Bool) (cg : CG) (ctx : Value)
    (hctx : llvmExecutionContext cg = .ok ctx) (hv : type.valueType = true) :
    ∃ cg', llvmGCAssign dst (.ptr val_ty) val val_ty type plusone dtor_first cg = .ok cg' ∧
      cg'.code = cg.code ++ gcAssignCode cg ctx dst val type plusone dtor_first ∧
      Frame cg cg' := by
  unfold llvmGCAssign gcAssignCode
  rw [hv]
  simp only [Bool.not_true, Bool.false_eq_true, if_false]
  obtain ⟨cg1, d1, d2, d3⟩ : ∃ cg1,
      (if dtor_first = true then llvmDtor dst (.ptr val_ty) type true "gc-assign" cg
       else .ok cg) = .ok cg1 ∧
      cg1.code = cg.code
        ++ (if (dtor_first && hasDtor type) = true then [dtorCall cg ctx dst type "gc-assign"]
            else []) ∧
      Frame cg cg1 := by
    cases dtor_first with
    | true =>
      obtain ⟨cg1, d1, d2, d3⟩ := llvmDtor_ptr dst (.ptr val_ty) type "gc-assign" cg ctx hctx
      exact ⟨cg1, d1, by simpa using d2, d3⟩
    | false => exact ⟨cg, rfl, by simp, Frame.refl _⟩
  rw [d1]
  simp only [llvmCreateStore_spec]
  have hctx1 := (llvmExecutionContext_frame (d3.trans (frame_emit cg1 [.store val dst]))).trans hctx
  cases plusone with
  | true =>
    refine ⟨_, rfl, ?_, d3.trans (frame_emit _ _)⟩
    simp [emit, d2]
  | false =>
    obtain ⟨cg2, e1, e2, e3⟩ := llvmCctor_ptr dst (.ptr val_ty) type "gc-assign"
      (emit cg1 [.store val dst]) ctx hctx1
    simp only [Bool.not_false, if_true]
    refine ⟨cg2, e1, ?_, (d3.trans (frame_emit _ _)).trans e3⟩
    rw [e2, cctorCall_frame (d3.trans (frame_emit cg1 [.store val dst]))]
    simp [emit, d2]

theorem llvmGCClear_spec (addr : Value) (type : HiltiType) (tag : String) (cg : CG) (ctx : Value)
    (hctx : llvmExecutionContext cg = .ok ctx) (hv : type.valueType = true) :
    ∃ cg', llvmGCClear addr type tag cg = .ok cg' ∧
      cg'.code = cg.code
        ++ (if hasDtor type then [dtorCall cg ctx addr type ("gc-clear/" ++ tag)] else [])
        ++ [.store (.initVal type.render) addr] ∧
      Frame cg cg' := by
  unfold llvmGCClear
  rw [hv]
  simp only [Bool.not_true, Bool.false_eq_true, if_false]
  obtain ⟨cg1, d1, d2, d3⟩ := llvmDtor_ptr addr (llvmTypePtr (some (llvmType type))) type
    ("gc-clear/" ++ tag) cg ctx hctx
  rw [d1]
  exact ⟨_, rfl, by simp [emit, d2], d3.trans (frame_emit _ _)⟩

theorem isPlain_dtorCall (cg : CG) (ctx addr : Value) (t : HiltiType) (addl : String) :
    (dtorCall cg ctx addr t addl).isPlain = true := rfl

theorem isPlain_cctorCall (cg : CG) (ctx addr : Value) (t : HiltiType) (addl : String) :
    (cctorCall cg ctx addr t addl).isPlain = true := rfl

theorem isPlain_destroyCall (cg : CG) (ctx addr : Value) (t : HiltiType) (addl : String) :
    (destroyCall cg ctx addr t addl).isPlain = true := rfl

theorem isPlain_gcAssignCode (cg : CG) (ctx dst val : Value) (type : HiltiType)
    (plusone dtor_first : Bool) :
    ∀ i ∈ gcAssignCode cg ctx dst val type plusone dtor_first, i.isPlain = true := by
  intro i hi
  unfold gcAssignCode at hi
  simp only [List.mem_append, List.mem_singleton] at hi
  rcases hi with (hi | hi) | hi
  · split at hi
    · simp only [List.mem_singleton] at hi
      rw [hi]
      rfl
    · simp at hi
  · rw [hi]
    rfl
  · split at hi
    · simp only [List.mem_singleton] at hi
      rw [hi]
      rfl
    · simp at hi

/-- What `llvmTriggerExceptionHandling` emits for one local cleared on an
exception moves no insertion point and ends no block. -/
theorem clearLocal_spec (l : Expression) (cg : CG) (ctx : Value)
    (hctx : llvmExecutionContext cg = .ok ctx)
    (h1 : l.hoisted = true → (destroyTarget l.type).2.1 = true)
    (h2 : l.hoisted = false → l.constant_param = false → l.type.valueType = true) :
    ∃ cg' code, clearLocal l cg = .ok cg' ∧ cg'.code = cg.code ++ code ∧
      (∀ i ∈ code, i.isPlain = true) ∧ (∀ i ∈ code, matchTest i = none) ∧ Frame cg cg' := by
  unfold clearLocal
  by_cases hh : l.hoisted = true
  · rw [if_pos hh]
    obtain ⟨cg', d1, d2, d3⟩ := llvmDestroy_spec (.value l) l.type "trigger-excpt-handling/hoist"
      cg ctx hctx (h1 hh)
    refine ⟨cg', _, d1, d2, ?_, ?_, d3⟩
    · intro i hi
      split at hi
      · simp only [List.mem_singleton] at hi
        rw [hi]
        rfl
      · simp at hi
    · intro i hi
      split at hi
      · simp only [List.mem_singleton] at hi
        rw [hi]
        rfl
      · simp at hi
  · rw [if_neg hh]
    rw [Bool.not_eq_true] at hh
    by_cases hc : l.constant_param = true
    · rw [hc]
      simp only [Bool.not_true, Bool.false_eq_true, if_false]
      obtain ⟨cg', d1, d2, d3⟩ := llvmDtor_val (.value l) l.type
        "trigger-excpt-handling/const-param" cg ctx hctx
      refine ⟨cg', _, d1, d2, ?_, ?_, d3⟩
      · intro i hi
        split at hi
        · simp only [List.mem_cons, List.mem_singleton, List.not_mem_nil, or_false] at hi
          rcases hi with hi | hi <;> (rw [hi]; rfl)
        · simp at hi
      · intro i hi
        split at hi
        · simp only [List.mem_cons, List.mem_singleton, List.not_mem_nil, or_false] at hi
          rcases hi with hi | hi <;> (rw [hi]; rfl)
        · simp at hi
    · rw [Bool.not_eq_true] at hc
      rw [hc]
      simp only [Bool.not_false, if_true]
      obtain ⟨cg', d1, d2, d3⟩ := llvmGCClear_spec (.address l) l.type "trigger-excpt-handling"
        cg ctx hctx (h2 hh hc)
      refine ⟨cg', _, d1, by rw [d2, List.append_assoc], ?_, ?_, d3⟩
      · intro i hi
        simp only [List.mem_append, List.mem_singleton] at hi
        rcases hi with hi | hi
        · split at hi
          · simp only [List.mem_singleton] at hi
            rw [hi]
            rfl
          · simp at hi
        · rw [hi]
          rfl
      · intro i hi
        simp only [List.mem_append, List.mem_singleton] at hi
        rcases hi with hi | hi
        · split at hi
          · simp only [List.mem_singleton] at hi
            rw [hi]
            rfl
          · simp at hi
        · rw [hi]
          rfl


theorem clearLocals_spec (ls : List Expression) : ∀ (cg : CG) (ctx : Value),
    llvmExecutionContext cg = .ok ctx →
    (∀ l ∈ ls, (l.hoisted = true → (destroyTarget l.type).2.1 = true) ∧
      (l.hoisted = false → l.constant_param = false → l.type.valueType = true)) →
    ∃ cg' code, clearLocals ls cg = .ok cg' ∧ cg'.code = cg.code ++ code ∧
      (∀ i ∈ code, i.isPlain = true) ∧ (∀ i ∈ code, matchTest i = none) ∧ Frame cg cg' := by
  induction ls with
  | nil =>
    intro cg ctx _ _
    exact ⟨cg, [], rfl, by simp, by simp, by simp, Frame.refl _⟩
  | cons l ls ih =>
    intro cg ctx hctx h
    obtain ⟨cg1, c1, d1, d2, d3, d4, d5⟩ := clearLocal_spec l cg ctx hctx
      (h l (List.mem_cons_self _ _)).1 (h l (List.mem_cons_self _ _)).2
    obtain ⟨cg2, c2, e1, e2, e3, e4, e5⟩ := ih cg1 ctx ((llvmExecutionContext_frame d5).trans hctx)
      (fun x hx => h x (List.mem_cons_of_mem _ hx))
    unfold clearLocals
    rw [d1]
    refine ⟨cg2, c1 ++ c2, e1, by rw [e2, d2, List.append_assoc], ?_, ?_, d5.trans e5⟩
    · intro i hi
      rcases List.mem_append.mp hi with hi | hi
      · exact d3 i hi
      · exact e3 i hi
    · intro i hi
      rcases List.mem_append.mp hi with hi | hi
      · exact d4 i hi
      · exact e4 i hi

/-- `llvmReturn` in a block that is not terminated: at most a store that
reinterprets the result, then the branch to the exit block, which exists from
then on. -/
theorem llvmReturn_spec (rtype : Option HiltiType) (result : Option (Value × LType))
    (fs : FunctionState) (hopen : terminatedFrom fs.cg.code.reverse 0 = false)
    (hblock : blockFrom fs.cg.code.reverse 0 ≠ none) :
    ∃ fs' code, llvmReturn rtype result false fs = .ok fs' ∧
      fs'.cg.code = fs.cg.code ++ code ++ [.br exitBlock] ∧
      (∀ i ∈ code, i.isStore = true) ∧ SameFunction fs fs' ∧ fs'.exit_block = true ∧
      (result = none → code = [] ∧ fs'.exits = fs.exits) := by
  unfold llvmReturn FunctionState.terminated
  rw [hopen]
  simp only [Bool.false_eq_true, if_false]
  cases result with
  | none =>
    exact ⟨_, [], rfl, by simp [FunctionState.emit, emit], by simp,
      ⟨frame_emit _ _, rfl, rfl, rfl, rfl, rfl, rfl, rfl, rfl, rfl, rfl, rfl, rfl, rfl⟩, rfl,
      fun _ => ⟨rfl, rfl⟩⟩
  | some r =>
    obtain ⟨result, result_ty⟩ := r
    obtain ⟨code, e1, e2, e3⟩ := llvmReinterpret_spec result result_ty (exitType fs) fs.cg
    have hb : blockFrom (llvmReinterpret result result_ty (exitType fs) fs.cg).2.code.reverse 0
        = blockFrom fs.cg.code.reverse 0 := by
      rw [e1]
      exact blockFrom_append_plain _ _ (fun i hi => isPlain_store i (e2 i hi))
    obtain ⟨b, hb'⟩ := Option.ne_none_iff_exists'.mp hblock
    rw [hb'] at hb
    have hb2 : ({ fs with exit_block := true,
                          cg := (llvmReinterpret result result_ty (exitType fs) fs.cg).2 }
                : FunctionState).block = .ok b := by
      unfold FunctionState.block
      simp only [hb]
    refine ⟨{ fs with exit_block := true,
                      exits := fs.exits
                        ++ [((llvmReinterpret result result_ty (exitType fs) fs.cg).1, b)],
                      cg := emit (llvmReinterpret result result_ty (exitType fs) fs.cg).2
                        [.br exitBlock] },
      code, ?_, by simp [emit, e1], e2,
      ⟨e3.trans (frame_emit _ _), rfl, rfl, rfl, rfl, rfl, rfl, rfl, rfl, rfl, rfl, rfl, rfl, rfl⟩,
      rfl, fun h => by cases h⟩
    have hx : exitType { fs with exit_block := true } = exitType fs := rfl
    simp only [hx, hb2]
    rfl


theorem isPlain_call (f : Value) (args : List Value) (cc : Option LLVMCallingConv) :
    (Instr.call f args cc).isPlain = true := rfl

/-- Plain instructions leave a block open that was open. -/
theorem open_append_plain (code is : List Instr)
    (hopen : terminatedFrom code.reverse 0 = false) (hblock : blockFrom code.reverse 0 ≠ none)
    (h : ∀ i ∈ is, i.isPlain = true) :
    terminatedFrom (code ++ is).reverse 0 = false ∧ blockFrom (code ++ is).reverse 0 ≠ none := by
  refine ⟨?_, by rw [blockFrom_append_plain code is h]; exact hblock⟩
  by_cases hn : is = []
  · rw [hn, List.append_nil]
    exact hopen
  · exact terminatedFrom_append_plain code is hn h

theorem open_append_push (code : List Instr) (b : String) :
    terminatedFrom (code ++ [Instr.pushBuilder b]).reverse 0 = false ∧
    blockFrom (code ++ [Instr.pushBuilder b]).reverse 0 ≠ none := by
  rw [terminatedFrom_push, blockFrom_push]
  simp

/-- The BoundaryC part of `llvmRethrowException` in a function whose argument
before the last is a pointer to an exception pointer: the pending exception is
fetched, stored into that argument, and cleared in the context. -/
theorem rethrowThroughSlot_spec (fs : FunctionState) (ctx : Value)
    (hctx : llvmExecutionContext fs.cg = .ok ctx)
    (hv : fs.ref_exception_any.valueType = true)
    (front : List NativeParam) (slot last : NativeParam)
    (hp : fs.params = front ++ [slot, last])
    (hs : slot.2 = llvmTypePtr (some llvmTypeExceptionPtr)) :
    ∃ cg', rethrowThroughSlot fs = .ok { fs with cg := cg' } ∧
      cg'.code = fs.cg.code ++ [fetchException ctx]
        ++ gcAssignCode (emit fs.cg [fetchException ctx]) ctx (.argument slot.1) pendingException
             fs.ref_exception_any false true
        ++ [.call (.function "__hlt_context_clear_exception") [ctx] none] ∧
      Frame fs.cg cg' := by
  unfold rethrowThroughSlot
  rw [FunctionState.run_ok _ _ _ _ (llvmCurrentException_spec fs.cg ctx hctx)]
  have hrev : fs.params.reverse = last :: slot :: front.reverse := by
    rw [hp]
    simp
  simp only [hrev]
  have hctx1 : llvmExecutionContext (emit fs.cg [fetchException ctx]) = .ok ctx :=
    (llvmExecutionContext_frame (frame_emit _ _)).trans hctx
  obtain ⟨cg1, d1, d2, d3⟩ := llvmGCAssign_spec (.argument slot.1) pendingException
    llvmTypeExceptionPtr fs.ref_exception_any false true (emit fs.cg [fetchException ctx]) ctx
    hctx1 hv
  have hs' : slot.2 = .ptr llvmTypeExceptionPtr := hs
  rw [hs']
  have d1' : llvmGCAssign (.argument slot.1) (.ptr llvmTypeExceptionPtr)
      (.callResult (.function "__hlt_context_get_exception")) llvmTypeExceptionPtr
      fs.ref_exception_any false gcAssignDtorFirst
      ({ fs with cg := emit fs.cg [.call (.function "__hlt_context_get_exception") [ctx] none] }
        : FunctionState).cg = .ok cg1 := d1
  rw [FunctionState.exec_ok _ _ _ d1']
  simp only
  have hctx2 : llvmExecutionContext cg1 = .ok ctx := (llvmExecutionContext_frame d3).trans hctx1
  refine ⟨emit cg1 [.call (.function "__hlt_context_clear_exception") [ctx] none], ?_, ?_,
    ((frame_emit _ _).trans d3).trans (frame_emit _ _)⟩
  · exact FunctionState.exec_ok _ _ _ (llvmClearException_spec cg1 ctx hctx2)
  · simp only [emit, d2]

/-- `llvmRethrowException` where the handling can be emitted: for the BoundaryC
convention the transfer of the pending exception into the argument before the
last, and in every case the return through the exit block. -/
theorem llvmRethrowException_spec (fs : FunctionState) (ctx : Value) (h : CanHandle fs ctx)
    (hopen : terminatedFrom fs.cg.code.reverse 0 = false)
    (hblock : blockFrom fs.cg.code.reverse 0 ≠ none) :
    ∃ fs' code, llvmRethrowException fs = .ok fs' ∧
      fs'.cg.code = fs.cg.code ++ code ++ [.br exitBlock] ∧
      (∀ i ∈ code, i.isPlain = true) ∧ (∀ i ∈ code, matchTest i = none) ∧
      SameFunction fs fs' ∧ fs'.exit_block = true ∧
      (fs.cc ≠ .HILTI_C → ∀ i ∈ code, i.isStore = true) := by
  obtain ⟨fs1, code1, a1, a2, a3, a4, a5, a6⟩ : ∃ fs1 code1,
      (if fs.cc == .HILTI_C then rethrowThroughSlot fs else .ok fs) = .ok fs1 ∧
      fs1.cg.code = fs.cg.code ++ code1 ∧ (∀ i ∈ code1, i.isPlain = true) ∧
      (∀ i ∈ code1, matchTest i = none) ∧ SameFunction fs fs1 ∧
      (fs.cc ≠ .HILTI_C → code1 = []) := by
    by_cases hcc : fs.cc = .HILTI_C
    · obtain ⟨hv, front, slot, last, hp, hs⟩ := h.slot hcc
      obtain ⟨cg', e1, e2, e3⟩ := rethrowThroughSlot_spec fs ctx h.context hv front slot last hp hs
      rw [hcc]
      simp only [beq_self_eq_true, if_true]
      refine ⟨_, _, e1, by rw [e2, List.append_assoc, List.append_assoc], ?_, ?_,
        SameFunction.of_frame fs cg' e3, fun hn => absurd rfl hn⟩
      · intro i hi
        simp only [List.mem_append, List.mem_singleton] at hi
        rcases hi with hi | hi | hi
        · rw [hi]
          rfl
        · exact isPlain_gcAssignCode _ _ _ _ _ _ _ i hi
        · rw [hi]
          rfl
      · intro i hi
        simp only [List.mem_append, List.mem_singleton] at hi
        rcases hi with hi | hi | hi
        · rw [hi]
          rfl
        · unfold gcAssignCode at hi
          simp only [List.mem_append, List.mem_singleton] at hi
          rcases hi with (hi | hi) | hi
          · split at hi
            · simp only [List.mem_singleton] at hi
              rw [hi]
              rfl
            · simp at hi
          · rw [hi]
            rfl
          · split at hi
            · simp only [List.mem_singleton] at hi
              rw [hi]
              rfl
            · simp at hi
        · rw [hi]
          rfl
    · have hb : (fs.cc == CallingConvention.HILTI_C) = false := by
        simpa using hcc
      rw [hb]
      exact ⟨fs, [], rfl, by simp, by simp, by simp, SameFunction.same _, fun _ => rfl⟩
  have ho := open_append_plain fs.cg.code code1 hopen hblock a3
  rw [← a2] at ho
  unfold llvmRethrowException
  rw [a1]
  simp only
  obtain ⟨fs2, code2, r1, r2, r3, r4, r5, -⟩ : ∃ fs2 code2,
      (if (rethrowType fs1).isVoidTy then llvmReturn none none false fs1
       else llvmReturn none (some (llvmConstNull (some (rethrowType fs1)), rethrowType fs1))
              false fs1) = .ok fs2 ∧
      fs2.cg.code = fs1.cg.code ++ code2 ++ [.br exitBlock] ∧
      (∀ i ∈ code2, i.isStore = true) ∧ SameFunction fs1 fs2 ∧ fs2.exit_block = true ∧ True := by
    by_cases hvoid : (rethrowType fs1).isVoidTy = true
    · rw [if_pos hvoid]
      obtain ⟨fs2, code2, r1, r2, r3, r4, r5, -⟩ := llvmReturn_spec none none fs1 ho.1 ho.2
      exact ⟨fs2, code2, r1, r2, r3, r4, r5, trivial⟩
    · rw [if_neg hvoid]
      obtain ⟨fs2, code2, r1, r2, r3, r4, r5, -⟩ := llvmReturn_spec none
        (some (llvmConstNull (some (rethrowType fs1)), rethrowType fs1)) fs1 ho.1 ho.2
      exact ⟨fs2, code2, r1, r2, r3, r4, r5, trivial⟩
  refine ⟨fs2, code1 ++ code2, r1, by simp only [r2, a2, List.append_assoc], ?_, ?_, a5.andThen r4,
    r5, ?_⟩
  · intro i hi
    rcases List.mem_append.mp hi with hi | hi
    · exact a3 i hi
    · exact isPlain_store i (r3 i hi)
  · intro i hi
    rcases List.mem_append.mp hi with hi | hi
    · exact a4 i hi
    · have := r3 i hi
      cases i <;> simp_all [Instr.isStore, matchTest]
  · intro hn i hi
    rw [a6 hn, List.nil_append] at hi
    exact r3 i hi

end CodeGen

namespace CodeGen

theorem SameFunction.newBuilder (name : String) (fs : FunctionState) :
    SameFunction fs (newBuilder name fs).2 ∧ (newBuilder name fs).2.cg = fs.cg ∧
    (newBuilder name fs).2.exit_block = fs.exit_block ∧ (newBuilder name fs).2.exits = fs.exits :=
  ⟨⟨Frame.refl _, rfl, rfl, rfl, rfl, rfl, rfl, rfl, rfl, rfl, rfl, rfl, rfl, rfl⟩, rfl, rfl, rfl⟩

theorem matchTests_append (a b : List Instr) :
    matchTests (a ++ b) = matchTests a ++ matchTests b := by
  simp [matchTests]

theorem matchTests_eq_nil (code : List Instr) (h : ∀ i ∈ code, matchTest i = none) :
    matchTests code = [] := by
  unfold matchTests
  exact List.filterMap_eq_nil_iff.mpr h

theorem SameFunction.emit (fs : FunctionState) (is : List Instr) :
    SameFunction fs (fs.emit is) :=
  SameFunction.of_frame fs _ (frame_emit _ _)

theorem SameFunction.pushBuilder (b : String) (fs : FunctionState) :
    SameFunction fs (pushBuilder b fs) :=
  SameFunction.of_frame fs _ (frame_emit _ _)

/-- The tests emitted for a list of clauses test the types of the clauses, in
the order of the list. -/
theorem matchTests_catchTestsCode (cur : Value) (zs : List ((Expression × ExceptionType) × String)) :
    matchTests (catchTestsCode cur zs) = zs.map (fun z => z.1.2) := by
  induction zs with
  | nil => rfl
  | cons z zs ih =>
    obtain ⟨c, next⟩ := z
    rw [catchTestsCode, matchTests_append, ih]
    simp [matchTests, matchTest]

theorem open_catchTestsCode (code : List Instr) (cur : Value)
    (zs : List ((Expression × ExceptionType) × String))
    (hopen : terminatedFrom code.reverse 0 = false) (hblock : blockFrom code.reverse 0 ≠ none) :
    terminatedFrom (code ++ catchTestsCode cur zs).reverse 0 = false ∧
    blockFrom (code ++ catchTestsCode cur zs).reverse 0 ≠ none := by
  induction zs generalizing code with
  | nil => simpa [catchTestsCode] using ⟨hopen, hblock⟩
  | cons z zs ih =>
    obtain ⟨c, next⟩ := z
    rw [catchTestsCode, ← List.append_assoc]
    refine ih _ ?_ ?_
    · have := (open_append_push (code ++ [Instr.call (.function "__hlt_exception_match")
          [cur, .exceptionTypeObject c.2] none,
          .condBr (.icmpNE (.callResult (.function "__hlt_exception_match")) (.constInt 0 8))
            (.value c.1) (.block next)]) next).1
      simpa using this
    · have := (open_append_push (code ++ [Instr.call (.function "__hlt_exception_match")
          [cur, .exceptionTypeObject c.2] none,
          .condBr (.icmpNE (.callResult (.function "__hlt_exception_match")) (.constInt 0 8))
            (.value c.1) (.block next)]) next).2
      simpa using this

/-- One round of the loop over the catch clauses once the pending exception has
been fetched. -/
theorem catchTests_cons_some (c : Expression × ExceptionType)
    (cs : List (Expression × ExceptionType)) (v : Value) (fs : FunctionState) :
    ∃ fs1, catchTests (c :: cs) (some v) fs = catchTests cs (some v) fs1 ∧
      fs1.cg.code = fs.cg.code ++ catchTestsCode v [(c, (newBuilder "excpt-catch-next" fs).1)] ∧
      SameFunction fs fs1 ∧ fs1.exit_block = fs.exit_block := by
  rw [catchTests]
  simp only [llvmMatchException, llvmCallC_plain, FunctionState.run]
  refine ⟨_, rfl, ?_, ?_, ?_⟩
  · simp [catchTestsCode, pushBuilder, FunctionState.emit, emit, newBuilder]
  · exact ⟨⟨rfl, rfl, rfl, rfl, rfl, rfl, rfl, rfl, rfl, rfl, fun h => h⟩,
      rfl, rfl, rfl, rfl, rfl, rfl, rfl, rfl, rfl, rfl, rfl, rfl, rfl⟩
  · rfl

/-- One round of the loop over the catch clauses that fetches the pending
exception. -/
theorem catchTests_cons_none (c : Expression × ExceptionType)
    (cs : List (Expression × ExceptionType)) (fs : FunctionState) (ctx : Value)
    (hctx : llvmExecutionContext fs.cg = .ok ctx) :
    ∃ fs1, catchTests (c :: cs) none fs = catchTests cs (some pendingException) fs1 ∧
      fs1.cg.code = fs.cg.code ++ [fetchException ctx]
        ++ catchTestsCode pendingException [(c, (newBuilder "excpt-catch-next" fs).1)] ∧
      SameFunction fs fs1 ∧ fs1.exit_block = fs.exit_block := by
  have hc : llvmCurrentException (newBuilder "excpt-catch-next" fs).2.cg
      = .ok (pendingException, emit fs.cg [fetchException ctx]) :=
    llvmCurrentException_spec fs.cg ctx hctx
  rw [catchTests]
  simp only [FunctionState.run, hc, llvmMatchException, llvmCallC_plain]
  have s0 := (SameFunction.newBuilder "excpt-catch-next" fs).1
  have s1 := SameFunction.of_frame (newBuilder "excpt-catch-next" fs).2
    (emit (emit fs.cg [fetchException ctx])
      [.call (.function "__hlt_exception_match")
        [pendingException, .exceptionTypeObject c.2] none])
    ((frame_emit fs.cg _).trans (frame_emit _ _))
  have s2 := SameFunction.emit
    ({ (newBuilder "excpt-catch-next" fs).2 with
       cg := emit (emit fs.cg [fetchException ctx])
         [.call (.function "__hlt_exception_match")
           [pendingException, .exceptionTypeObject c.2] none] })
    [.condBr (.icmpNE (.callResult (.function "__hlt_exception_match")) (.constInt 0 8))
       (.value c.1) (.block (newBuilder "excpt-catch-next" fs).1)]
  have s3 := SameFunction.pushBuilder (newBuilder "excpt-catch-next" fs).1
    (({ (newBuilder "excpt-catch-next" fs).2 with
       cg := emit (emit fs.cg [fetchException ctx])
         [.call (.function "__hlt_exception_match")
           [pendingException, .exceptionTypeObject c.2] none] } : FunctionState).emit
    [.condBr (.icmpNE (.callResult (.function "__hlt_exception_match")) (.constInt 0 8))
       (.value c.1) (.block (newBuilder "excpt-catch-next" fs).1)])
  refine ⟨_, rfl, ?_, s0.andThen (s1.andThen (s2.andThen s3)), ?_⟩
  · simp [catchTestsCode, pushBuilder, FunctionState.emit, emit, pendingException]
  · show fs.exit_block = fs.exit_block
    rfl

theorem catchTestsCode_cons (cur : Value) (z : (Expression × ExceptionType) × String)
    (zs : List ((Expression × ExceptionType) × String)) :
    catchTestsCode cur (z :: zs) = catchTestsCode cur [z] ++ catchTestsCode cur zs := by
  obtain ⟨c, next⟩ := z
  simp [catchTestsCode]

/-- The loop over the catch clauses once the pending exception has been
fetched. -/
theorem catchTests_some (cs : List (Expression × ExceptionType)) : ∀ (v : Value)
    (fs : FunctionState),
    ∃ r fs' nexts, catchTests cs (some v) fs = .ok (r, fs') ∧ nexts.length = cs.length ∧
      fs'.cg.code = fs.cg.code ++ catchTestsCode v (cs.zip nexts) ∧
      SameFunction fs fs' ∧ fs'.exit_block = fs.exit_block := by
  induction cs with
  | nil =>
    intro v fs
    exact ⟨_, fs, [], rfl, rfl, by simp [catchTestsCode], SameFunction.same _, rfl⟩
  | cons c cs ih =>
    intro v fs
    obtain ⟨fs1, s1, s2, s3, s4⟩ := catchTests_cons_some c cs v fs
    obtain ⟨r, fs', nexts, e1, e2, e3, e4, e5⟩ := ih v fs1
    refine ⟨r, fs', (newBuilder "excpt-catch-next" fs).1 :: nexts, by rw [s1, e1],
      by rw [List.length_cons, List.length_cons, e2], ?_, s3.andThen e4, by rw [e5, s4]⟩
    rw [e3, s2, List.zip_cons_cons, List.append_assoc, ← catchTestsCode_cons]

/-- The loop of `llvmTriggerExceptionHandling` over catch clauses: the pending
exception is fetched first where it has not been. -/
theorem catchTests_spec (cs : List (Expression × ExceptionType)) (current : Option Value)
    (fs : FunctionState) (ctx : Value) (hctx : llvmExecutionContext fs.cg = .ok ctx) :
    ∃ r fs' fetch nexts, catchTests cs current fs = .ok (r, fs') ∧ nexts.length = cs.length ∧
      fs'.cg.code = fs.cg.code ++ fetch
        ++ catchTestsCode (current.getD pendingException) (cs.zip nexts) ∧
      (∀ i ∈ fetch, i = fetchException ctx) ∧
      SameFunction fs fs' ∧ fs'.exit_block = fs.exit_block := by
  cases current with
  | some v =>
    obtain ⟨r, fs', nexts, e1, e2, e3, e4, e5⟩ := catchTests_some cs v fs
    exact ⟨r, fs', [], nexts, e1, e2, by simpa using e3, by simp, e4, e5⟩
  | none =>
    cases cs with
    | nil =>
      exact ⟨_, fs, [], [], rfl, rfl, by simp [catchTestsCode], by simp, SameFunction.same _, rfl⟩
    | cons c cs =>
      obtain ⟨fs1, s1, s2, s3, s4⟩ := catchTests_cons_none c cs fs ctx hctx
      obtain ⟨r, fs', nexts, e1, e2, e3, e4, e5⟩ := catchTests_some cs pendingException fs1
      refine ⟨r, fs', [fetchException ctx], (newBuilder "excpt-catch-next" fs).1 :: nexts,
        by rw [s1, e1], by rw [List.length_cons, List.length_cons, e2], ?_, by simp,
        s3.andThen e4, by rw [e5, s4]⟩
      rw [e3, s2, List.zip_cons_cons, List.append_assoc, ← catchTestsCode_cons]
      rfl


/-- The handling emitted for a pending exception, where it can be emitted in a
block: the tests against the sorted catch clauses, each followed by the branch to
its handler or to the next test, then the cleanup, the rethrow, which ends with
the branch to the exit block, and the move into the block `cont`. -/
theorem handlePending_spec (cont : String) (current : Option Value) (fs : FunctionState)
    (ctx : Value) (h : CanHandle fs ctx) (hblock : blockFrom fs.cg.code.reverse 0 ≠ none) :
    ∃ fs' before nexts after, handlePending cont current fs = .ok fs' ∧
      nexts.length = fs.catches.length ∧
      fs'.cg.code = fs.cg.code ++ before
        ++ catchTestsCode (current.getD pendingException)
             ((listSort catchBefore fs.catches).zip nexts)
        ++ after ++ [.br exitBlock, .pushBuilder cont] ∧
      (∀ i ∈ before, matchTest i = none) ∧ (∀ i ∈ after, matchTest i = none) ∧
      (∀ i ∈ after, i.isPlain = true) ∧ SameFunction fs fs' ∧ fs'.exit_block = true := by
  unfold handlePending
  obtain ⟨cg1, c1, d1, d2, d3, d4⟩ := llvmDebugPrint_code "hilti-flow" "exception raised" fs.cg
  rw [FunctionState.exec_ok _ _ _ d1]
  simp only
  have sM : SameFunction fs (({ fs with cg := cg1 } : FunctionState).emit
      [.instructionCleanupNoFlush]) :=
    (SameFunction.of_frame fs cg1 d3).andThen (SameFunction.emit _ _)
  have hcodeM : (({ fs with cg := cg1 } : FunctionState).emit
      [.instructionCleanupNoFlush]).cg.code = fs.cg.code ++ (c1 ++ [.instructionCleanupNoFlush]) := by
    simp [FunctionState.emit, emit, d2]
  have hplainM : ∀ i ∈ c1 ++ [Instr.instructionCleanupNoFlush], i.isPlain = true := by
    intro i hi
    simp only [List.mem_append, List.mem_singleton] at hi
    rcases hi with hi | hi
    · rw [d4 i hi]
      rfl
    · rw [hi]
      rfl
  have hopenM : terminatedFrom (fs.cg.code ++ (c1 ++ [Instr.instructionCleanupNoFlush])).reverse 0
        = false ∧
      blockFrom (fs.cg.code ++ (c1 ++ [Instr.instructionCleanupNoFlush])).reverse 0 ≠ none :=
    ⟨terminatedFrom_append_plain _ _ (by simp) hplainM,
      by rw [blockFrom_append_plain _ _ hplainM]; exact hblock⟩
  obtain ⟨r, fs3, fetch, nexts, t1, t2, t3, t4, t5, t6⟩ :=
    catchTests_spec (listSort catchBefore fs.catches) current
      (({ fs with cg := cg1 } : FunctionState).emit [.instructionCleanupNoFlush]) ctx
      ((llvmExecutionContext_frame sM.frame).trans h.context)
  have t1' : catchTests (listSort catchBefore
      (({ fs with cg := cg1 } : FunctionState).emit [.instructionCleanupNoFlush]).catches) current
      (({ fs with cg := cg1 } : FunctionState).emit [.instructionCleanupNoFlush])
      = .ok (r, fs3) := t1
  rw [t1']
  simp only
  have s3 : SameFunction fs fs3 := sM.andThen t5
  have h3 : CanHandle fs3 ctx := h.of_same s3
  obtain ⟨cg4, c4, k1, k2, k3, k4, k5⟩ := clearLocals_spec fs3.locals_cleared_on_excpt fs3.cg ctx
    h3.context h3.cleared
  rw [FunctionState.exec_ok _ _ _ k1]
  simp only
  have hfetch : ∀ i ∈ fetch, i.isPlain = true := by
    intro i hi
    rw [t4 i hi]
    rfl
  have hcode4 : cg4.code = fs.cg.code ++ (c1 ++ [.instructionCleanupNoFlush]) ++ fetch
      ++ catchTestsCode (current.getD pendingException)
           ((listSort catchBefore fs.catches).zip nexts) ++ c4 := by
    rw [k2, t3, hcodeM]
  have hopen4 : terminatedFrom cg4.code.reverse 0 = false ∧ blockFrom cg4.code.reverse 0 ≠ none := by
    rw [hcode4]
    have o1 := open_append_plain _ fetch hopenM.1 hopenM.2 hfetch
    have o2 := open_catchTestsCode _ (current.getD pendingException)
      ((listSort catchBefore fs.catches).zip nexts) o1.1 o1.2
    exact open_append_plain _ c4 o2.1 o2.2 k3
  have s4 : SameFunction fs ({ fs3 with cg := cg4 } : FunctionState) :=
    s3.andThen (SameFunction.of_frame fs3 cg4 k5)
  obtain ⟨fs5, c5, r1, r2, r3, r4, r5, r6, -⟩ := llvmRethrowException_spec
    ({ fs3 with cg := cg4 } : FunctionState) ctx (h.of_same s4) hopen4.1 hopen4.2
  rw [r1]
  simp only
  refine ⟨pushBuilder cont fs5, (c1 ++ [.instructionCleanupNoFlush]) ++ fetch, nexts, c4 ++ c5,
    rfl, ?_, ?_, ?_, ?_, ?_, (s4.andThen r5).andThen (SameFunction.pushBuilder _ _), r6⟩
  · rw [t2]
    exact (sorted_catches fs.catches).2.length_eq
  · simp only [pushBuilder, FunctionState.emit, emit, r2, hcode4, List.append_assoc,
      List.singleton_append, List.cons_append, List.nil_append]
  · intro i hi
    simp only [List.mem_append, List.mem_singleton] at hi
    rcases hi with (hi | hi) | hi
    · rw [d4 i hi]
      rfl
    · rw [hi]
      rfl
    · rw [t4 i hi]
      rfl
  · intro i hi
    rcases List.mem_append.mp hi with hi | hi
    · exact k4 i hi
    · exact r4 i hi
  · intro i hi
    rcases List.mem_append.mp hi with hi | hi
    · exact k3 i hi
    · exact r3 i hi

/-- The check `llvmTriggerExceptionHandling` emits when the exception is not
known to be set. -/
theorem checkPending_spec (cont : String) (fs : FunctionState) (ctx : Value)
    (hctx : llvmExecutionContext fs.cg = .ok ctx) :
    ∃ fsC, checkPending cont fs = .ok (some pendingException, fsC) ∧
      fsC.cg.code = fs.cg.code ++
        [fetchException ctx,
         .condBr (.expect (.isNull pendingException) (.constInt 1 1)) (.block cont)
           (.block (newBuilder "excpt-catch" fs).1),
         .pushBuilder (newBuilder "excpt-catch" fs).1] ∧
      SameFunction fs fsC := by
  have hc : llvmCurrentException (newBuilder "excpt-catch" fs).2.cg
      = .ok (pendingException, emit fs.cg [fetchException ctx]) :=
    llvmCurrentException_spec fs.cg ctx hctx
  unfold checkPending
  simp only [FunctionState.run, hc]
  have s0 := (SameFunction.newBuilder "excpt-catch" fs).1
  have s1 := SameFunction.of_frame (newBuilder "excpt-catch" fs).2
    (emit fs.cg [fetchException ctx]) (frame_emit fs.cg _)
  have s2 := SameFunction.emit
    ({ (newBuilder "excpt-catch" fs).2 with cg := emit fs.cg [fetchException ctx] })
    [.condBr (.expect (.isNull pendingException) (.constInt 1 1)) (.block cont)
       (.block (newBuilder "excpt-catch" fs).1)]
  have s3 := SameFunction.pushBuilder (newBuilder "excpt-catch" fs).1
    (({ (newBuilder "excpt-catch" fs).2 with cg := emit fs.cg [fetchException ctx] }
      : FunctionState).emit
    [.condBr (.expect (.isNull pendingException) (.constInt 1 1)) (.block cont)
       (.block (newBuilder "excpt-catch" fs).1)])
  refine ⟨_, rfl, ?_, s0.andThen (s1.andThen (s2.andThen s3))⟩
  simp [pushBuilder, FunctionState.emit, emit]

/-- `llvmTriggerExceptionHandling` where the handling can be emitted in a
block. -/
theorem llvmTriggerExceptionHandling_spec (known : Bool) (fs : FunctionState) (ctx : Value)
    (h : CanHandle fs ctx) (hblock : blockFrom fs.cg.code.reverse 0 ≠ none) :
    ∃ fs' before nexts after cont, llvmTriggerExceptionHandling known fs = .ok fs' ∧
      nexts.length = fs.catches.length ∧
      fs'.cg.code = fs.cg.code ++ before
        ++ catchTestsCode pendingException ((listSort catchBefore fs.catches).zip nexts)
        ++ after ++ [.br exitBlock, .pushBuilder cont] ∧
      (∀ i ∈ before, matchTest i = none) ∧ (∀ i ∈ after, matchTest i = none) ∧
      (∀ i ∈ after, i.isPlain = true) ∧ SameFunction fs fs' ∧ fs'.exit_block = true := by
  unfold llvmTriggerExceptionHandling
  simp only
  have s0 := SameFunction.newBuilder "excpt-check-done" fs
  cases known with
  | true =>
    simp only [Bool.not_true, Bool.false_eq_true, if_false]
    obtain ⟨fs', before, nexts, after, e1, e2, e3, e4, e5, e6, e7, e8⟩ :=
      handlePending_spec (newBuilder "excpt-check-done" fs).1 none
        (newBuilder "excpt-check-done" fs).2 ctx (h.of_same s0.1) hblock
    exact ⟨fs', before, nexts, after, _, e1, e2, e3, e4, e5, e6, s0.1.andThen e7, e8⟩
  | false =>
    simp only [Bool.not_false, if_true]
    obtain ⟨fsC, c1, c2, c3⟩ := checkPending_spec (newBuilder "excpt-check-done" fs).1
      (newBuilder "excpt-check-done" fs).2 ctx h.context
    rw [c1]
    simp only
    have c2' : fsC.cg.code = fs.cg.code ++
        [fetchException ctx,
         .condBr (.expect (.isNull pendingException) (.constInt 1 1))
           (.block (newBuilder "excpt-check-done" fs).1)
           (.block (newBuilder "excpt-catch" (newBuilder "excpt-check-done" fs).2).1)]
        ++ [.pushBuilder (newBuilder "excpt-catch" (newBuilder "excpt-check-done" fs).2).1] := by
      rw [c2]
      simp
      rfl
    have hb : blockFrom fsC.cg.code.reverse 0 ≠ none := by
      rw [c2']
      exact (open_append_push _ _).2
    obtain ⟨fs', before, nexts, after, e1, e2, e3, e4, e5, e6, e7, e8⟩ :=
      handlePending_spec (newBuilder "excpt-check-done" fs).1 (some pendingException)
        fsC ctx (h.of_same (s0.1.andThen c3)) hb
    refine ⟨fs', [fetchException ctx,
         .condBr (.expect (.isNull pendingException) (.constInt 1 1))
           (.block (newBuilder "excpt-check-done" fs).1)
           (.block (newBuilder "excpt-catch" (newBuilder "excpt-check-done" fs).2).1),
         .pushBuilder (newBuilder "excpt-catch" (newBuilder "excpt-check-done" fs).2).1]
        ++ before, nexts, after,
      (newBuilder "excpt-check-done" fs).1, e1, by rw [e2, c3.catches]; rfl, ?_, ?_, e5, e6,
      (s0.1.andThen c3).andThen e7, e8⟩
    · rw [e3, c2, c3.catches]
      simp only [List.append_assoc, Option.getD_some]
      rfl
    · intro i hi
      simp only [List.mem_append, List.mem_cons, List.mem_singleton, List.not_mem_nil,
        or_false] at hi
      rcases hi with (hi | hi | hi) | hi
      · rw [hi]
        rfl
      · rw [hi]
        rfl
      · rw [hi]
        rfl
      · exact e4 i hi


/-- C12: in the code `llvmTriggerExceptionHandling` emits, for any catch clauses
registered in any order, the match tests are those of the clauses sorted by
`std::list::sort` with the comparison `level() >=`: the sorted list is a
rearrangement of the clauses in which no clause stands before one of greater
level, each test is followed by the branch to the handler of its clause or else
to the block into which the next test is emitted, and the code before and after
tests nothing. So whenever the type of clause A has a strictly greater level
than that of clause B, the test of A is emitted, and tried, before that of B. -/
theorem catch_tests_by_non_increasing_level (known : Bool) (fs : FunctionState) (ctx : Value)
    (h : CanHandle fs ctx) (hblock : blockFrom fs.cg.code.reverse 0 ≠ none) :
    ∃ fs' before nexts after, llvmTriggerExceptionHandling known fs = .ok fs' ∧
      nexts.length = fs.catches.length ∧
      fs'.cg.code = fs.cg.code ++ before
        ++ catchTestsCode pendingException ((listSort catchBefore fs.catches).zip nexts)
        ++ after ∧
      matchTests before = [] ∧ matchTests after = [] ∧
      matchTests (before
        ++ catchTestsCode pendingException ((listSort catchBefore fs.catches).zip nexts)
        ++ after) = (listSort catchBefore fs.catches).map (fun c => c.2) ∧
      (listSort catchBefore fs.catches).Perm fs.catches ∧
      (listSort catchBefore fs.catches).Pairwise (fun a b => a.2.level ≥ b.2.level) ∧
      ∀ (i j : Nat) (a b : Expression × ExceptionType),
        (listSort catchBefore fs.catches)[i]? = some a →
        (listSort catchBefore fs.catches)[j]? = some b →
        a.2.level > b.2.level → i < j := by
  obtain ⟨fs', before, nexts, after, cont, e1, e2, e3, e4, e5, -, -, -⟩ :=
    llvmTriggerExceptionHandling_spec known fs ctx h hblock
  obtain ⟨hs, hp⟩ := sorted_catches fs.catches
  have hlen : nexts.length = (listSort catchBefore fs.catches).length := by
    rw [e2, hp.length_eq]
  have ha : matchTests (after ++ [.br exitBlock, .pushBuilder cont]) = [] := by
    rw [matchTests_append, matchTests_eq_nil _ e5]
    rfl
  refine ⟨fs', before, nexts, after ++ [.br exitBlock, .pushBuilder cont], e1, e2, ?_,
    matchTests_eq_nil _ e4, ha, ?_, hp, hs, ?_⟩
  · rw [e3]
    simp only [List.append_assoc]
  · rw [matchTests_append, matchTests_append, matchTests_eq_nil _ e4, ha,
      matchTests_catchTestsCode, List.nil_append, List.append_nil]
    have hz : ((listSort catchBefore fs.catches).zip nexts).map Prod.fst
        = listSort catchBefore fs.catches :=
      List.map_fst_zip _ _ (by rw [hlen])
    conv_rhs => rw [← hz, List.map_map]
    rfl
  · intro i j a b hi hj hlt
    rw [List.getElem?_eq_some] at hi hj
    obtain ⟨hi1, hi2⟩ := hi
    obtain ⟨hj1, hj2⟩ := hj
    by_contra hij
    rcases Nat.lt_or_eq_of_le (Nat.le_of_not_lt hij) with hji | hji
    · have := List.pairwise_iff_getElem.mp hs j i hj1 hi1 hji
      rw [hi2, hj2] at this
      omega
    · subst hji
      rw [hi2] at hj2
      rw [hj2] at hlt
      omega

/-- C12 (witness): the clause for `Base` was registered before the clause for
`Derived`; the pending exception is tested against `Derived` first. -/
theorem catch_tests_by_non_increasing_level_witness :
    ∃ fs' before nexts after,
      llvmTriggerExceptionHandling false sample.bodyWithCatches = .ok fs' ∧
      nexts.length = sample.bodyWithCatches.catches.length ∧
      fs'.cg.code = sample.bodyWithCatches.cg.code ++ before
        ++ catchTestsCode pendingException
             ((listSort catchBefore sample.bodyWithCatches.catches).zip nexts)
        ++ after ∧
      matchTests before = [] ∧ matchTests after = [] ∧
      matchTests (before
        ++ catchTestsCode pendingException
             ((listSort catchBefore sample.bodyWithCatches.catches).zip nexts)
        ++ after) = (listSort catchBefore sample.bodyWithCatches.catches).map (fun c => c.2) ∧
      (listSort catchBefore sample.bodyWithCatches.catches).Perm sample.bodyWithCatches.catches ∧
      (listSort catchBefore sample.bodyWithCatches.catches).Pairwise
        (fun a b => a.2.level ≥ b.2.level) ∧
      ∀ (i j : Nat) (a b : Expression × ExceptionType),
        (listSort catchBefore sample.bodyWithCatches.catches)[i]? = some a →
        (listSort catchBefore sample.bodyWithCatches.catches)[j]? = some b →
        a.2.level > b.2.level → i < j :=
  catch_tests_by_non_increasing_level false sample.bodyWithCatches (.argument "__ctx")
    ⟨by decide, by decide, fun hcc => absurd hcc (by decide)⟩ (by decide)

end CodeGen

namespace CodeGen

/-- `llvmRaiseException` where the handling can be emitted in a block: the
exception is stored into the context, destructed if asked for, and the handling
of `llvmTriggerExceptionHandling(true)` follows, which ends with the branch to
the exit block. -/
theorem llvmRaiseException_spec (excpt : Value) (dtor : Bool) (fs : FunctionState) (ctx : Value)
    (h : CanHandle fs ctx) (hblock : blockFrom fs.cg.code.reverse 0 ≠ none) :
    ∃ fs' mid released handling cont, llvmRaiseException excpt dtor fs = .ok fs' ∧
      llvmTriggerExceptionHandling true mid = .ok fs' ∧
      mid.cg.code = fs.cg.code ++ [setException ctx excpt] ++ released ∧
      fs'.cg.code = mid.cg.code ++ handling ++ [.br exitBlock, .pushBuilder cont] ∧
      (∀ i ∈ released, i.isPlain = true) ∧ (dtor = false → released = []) ∧
      SameFunction fs mid ∧ SameFunction fs fs' ∧ fs'.exit_block = true := by
  unfold llvmRaiseException
  rw [h.context]
  simp only
  rw [FunctionState.run_ok _ _ _ _ (llvmCallC_plain "__hlt_context_set_exception" [ctx, excpt] fs.cg)]
  simp only
  have hctx1 : llvmExecutionContext (emit fs.cg [setException ctx excpt]) = .ok ctx :=
    (llvmExecutionContext_frame (frame_emit _ _)).trans h.context
  obtain ⟨mid, released, m1, m2, m3, m4, m5⟩ : ∃ mid released,
      (if dtor = true then
          ({ fs with cg := emit fs.cg [setException ctx excpt] } : FunctionState).exec
            (llvmDtor excpt (llvmType fs.ref_exception) fs.ref_exception false "raise-exception")
        else .ok ({ fs with cg := emit fs.cg [setException ctx excpt] } : FunctionState))
        = .ok mid ∧
      mid.cg.code = fs.cg.code ++ [setException ctx excpt] ++ released ∧
      (∀ i ∈ released, i.isPlain = true) ∧ (dtor = false → released = []) ∧
      SameFunction fs mid := by
    cases dtor with
    | false =>
      exact ⟨_, [], rfl, by simp [emit], by simp, fun _ => rfl,
        SameFunction.of_frame fs _ (frame_emit _ _)⟩
    | true =>
      obtain ⟨cg2, d1, d2, d3⟩ := llvmDtor_val excpt fs.ref_exception "raise-exception"
        (emit fs.cg [setException ctx excpt]) ctx hctx1
      simp only [if_true]
      refine ⟨{ fs with cg := cg2 }, _, FunctionState.exec_ok _ _ _ d1, d2, ?_,
        (fun hf => by cases hf), SameFunction.of_frame fs _ ((frame_emit _ _).trans d3)⟩
      intro i hi
      split at hi
      · simp only [List.mem_cons, List.mem_singleton, List.not_mem_nil, or_false] at hi
        rcases hi with hi | hi <;> (rw [hi]; rfl)
      · simp at hi
  simp only [setException] at m1
  simp only [m1]
  have hb : blockFrom mid.cg.code.reverse 0 ≠ none := by
    rw [m2, List.append_assoc, blockFrom_append_plain]
    · exact hblock
    · intro i hi
      simp only [List.singleton_append, List.mem_cons] at hi
      rcases hi with hi | hi
      · rw [hi]
        rfl
      · exact m3 i hi
  obtain ⟨fs', before, nexts, after, cont, e1, -, e3, -, -, -, e7, e8⟩ :=
    llvmTriggerExceptionHandling_spec true mid ctx (h.of_same m5) hb
  exact ⟨fs', mid, released,
    before ++ catchTestsCode pendingException ((listSort catchBefore mid.catches).zip nexts)
      ++ after, cont, e1, e1, m2, by rw [e3]; simp only [List.append_assoc], m3, m4, m5,
    m5.andThen e7, e8⟩


/-- C19 (as amended): a raise inside a function whose calling convention is PlainC
is not rejected because of the convention. Where the handling can be emitted,
`llvmRaiseException` stores the exception into the context and emits the
handling, which ends, through `llvmRethrowException`, with the branch to the exit
block, where the function returns; it fails with the internal error of
`llvmExecutionContext` when no execution context is at hand. And
`llvmCallingConvention` and `llvmAdaptFunctionArgs` fail for every convention
other than the five known ones. -/
theorem raise_in_plainC_function_emitted (excpt : Value) (dtor : Bool) (fs : FunctionState)
    (ctx : Value) (hcc : fs.cc = .C) (h : CanHandle fs ctx)
    (hblock : blockFrom fs.cg.code.reverse 0 ≠ none) :
    (∃ fs' emitted cont, llvmRaiseException excpt dtor fs = .ok fs' ∧
      fs'.cg.code = fs.cg.code ++ setException ctx excpt :: emitted
        ++ [.br exitBlock, .pushBuilder cont] ∧
      fs'.exit_block = true ∧ fs'.cc = .C) ∧
    (∀ (fs0 : FunctionState) (e : String), fs0.cc = .C →
      llvmExecutionContext fs0.cg = .error e → llvmRaiseException excpt dtor fs0 = .error e) ∧
    (∀ (cc : CallingConvention) (rtype : LType) (params : List Parameter) (skip_ctx : Bool),
      cc ≠ .HILTI → cc ≠ .HOOK → cc ≠ .HILTI_C → cc ≠ .C → cc ≠ .CALLABLE →
      (∃ e, llvmCallingConvention cc = .error e) ∧
      ∃ e, llvmAdaptFunctionArgs rtype params cc skip_ctx = .error e) := by
  refine ⟨?_, ?_, ?_⟩
  · obtain ⟨fs', mid, released, handling, cont, e1, -, e3, e4, -, -, -, e8, e9⟩ :=
      llvmRaiseException_spec excpt dtor fs ctx h hblock
    refine ⟨fs', released ++ handling, cont, e1, ?_, e9, by rw [e8.cc, hcc]⟩
    rw [e4, e3]
    simp only [List.append_assoc, List.singleton_append, List.cons_append, List.nil_append]
  · intro fs0 e _ he
    unfold llvmRaiseException
    rw [he]
  · intro cc rtype params skip_ctx h1 h2 h3 h4 h5
    cases cc with
    | DEFAULT =>
      exact ⟨⟨_, rfl⟩, ⟨_, rfl⟩⟩
    | HILTI => exact absurd rfl h1
    | HOOK => exact absurd rfl h2
    | HILTI_C => exact absurd rfl h3
    | C => exact absurd rfl h4
    | CALLABLE => exact absurd rfl h5

/-- C19 (witness): the PlainC function `init(__ctx)`. -/
theorem raise_in_plainC_function_emitted_witness :
    ∃ fs' emitted cont, llvmRaiseException (.const "e") false sample.plainCBody = .ok fs' ∧
      fs'.cg.code = sample.plainCBody.cg.code ++ setException (.argument "__ctx") (.const "e")
        :: emitted ++ [.br exitBlock, .pushBuilder cont] ∧
      fs'.exit_block = true ∧ fs'.cc = .C :=
  (raise_in_plainC_function_emitted (.const "e") false sample.plainCBody (.argument "__ctx")
    (by decide) ⟨by decide, by decide, fun hcc => absurd hcc (by decide)⟩ (by decide)).1

/-- C19 (counterexample): in the PlainC function `init(__ctx)` a raise is not
rejected: the code is emitted, the exception goes into the context, and the
function returns through its exit block. -/
theorem raise_in_plainC_function_counterexample :
    sample.plainCBody.cc = .C ∧
    sample.plainCRaise
      = .ok [.pushBuilder ".entry",
             .call (.function "__hlt_context_set_exception")
               [.argument "__ctx", .const "e"] none,
             .instructionCleanupNoFlush,
             .br (.block ".exit"),
             .pushBuilder ".excpt-check-done",
             .br (.block ".exit"),
             .pushBuilder ".exit",
             .retVoid] ∧
    ¬ (∃ e, sample.plainCRaise = .error e) := by
  have h : sample.plainCRaise
      = .ok [.pushBuilder ".entry",
             .call (.function "__hlt_context_set_exception")
               [.argument "__ctx", .const "e"] none,
             .instructionCleanupNoFlush,
             .br (.block ".exit"),
             .pushBuilder ".excpt-check-done",
             .br (.block ".exit"),
             .pushBuilder ".exit",
             .retVoid] := by decide
  refine ⟨rfl, h, ?_⟩
  rintro ⟨e, he⟩
  rw [h] at he
  cases he

end CodeGen

namespace CodeGen

theorem SameFunction.popBuilder (fs : FunctionState) : SameFunction fs (popBuilder fs) :=
  SameFunction.of_frame fs _ (frame_emit _ _)

/-- While the exit block is built, `llvmCheckCException` emits nothing. -/
theorem llvmCheckCException_in_build_exit (excpt : Value) (reraise : Bool) (fs : FunctionState)
    (h : fs.in_build_exit ≠ 0) : llvmCheckCException excpt reraise fs = .ok fs := by
  unfold llvmCheckCException
  have : (fs.in_build_exit != 0) = true := by simpa using h
  rw [this]
  rfl

/-- The state in which `llvmCheckCException` emits what follows a non-null
slot, and its code so far. -/
theorem checkCException_raise_state (excpt : Value) (fs : FunctionState) :
    ∃ fsR cont raise,
      (∀ reraise, fs.in_build_exit = 0 →
        llvmCheckCException excpt reraise fs
          = (match (if reraise then llvmRaiseException (.load excpt) true fsR
                    else
                      match llvmExecutionContext fsR.cg with
                      | .error e => .error e
                      | .ok ctx =>
                        match fsR.run (llvmCallC "__hlt_context_set_exception"
                                [ctx, .load excpt] false false) with
                        | .error e => .error e
                        | .ok (_, fs) =>
                          match fs.exec (llvmDtor excpt
                                  (llvmTypePtr (some llvmTypeExceptionPtr))
                                  fs.ref_exception_any true "llvmDoCall/excpt") with
                          | .error e => .error e
                          | .ok fs => .ok (fs.emit [.br (.block cont)])) with
             | .error e => Except.error e
             | .ok fs => .ok (pushBuilder cont (popBuilder fs)))) ∧
      fsR.cg.code = fs.cg.code ++ [slotCheck excpt cont raise] ++ [.pushBuilder raise] ∧
      SameFunction fs fsR := by
  refine ⟨pushBuilder (newBuilder "excpt-c" (newBuilder "no-excpt" fs).2).1
      ((newBuilder "excpt-c" (newBuilder "no-excpt" fs).2).2.emit
        [slotCheck excpt (newBuilder "no-excpt" fs).1
          (newBuilder "excpt-c" (newBuilder "no-excpt" fs).2).1]),
    (newBuilder "no-excpt" fs).1, (newBuilder "excpt-c" (newBuilder "no-excpt" fs).2).1,
    ?_, ?_, ?_⟩
  · intro reraise h0
    unfold llvmCheckCException
    have : (fs.in_build_exit != 0) = false := by simp [h0]
    rw [this]
    rfl
  · simp [pushBuilder, FunctionState.emit, emit, newBuilder]
  · exact (SameFunction.newBuilder "no-excpt" fs).1.andThen
      ((SameFunction.newBuilder "excpt-c" _).1.andThen
        ((SameFunction.emit _ _).andThen (SameFunction.pushBuilder _ _)))

/-- `llvmCheckCException` without reraise, outside the exit block: the slot is
tested, and in the block for a non-null slot the exception is stored into the
context, the slot destructed, and control goes on after the call. -/
theorem llvmCheckCException_continue (excpt : Value) (fs : FunctionState) (ctx : Value)
    (hctx : llvmExecutionContext fs.cg = .ok ctx) (h0 : fs.in_build_exit = 0) :
    ∃ fs' cont raise released, llvmCheckCException excpt false fs = .ok fs' ∧
      fs'.cg.code = fs.cg.code
        ++ [slotCheck excpt cont raise, .pushBuilder raise, setException ctx (.load excpt)]
        ++ released ++ [.br (.block cont), .popBuilder, .pushBuilder cont] ∧
      (∀ i ∈ released, i = dtorCall fs.cg ctx excpt fs.ref_exception_any "llvmDoCall/excpt") ∧
      SameFunction fs fs' := by
  obtain ⟨fsR, cont, raise, k1, k2, k3⟩ := checkCException_raise_state excpt fs
  have hctxR : llvmExecutionContext fsR.cg = .ok ctx :=
    (llvmExecutionContext_frame k3.frame).trans hctx
  have hctx1 : llvmExecutionContext (emit fsR.cg [setException ctx (.load excpt)]) = .ok ctx :=
    (llvmExecutionContext_frame (frame_emit _ _)).trans hctxR
  obtain ⟨cg2, d1, d2, d3⟩ := llvmDtor_ptr excpt (llvmTypePtr (some llvmTypeExceptionPtr))
    fs.ref_exception_any "llvmDoCall/excpt"
    (emit fsR.cg [setException ctx (.load excpt)]) ctx hctx1
  rw [← k3.ref_exception_any] at d1
  rw [k1 false h0]
  simp only [Bool.false_eq_true, if_false, hctxR]
  rw [FunctionState.run_ok _ _ _ _
    (llvmCallC_plain "__hlt_context_set_exception" [ctx, .load excpt] fsR.cg)]
  simp only
  have d1' := FunctionState.exec_ok
    ({ fsR with cg := emit fsR.cg [setException ctx (.load excpt)] } : FunctionState)
    (llvmDtor excpt (llvmTypePtr (some llvmTypeExceptionPtr)) fsR.ref_exception_any true
      "llvmDoCall/excpt") cg2 d1
  simp only [setException] at d1'
  simp only [d1']
  refine ⟨_, cont, raise,
    (if hasDtor fs.ref_exception_any then
      [dtorCall fs.cg ctx excpt fs.ref_exception_any "llvmDoCall/excpt"] else []),
    rfl, ?_, ?_, ?_⟩
  · have hd : dtorCall (emit fsR.cg [setException ctx (.load excpt)]) ctx excpt
        fs.ref_exception_any "llvmDoCall/excpt"
        = dtorCall fs.cg ctx excpt fs.ref_exception_any "llvmDoCall/excpt" :=
      dtorCall_frame (k3.frame.trans (frame_emit _ _)) _ _ _ _
    rw [hd] at d2
    simp only [pushBuilder, popBuilder, FunctionState.emit, emit, d2, k2, List.append_assoc,
      List.singleton_append, List.cons_append, List.nil_append]
  · intro i hi
    split at hi
    · simpa using hi
    · simp at hi
  · exact k3.andThen ((SameFunction.of_frame fsR cg2 ((frame_emit _ _).trans d3)).andThen
      ((SameFunction.emit _ _).andThen
        ((SameFunction.popBuilder _).andThen (SameFunction.pushBuilder _ _))))

/-- `llvmCheckCException` with reraise, outside the exit block, where the
handling can be emitted: the slot is tested, and in the block for a non-null
slot the exception is stored into the context, destructed, and the handling of
`llvmTriggerExceptionHandling(true)` follows. -/
theorem llvmCheckCException_reraise (excpt : Value) (fs : FunctionState) (ctx : Value)
    (h : CanHandle fs ctx) (h0 : fs.in_build_exit = 0) :
    ∃ fs' cont raise released mid handled, llvmCheckCException excpt true fs = .ok fs' ∧
      mid.cg.code = fs.cg.code
        ++ [slotCheck excpt cont raise, .pushBuilder raise, setException ctx (.load excpt)]
        ++ released ∧
      (∀ i ∈ released, i.isPlain = true) ∧
      llvmTriggerExceptionHandling true mid = .ok handled ∧
      fs'.cg.code = handled.cg.code ++ [.popBuilder, .pushBuilder cont] ∧
      (∃ more, handled.cg.code = mid.cg.code ++ more) ∧
      SameFunction fs fs' := by
  obtain ⟨fsR, cont, raise, k1, k2, k3⟩ := checkCException_raise_state excpt fs
  have hb : blockFrom fsR.cg.code.reverse 0 ≠ none := by
    rw [k2]
    exact (open_append_push _ _).2
  obtain ⟨fs1, mid, released, handling, cont2, e1, e2, e3, e4, e5, -, -, e8, -⟩ :=
    llvmRaiseException_spec (.load excpt) true fsR ctx (h.of_same k3) hb
  rw [k1 true h0]
  simp only [if_true, e1]
  refine ⟨_, cont, raise, released, mid, fs1, rfl, ?_, e5, e2,
    by simp [pushBuilder, popBuilder, FunctionState.emit, emit],
    ⟨handling ++ [.br exitBlock, .pushBuilder cont2], by rw [e4, List.append_assoc]⟩,
    k3.andThen (e8.andThen ((SameFunction.popBuilder _).andThen (SameFunction.pushBuilder _ _)))⟩
  rw [e3, k2]
  simp only [List.append_assoc, List.singleton_append, List.cons_append, List.nil_append]


/-- Under BoundaryC the argument vector comes with an exception slot. -/
theorem nativeArguments_slot (coerceTo : Expression → HiltiType → Expression)
    (ftype : FunctionType) (args : List Expression) (hook_result : Option Value) (cg cg1 : CG)
    (llvm_args : List Value) (excpt : Option Value) (hcc : ftype.cc = .HILTI_C)
    (h : nativeArguments coerceTo ftype args hook_result cg = .ok (llvm_args, excpt, cg1)) :
    ∃ e, excpt = some e := by
  unfold nativeArguments at h
  split at h
  · cases h
  · split at h
    · cases h
    · rename_i hidden ex cg2 hh
      cases h
      unfold hiddenArguments at hh
      simp only [hcc] at hh
      split at hh
      · cases hh
      · split at hh
        · cases hh
        · cases hh
          exact ⟨_, rfl⟩

/-- The part of `llvmDoCall` before its closing exception check, for a
well-formed call: it ends with the caller's callback, contains the call
instruction, keeps the execution context, and under BoundaryC gives the
exception slot of the call. -/
theorem llvmDoCallBody_spec (tg : Target) (coerceTo : Expression → HiltiType → Expression)
    (llvm_func : Value) (hook : Option String) (ftype : FunctionType) (args : List Expression)
    (cctor_result : Bool) (hook_result : Option Value) (cg : CG)
    (wf : WellFormedCall tg coerceTo ftype args hook_result cg)
    (hadj : resultAdjustable ftype cctor_result) :
    ∃ result excpt cgB ctx front nargs llvm_cc back,
      llvmDoCallBody tg coerceTo llvm_func hook ftype args cctor_result hook_result cg
        = .ok (result, excpt, cgB) ∧
      llvmExecutionContext cg = .ok ctx ∧ llvmExecutionContext cgB = .ok ctx ∧
      cgB.code = cg.code ++ front
        ++ [Instr.call (redirectToHook llvm_func hook) nargs (some llvm_cc)]
        ++ back ++ [Instr.excptCallback] ∧
      (ftype.cc = .HILTI_C → ∃ e, excpt = some e) := by
  obtain ⟨lives, hlive⟩ := wf.lives
  obtain ⟨llvm_args, excpt, cg1, argCode, t, ⟨cargs, g, x⟩, ctx, n1, n2, n3, n4, n5, n6, n7, n8⟩ :=
    nativeArguments_spec tg coerceTo ftype args hook_result cg wf
  obtain ⟨llvm_cc, hllvm⟩ := llvmCallingConvention_ok ftype.cc wf.convention
  have hctx1 := (llvmExecutionContext_frame n8).trans n4
  obtain ⟨cg2, p1, p2, p3⟩ := safepointPre_spec ftype.mayTriggerSafepoint cg1 ctx lives hctx1
    (fun h => (liveValues_frame n8).trans (hlive h))
  have hctx2 := (llvmExecutionContext_frame p3).trans hctx1
  obtain ⟨result, cg3, before, after, c1, c2, c3, -, c5, c6⟩ :=
    abi.X86_64.createCall_spec tg
      (redirectToHook llvm_func hook) llvm_args t.1 t.2 ftype.cc cg2 cargs g x llvm_cc n3 n5 hllvm
  have hctx3 := (llvmExecutionContext_frame c5).trans hctx2
  obtain ⟨cg4, smap, q1, q2, q3, q4⟩ :=
    safepointPost_spec ftype.mayTriggerSafepoint cg3 ctx lives hctx3
      (fun h => (liveValues_frame ((n8.trans p3).trans c5)).trans (hlive h))
  have hctx5 : llvmExecutionContext
      (if cg4.dtors_after_call then
        { emit cg4 [Instr.instructionCleanup] with dtors_after_call := false } else cg4)
      = .ok ctx := by
    rw [← (llvmExecutionContext_frame q4).trans hctx3]
    split_ifs <;> rfl
  obtain ⟨cg6, r1, r2, r3⟩ := adjustResult_spec result t.1 ftype (returnsOwned ftype) cctor_result
    (if cg4.dtors_after_call then
      { emit cg4 [Instr.instructionCleanup] with dtors_after_call := false } else cg4) ctx hctx5
    (resultAdjustable_spec ftype cctor_result t n2 hadj)
  have hcode5 : ∃ cl, (if cg4.dtors_after_call then
        { emit cg4 [Instr.instructionCleanup] with dtors_after_call := false } else cg4).code
      = cg4.code ++ cl := by
    split_ifs
    · exact ⟨[Instr.instructionCleanup], rfl⟩
    · exact ⟨[], by simp⟩
  obtain ⟨cl, hcl⟩ := hcode5
  refine ⟨result, excpt, emit cg6 [Instr.excptCallback], ctx,
    argCode ++ (if ftype.mayTriggerSafepoint then pinCode cg1 ctx lives else [])
      ++ before,
    (if cargs.return_in_mem then [Value.tmpNull "__tmp_agg.sret" t.1] else [])
      ++ abi.X86_64.passedValues tg cargs.args_in_mem (t.2.map (fun a => a.2)) llvm_args,
    llvm_cc,
    after ++ (if ftype.mayTriggerSafepoint then smap ++ unpinCode cg3 ctx lives
              else []) ++ cl
      ++ resultAdjustCode
          (if cg4.dtors_after_call then
            { emit cg4 [Instr.instructionCleanup] with dtors_after_call := false } else cg4)
          ctx result ftype.result (returnsOwned ftype) cctor_result,
    ?_, n4,
    (llvmExecutionContext_frame (r3.trans (frame_emit _ _))).trans hctx5, ?_,
    fun hcc => nativeArguments_slot coerceTo ftype args hook_result cg cg1 llvm_args excpt hcc n1⟩
  · unfold llvmDoCallBody
    simp only [resultIsCctored_spec ftype wf.convention, n1, n2, Bool.false_and,
      Bool.false_eq_true, if_false, p1, c1, q1, Bool.not_false, Bool.true_and, r1]
  · have hcb : (emit cg6 [Instr.excptCallback]).code = cg6.code ++ [Instr.excptCallback] := rfl
    rw [hcb, r2, hcl, q3, c2, p2, n6]
    simp only [List.append_assoc]


/-- C14 (as amended): for a well-formed BoundaryC call emitted by `llvmDoCall` whose
function type lacks `noexception`, outside the building of the exit block
(`_in_build_exit` zero) the code emitted after the call and the caller's
callback loads the exception slot of the call, tests it and, in the block for a
non-null value, stores the loaded exception into the execution context. Without
exception check the slot is then destructed and control continues after the
call; with exception check, where the handling can be emitted, the handling of
`llvmTriggerExceptionHandling(true)` follows. While the exit block is being
built (`_in_build_exit` non-zero) nothing is emitted after the callback. -/
theorem boundaryC_exception_slot_copied (tg : Target)
    (coerceTo : Expression → HiltiType → Expression) (llvm_func : Value) (hook : Option String)
    (ftype : FunctionType) (args : List Expression) (cctor_result : Bool)
    (hook_result : Option Value) (excpt_check : Bool) (fs : FunctionState) (ctx : Value)
    (wf : WellFormedCall tg coerceTo ftype args hook_result fs.cg)
    (hcc : ftype.cc = .HILTI_C) (hne : ftype.attrNoException = false)
    (hctx : llvmExecutionContext fs.cg = .ok ctx)
    (hh : excpt_check = true → CanHandle fs ctx) :
    ∃ result slot cgB,
      llvmDoCallBody tg coerceTo llvm_func hook ftype args cctor_result hook_result fs.cg
        = .ok (result, some slot, cgB) ∧
      (∃ body, cgB.code = fs.cg.code ++ body ++ [Instr.excptCallback]) ∧
      (fs.in_build_exit ≠ 0 →
        llvmDoCallUnfolded tg coerceTo llvm_func hook ftype args cctor_result hook_result
          excpt_check fs = .ok (result, { fs with cg := cgB })) ∧
      (fs.in_build_exit = 0 →
        ∃ fs' cont raise rest,
          llvmDoCallUnfolded tg coerceTo llvm_func hook ftype args cctor_result hook_result
            excpt_check fs = .ok (result, fs') ∧
          fs'.cg.code = cgB.code
            ++ [slotCheck slot cont raise, .pushBuilder raise, setException ctx (.load slot)]
            ++ rest ++ [.popBuilder, .pushBuilder cont] ∧
          (excpt_check = false →
            ∃ released, rest = released ++ [.br (.block cont)] ∧
              ∀ i ∈ released,
                i = dtorCall cgB ctx slot fs.ref_exception_any "llvmDoCall/excpt") ∧
          (excpt_check = true →
            ∃ released mid handled more, rest = released ++ more ∧
              (∀ i ∈ released, i.isPlain = true) ∧
              mid.cg.code = cgB.code
                ++ [slotCheck slot cont raise, .pushBuilder raise, setException ctx (.load slot)]
                ++ released ∧
              llvmTriggerExceptionHandling true mid = .ok handled ∧
              handled.cg.code = mid.cg.code ++ more)) := by
  obtain ⟨result, excpt, cgB, ctx', front, nargs, llvm_cc, back, b1, b2, b3, b4, b5⟩ :=
    llvmDoCallBody_spec tg coerceTo llvm_func hook ftype args cctor_result hook_result fs.cg wf
      (fun h => by rw [hcc] at h; cases h)
  have hc : ctx' = ctx := by
    rw [hctx] at b2
    exact (Except.ok.inj b2).symm
  subst hc
  obtain ⟨slot, hslot⟩ := b5 hcc
  subst hslot
  have hunf : llvmDoCallUnfolded tg coerceTo llvm_func hook ftype args cctor_result hook_result
      excpt_check fs
      = (match llvmCheckCException slot excpt_check { fs with cg := cgB } with
         | .error e => Except.error e
         | .ok fs => .ok (result, fs)) := by
    unfold llvmDoCallUnfolded checkAfterCallUnfolded
    simp only [b1, hcc, hne, Bool.not_false, if_true]
  refine ⟨result, slot, cgB, b1,
    ⟨front ++ [Instr.call (redirectToHook llvm_func hook) nargs (some llvm_cc)] ++ back,
      by rw [b4]; simp only [List.append_assoc]⟩, ?_, ?_⟩
  · intro hin
    rw [hunf, llvmCheckCException_in_build_exit slot excpt_check { fs with cg := cgB } hin]
  · intro hin
    cases excpt_check with
    | false =>
      obtain ⟨fs', cont, raise, released, e1, e2, e3, -⟩ :=
        llvmCheckCException_continue slot { fs with cg := cgB } ctx' b3 hin
      refine ⟨fs', cont, raise, released ++ [.br (.block cont)], ?_, ?_,
        fun _ => ⟨released, rfl, e3⟩, (fun hf => by cases hf)⟩
      · rw [hunf, e1]
      · rw [e2]
        simp only [List.append_assoc, List.singleton_append, List.cons_append, List.nil_append]
    | true =>
      have hB : CanHandle ({ fs with cg := cgB } : FunctionState) ctx' :=
        ⟨b3, (hh rfl).cleared, (hh rfl).slot⟩
      obtain ⟨fs', cont, raise, released, mid, handled, e1, e2, e3, e4, e5, ⟨more, e6⟩, -⟩ :=
        llvmCheckCException_reraise slot { fs with cg := cgB } ctx' hB hin
      refine ⟨fs', cont, raise, released ++ more, ?_, ?_, (fun hf => by cases hf),
        fun _ => ⟨released, mid, handled, more, rfl, e3, e2, e4, e6⟩⟩
      · rw [hunf, e1]
      · rw [e5, e6, e2]
        simp only [List.append_assoc, List.singleton_append, List.cons_append, List.nil_append]

/-- C14 (witness): the sample call `f(n, data)` with exception check in a
function body outside the building of its exit block. -/
theorem boundaryC_exception_slot_copied_witness :
    ∃ result slot cgB fs' cont raise rest,
      llvmDoCallBody sysv.target sample.keepType (.function "f") none sample.ftype
          [sample.eNum, sample.eData] false none sample.callerBody.cg
        = .ok (result, some slot, cgB) ∧
      llvmDoCallUnfolded sysv.target sample.keepType (.function "f") none sample.ftype
          [sample.eNum, sample.eData] false none true sample.callerBody = .ok (result, fs') ∧
      fs'.cg.code = cgB.code
        ++ [slotCheck slot cont raise, .pushBuilder raise,
            setException (.argument "__ctx") (.load slot)]
        ++ rest ++ [.popBuilder, .pushBuilder cont] := by
  obtain ⟨result, slot, cgB, h1, -, -, h3⟩ :=
    boundaryC_exception_slot_copied sysv.target sample.keepType (.function "f") none
      sample.ftype [sample.eNum, sample.eData] false none true sample.callerBody
      (.argument "__ctx") sample_call_wellFormed rfl rfl (by decide)
      (fun _ => ⟨by decide, by decide, fun hcc => absurd hcc (by decide)⟩)
  obtain ⟨fs', cont, raise, rest, h4, h5, -, -⟩ := h3 (by decide)
  exact ⟨result, slot, cgB, fs', cont, raise, rest, h1, h4, h5⟩

/-- C14 (counterexample): the sample call `f(n, data)`, a BoundaryC call whose
function type lacks `noexception`, emitted with exception check while the exit
block is being built: the code ends with the caller's callback, and nothing in
it stores an exception into the context. -/
theorem boundaryC_call_in_exit_block_counterexample :
    sample.ftype.cc = .HILTI_C ∧ sample.ftype.attrNoException = false ∧
    sample.exitBody.in_build_exit = 1 ∧
    sample.exitCallCode.getLast? = some .excptCallback ∧
    ¬ "__hlt_context_set_exception" ∈ callees sample.exitCallCode := by
  refine ⟨rfl, rfl, rfl, by decide, by decide⟩

end CodeGen

namespace abi

end abi

namespace CodeGen

end CodeGen

/-! ## Properties of the resume wrapper -/

theorem FunctionState.exec_with (fs : FunctionState) (f : CG → Except String CG) (cg cg' : CG)
    (h : f cg = .ok cg') :
    ({ fs with cg := cg } : FunctionState).exec f = .ok { fs with cg := cg' } := by
  unfold FunctionState.exec
  simp only [h]

theorem FunctionState.run_with {α : Type} (fs : FunctionState)
    (f : CG → Except String (α × CG)) (a : α) (cg cg' : CG) (h : f cg = .ok (a, cg')) :
    ({ fs with cg := cg } : FunctionState).run f = .ok (a, { fs with cg := cg' }) := by
  unfold FunctionState.run
  simp only [h]

namespace CodeGen

theorem llvmClearException_other (cg cg' : CG) (n : String)
    (h : llvmClearException cg = .ok cg') :
    cg'.tmps.lookup n = cg.tmps.lookup n := by
  unfold llvmClearException at h
  simp only [llvmCallC_plain] at h
  split at h
  · cases h
  · cases h
    rfl

end CodeGen

namespace CodeGen

theorem callsOnly_eq (names : List String) (i j : Instr) (h : i = j)
    (hj : callsOnly names j = true) : callsOnly names i = true := by
  rw [h]
  exact hj

theorem resumeArguments_same {a b : FunctionState} (h : SameFunction a b) :
    resumeArguments b = resumeArguments a := by
  unfold resumeArguments
  rw [h.sret, h.params]

end CodeGen

/-! ## Binding callables -/

namespace CodeGen

/-- C20 (failing input): the function `f(a : ref<bytes>, b : ref<bytes>)` is
bound twice in one module, first to the one argument `data`, then to the two
arguments `data`, `more`. The first bind copy-constructs `data` and completes the
destructor function `.callable.dtorf`, which destructs slot 0. The second bind
copy-constructs `data` and `more`, finds `callable.funcf` in the cache and
completes no function: the callable with two bound slots carries the destructor
function that destructs slot 0 only. In the other order the callable with one
bound slot carries the destructor function built for two, which destructs the
slots 0 and 1. -/
theorem callable_rebind_reuses_destructor :
    (sample.bindF [sample.eData] (sample.emptyBody, sample.emptyModule)).map
        (fun r => (sample.copiedSince sample.emptyBody r.2.1, sample.destructedIn r.2.2,
                   lookupCachedValue "callable-func" "f" r.2.2))
      = .ok ([.value sample.eData], [(".callable.dtorf", [sample.boundSlot 1 0])],
             some (.const "callable.funcf")) ∧
    (sample.bindF [sample.eData, sample.eMore] (sample.boundTo [sample.eData])).map
        (fun r => (sample.copiedSince (sample.boundTo [sample.eData]).1 r.2.1,
                   sample.destructedIn r.2.2, lookupCachedValue "callable-func" "f" r.2.2))
      = .ok ([.value sample.eData, .value sample.eMore],
             [(".callable.dtorf", [sample.boundSlot 1 0])], some (.const "callable.funcf")) ∧
    (sample.bindF [sample.eData] (sample.boundTo [sample.eData, sample.eMore])).map
        (fun r => (sample.copiedSince (sample.boundTo [sample.eData, sample.eMore]).1 r.2.1,
                   sample.destructedIn r.2.2, lookupCachedValue "callable-func" "f" r.2.2))
      = .ok ([.value sample.eData],
             [(".callable.dtorf", [sample.boundSlot 2 0, sample.boundSlot 2 1])],
             some (.const "callable.funcf")) := by
  refine ⟨by decide, by decide, by decide⟩

end CodeGen

/-! ## Unique names -/

namespace CodeGen

/-- C27 (failing input): three calls of `uniqueName("type", "x")` in the module
`m`, starting with no name taken. The first returns `.hlt.x.m` and enters the
count 2; the second returns `.hlt.x.m.2`, and its `insert` leaves the entry as it
is; the third finds the count 2 again and returns `.hlt.x.m.2` as well. -/
theorem uniqueName_repeats_second_name :
    uniqueNames "m" "type" "x" 3 []
      = ([".hlt.x.m", ".hlt.x.m.2", ".hlt.x.m.2"], [("type::x", 2)]) ∧
    ¬ (uniqueNames "m" "type" "x" 3 []).1.Nodup := by
  have h : uniqueNames "m" "type" "x" 3 []
      = ([".hlt.x.m", ".hlt.x.m.2", ".hlt.x.m.2"], [("type::x", 2)]) := by decide
  refine ⟨h, ?_⟩
  rw [h]
  decide

end CodeGen

/-! ## Extracting and inserting bits -/

namespace CodeGen

theorem ones_shifted (w b : Nat) (h : b ≤ w) : (2 ^ w - 1) / 2 ^ b = 2 ^ (w - b) - 1 := by
  have h1 : 2 ^ w = 2 ^ (w - b) * 2 ^ b := by
    rw [← pow_add]
    congr 1
    omega
  have h2 : 0 < 2 ^ b := Nat.pow_pos (by norm_num)
  have h3 : 0 < 2 ^ (w - b) := Nat.pow_pos (by norm_num)
  obtain ⟨a, ha⟩ : ∃ a, 2 ^ (w - b) = a + 1 := ⟨2 ^ (w - b) - 1, by omega⟩
  rw [h1, ha]
  have e : (a + 1) * 2 ^ b - 1 = a * 2 ^ b + (2 ^ b - 1) := by
    rw [Nat.add_mul]
    omega
  rw [e, Nat.add_sub_cancel]
  rw [Nat.add_comm, Nat.add_mul_div_right _ _ h2]
  rw [Nat.div_eq_of_lt (by omega)]
  simp

theorem llvmConstIntValue_width (w : Nat) (hw : w ≤ 64) :
    llvmConstIntValue w w = .ok (.const w w) := by
  unfold llvmConstIntValue
  rw [if_pos hw]
  have h1 : w < 2 ^ w := Nat.lt_two_pow w
  have h2 : (w : Int) % 2 ^ 64 = w := by
    apply Int.emod_eq_of_lt (by omega)
    have : w < 2 ^ 64 := by omega
    exact_mod_cast this
  rw [h2]
  simp [Nat.mod_eq_of_lt h1]

theorem llvmConstIntValue_one (w : Nat) (hw : w ≤ 64) (h1 : 1 ≤ w) :
    llvmConstIntValue 1 w = .ok (.const 1 w) := by
  unfold llvmConstIntValue
  rw [if_pos hw]
  have h2 : 1 < 2 ^ w := Nat.one_lt_two_pow (by omega)
  have h3 : ((1 : Int) % 2 ^ 64).toNat = 1 := by decide
  rw [h3, Nat.mod_eq_of_lt h2]

theorem llvmConstIntValue_ones (w : Nat) (hw : w ≤ 64) :
    llvmConstIntValue (-1) w = .ok (.const (2 ^ w - 1) w) := by
  unfold llvmConstIntValue
  rw [if_pos hw]
  have h3 : ((-1 : Int) % 2 ^ 64).toNat = 2 ^ 64 - 1 := by decide
  rw [h3]
  have h4 : 2 ^ 64 = 2 ^ (64 - w) * 2 ^ w := by
    rw [← pow_add]
    congr 1
    omega
  have h5 : 0 < 2 ^ w := Nat.pow_pos (by norm_num)
  have h6 : 0 < 2 ^ (64 - w) := Nat.pow_pos (by norm_num)
  obtain ⟨a, ha⟩ : ∃ a, 2 ^ (64 - w) = a + 1 := ⟨2 ^ (64 - w) - 1, by omega⟩
  have e : 2 ^ 64 - 1 = (2 ^ w - 1) + 2 ^ w * a := by
    rw [h4, ha, Nat.add_mul, Nat.mul_comm]
    omega
  rw [e, Nat.add_mul_mod_self_left, Nat.mod_eq_of_lt (by omega)]

/-- The mask of `llvmExtractBits` and `llvmInsertBits`: all ones shifted right by
`w - k` bits, computed modulo `2^w`, has the low `k` bits set. -/
theorem mask_value (w k : Nat) (hk1 : 1 ≤ k) (hk : k ≤ w) :
    (w - k < w) ∧ (2 ^ w - 1) / 2 ^ (w - k) = 2 ^ k - 1 := by
  refine ⟨by omega, ?_⟩
  rw [ones_shifted w (w - k) (by omega)]
  congr 2
  omega

/-- C30: for a width `w` from 1 to 64 and bit positions `low ≤ high < w`, the
value `llvmExtractBits` builds for the operands `v`, `low` and `high` is defined
and equals `(v >> low) mod 2^(high - low + 1)`, all instructions computing
modulo `2^w`; and the value it builds for the result of `llvmInsertBits(v, low,
high)` is defined and equals `v mod 2^(high - low + 1)`. -/
theorem extract_bits_value (w : Nat) (env : String → Nat) (v low high : String)
    (hw1 : 1 ≤ w) (hw : w ≤ 64) (hlow : env low ≤ env high) (hhigh : env high < w) :
    (∃ e, llvmExtractBits w (.operand v) (.operand low) (.operand high) = .ok e ∧
      e.eval w env = some (env v % 2 ^ w / 2 ^ env low % 2 ^ (env high - env low + 1))) ∧
    (∃ i e, llvmInsertBits w (.operand v) (.operand low) (.operand high) = .ok i ∧
      llvmExtractBits w i (.operand low) (.operand high) = .ok e ∧
      i.eval w env = some (env v * 2 ^ env low % 2 ^ (env high + 1)) ∧
      e.eval w env = some (env v % 2 ^ (env high - env low + 1))) := by
  have hpw : w < 2 ^ w := Nat.lt_two_pow w
  have hlo : env low % 2 ^ w = env low := Nat.mod_eq_of_lt (by omega)
  have hhi : env high % 2 ^ w = env high := Nat.mod_eq_of_lt (by omega)
  -- the shift amounts
  have hb1 : (w + 2 ^ w - env high) % 2 ^ w = w - env high := by
    have : w + 2 ^ w - env high = (w - env high) + 2 ^ w := by omega
    rw [this, Nat.add_mod_right, Nat.mod_eq_of_lt (by omega)]
  have hb2 : (w - env high + env low) % 2 ^ w = w - env high + env low :=
    Nat.mod_eq_of_lt (by omega)
  have hb3 : (w - env high + env low + 2 ^ w - 1) % 2 ^ w = w - (env high - env low + 1) := by
    have : w - env high + env low + 2 ^ w - 1 = (w - (env high - env low + 1)) + 2 ^ w := by
      omega
    rw [this, Nat.add_mod_right, Nat.mod_eq_of_lt (by omega)]
  have hb4 : (w - env high + 2 ^ w - 1) % 2 ^ w = w - (env high + 1) := by
    have : w - env high + 2 ^ w - 1 = (w - (env high + 1)) + 2 ^ w := by omega
    rw [this, Nat.add_mod_right, Nat.mod_eq_of_lt (by omega)]
  obtain ⟨m1, m2⟩ := mask_value w (env high - env low + 1) (by omega) (by omega)
  obtain ⟨n1, n2⟩ := mask_value w (env high + 1) (by omega) (by omega)
  have hins : (IntValue.and (.shl (.operand v) (.operand low))
      (.lshr (.const (2 ^ w - 1) w) (.sub (.sub (.const w w) (.operand high)) (.const 1 w)))).eval
        w env = some (env v * 2 ^ env low % 2 ^ (env high + 1)) := by
    simp only [IntValue.eval, hlo, hhi, hb1, hb4, n1, if_true, n2,
      Nat.and_pow_two_sub_one_eq_mod, show env low < w by omega]
    congr 1
    rw [Nat.mod_mul_mod, Nat.mod_mod_of_dvd _ (pow_dvd_pow 2 (by omega))]
  have hext : ∀ x, llvmExtractBits w x (.operand low) (.operand high)
      = .ok (.and (.lshr x (.operand low))
          (.lshr (.const (2 ^ w - 1) w)
            (.sub (.add (.sub (.const w w) (.operand high)) (.operand low)) (.const 1 w)))) := by
    intro x
    simp only [llvmExtractBits, llvmConstIntValue_width w hw, llvmConstIntValue_one w hw hw1,
      llvmConstIntValue_ones w hw]
  have hinsert : llvmInsertBits w (.operand v) (.operand low) (.operand high)
      = .ok (.and (.shl (.operand v) (.operand low))
          (.lshr (.const (2 ^ w - 1) w)
            (.sub (.sub (.const w w) (.operand high)) (.const 1 w)))) := by
    simp only [llvmInsertBits, llvmConstIntValue_width w hw, llvmConstIntValue_one w hw hw1,
      llvmConstIntValue_ones w hw]
  refine ⟨⟨_, hext _, ?_⟩, _, _, hinsert, hext _, hins, ?_⟩
  · simp only [IntValue.eval, hlo, hhi, hb1, hb2, hb3, m1, if_true, m2,
      Nat.and_pow_two_sub_one_eq_mod, show env low < w by omega]
  · rw [IntValue.eval, IntValue.eval, hins]
    simp only [IntValue.eval, hlo, hhi, hb1, hb2, hb3, m1, if_true, m2,
      Nat.and_pow_two_sub_one_eq_mod, show env low < w by omega]
    congr 1
    have e1 : 2 ^ (env high + 1) = 2 ^ (env high - env low + 1) * 2 ^ env low := by
      rw [← pow_add]
      congr 1
      omega
    rw [e1, Nat.mul_mod_mul_right, Nat.mul_div_cancel _ (Nat.pow_pos (by norm_num)),
      Nat.mod_mod]

/-- C30 (witness): bits 4 to 11 of a 32-bit value. -/
theorem extract_bits_value_witness :
    ∃ e, llvmExtractBits 32 (.operand "v") (.operand "low") (.operand "high") = .ok e ∧
      e.eval 32 (fun n => if n = "v" then 0xABCD else if n = "low" then 4 else 11)
        = some (0xABCD % 2 ^ 32 / 2 ^ 4 % 2 ^ (11 - 4 + 1)) :=
  (extract_bits_value 32 (fun n => if n = "v" then 0xABCD else if n = "low" then 4 else 11)
    "v" "low" "high" (by decide) (by decide) (by decide) (by decide)).1

end CodeGen

/-! ## Properties of the analyzer's endpoints -/

namespace bro

theorem Analyzer.step_spec (a : Analyzer) (op : Op) (ho : a.orig.Consistent)
    (hr : a.resp.Consistent) :
    ∃ a' calls, a.step op = .ok (a', calls) ∧ a'.orig.Consistent ∧ a'.resp.Consistent := by
  have hinit : Endpoint.init.Consistent := by
    intro h
    cases h
  cases op with
  | Init => exact ⟨_, _, rfl, hinit, hinit⟩
  | Done => exact ⟨_, _, rfl, hinit, hinit⟩
  | FlipRoles => exact ⟨_, _, rfl, hr, ho⟩
  | FeedChunk is_orig c =>
    cases is_orig with
    | true =>
      obtain ⟨result, endp', calls, h1, h2, -⟩ := FeedChunk_spec a.orig c ho
      refine ⟨a.setEndpoint true endp', calls, ?_, ?_, ?_⟩
      · simp only [Analyzer.step, Analyzer.endpoint, if_true, h1]
      · exact h2
      · exact hr
    | false =>
      obtain ⟨result, endp', calls, h1, h2, -⟩ := FeedChunk_spec a.resp c hr
      refine ⟨a.setEndpoint false endp', calls, ?_, ?_, ?_⟩
      · simp only [Analyzer.step, Analyzer.endpoint, Bool.false_eq_true, if_false, h1]
      · exact ho
      · exact h2

theorem Analyzer.run_spec (ops : List Op) : ∀ (a : Analyzer), a.orig.Consistent →
    a.resp.Consistent →
    ∃ a' trace, a.run ops = .ok (a', trace) ∧ a'.orig.Consistent ∧ a'.resp.Consistent := by
  induction ops with
  | nil =>
    intro a ho hr
    exact ⟨a, [], rfl, ho, hr⟩
  | cons op ops ih =>
    intro a ho hr
    obtain ⟨a1, calls, h1, h2, h3⟩ := a.step_spec op ho hr
    obtain ⟨a2, trace, k1, k2, k3⟩ := ih a1 h2 h3
    exact ⟨a2, calls :: trace, by simp only [Analyzer.run, h1, k1], k2, k3⟩

/-- A finished endpoint stays finished, and no call into the parser is made for
it, as long as neither `Init` nor `Done` is called. -/
theorem Analyzer.finished_stays (ops : List Op) : ∀ (a a' : Analyzer) (is_orig : Bool)
    (trace : List (List Call)),
    (∀ op ∈ ops, op ≠ .Init ∧ op ≠ .Done) →
    (a.endpoint is_orig).Finished → a.run ops = .ok (a', trace) →
    callsFor is_orig ops trace = [] := by
  induction ops with
  | nil =>
    intro a a' is_orig trace _ _ _
    cases trace <;> rfl
  | cons op ops ih =>
    intro a a' is_orig trace hops hf hrun
    have hrest : ∀ op ∈ ops, op ≠ Op.Init ∧ op ≠ Op.Done :=
      fun o ho => hops o (List.mem_cons_of_mem _ ho)
    have hop := hops op (List.mem_cons_self _ _)
    simp only [Analyzer.run] at hrun
    cases op with
    | Init => exact absurd rfl hop.1
    | Done => exact absurd rfl hop.2
    | FlipRoles =>
      simp only [Analyzer.step] at hrun
      cases hr : a.FlipRoles.run ops with
      | error e => simp [hr] at hrun
      | ok r =>
        obtain ⟨a2, rest⟩ := r
        simp only [hr, Except.ok.injEq, Prod.mk.injEq] at hrun
        obtain ⟨-, ht⟩ := hrun
        subst ht
        simp only [callsFor]
        apply ih a.FlipRoles a2 (! is_orig) rest hrest _ hr
        cases is_orig <;> exact hf
    | FeedChunk o c =>
      simp only [Analyzer.step] at hrun
      cases hfc : FeedChunk (a.endpoint o) c with
      | error e => simp [hfc] at hrun
      | ok r1 =>
        obtain ⟨result, endp, calls⟩ := r1
        simp only [hfc] at hrun
        cases hr : (a.setEndpoint o endp).run ops with
        | error e => simp [hr] at hrun
        | ok r =>
          obtain ⟨a2, rest⟩ := r
          simp only [hr, Except.ok.injEq, Prod.mk.injEq] at hrun
          obtain ⟨-, ht⟩ := hrun
          subst ht
          simp only [callsFor]
          by_cases ho : o = is_orig
          · subst ho
            have hfin : FeedChunk (a.endpoint o) c = .ok (0, a.endpoint o, []) := by
              unfold FeedChunk
              simp [hf.1, hf.2]
            rw [hfin] at hfc
            simp only [Except.ok.injEq, Prod.mk.injEq] at hfc
            obtain ⟨-, he, hc⟩ := hfc
            subst he hc
            simp only [beq_self_eq_true, if_true, List.nil_append]
            apply ih _ a2 o rest hrest _ hr
            cases o <;> simpa [Analyzer.setEndpoint, Analyzer.endpoint] using hf
          · have hne : (o == is_orig) = false := by simpa using ho
            simp only [hne, Bool.false_eq_true, if_false, List.nil_append]
            apply ih _ a2 is_orig rest hrest _ hr
            cases o <;> cases is_orig <;>
              first
                | exact absurd rfl ho
                | simpa [Analyzer.setEndpoint, Analyzer.endpoint] using hf

/-- C29: after `Init` and any further sequence of `Init`, `FeedChunk`,
`FlipRoles` and `Done` calls, no call has failed on the assertion, and in the
analyzer reached, which is the one the next `FeedChunk` enters with, each
endpoint that has `data` set has `resume` set as well (and a parser). And when an
endpoint has a parser but no data, then over any further calls without `Init`
and `Done` no call of `parse_func` or `resume_func` is made for it, `FlipRoles`
taking the endpoint to the other side. -/
theorem endpoint_with_data_has_resume (a0 : Analyzer) (ops : List Op) :
    ∃ a trace, a0.run (.Init :: ops) = .ok (a, trace) ∧
      (∀ is_orig, (a.endpoint is_orig).data.isSome = true →
        (a.endpoint is_orig).resume.isSome = true ∧ (a.endpoint is_orig).parser.isSome = true) ∧
      ∀ (is_orig : Bool) (more : List Op), (a.endpoint is_orig).Finished →
        (∀ op ∈ more, op ≠ .Init ∧ op ≠ .Done) →
        ∃ a' trace', a.run more = .ok (a', trace') ∧ callsFor is_orig more trace' = [] := by
  have hinit : Endpoint.init.Consistent := by
    intro h
    cases h
  obtain ⟨a, trace, h1, h2, h3⟩ := Analyzer.run_spec ops a0.Init hinit hinit
  refine ⟨a, [] :: trace, ?_, ?_, ?_⟩
  · simp only [Analyzer.run, Analyzer.step, h1]
  · intro is_orig hd
    cases is_orig with
    | true => exact ⟨(h2 hd).2, (h2 hd).1⟩
    | false => exact ⟨(h3 hd).2, (h3 hd).1⟩
  · intro is_orig more hf hmore
    obtain ⟨a', trace', k1, -, -⟩ := Analyzer.run_spec more a h2 h3
    exact ⟨a', trace', k1, Analyzer.finished_stays more a a' is_orig trace' hmore hf k1⟩

end bro

/-! ## The C wrappers of a function -/

namespace CodeGen

/-- A call of `llvmBuildCWrapper` that finds the entry function in the cache
returns what the cache has and leaves the module as it is. -/
theorem llvmBuildCWrapper_cached (tg : Target) (coerceTo : Expression → HiltiType → Expression)
    (default_cc : CallingConvention) (f : WrappedFunction) (outer : FunctionState)
    (m : GeneratedModule) (rf1 : Value)
    (h : lookupCachedValue "c-wrappers" ("entry-" ++ f.name) m.ms = some rf1) :
    llvmBuildCWrapper tg coerceTo default_cc f outer m
      = .ok ((rf1, lookupCachedValue "c-wrappers" ("resume-" ++ f.name) m.ms), m) := by
  unfold llvmBuildCWrapper
  simp only [h]

/-- C28 (failing input): `llvmBuildCWrapper` is called twice for the function
`f() -> int<64>`, which has a body. When `f` may not yield, the first call
creates the entry function `m_f`, completes its body and returns it before
anything is cached; the second call finds nothing under `entry-m_f`, gets `m_f`
from the module by its name and builds the body a second time into it. When `f`
may yield, the first call caches the two wrappers under the name of the resume
function, as `entry-m_f_resume` and `resume-m_f_resume`; the second call looks
under `entry-m_f`, finds nothing, and builds the bodies of both wrappers a second
time. No function is added to the module by the second call, and it returns the
functions the first call has returned. -/
theorem wrapper_rebuilt_on_second_call :
    (sample.wrappedTwice sample.wrappedPlain).map
        (fun r => (r.1, r.2.1, r.2.2.functions.map (fun f => f.name),
                   r.2.2.ms.bodies.map (fun b => b.1),
                   r.2.2.ms.value_cache.map (fun e => e.1)))
      = .ok ((.function "m_f", none), (.function "m_f", none), ["m_f"], ["m_f", "m_f"], []) ∧
    (llvmBuildCWrapper sysv.target sample.keepType .HILTI sample.wrappedYielding
        sample.resumeGenerator sample.emptyGenerated).map
        (fun r => (r.1, r.2.functions.map (fun f => f.name), r.2.ms.bodies.map (fun b => b.1)))
      = .ok ((.function "m_f", some (.function "m_f_resume")),
             ["m_f", ".fiber.runhlt.m.f", "m_f_resume"],
             [".fiber.runhlt.m.f", "m_f", "m_f_resume"]) ∧
    (llvmBuildCWrapper sysv.target sample.keepType .HILTI sample.wrappedYielding
        sample.resumeGenerator sample.emptyGenerated).map
        (fun r => (lookupCachedValue "c-wrappers" "entry-m_f" r.2.ms,
                   lookupCachedValue "c-wrappers" "resume-m_f" r.2.ms,
                   lookupCachedValue "c-wrappers" "entry-m_f_resume" r.2.ms,
                   lookupCachedValue "c-wrappers" "resume-m_f_resume" r.2.ms))
      = .ok (none, none, some (.function "m_f"), some (.function "m_f_resume")) ∧
    (sample.wrappedTwice sample.wrappedYielding).map
        (fun r => (r.1, r.2.1, r.2.2.functions.map (fun f => f.name),
                   r.2.2.ms.bodies.map (fun b => b.1)))
      = .ok ((.function "m_f", some (.function "m_f_resume")),
             (.function "m_f", some (.function "m_f_resume")),
             ["m_f", ".fiber.runhlt.m.f", "m_f_resume"],
             [".fiber.runhlt.m.f", "m_f", "m_f_resume", "m_f", "m_f_resume"]) := by
  refine ⟨by decide, by decide, by decide, by decide⟩

end CodeGen

/-! ## Properties of linking and unlinking -/

namespace libhilti

theorem seg_congr (h h' : Heap) : ∀ (ps : List Nat) (prev next : Option Nat),
    (∀ q ∈ ps, h'[q]? = h[q]?) → Seg h prev ps next → Seg h' prev ps next := by
  intro ps
  induction ps with
  | nil => intro _ _ _ _; trivial
  | cons p ps ih =>
    intro prev next hq hc
    obtain ⟨n, h1, h2, h3, h4⟩ := hc
    refine ⟨n, ?_, h2, h3, ih (some p) next (fun q hq' => hq q (List.mem_cons_of_mem _ hq')) h4⟩
    rw [hq p (List.mem_cons_self _ _)]
    exact h1

theorem chain_iff_seg (h : Heap) : ∀ (ps : List Nat) (prev : Option Nat),
    Chain h prev ps ↔ Seg h prev ps none := by
  intro ps
  induction ps with
  | nil => intro _; exact Iff.rfl
  | cons p ps ih =>
    intro prev
    constructor
    · rintro ⟨n, h1, h2, h3, h4⟩
      exact ⟨n, h1, h2, by rw [h3]; cases ps <;> rfl, (ih (some p)).mp h4⟩
    · rintro ⟨n, h1, h2, h3, h4⟩
      exact ⟨n, h1, h2, by rw [h3]; cases ps <;> rfl, (ih (some p)).mpr h4⟩

theorem seg_mem (h : Heap) : ∀ (ps : List Nat) (prev next : Option Nat), Seg h prev ps next →
    ∀ q ∈ ps, ∃ n, h[q]? = some n := by
  intro ps
  induction ps with
  | nil => intro _ _ _ q hq; simp at hq
  | cons p ps ih =>
    intro prev next hc q hq
    obtain ⟨n, h1, -, -, h4⟩ := hc
    rcases List.mem_cons.mp hq with e | e
    · exact ⟨n, by rw [e]; exact h1⟩
    · exact ih (some p) next h4 q e

theorem getLast_or_cons (x : Nat) (xs : List Nat) (prev : Option Nat) :
    ((x :: xs).getLast?).or prev = (xs.getLast?).or (some x) := by
  cases xs with
  | nil => rfl
  | cons y ys =>
    obtain ⟨z, hz⟩ : ∃ z, (y :: ys).getLast? = some z :=
      ⟨_, List.getLast?_eq_getLast _ (List.cons_ne_nil _ _)⟩
    rw [List.getLast?_cons_cons, hz]
    rfl

theorem head_or_append (xs ys : List Nat) (next : Option Nat) :
    ((xs ++ ys).head?).or next = (xs.head?).or ((ys.head?).or next) := by
  cases xs <;> rfl

/-- A segment of two parts: the first part ends before the second, the second
starts after the first. -/
theorem seg_append (h : Heap) : ∀ (xs ys : List Nat) (prev next : Option Nat),
    Seg h prev (xs ++ ys) next ↔
      Seg h prev xs ((ys.head?).or next) ∧ Seg h ((xs.getLast?).or prev) ys next := by
  intro xs
  induction xs with
  | nil =>
    intro ys prev next
    simp [Seg]
  | cons x xs ih =>
    intro ys prev next
    show (∃ n, h[x]? = some n ∧ n.prev = prev ∧ n.next = ((xs ++ ys).head?).or next ∧
        Seg h (some x) (xs ++ ys) next) ↔
      (∃ n, h[x]? = some n ∧ n.prev = prev ∧ n.next = (xs.head?).or ((ys.head?).or next) ∧
        Seg h (some x) xs ((ys.head?).or next)) ∧ Seg h (((x :: xs).getLast?).or prev) ys next
    rw [getLast_or_cons, head_or_append, ih ys (some x) next]
    constructor
    · rintro ⟨n, h1, h2, h3, h4, h5⟩
      exact ⟨⟨n, h1, h2, h3, h4⟩, h5⟩
    · rintro ⟨⟨n, h1, h2, h3, h4⟩, h5⟩
      exact ⟨n, h1, h2, h3, h4, h5⟩

/-- The first node of a segment gets another predecessor. -/
theorem seg_change_first (h h' : Heap) (p : Nat) (xs : List Nat) (prev next v : Option Nat)
    (np : ListNode) (hs : Seg h prev (p :: xs) next) (hp : h[p]? = some np)
    (hp' : h'[p]? = some { np with prev := v }) (hxs : ∀ q ∈ xs, h'[q]? = h[q]?) :
    Seg h' v (p :: xs) next := by
  obtain ⟨n, h1, -, h3, h4⟩ := hs
  rw [hp] at h1
  cases h1
  exact ⟨_, hp', rfl, h3, seg_congr h h' xs (some p) next hxs h4⟩

/-- The last node of a segment gets another successor. -/
theorem seg_change_last (h h' : Heap) (p : Nat) (np : ListNode) (v : Option Nat)
    (hp : h[p]? = some np) (hp' : h'[p]? = some { np with next := v }) :
    ∀ (xs : List Nat) (prev next : Option Nat), Seg h prev (xs ++ [p]) next →
      (∀ q ∈ xs, h'[q]? = h[q]?) → Seg h' prev (xs ++ [p]) v := by
  intro xs
  induction xs with
  | nil =>
    intro prev next hs _
    obtain ⟨n, h1, h2, -, -⟩ := hs
    rw [hp] at h1
    cases h1
    exact ⟨_, hp', h2, rfl, trivial⟩
  | cons x xs ih =>
    intro prev next hs hxs
    obtain ⟨n, h1, h2, h3, h4⟩ := hs
    refine ⟨n, ?_, h2, ?_, ih (some x) next h4 (fun q hq => hxs q (List.mem_cons_of_mem _ hq))⟩
    · rw [hxs x (List.mem_cons_self _ _)]
      exact h1
    · rw [h3]
      cases xs <;> rfl

theorem payloadAt_setPrev (h : Heap) (p : Nat) (v : Option Nat) (q : Nat) :
    payloadAt (setPrev h p v) q = payloadAt h q := by
  unfold payloadAt
  by_cases e : p = q
  · subst e
    cases hp : h[p]? with
    | none => simp [setPrev, hp]
    | some n => rw [setPrev_same h p v n hp]; rfl
  · rw [setPrev_other h p q v e]

theorem payloadAt_setNext (h : Heap) (p : Nat) (v : Option Nat) (q : Nat) :
    payloadAt (setNext h p v) q = payloadAt h q := by
  unfold payloadAt
  by_cases e : p = q
  · subst e
    cases hp : h[p]? with
    | none => simp [setNext, hp]
    | some n => rw [setNext_same h p v n hp]; rfl
  · rw [setNext_other h p q v e]

theorem getElem_setPrev (h : Heap) (p : Nat) (v : Option Nat) (q : Nat) :
    (setPrev h p v)[q]? = if p = q then (h[q]?).map (fun n => { n with prev := v }) else h[q]? := by
  by_cases e : p = q
  · subst e
    rw [if_pos rfl]
    cases hp : h[p]? with
    | none => simp [setPrev, hp]
    | some n => rw [setPrev_same h p v n hp]; rfl
  · rw [if_neg e, setPrev_other h p q v e]

theorem getElem_setNext (h : Heap) (p : Nat) (v : Option Nat) (q : Nat) :
    (setNext h p v)[q]? = if p = q then (h[q]?).map (fun n => { n with next := v }) else h[q]? := by
  by_cases e : p = q
  · subst e
    rw [if_pos rfl]
    cases hp : h[p]? with
    | none => simp [setNext, hp]
    | some n => rw [setNext_same h p v n hp]; rfl
  · rw [if_neg e, setNext_other h p q v e]

/-- `_link` at the front of a list, of a node that is not in it and has no
predecessor. -/
theorem link_front (h : Heap) (l : HltList) (ps : List Nat) (n : Nat) (nn : ListNode)
    (hl : IsList h l ps) (hn : h[n]? = some nn) (hnp : nn.prev = none) (hfresh : n ∉ ps) :
    ∃ h' l', _link h l n none = .ok (h', l') ∧ IsList h' l' (n :: ps) ∧
      (∀ q, payloadAt h' q = payloadAt h q) ∧
      l'.tmgr = l.tmgr ∧ l'.timeout = l.timeout ∧ l'.strategy = l.strategy := by
  obtain ⟨hnd, hhead, htail, hsize, hchain⟩ := hl
  cases ps with
  | nil =>
    simp only [List.head?_nil] at hhead
    refine ⟨setNext h n none, { l with tail := some n, head := some n, size := l.size + 1 },
      by simp only [_link, hhead], ⟨by simp, rfl, rfl, ?_, ?_⟩, ?_, rfl, rfl, rfl⟩
    · simp [hsize]
    · exact ⟨_, setNext_same h n none nn hn, hnp, rfl, trivial⟩
    · intro q
      exact payloadAt_setNext h n none q
  | cons p ps =>
    simp only [List.head?_cons] at hhead
    have hnp' : n ≠ p := fun e => hfresh (by simp [e])
    obtain ⟨np, k1, k2, k3, k4⟩ := hchain
    refine ⟨setPrev (setNext h n (some p)) p (some n),
      { l with head := some n, size := l.size + 1 },
      by simp only [_link, hhead], ⟨?_, rfl, ?_, ?_, ?_⟩, ?_, rfl, rfl, rfl⟩
    · exact List.nodup_cons.mpr ⟨hfresh, hnd⟩
    · rw [htail]
      simp [List.getLast?_cons_cons]
    · simp only [hsize, List.length_cons]
      push_cast
      ring
    · refine ⟨{ nn with next := some p }, ?_, hnp, rfl, ?_⟩
      · have hpn : p ≠ n := fun e => hnp' e.symm
        simp [getElem_setPrev, getElem_setNext, hn, hpn]
      · rw [chain_iff_seg]
        apply seg_change_first h _ p ps none none (some n) np
          ((chain_iff_seg h _ _).mp ⟨np, k1, k2, k3, k4⟩) k1
        · simp [getElem_setPrev, getElem_setNext, k1, hnp']
        · intro q hq
          have hqp : p ≠ q := fun e => (List.nodup_cons.mp hnd).1 (by rw [e]; exact hq)
          have hqn : n ≠ q := fun e => hfresh (by rw [e]; exact List.mem_cons_of_mem _ hq)
          simp [getElem_setPrev, getElem_setNext, hqp, hqn]
    · intro q
      rw [payloadAt_setPrev, payloadAt_setNext]

/-- `_link` after a node of the list, of a node that is not in the list. -/
theorem link_after (h : Heap) (l : HltList) (pre post : List Nat) (p n : Nat) (nn : ListNode)
    (hl : IsList h l (pre ++ p :: post)) (hn : h[n]? = some nn)
    (hfresh : n ∉ pre ++ p :: post) :
    ∃ h' l', _link h l n (some p) = .ok (h', l') ∧ IsList h' l' (pre ++ p :: n :: post) ∧
      (∀ q, payloadAt h' q = payloadAt h q) ∧
      l'.tmgr = l.tmgr ∧ l'.timeout = l.timeout ∧ l'.strategy = l.strategy := by
  obtain ⟨hnd, hhead, htail, hsize, hchain⟩ := hl
  have hseg := (chain_iff_seg h _ _).mp hchain
  obtain ⟨s1, s2⟩ := (seg_append h pre (p :: post) none none).mp hseg
  obtain ⟨np, k1, k2, k3, k4⟩ := s2
  have hnp : n ≠ p := fun e => hfresh (by simp [e])
  have hpn : p ≠ n := fun e => hnp e.symm
  have hnpre : ∀ q ∈ pre, n ≠ q := fun q hq e => hfresh (by simp [e, hq])
  have hppre : ∀ q ∈ pre, p ≠ q := by
    intro q hq e
    have := (List.nodup_append.mp hnd).2.2
    exact this hq (by simp [e])
  have hnd' : (pre ++ p :: n :: post).Nodup := by
    rw [List.nodup_append] at hnd ⊢
    obtain ⟨d1, d2, d3⟩ := hnd
    refine ⟨d1, ?_, ?_⟩
    · rw [List.nodup_cons] at d2 ⊢
      refine ⟨?_, List.nodup_cons.mpr ⟨fun hm => hfresh (by simp [hm]), d2.2⟩⟩
      intro hm
      rcases List.mem_cons.mp hm with e | e
      · exact hpn e
      · exact d2.1 e
    · intro a ha hb
      rcases List.mem_cons.mp hb with e | e
      · exact d3 ha (by simp [e])
      · rcases List.mem_cons.mp e with e | e
        · exact hnpre a ha e.symm
        · exact d3 ha (by simp [e])
  have hhead' : (pre ++ p :: n :: post).head? = (pre ++ p :: post).head? := by
    cases pre <;> rfl
  cases post with
  | nil =>
    simp only [List.head?_nil, Option.or] at k3
    refine ⟨setPrev (setNext (setNext h n none) p (some n)) n (some p),
      { l with tail := some n, size := l.size + 1 },
      by simp only [_link, k1, k3], ⟨hnd', ?_, ?_, ?_, ?_⟩, ?_, rfl, rfl, rfl⟩
    · rw [hhead', ← hhead]
    · simp
    · simp only [hsize, List.length_append, List.length_cons, List.length_nil]
      push_cast
      ring
    · rw [chain_iff_seg, seg_append]
      refine ⟨?_, ⟨{ np with next := some n }, ?_, k2, rfl,
        ⟨{ nn with next := none, prev := some p }, ?_, rfl, rfl, trivial⟩⟩⟩
      · apply seg_congr h _ pre none _ _ s1
        intro q hq
        simp [getElem_setPrev, getElem_setNext, hnpre q hq, hppre q hq]
      · simp [getElem_setPrev, getElem_setNext, k1, hnp]
      · simp [getElem_setPrev, getElem_setNext, hn, hpn]
    · intro q
      rw [payloadAt_setPrev, payloadAt_setNext, payloadAt_setNext]
  | cons nx post =>
    simp only [List.head?_cons, Option.or] at k3
    have hnnx : n ≠ nx := fun e => hfresh (by simp [e])
    have hpnx : p ≠ nx := by
      intro e
      have := (List.nodup_cons.mp (List.nodup_append.mp hnd).2.1).1
      exact this (by simp [e])
    obtain ⟨nnx, g1, g2, g3, g4⟩ := k4
    have hnxpre : ∀ q ∈ pre, nx ≠ q := by
      intro q hq e
      have := (List.nodup_append.mp hnd).2.2
      exact this hq (by simp [e])
    refine ⟨setPrev (setNext (setNext (setPrev h nx (some n)) n (some nx)) p (some n)) n (some p),
      { l with size := l.size + 1 },
      by simp only [_link, k1, k3], ⟨hnd', ?_, ?_, ?_, ?_⟩, ?_, rfl, rfl, rfl⟩
    · rw [hhead', ← hhead]
    · rw [htail]
      simp [List.getLast?_append, List.getLast?_cons_cons]
    · simp only [hsize, List.length_append, List.length_cons]
      push_cast
      ring
    · rw [chain_iff_seg, seg_append]
      refine ⟨?_, ⟨{ np with next := some n }, ?_, k2, rfl,
        ⟨{ nn with next := some nx, prev := some p }, ?_, rfl, rfl, ?_⟩⟩⟩
      · apply seg_congr h _ pre none _ _ s1
        intro q hq
        simp [getElem_setPrev, getElem_setNext, hnpre q hq, hppre q hq, hnxpre q hq]
      · have hnxp : nx ≠ p := fun e => hpnx e.symm
        simp [getElem_setPrev, getElem_setNext, k1, hnp, hnxp]
      · have hnxn : nx ≠ n := fun e => hnnx e.symm
        simp [getElem_setPrev, getElem_setNext, hn, hpn, hnxn]
      · apply seg_change_first h _ nx post (some p) none (some n) nnx ⟨nnx, g1, g2, g3, g4⟩ g1
        · simp [getElem_setPrev, getElem_setNext, g1, hnnx, hpnx]
        · intro q hq
          have d2 := (List.nodup_append.mp hnd).2.1
          have hqnx : nx ≠ q := fun e =>
            (List.nodup_cons.mp (List.nodup_cons.mp d2).2).1 (by rw [e]; exact hq)
          have hqp : p ≠ q := fun e => (List.nodup_cons.mp d2).1 (by simp [e, hq])
          have hqn : n ≠ q := fun e => hfresh (by simp [e, hq])
          simp [getElem_setPrev, getElem_setNext, hqnx, hqp, hqn]
    · intro q
      rw [payloadAt_setPrev, payloadAt_setNext, payloadAt_setNext, payloadAt_setPrev]

theorem or_none (o : Option Nat) : o.or none = o := by
  cases o <;> rfl

/-- `_unlink` of a node of a list: the list goes on without the node, the node
is marked invalid, and what the other nodes carry stays. -/
theorem unlink_spec (tm : Timers) (h : Heap) (l : HltList) (pre post : List Nat) (n : Nat)
    (excpt : Option ListException) (ctx : Bool) (hl : IsList h l (pre ++ n :: post)) :
    ∃ h' l' excpt', _unlink tm h l n excpt ctx = .ok (h', l', excpt') ∧
      IsList h' l' (pre ++ post) ∧
      (∀ q, q ≠ n → payloadAt h' q = payloadAt h q) ∧
      (∃ node, h'[n]? = some node ∧ node.invalid = 1) ∧
      l'.size = l.size - 1 ∧ l'.tmgr = l.tmgr ∧ l'.timeout = l.timeout ∧
      l'.strategy = l.strategy := by
  obtain ⟨hnd, hhead, htail, hsize, hchain⟩ := hl
  have hseg := (chain_iff_seg h _ _).mp hchain
  obtain ⟨s1, s2⟩ := (seg_append h pre (n :: post) none none).mp hseg
  obtain ⟨node, k1, k2, k3, k4⟩ := s2
  rw [or_none] at k2 k3
  simp only [List.head?_cons, Option.or] at s1
  have hlt : n < h.length := (List.getElem?_eq_some.mp k1).1
  obtain ⟨d1, d2, d3⟩ := List.nodup_append.mp hnd
  have hnpre : ∀ q ∈ pre, q ≠ n := fun q hq e => d3 hq (by simp [e])
  have hnpost : ∀ q ∈ post, q ≠ n := fun q hq e => (List.nodup_cons.mp d2).1 (by rw [← e]; exact hq)
  have hprepost : ∀ q ∈ pre, ∀ r ∈ post, q ≠ r := fun q hq r hr e =>
    d3 hq (by rw [e]; exact List.mem_cons_of_mem _ hr)
  have hnd' : (pre ++ post).Nodup :=
    List.nodup_append.mpr ⟨d1, (List.nodup_cons.mp d2).2,
      fun a ha hb => d3 ha (List.mem_cons_of_mem _ hb)⟩
  have hsize' : l.size - 1 = ((pre ++ post).length : Int) := by
    simp only [hsize, List.length_append, List.length_cons]
    push_cast
    ring
  -- the heap and the list in the four cases
  rcases List.eq_nil_or_concat pre with hpre | ⟨pre', pv, hpre⟩
  · subst hpre
    simp only [List.getLast?_nil] at k2
    cases post with
    | nil =>
      simp only [List.head?_nil] at k3
      refine ⟨h.set n { node with next := none, prev := none, invalid := 1, timer := none },
        { l with tail := none, head := none, size := l.size - 1 },
        (match node.timer with
          | some t => if ctx then tm.hlt_timer_cancel t excpt else excpt
          | none => excpt),
        (by simp only [_unlink, k1, k2, k3] <;> rfl), ⟨hnd', rfl, rfl, hsize', trivial⟩, ?_,
        ⟨{ node with next := none, prev := none, invalid := 1, timer := none },
          List.getElem?_set_self hlt, rfl⟩, rfl, rfl, rfl, rfl⟩
      intro q hq
      unfold payloadAt
      rw [List.getElem?_set_ne (fun e => hq e.symm)]
    | cons nx post =>
      simp only [List.head?_cons] at k3
      obtain ⟨nnx, g1, g2, g3, g4⟩ := k4
      have hnxn : nx ≠ n := hnpost nx (List.mem_cons_self _ _)
      have e1 : (setPrev h nx none)[n]? = some node := by
        simp [getElem_setPrev, k1, hnxn]
      refine ⟨(setPrev h nx none).set n
          { node with next := none, prev := none, invalid := 1, timer := none },
        { l with head := some nx, size := l.size - 1 },
        (match node.timer with
          | some t => if ctx then tm.hlt_timer_cancel t excpt else excpt
          | none => excpt),
        (by simp only [_unlink, k1, k2, k3, e1] <;> rfl), ⟨hnd', rfl, ?_, hsize', ?_⟩, ?_,
        ⟨{ node with next := none, prev := none, invalid := 1, timer := none }, ?_, rfl⟩,
        rfl, rfl, rfl, rfl⟩
      · simp only [htail, List.nil_append, List.getLast?_cons_cons]
      · rw [chain_iff_seg]
        apply seg_change_first h _ nx post (some n) none none nnx ⟨nnx, g1, g2, g3, g4⟩ g1
        · rw [List.getElem?_set_ne (fun e => hnxn e.symm)]
          simp [getElem_setPrev, g1]
        · intro q hq
          have hqn : q ≠ n := hnpost q (List.mem_cons_of_mem _ hq)
          have hqnx : nx ≠ q := fun e =>
            (List.nodup_cons.mp (List.nodup_cons.mp d2).2).1 (by rw [e]; exact hq)
          rw [List.getElem?_set_ne (fun e => hqn e.symm)]
          simp [getElem_setPrev, hqnx]
      · intro q hq
        unfold payloadAt
        rw [List.getElem?_set_ne (fun e => hq e.symm)]
        exact payloadAt_setPrev h nx none q
      · apply List.getElem?_set_self
        simp only [setPrev]
        split <;> simp [hlt]
  · rw [List.concat_eq_append] at hpre
    subst hpre
    simp only [List.getLast?_concat] at k2
    have hpvn : pv ≠ n := hnpre pv (by simp)
    obtain ⟨npv, p1⟩ := seg_mem h _ _ _ s1 pv (by simp)
    have hhead' : ((pre' ++ [pv]) ++ post).head? = ((pre' ++ [pv]) ++ n :: post).head? := by
      cases pre' <;> rfl
    cases post with
    | nil =>
      simp only [List.head?_nil] at k3
      have e1 : (setNext h pv none)[n]? = some node := by
        simp [getElem_setNext, k1, hpvn]
      refine ⟨(setNext h pv none).set n
          { node with next := none, prev := none, invalid := 1, timer := none },
        { l with tail := some pv, size := l.size - 1 },
        (match node.timer with
          | some t => if ctx then tm.hlt_timer_cancel t excpt else excpt
          | none => excpt),
        (by simp only [_unlink, k1, k2, k3, e1] <;> rfl), ⟨hnd', ?_, ?_, hsize', ?_⟩, ?_,
        ⟨{ node with next := none, prev := none, invalid := 1, timer := none }, ?_, rfl⟩,
        rfl, rfl, rfl, rfl⟩
      · rw [hhead', ← hhead]
      · simp
      · rw [chain_iff_seg, List.append_nil]
        apply seg_change_last h _ pv npv none p1 _ pre' none _ s1
        · intro q hq
          have hqn : q ≠ n := hnpre q (by simp [hq])
          have hqpv : pv ≠ q := by
            intro e
            have := (List.nodup_append.mp d1).2.2
            exact this hq (by simp [e])
          rw [List.getElem?_set_ne (fun e => hqn e.symm)]
          simp [getElem_setNext, hqpv]
        · rw [List.getElem?_set_ne (fun e => hpvn e.symm)]
          simp [getElem_setNext, p1]
      · intro q hq
        unfold payloadAt
        rw [List.getElem?_set_ne (fun e => hq e.symm)]
        exact payloadAt_setNext h pv none q
      · apply List.getElem?_set_self
        simp only [setNext]
        split <;> simp [hlt]
    | cons nx post =>
      simp only [List.head?_cons] at k3
      obtain ⟨nnx, g1, g2, g3, g4⟩ := k4
      have hnxn : nx ≠ n := hnpost nx (List.mem_cons_self _ _)
      have hpvnx : pv ≠ nx := hprepost pv (by simp) nx (List.mem_cons_self _ _)
      have hnxpv : nx ≠ pv := fun e => hpvnx e.symm
      have e1 : (setNext (setPrev h nx (some pv)) pv (some nx))[n]? = some node := by
        simp [getElem_setNext, getElem_setPrev, k1, hpvn, hnxn]
      refine ⟨(setNext (setPrev h nx (some pv)) pv (some nx)).set n
          { node with next := none, prev := none, invalid := 1, timer := none },
        { l with size := l.size - 1 },
        (match node.timer with
          | some t => if ctx then tm.hlt_timer_cancel t excpt else excpt
          | none => excpt),
        (by simp only [_unlink, k1, k2, k3, e1] <;> rfl), ⟨hnd', ?_, ?_, hsize', ?_⟩, ?_,
        ⟨{ node with next := none, prev := none, invalid := 1, timer := none }, ?_, rfl⟩,
        rfl, rfl, rfl, rfl⟩
      · rw [hhead', ← hhead]
      · rw [htail]
        simp [List.getLast?_append, List.getLast?_cons_cons]
      · rw [chain_iff_seg, seg_append]
        constructor
        · simp only [List.head?_cons, Option.or]
          apply seg_change_last h _ pv npv (some nx) p1 _ pre' none _ s1
          · intro q hq
            have hqn : q ≠ n := hnpre q (by simp [hq])
            have hqpv : pv ≠ q := by
              intro e
              have := (List.nodup_append.mp d1).2.2
              exact this hq (by simp [e])
            have hqnx : nx ≠ q := fun e =>
              hprepost q (by simp [hq]) nx (List.mem_cons_self _ _) e.symm
            rw [List.getElem?_set_ne (fun e => hqn e.symm)]
            simp [getElem_setNext, getElem_setPrev, hqpv, hqnx]
          · rw [List.getElem?_set_ne (fun e => hpvn e.symm)]
            simp [getElem_setNext, getElem_setPrev, p1, hnxpv]
        · simp only [List.getLast?_concat, Option.or]
          apply seg_change_first h _ nx post (some n) none (some pv) nnx ⟨nnx, g1, g2, g3, g4⟩ g1
          · rw [List.getElem?_set_ne (fun e => hnxn e.symm)]
            simp [getElem_setNext, getElem_setPrev, g1, hpvnx]
          · intro q hq
            have hqn : q ≠ n := hnpost q (List.mem_cons_of_mem _ hq)
            have hqnx : nx ≠ q := fun e =>
              (List.nodup_cons.mp (List.nodup_cons.mp d2).2).1 (by rw [e]; exact hq)
            have hqpv : pv ≠ q := hprepost pv (by simp) q (List.mem_cons_of_mem _ hq)
            rw [List.getElem?_set_ne (fun e => hqn e.symm)]
            simp [getElem_setNext, getElem_setPrev, hqnx, hqpv]
      · intro q hq
        unfold payloadAt
        rw [List.getElem?_set_ne (fun e => hq e.symm)]
        have := payloadAt_setNext (setPrev h nx (some pv)) pv (some nx) q
        unfold payloadAt at this
        rw [this]
        exact payloadAt_setPrev h nx (some pv) q
      · apply List.getElem?_set_self
        simp only [setNext, setPrev]
        split <;> split <;> simp_all

theorem dataAt_of_payload (h h' : Heap) (q : Nat) (hp : payloadAt h' q = payloadAt h q) :
    dataAt h' q = dataAt h q := by
  unfold payloadAt at hp
  unfold dataAt
  cases e' : h'[q]? <;> cases e : h[q]? <;> simp_all

theorem contents_of_payload (h h' : Heap) (ps : List Nat)
    (hp : ∀ q ∈ ps, payloadAt h' q = payloadAt h q) : contents h' ps = contents h ps := by
  unfold contents
  exact List.map_congr_left (fun q hq => dataAt_of_payload h h' q (hp q hq))

theorem valid_of_payload (h h' : Heap) (ps : List Nat)
    (hp : ∀ q ∈ ps, payloadAt h' q = payloadAt h q)
    (hv : ∀ p ∈ ps, ∀ n, h[p]? = some n → n.invalid = 0) :
    ∀ p ∈ ps, ∀ n, h'[p]? = some n → n.invalid = 0 := by
  intro p hpm n hn
  have := hp p hpm
  unfold payloadAt at this
  rw [hn] at this
  cases e : h[p]? with
  | none => simp [e] at this
  | some m =>
    rw [e] at this
    simp only [Option.map_some', Option.some.injEq, Prod.mk.injEq] at this
    rw [this.2.1]
    exact hv p hpm m e

theorem getElem_append_new (h : Heap) (node : ListNode) (q : Nat) (hq : q < h.length) :
    (h ++ [node])[q]? = h[q]? := List.getElem?_append_left hq

theorem getElem_append_self (h : Heap) (node : ListNode) :
    (h ++ [node])[h.length]? = some node := by
  simp

theorem isList_lt (h : Heap) (l : HltList) (ps : List Nat) (hl : IsList h l ps) :
    ∀ q ∈ ps, q < h.length := by
  intro q hq
  obtain ⟨n, hn⟩ := chain_mem h ps none hl.chain q hq
  exact (List.getElem?_eq_some.mp hn).1

/-- A list stays what it is when a node is allocated. -/
theorem wellFormed_alloc (h : Heap) (l : HltList) (ps : List Nat) (node : ListNode)
    (hw : WellFormedList h l ps) :
    WellFormedList (h ++ [node]) l ps ∧ h.length ∉ ps ∧
      ∀ q ∈ ps, payloadAt (h ++ [node]) q = payloadAt h q := by
  have hlt := isList_lt h l ps hw.isList
  have hsame : ∀ q ∈ ps, (h ++ [node])[q]? = h[q]? :=
    fun q hq => getElem_append_new h node q (hlt q hq)
  refine ⟨⟨⟨hw.isList.nodup, hw.isList.head, hw.isList.tail, hw.isList.size,
    chain_congr h _ ps none hsame hw.isList.chain⟩, ?_⟩, ?_, ?_⟩
  · intro p hp n hn
    rw [hsame p hp] at hn
    exact hw.valid p hp n hn
  · intro hm
    exact Nat.lt_irrefl _ (hlt _ hm)
  · intro q hq
    unfold payloadAt
    rw [hsame q hq]

/-- The new node of `_make_node`. -/
theorem make_node_spec (sched : TimerMgr) (h : Heap) (l : HltList) (val : Nat)
    (excpt : Option ListException) :
    _make_node sched h l val excpt
      = (h.length,
         h ++ [{ next := none, prev := none, timer := (nodeTimer sched l h.length excpt).1,
                 invalid := 0, data := val }],
         (nodeTimer sched l h.length excpt).2) := rfl

/-- A new node with the data `val` linked into a well-formed list, at the front
or after one of its nodes: the list is well-formed with the node at that place,
and the data of the nodes that were there stays. -/
theorem link_new (h : Heap) (l : HltList) (ps : List Nat) (val : Nat) (timer : Option Nat)
    (hw : WellFormedList h l ps) :
    (∃ h' l', _link (h ++ [(⟨none, none, timer, 0, val⟩ : ListNode)]) l h.length none = .ok (h', l') ∧
        WellFormedList h' l' (h.length :: ps) ∧
        contents h' (h.length :: ps) = some val :: contents h ps ∧
        (∀ q, q < h.length → payloadAt h' q = payloadAt h q) ∧
        l'.tmgr = l.tmgr ∧ l'.timeout = l.timeout ∧ l'.strategy = l.strategy) ∧
    (∀ pre p post, ps = pre ++ p :: post →
      ∃ h' l', _link (h ++ [(⟨none, none, timer, 0, val⟩ : ListNode)]) l h.length (some p) = .ok (h', l') ∧
        WellFormedList h' l' (pre ++ p :: h.length :: post) ∧
        contents h' (pre ++ p :: h.length :: post)
          = contents h (pre ++ [p]) ++ some val :: contents h post ∧
        (∀ q, q < h.length → payloadAt h' q = payloadAt h q) ∧
        l'.tmgr = l.tmgr ∧ l'.timeout = l.timeout ∧ l'.strategy = l.strategy) := by
  obtain ⟨w1, hfresh, hpay⟩ := wellFormed_alloc h l ps
    (⟨none, none, timer, 0, val⟩ : ListNode) hw
  have hnew := getElem_append_self h
    (⟨none, none, timer, 0, val⟩ : ListNode)
  have hlt := isList_lt h l ps hw.isList
  have hpaynew : ∀ h', (∀ q, payloadAt h' q = payloadAt (h ++ [(⟨none, none, timer, 0, val⟩ : ListNode)]) q) →
      (∀ q, q < h.length → payloadAt h' q = payloadAt h q) ∧
      dataAt h' h.length = some val ∧
      (∀ n, h'[h.length]? = some n → n.invalid = 0) := by
    intro h' hp
    refine ⟨?_, ?_, ?_⟩
    · intro q hq
      rw [hp q]
      unfold payloadAt
      rw [getElem_append_new h _ q hq]
    · have := dataAt_of_payload _ h' h.length (hp h.length)
      rw [this]
      unfold dataAt
      rw [hnew]
      rfl
    · intro n hn
      have := hp h.length
      unfold payloadAt at this
      rw [hn, hnew] at this
      simp only [Option.map_some', Option.some.injEq, Prod.mk.injEq] at this
      exact this.2.1
  constructor
  · obtain ⟨h', l', e1, e2, e3, e4, e5, e6⟩ :=
      link_front _ l ps h.length _ w1.isList hnew rfl hfresh
    obtain ⟨p1, p2, p3⟩ := hpaynew h' e3
    refine ⟨h', l', e1, ⟨e2, ?_⟩, ?_, p1, e4, e5, e6⟩
    · intro p hp n hn
      rcases List.mem_cons.mp hp with e | e
      · subst e
        exact p3 n hn
      · exact valid_of_payload h h' ps (fun q hq => p1 q (hlt q hq)) hw.valid p e n hn
    · show dataAt h' h.length :: contents h' ps = _
      rw [p2, contents_of_payload h h' ps (fun q hq => p1 q (hlt q hq))]
  · intro pre p post hps
    subst hps
    obtain ⟨h', l', e1, e2, e3, e4, e5, e6⟩ :=
      link_after _ l pre post p h.length _ w1.isList hnew hfresh
    obtain ⟨p1, p2, p3⟩ := hpaynew h' e3
    have hold : ∀ q ∈ pre ++ p :: post, payloadAt h' q = payloadAt h q :=
      fun q hq => p1 q (hlt q hq)
    refine ⟨h', l', e1, ⟨e2, ?_⟩, ?_, p1, e4, e5, e6⟩
    · intro x hx n hn
      by_cases e : x = h.length
      · subst e
        exact p3 n hn
      · have hx' : x ∈ pre ++ p :: post := by
          simp only [List.mem_append, List.mem_cons] at hx ⊢
          rcases hx with hx | hx | hx | hx
          · exact Or.inl hx
          · exact Or.inr (Or.inl hx)
          · exact absurd hx e
          · exact Or.inr (Or.inr hx)
        exact valid_of_payload h h' _ hold hw.valid x hx' n hn
    · unfold contents
      simp only [List.map_append, List.map_cons, List.map_nil, List.append_assoc,
        List.singleton_append]
      rw [p2]
      congr 1
      · exact List.map_congr_left (fun q hq => dataAt_of_payload h h' q
          (hold q (List.mem_append_left _ hq)))
      · congr 1
        · exact dataAt_of_payload h h' p (hold p (by simp))
        · congr 1
          exact List.map_congr_left (fun q hq => dataAt_of_payload h h' q
            (hold q (by simp [hq])))

/-- A new node linked into a well-formed list after the last node of a first
part of it: it stands between the two parts. -/
theorem link_new_at (h : Heap) (l : HltList) (pre post : List Nat) (val : Nat)
    (timer : Option Nat) (hw : WellFormedList h l (pre ++ post)) :
    ∃ h' l', _link (h ++ [(⟨none, none, timer, 0, val⟩ : ListNode)]) l h.length pre.getLast?
        = .ok (h', l') ∧
      WellFormedList h' l' (pre ++ h.length :: post) ∧
      contents h' (pre ++ h.length :: post) = contents h pre ++ some val :: contents h post ∧
      (∀ q, q < h.length → payloadAt h' q = payloadAt h q) ∧
      l'.tmgr = l.tmgr ∧ l'.timeout = l.timeout ∧ l'.strategy = l.strategy := by
  rcases List.eq_nil_or_concat pre with e | ⟨pre', p, e⟩
  · subst e
    exact (link_new h l post val timer hw).1
  · subst e
    rw [List.concat_eq_append] at hw ⊢
    have hps : pre' ++ [p] ++ post = pre' ++ p :: post := by simp
    obtain ⟨h', l', e1, e2, e3, e4⟩ := (link_new h l _ val timer hw).2 pre' p post hps
    refine ⟨h', l', ?_, ?_, ?_, e4⟩
    · rw [List.getLast?_append_of_ne_nil _ (List.cons_ne_nil _ _)]
      exact e1
    · have : pre' ++ [p] ++ h.length :: post = pre' ++ p :: h.length :: post := by simp
      rw [this]
      exact e2
    · have : pre' ++ [p] ++ h.length :: post = pre' ++ p :: h.length :: post := by simp
      rw [this]
      exact e3

/-- The node of a list knows the node before it. -/
theorem node_prev (h : Heap) (l : HltList) (pre post : List Nat) (x : Nat)
    (hl : IsList h l (pre ++ x :: post)) :
    ∃ xn, h[x]? = some xn ∧ xn.prev = pre.getLast? ∧ xn.next = post.head? := by
  have hs := (chain_iff_seg h _ none).mp hl.chain
  obtain ⟨-, n, h1, h2, h3, -⟩ := (seg_append h pre (x :: post) none none).mp hs
  exact ⟨n, h1, by rw [h2, or_none], by rw [h3, or_none]⟩

theorem iterator_valid (h : Heap) (l : HltList) (ps : List Nat) (x : Nat)
    (hw : WellFormedList h l ps) (hx : x ∈ ps) :
    iteratorInvalid h ⟨some l, some x⟩ = .ok false := by
  obtain ⟨n, hn⟩ := chain_mem h ps none hw.isList.chain x hx
  have := hw.valid x hx n hn
  simp [iteratorInvalid, _invalid_node, hn, this]

theorem push_front_spec (sched : TimerMgr) (h : Heap) (l : HltList) (ps : List Nat) (val : Nat)
    (excpt : Option ListException) (hw : WellFormedList h l ps) :
    ∃ h' l' excpt', hlt_list_push_front sched h l true val excpt = .ok (h', l', excpt') ∧
      WellFormedList h' l' (h.length :: ps) ∧
      contents h' (h.length :: ps) = some val :: contents h ps ∧
      (∀ q, q < h.length → payloadAt h' q = payloadAt h q) ∧
      l'.tmgr = l.tmgr ∧ l'.timeout = l.timeout ∧ l'.strategy = l.strategy := by
  obtain ⟨h', l', e1, e2⟩ :=
    link_new_at h l [] ps val (nodeTimer sched l h.length excpt).1 hw
  refine ⟨h', l', (nodeTimer sched l h.length excpt).2, ?_, e2⟩
  have e1' : _link (h ++ [(⟨none, none, (nodeTimer sched l h.length excpt).1, 0, val⟩ : ListNode)]) l h.length
      none = .ok (h', l') := e1
  simp only [hlt_list_push_front, make_node_spec, Bool.not_true, Bool.false_eq_true, if_false,
    e1']

theorem push_back_spec (sched : TimerMgr) (h : Heap) (l : HltList) (ps : List Nat) (val : Nat)
    (excpt : Option ListException) (hw : WellFormedList h l ps) :
    ∃ h' l' excpt', hlt_list_push_back sched h l true val excpt = .ok (h', l', excpt') ∧
      WellFormedList h' l' (ps ++ [h.length]) ∧
      contents h' (ps ++ [h.length]) = contents h ps ++ [some val] ∧
      (∀ q, q < h.length → payloadAt h' q = payloadAt h q) ∧
      l'.tmgr = l.tmgr ∧ l'.timeout = l.timeout ∧ l'.strategy = l.strategy := by
  obtain ⟨h', l', e1, e2⟩ :=
    link_new_at h l ps [] val (nodeTimer sched l h.length excpt).1 (by simpa using hw)
  refine ⟨h', l', (nodeTimer sched l h.length excpt).2, ?_, e2⟩
  have e1' : _link (h ++ [(⟨none, none, (nodeTimer sched l h.length excpt).1, 0, val⟩ : ListNode)]) l h.length
      l.tail = .ok (h', l') := by rw [hw.isList.tail]; exact e1
  simp only [hlt_list_push_back, make_node_spec, Bool.not_true, Bool.false_eq_true, if_false,
    e1']

theorem insert_spec (sched : TimerMgr) (h : Heap) (l : HltList) (pre post : List Nat)
    (x val : Nat) (excpt : Option ListException) (hw : WellFormedList h l (pre ++ x :: post)) :
    ∃ h' l' excpt', hlt_list_insert sched h true val ⟨some l, some x⟩ excpt
        = .ok (h', some l', excpt') ∧
      WellFormedList h' l' (pre ++ h.length :: x :: post) ∧
      contents h' (pre ++ h.length :: x :: post)
        = contents h pre ++ some val :: contents h (x :: post) ∧
      (∀ q, q < h.length → payloadAt h' q = payloadAt h q) ∧
      l'.tmgr = l.tmgr ∧ l'.timeout = l.timeout ∧ l'.strategy = l.strategy := by
  obtain ⟨h', l', e1, e2⟩ :=
    link_new_at h l pre (x :: post) val (nodeTimer sched l h.length excpt).1 hw
  obtain ⟨xn, hx1, hx2, -⟩ := node_prev h l pre post x hw.isList
  have hlt := isList_lt h l _ hw.isList x (by simp)
  have hx1' : (h ++ [(⟨none, none, (nodeTimer sched l h.length excpt).1, 0, val⟩ : ListNode)])[x]?
      = some xn := by rw [getElem_append_new h _ x hlt]; exact hx1
  refine ⟨h', l', (nodeTimer sched l h.length excpt).2, ?_, e2⟩
  have e1' : _link (h ++ [(⟨none, none, (nodeTimer sched l h.length excpt).1, 0, val⟩ : ListNode)]) l h.length
      xn.prev = .ok (h', l') := by rw [hx2]; exact e1
  have hv := iterator_valid h l _ x hw (by simp)
  simp only [hlt_list_insert, hv, make_node_spec, Bool.not_true, Bool.false_eq_true, if_false,
    hx1', e1']

theorem insert_end_spec (sched : TimerMgr) (h : Heap) (l : HltList) (ps : List Nat)
    (val : Nat) (excpt : Option ListException) (hw : WellFormedList h l ps) :
    ∃ h' l' excpt', hlt_list_insert sched h true val ⟨some l, none⟩ excpt
        = .ok (h', some l', excpt') ∧
      WellFormedList h' l' (ps ++ [h.length]) ∧
      contents h' (ps ++ [h.length]) = contents h ps ++ [some val] ∧
      (∀ q, q < h.length → payloadAt h' q = payloadAt h q) ∧
      l'.tmgr = l.tmgr ∧ l'.timeout = l.timeout ∧ l'.strategy = l.strategy := by
  obtain ⟨h', l', e1, e2⟩ :=
    link_new_at h l ps [] val (nodeTimer sched l h.length excpt).1 (by simpa using hw)
  refine ⟨h', l', (nodeTimer sched l h.length excpt).2, ?_, e2⟩
  have e1' : _link (h ++ [(⟨none, none, (nodeTimer sched l h.length excpt).1, 0, val⟩ : ListNode)]) l h.length
      l.tail = .ok (h', l') := by rw [hw.isList.tail]; exact e1
  simp only [hlt_list_insert, iteratorInvalid, make_node_spec, Bool.not_true,
    Bool.false_eq_true, if_false, e1', Option.isNone_some]

/-- `_unlink` of a node of a well-formed list. -/
theorem unlink_wellFormed (tm : Timers) (h : Heap) (l : HltList) (pre post : List Nat) (n : Nat)
    (excpt : Option ListException) (ctx : Bool) (hw : WellFormedList h l (pre ++ n :: post)) :
    ∃ h' l' excpt', _unlink tm h l n excpt ctx = .ok (h', l', excpt') ∧
      WellFormedList h' l' (pre ++ post) ∧
      contents h' (pre ++ post) = contents h (pre ++ post) ∧
      (∀ q, q ≠ n → payloadAt h' q = payloadAt h q) ∧
      (∃ node, h'[n]? = some node ∧ node.invalid = 1) ∧
      l'.size = l.size - 1 ∧ l'.tmgr = l.tmgr ∧ l'.timeout = l.timeout ∧
      l'.strategy = l.strategy := by
  obtain ⟨h', l', e', e1, e2, e3, e4⟩ := unlink_spec tm h l pre post n excpt ctx hw.isList
  have hnd := hw.isList.nodup
  have hn : ∀ q ∈ pre ++ post, q ≠ n := by
    intro q hq e
    subst e
    rw [List.nodup_append] at hnd
    obtain ⟨-, h2, h3⟩ := hnd
    rcases List.mem_append.mp hq with hq | hq
    · exact h3 hq (List.mem_cons_self _ _)
    · exact (List.nodup_cons.mp h2).1 hq
  have hsub : ∀ q ∈ pre ++ post, q ∈ pre ++ n :: post := by
    intro q hq
    simp only [List.mem_append, List.mem_cons] at hq ⊢
    rcases hq with hq | hq
    · exact Or.inl hq
    · exact Or.inr (Or.inr hq)
  have hpay : ∀ q ∈ pre ++ post, payloadAt h' q = payloadAt h q := fun q hq => e3 q (hn q hq)
  refine ⟨h', l', e', e1, ⟨e2, ?_⟩, contents_of_payload h h' _ hpay, e3, e4⟩
  exact valid_of_payload h h' _ hpay (fun p hp => hw.valid p (hsub p hp))

theorem erase_spec (tm : Timers) (h : Heap) (l : HltList) (pre post : List Nat) (n : Nat)
    (excpt : Option ListException) (hw : WellFormedList h l (pre ++ n :: post)) :
    ∃ h' l' excpt', hlt_list_erase tm h ⟨some l, some n⟩ excpt = .ok (h', some l', excpt') ∧
      WellFormedList h' l' (pre ++ post) ∧
      contents h' (pre ++ post) = contents h (pre ++ post) ∧
      (∀ q, q ≠ n → payloadAt h' q = payloadAt h q) ∧
      (∃ node, h'[n]? = some node ∧ node.invalid = 1) ∧
      l'.size = l.size - 1 ∧ l'.tmgr = l.tmgr ∧ l'.timeout = l.timeout ∧
      l'.strategy = l.strategy := by
  obtain ⟨h', l', e', e1, e2⟩ := unlink_wellFormed tm h l pre post n excpt true hw
  have hv := iterator_valid h l _ n hw (by simp)
  exact ⟨h', l', e', by simp only [hlt_list_erase, hv, e1], e2⟩

theorem sampleList_wellFormed : WellFormedList sampleHeap sampleList [0, 1] :=
  { isList := sampleList_isList
    valid := by
      intro p hp n hn
      simp only [List.mem_cons, List.mem_singleton, List.not_mem_nil, or_false] at hp
      rcases hp with e | e <;> subst e <;> simp [sampleHeap] at hn <;> rw [← hn] }

/-- While the cursor of the loop of `hlt_list_append` is at a node of the list
that is appended to, the loop is not done: the node pushed is a node after the
cursor. -/
theorem appendLoop_self (sched : TimerMgr) : ∀ (fuel : Nat) (h : Heap) (l : HltList)
    (ps : List Nat) (n : Nat) (excpt : Option ListException), WellFormedList h l ps → n ∈ ps →
    appendLoop sched true fuel h l (some n) excpt = none := by
  intro fuel
  induction fuel with
  | zero => intros; rfl
  | succ k ih =>
    intro h l ps n excpt hw hn
    obtain ⟨node, hnode⟩ := chain_mem h ps none hw.isList.chain n hn
    obtain ⟨h', l', e', e1, e2, -⟩ := push_back_spec sched h l ps node.data excpt hw
    obtain ⟨a, b, hab⟩ := List.append_of_mem hn
    have hps : ps ++ [h.length] = a ++ n :: (b ++ [h.length]) := by rw [hab]; simp
    rw [hps] at e2
    obtain ⟨xn, hx1, -, hx3⟩ := node_prev h' l' a (b ++ [h.length]) n e2.isList
    obtain ⟨m, hm1, hm2⟩ : ∃ m, (b ++ [h.length]).head? = some m ∧
        m ∈ a ++ n :: (b ++ [h.length]) := by
      cases b with
      | nil => exact ⟨h.length, rfl, by simp⟩
      | cons y ys => exact ⟨y, rfl, by simp⟩
    rw [hm1] at hx3
    have := ih h' l' _ m e' e2 hm2
    simp only [appendLoop, hnode, e1, hx1, hx3]
    exact this

/-- C26: `hlt_list_append(l, l, ..)` for the list `[7, 9]` is not done after any
number of rounds of its loop: it does not terminate. Appended to a list that is
another one, the two elements are there after two rounds. -/
theorem append_to_itself_runs_forever :
    (∀ fuel, hlt_list_append sampleTimerMgr fuel sampleHeap sampleList sampleList true none
      = none) ∧
    ∃ h' l', hlt_list_append sampleTimerMgr 2 sampleHeap (hlt_list_new none 0) sampleList true
        none = some (.ok (h', l', none)) ∧
      contents h' [2, 3] = [some 7, some 9] ∧ l'.head = some 2 ∧ l'.tail = some 3 ∧
      l'.size = 2 := by
  refine ⟨?_, ?_⟩
  · intro fuel
    exact appendLoop_self sampleTimerMgr fuel sampleHeap sampleList [0, 1] 0 none
      sampleList_wellFormed (by simp)
  · exact ⟨_, _, rfl, by decide, rfl, rfl, rfl⟩

/-- C25: a list is structurally well-formed after `hlt_list_new`, and a
well-formed list with the nodes `ps` stays well-formed under `push_front`,
`push_back`, `insert`, `pop_front`, `pop_back` and `erase`, called with the
element type of the list and, for `insert` and `erase`, an iterator to one of
its nodes or, for `insert`, the end iterator: `push_front` puts a node with the
value first, `push_back` last, `insert` directly before the node of the
iterator or last for the end iterator; `pop_front` takes the first node out,
`pop_back` the last, `erase` the node of the iterator; the data of the other
nodes stays, and the pops change nothing on a list without nodes. -/
theorem list_operations_keep_wellFormed (sched : TimerMgr) (tm : Timers) (h : Heap)
    (l : HltList) (ps : List Nat) (val : Nat) (excpt : Option ListException)
    (hw : WellFormedList h l ps) :
    (∀ tmgr unset, WellFormedList h (hlt_list_new tmgr unset) []) ∧
    (∃ h' l' excpt', hlt_list_push_front sched h l true val excpt = .ok (h', l', excpt') ∧
      WellFormedList h' l' (h.length :: ps) ∧
      contents h' (h.length :: ps) = some val :: contents h ps) ∧
    (∃ h' l' excpt', hlt_list_push_back sched h l true val excpt = .ok (h', l', excpt') ∧
      WellFormedList h' l' (ps ++ [h.length]) ∧
      contents h' (ps ++ [h.length]) = contents h ps ++ [some val]) ∧
    (∀ pre x post, ps = pre ++ x :: post →
      ∃ h' l' excpt', hlt_list_insert sched h true val ⟨some l, some x⟩ excpt
          = .ok (h', some l', excpt') ∧
        WellFormedList h' l' (pre ++ h.length :: x :: post) ∧
        contents h' (pre ++ h.length :: x :: post)
          = contents h pre ++ some val :: contents h (x :: post)) ∧
    (∃ h' l' excpt', hlt_list_insert sched h true val ⟨some l, none⟩ excpt
        = .ok (h', some l', excpt') ∧
      WellFormedList h' l' (ps ++ [h.length]) ∧
      contents h' (ps ++ [h.length]) = contents h ps ++ [some val]) ∧
    (ps = [] →
      hlt_list_pop_front tm h l excpt = .ok (h, l, some .Underflow) ∧
      hlt_list_pop_back tm h l excpt = .ok (h, l, some .Underflow)) ∧
    (∀ x rest, ps = x :: rest →
      ∃ h' l' excpt', hlt_list_pop_front tm h l excpt = .ok (h', l', excpt') ∧
        WellFormedList h' l' rest ∧ contents h' rest = contents h rest) ∧
    (∀ init x, ps = init ++ [x] →
      ∃ h' l' excpt', hlt_list_pop_back tm h l excpt = .ok (h', l', excpt') ∧
        WellFormedList h' l' init ∧ contents h' init = contents h init) ∧
    (∀ pre x post, ps = pre ++ x :: post →
      ∃ h' l' excpt', hlt_list_erase tm h ⟨some l, some x⟩ excpt = .ok (h', some l', excpt') ∧
        WellFormedList h' l' (pre ++ post) ∧
        contents h' (pre ++ post) = contents h (pre ++ post)) := by
  refine ⟨?_, ?_, ?_, ?_, ?_, ?_, ?_, ?_, ?_⟩
  · intro tmgr unset
    exact ⟨⟨List.nodup_nil, rfl, rfl, rfl, trivial⟩, fun p hp => by simp at hp⟩
  · obtain ⟨h', l', e', e1, e2, e3, -⟩ := push_front_spec sched h l ps val excpt hw
    exact ⟨h', l', e', e1, e2, e3⟩
  · obtain ⟨h', l', e', e1, e2, e3, -⟩ := push_back_spec sched h l ps val excpt hw
    exact ⟨h', l', e', e1, e2, e3⟩
  · intro pre x post e
    subst e
    obtain ⟨h', l', e', e1, e2, e3, -⟩ := insert_spec sched h l pre post x val excpt hw
    exact ⟨h', l', e', e1, e2, e3⟩
  · obtain ⟨h', l', e', e1, e2, e3, -⟩ := insert_end_spec sched h l ps val excpt hw
    exact ⟨h', l', e', e1, e2, e3⟩
  · intro e
    subst e
    have hh : l.head = none := hw.isList.head
    have ht : l.tail = none := hw.isList.tail
    simp [hlt_list_pop_front, hlt_list_pop_back, hh, ht, hlt_set_exception]
  · intro x rest e
    subst e
    have hh : l.head = some x := hw.isList.head
    obtain ⟨h', l', e', e1, e2, e3, -⟩ := unlink_wellFormed tm h l [] rest x excpt true hw
    refine ⟨h', l', e', ?_, e2, e3⟩
    simp only [hlt_list_pop_front, hh]
    exact e1
  · intro init x e
    subst e
    have ht : l.tail = some x := by rw [hw.isList.tail]; simp
    obtain ⟨h', l', e', e1, e2, e3, -⟩ := unlink_wellFormed tm h l init [] x excpt true hw
    refine ⟨h', l', e', ?_, ?_, ?_⟩
    · simp only [hlt_list_pop_back, ht]
      exact e1
    · simpa using e2
    · simpa using e3
  · intro pre x post e
    subst e
    obtain ⟨h', l', e', e1, e2, e3, -⟩ := erase_spec tm h l pre post x excpt hw
    exact ⟨h', l', e', e1, e2, e3⟩

/-- C25 (witness): on the sample list `[7, 9]`, inserting 5 through an iterator
to the node at 1 gives the well-formed list of the nodes at 0, 2 and 1, with
the elements 7, 5 and 9. -/
theorem list_operations_keep_wellFormed_witness :
    WellFormedList sampleHeap sampleList [0, 1] ∧
    ∃ h' l' excpt', hlt_list_insert sampleTimerMgr sampleHeap true 5 ⟨some sampleList, some 1⟩
        none = .ok (h', some l', excpt') ∧
      WellFormedList h' l' [0, 2, 1] ∧
      contents h' [0, 2, 1] = [some 7, some 5, some 9] :=
  ⟨sampleList_wellFormed,
   (list_operations_keep_wellFormed sampleTimerMgr sampleTimers sampleHeap sampleList [0, 1] 5
      none sampleList_wellFormed).2.2.2.1 [0] 1 [] rfl⟩

theorem marked_of_payload (h h' : Heap) (q : Nat) (hp : payloadAt h' q = payloadAt h q)
    (hm : Marked h q) : Marked h' q := by
  obtain ⟨node, h1, h2⟩ := hm
  unfold payloadAt at hp
  rw [h1] at hp
  cases e : h'[q]? with
  | none => simp [e] at hp
  | some m =>
    rw [e] at hp
    simp only [Option.map_some', Option.some.injEq, Prod.mk.injEq] at hp
    exact ⟨m, e, by rw [hp.2.1]; exact h2⟩

theorem marked_alloc (h : Heap) (node : ListNode) (q : Nat) (hm : Marked h q) :
    Marked (h ++ [node]) q := by
  obtain ⟨n, h1, h2⟩ := hm
  refine ⟨n, ?_, h2⟩
  rw [getElem_append_new h node q (List.getElem?_eq_some.mp h1).1]
  exact h1

/-- The function `_link` changes links only. -/
theorem link_payload (h : Heap) (l : HltList) (n : Nat) (pos : Option Nat) (h' : Heap)
    (l' : HltList) (hl : _link h l n pos = .ok (h', l')) :
    ∀ q, payloadAt h' q = payloadAt h q := by
  intro q
  unfold _link at hl
  cases pos with
  | some p =>
    simp only at hl
    cases hp : h[p]? with
    | none => simp [hp] at hl
    | some pnode =>
      simp only [hp] at hl
      cases hx : pnode.next with
      | none =>
        simp only [hx, Except.ok.injEq, Prod.mk.injEq] at hl
        rw [← hl.1]
        simp only [payloadAt_setPrev, payloadAt_setNext]
      | some nx =>
        simp only [hx, Except.ok.injEq, Prod.mk.injEq] at hl
        rw [← hl.1]
        simp only [payloadAt_setPrev, payloadAt_setNext]
  | none =>
    simp only at hl
    cases hx : l.head with
    | none =>
      simp only [hx, Except.ok.injEq, Prod.mk.injEq] at hl
      rw [← hl.1]
      simp only [payloadAt_setPrev, payloadAt_setNext]
    | some hd =>
      simp only [hx, Except.ok.injEq, Prod.mk.injEq] at hl
      rw [← hl.1]
      simp only [payloadAt_setPrev, payloadAt_setNext]

theorem marked_set (h : Heap) (n : Nat) (node : ListNode) (q : Nat)
    (hnode : node.invalid ≠ 0) (hn : n < h.length) (hm : Marked h q) :
    Marked (h.set n node) q := by
  by_cases e : n = q
  · subst e
    exact ⟨node, by simp [hn], hnode⟩
  · obtain ⟨m, h1, h2⟩ := hm
    exact ⟨m, by rw [List.getElem?_set_ne e]; exact h1, h2⟩

/-- The function `_unlink` takes no mark away. -/
theorem unlink_marked (tm : Timers) (h : Heap) (l : HltList) (n : Nat)
    (excpt : Option ListException) (ctx : Bool) (h' : Heap) (l' : HltList)
    (excpt' : Option ListException) (hu : _unlink tm h l n excpt ctx = .ok (h', l', excpt'))
    (q : Nat) (hm : Marked h q) : Marked h' q := by
  unfold _unlink at hu
  cases hn : h[n]? with
  | none => simp [hn] at hu
  | some node =>
    simp only [hn] at hu
    have key : ∀ (h2 : Heap) (node2 : ListNode), (∀ q, payloadAt h2 q = payloadAt h q) →
        h2[n]? = some node2 →
        h2.set n { node2 with next := none, prev := none, invalid := 1, timer := none } = h' →
        Marked h' q := by
      intro h2 node2 hp h2n hr
      rw [← hr]
      exact marked_set h2 n _ q (by simp) (List.getElem?_eq_some.mp h2n).1
        (marked_of_payload h h2 q (hp q) hm)
    cases hx : node.next with
    | none =>
      cases hv : node.prev with
      | none =>
        simp only [hx, hv, hn, Except.ok.injEq, Prod.mk.injEq] at hu
        exact key _ _ (fun _ => rfl) hn hu.1
      | some pv =>
        simp only [hx, hv] at hu
        cases h2n : (setNext h pv none)[n]? with
        | none => simp [h2n] at hu
        | some node2 =>
          simp only [h2n, Except.ok.injEq, Prod.mk.injEq] at hu
          exact key _ _ (fun q => payloadAt_setNext h pv none q) h2n hu.1
    | some nx =>
      cases hv : node.prev with
      | none =>
        simp only [hx, hv] at hu
        cases h2n : (setPrev h nx none)[n]? with
        | none => simp [h2n] at hu
        | some node2 =>
          simp only [h2n, Except.ok.injEq, Prod.mk.injEq] at hu
          exact key _ _ (fun q => payloadAt_setPrev h nx none q) h2n hu.1
      | some pv =>
        simp only [hx, hv] at hu
        cases h2n : (setNext (setPrev h nx (some pv)) pv (some nx))[n]? with
        | none => simp [h2n] at hu
        | some node2 =>
          simp only [h2n, Except.ok.injEq, Prod.mk.injEq] at hu
          exact key _ _ (fun q => by rw [payloadAt_setNext, payloadAt_setPrev]) h2n hu.1

theorem iteratorList_ok (r : Except String (Heap × Option HltList × Option ListException))
    (h' : Heap) (l' : HltList) (excpt' : Option ListException)
    (hr : iteratorList r = .ok (h', l', excpt')) : r = .ok (h', some l', excpt') := by
  unfold iteratorList at hr
  split at hr
  · cases hr; rfl
  · cases hr
  · cases hr

theorem push_marked (sched : TimerMgr) (h : Heap) (l : HltList) (val : Nat) (pos : Option Nat)
    (excpt : Option ListException) (h' : Heap) (l' : HltList)
    (hl : _link (_make_node sched h l val excpt).2.1 l (_make_node sched h l val excpt).1 pos
      = .ok (h', l')) (q : Nat) (hm : Marked h q) : Marked h' q :=
  marked_of_payload _ h' q (link_payload _ l _ pos h' l' hl q) (marked_alloc h _ q hm)

theorem insert_marked (sched : TimerMgr) (h : Heap) (val : Nat) (i : ListIterator)
    (excpt : Option ListException) (h' : Heap) (li : Option HltList)
    (excpt' : Option ListException)
    (hu : hlt_list_insert sched h true val i excpt = .ok (h', li, excpt'))
    (q : Nat) (hm : Marked h q) : Marked h' q := by
  unfold hlt_list_insert at hu
  cases hv : iteratorInvalid h i with
  | error e => simp [hv] at hu
  | ok b =>
    cases b with
    | true =>
      simp only [hv, Except.ok.injEq, Prod.mk.injEq] at hu
      rw [← hu.1]
      exact hm
    | false =>
      simp only [hv] at hu
      cases hli : i.list with
      | none => simp [hli] at hu
      | some l =>
        simp only [hli, Bool.not_true, Bool.false_eq_true, if_false] at hu
        cases hnode : i.node with
        | none =>
          simp only [hnode] at hu
          cases hl : _link (_make_node sched h l val excpt).2.1 l
              (_make_node sched h l val excpt).1 l.tail with
          | error e => simp [hl] at hu
          | ok r =>
            obtain ⟨h2, l2⟩ := r
            simp only [hl, Except.ok.injEq, Prod.mk.injEq] at hu
            rw [← hu.1]
            exact push_marked sched h l val _ excpt h2 l2 hl q hm
        | some x =>
          simp only [hnode] at hu
          cases hx : (_make_node sched h l val excpt).2.1[x]? with
          | none => simp [hx] at hu
          | some xnode =>
            simp only [hx] at hu
            cases hl : _link (_make_node sched h l val excpt).2.1 l
                (_make_node sched h l val excpt).1 xnode.prev with
            | error e => simp [hl] at hu
            | ok r =>
              obtain ⟨h2, l2⟩ := r
              simp only [hl, Except.ok.injEq, Prod.mk.injEq] at hu
              rw [← hu.1]
              exact push_marked sched h l val _ excpt h2 l2 hl q hm

theorem erase_marked (tm : Timers) (h : Heap) (i : ListIterator)
    (excpt : Option ListException) (h' : Heap) (li : Option HltList)
    (excpt' : Option ListException)
    (hu : hlt_list_erase tm h i excpt = .ok (h', li, excpt'))
    (q : Nat) (hm : Marked h q) : Marked h' q := by
  unfold hlt_list_erase at hu
  cases hv : iteratorInvalid h i with
  | error e => simp [hv] at hu
  | ok b =>
    cases b with
    | true =>
      simp only [hv, Except.ok.injEq, Prod.mk.injEq] at hu
      rw [← hu.1]
      exact hm
    | false =>
      simp only [hv] at hu
      cases hnode : i.node with
      | none =>
        simp only [hnode, Except.ok.injEq, Prod.mk.injEq] at hu
        rw [← hu.1]
        exact hm
      | some n =>
        cases hli : i.list with
        | none => simp [hnode, hli] at hu
        | some l =>
          simp only [hnode, hli] at hu
          cases hl : _unlink tm h l n excpt true with
          | error e => simp [hl] at hu
          | ok r =>
            obtain ⟨h2, l2, e2⟩ := r
            simp only [hl, Except.ok.injEq, Prod.mk.injEq] at hu
            rw [← hu.1]
            exact unlink_marked tm h l n excpt true h2 l2 e2 hl q hm

/-- No call on a list takes the mark of an invalid node away. -/
theorem call_marked (sched : TimerMgr) (tm : Timers) (c : ListCall) (h : Heap) (l : HltList)
    (excpt : Option ListException) (h' : Heap) (l' : HltList) (excpt' : Option ListException)
    (hu : c.run sched tm h l excpt = .ok (h', l', excpt')) (q : Nat) (hm : Marked h q) :
    Marked h' q := by
  cases c with
  | push_front val =>
    simp only [ListCall.run, hlt_list_push_front, Bool.not_true, Bool.false_eq_true,
      if_false] at hu
    cases hl : _link (_make_node sched h l val excpt).2.1 l
        (_make_node sched h l val excpt).1 none with
    | error e => simp [hl] at hu
    | ok r =>
      obtain ⟨h2, l2⟩ := r
      simp only [hl, Except.ok.injEq, Prod.mk.injEq] at hu
      rw [← hu.1]
      exact push_marked sched h l val _ excpt h2 l2 hl q hm
  | push_back val =>
    simp only [ListCall.run, hlt_list_push_back, Bool.not_true, Bool.false_eq_true,
      if_false] at hu
    cases hl : _link (_make_node sched h l val excpt).2.1 l
        (_make_node sched h l val excpt).1 l.tail with
    | error e => simp [hl] at hu
    | ok r =>
      obtain ⟨h2, l2⟩ := r
      simp only [hl, Except.ok.injEq, Prod.mk.injEq] at hu
      rw [← hu.1]
      exact push_marked sched h l val _ excpt h2 l2 hl q hm
  | pop_front =>
    simp only [ListCall.run, hlt_list_pop_front] at hu
    cases hh : l.head with
    | none =>
      simp only [hh, Except.ok.injEq, Prod.mk.injEq] at hu
      rw [← hu.1]
      exact hm
    | some n =>
      simp only [hh] at hu
      exact unlink_marked tm h l n excpt true h' l' excpt' hu q hm
  | pop_back =>
    simp only [ListCall.run, hlt_list_pop_back] at hu
    cases hh : l.tail with
    | none =>
      simp only [hh, Except.ok.injEq, Prod.mk.injEq] at hu
      rw [← hu.1]
      exact hm
    | some n =>
      simp only [hh] at hu
      exact unlink_marked tm h l n excpt true h' l' excpt' hu q hm
  | insert val node =>
    exact insert_marked sched h val _ excpt h' _ excpt' (iteratorList_ok _ h' l' excpt' hu) q hm
  | erase node =>
    exact erase_marked tm h _ excpt h' _ excpt' (iteratorList_ok _ h' l' excpt' hu) q hm
  | expire node =>
    simp only [ListCall.run] at hu
    cases hl : _unlink tm h l node none false with
    | error e => simp [hl] at hu
    | ok r =>
      obtain ⟨h2, l2, e2⟩ := r
      simp only [hl, Except.ok.injEq, Prod.mk.injEq] at hu
      rw [← hu.1]
      exact unlink_marked tm h l node none false h2 l2 e2 hl q hm

theorem runCalls_marked (sched : TimerMgr) (tm : Timers) (q : Nat) :
    ∀ (cs : List ListCall) (h : Heap) (l : HltList) (excpt : Option ListException) (h' : Heap)
      (l' : HltList) (excpt' : Option ListException),
      runCalls sched tm cs h l excpt = .ok (h', l', excpt') → Marked h q → Marked h' q := by
  intro cs
  induction cs with
  | nil =>
    intro h l excpt h' l' excpt' hu hm
    simp only [runCalls, Except.ok.injEq, Prod.mk.injEq] at hu
    rw [← hu.1]
    exact hm
  | cons c cs ih =>
    intro h l excpt h' l' excpt' hu hm
    simp only [runCalls] at hu
    cases hc : c.run sched tm h l excpt with
    | error e => simp [hc] at hu
    | ok r =>
      obtain ⟨h2, l2, e2⟩ := r
      simp only [hc] at hu
      exact ih h2 l2 e2 h' l' excpt' hu (call_marked sched tm c h l excpt h2 l2 e2 hc q hm)

/-- Through an iterator to a node that is marked invalid, nothing is done but
setting `InvalidIterator`. -/
theorem invalid_iterator_use (sched : TimerMgr) (tm : Timers) (h : Heap) (n : Nat) (val : Nat)
    (li : Option HltList) (excpt : Option ListException) (hm : Marked h n) :
    hlt_list_erase tm h ⟨li, some n⟩ excpt = .ok (h, li, some .InvalidIterator) ∧
    hlt_list_insert sched h true val ⟨li, some n⟩ excpt = .ok (h, li, some .InvalidIterator) ∧
    hlt_iterator_list_incr h ⟨li, some n⟩ excpt
      = .ok (⟨li, some n⟩, some .InvalidIterator) ∧
    hlt_iterator_list_deref tm h ⟨li, some n⟩ excpt = .ok (none, some .InvalidIterator) := by
  obtain ⟨node, h1, h2⟩ := hm
  have hinv : _invalid_node h n = .ok true := by simp [_invalid_node, h1, h2]
  have hv : iteratorInvalid h ⟨li, some n⟩ = .ok true := by simp [iteratorInvalid, hinv]
  refine ⟨?_, ?_, ?_, ?_⟩
  · simp only [hlt_list_erase, hv, hlt_set_exception]
  · simp only [hlt_list_insert, hv, hlt_set_exception]
  · simp only [hlt_iterator_list_incr, hv, hlt_set_exception]
  · cases li with
    | none => simp only [hlt_iterator_list_deref, hlt_set_exception]
    | some l => simp only [hlt_iterator_list_deref, hinv, hlt_set_exception]

/-- C22: `hlt_list_erase` through an iterator to a node of a well-formed list
succeeds, marks the node invalid and leaves the size one less. After any calls
on the list that follow, `hlt_list_erase`, `hlt_list_insert`,
`hlt_iterator_list_incr` and `hlt_iterator_list_deref` through an iterator to
that node set `InvalidIterator` and leave heap and list as they are, the
iterator where it is, and `deref` returns null. `hlt_list_erase` through an end
iterator or an iterator without list sets `InvalidIterator` and changes
nothing. -/
theorem erased_node_stays_invalid (sched : TimerMgr) (tm : Timers) (h : Heap) (l : HltList)
    (pre post : List Nat) (n val : Nat) (excpt : Option ListException)
    (hw : WellFormedList h l (pre ++ n :: post)) :
    (∃ h' l' excpt', hlt_list_erase tm h ⟨some l, some n⟩ excpt = .ok (h', some l', excpt') ∧
      (∃ node, h'[n]? = some node ∧ node.invalid = 1) ∧ l'.size = l.size - 1 ∧
      ∀ calls hx lx ex, runCalls sched tm calls h' l' excpt' = .ok (hx, lx, ex) →
        ∀ (li : Option HltList) (e : Option ListException),
          hlt_list_erase tm hx ⟨li, some n⟩ e = .ok (hx, li, some .InvalidIterator) ∧
          hlt_list_insert sched hx true val ⟨li, some n⟩ e
            = .ok (hx, li, some .InvalidIterator) ∧
          hlt_iterator_list_incr hx ⟨li, some n⟩ e
            = .ok (⟨li, some n⟩, some .InvalidIterator) ∧
          hlt_iterator_list_deref tm hx ⟨li, some n⟩ e = .ok (none, some .InvalidIterator)) ∧
    (∀ (li : Option HltList) (e : Option ListException),
      hlt_list_erase tm h ⟨li, none⟩ e = .ok (h, li, some .InvalidIterator)) ∧
    (∀ (m : Nat) (e : Option ListException), m ∈ pre ++ n :: post →
      hlt_list_erase tm h ⟨none, some m⟩ e = .ok (h, none, some .InvalidIterator)) := by
  refine ⟨?_, ?_, ?_⟩
  · obtain ⟨h', l', e', e1, -, -, -, e5, e6, -⟩ := erase_spec tm h l pre post n excpt hw
    refine ⟨h', l', e', e1, e5, e6, ?_⟩
    intro calls hx lx ex hr li e
    obtain ⟨node, hn1, hn2⟩ := e5
    have hm : Marked h' n := ⟨node, hn1, by rw [hn2]; decide⟩
    exact invalid_iterator_use sched tm hx n val li e
      (runCalls_marked sched tm n calls h' l' e' hx lx ex hr hm)
  · intro li e
    cases li with
    | none => simp [hlt_list_erase, iteratorInvalid, hlt_set_exception]
    | some lx => simp [hlt_list_erase, iteratorInvalid, hlt_set_exception]
  · intro m e hmem
    obtain ⟨node, hnode⟩ := chain_mem h _ none hw.isList.chain m hmem
    simp [hlt_list_erase, iteratorInvalid, _invalid_node, hnode, hlt_set_exception]

/-- C22 (witness): on the sample list `[7, 9]`, erasing the node at 0 marks it
invalid and leaves the size 1; after a `push_back` of 4, `deref` through an
iterator to the node sets `InvalidIterator` and returns null. -/
theorem erased_node_stays_invalid_witness :
    WellFormedList sampleHeap sampleList ([] ++ 0 :: [1]) ∧
    ∃ h' l' excpt', hlt_list_erase sampleTimers sampleHeap ⟨some sampleList, some 0⟩ none
        = .ok (h', some l', excpt') ∧
      (∃ node, h'[0]? = some node ∧ node.invalid = 1) ∧ l'.size = sampleList.size - 1 ∧
      ∀ hx lx ex, runCalls sampleTimerMgr sampleTimers [.push_back 4] h' l' excpt'
          = .ok (hx, lx, ex) →
        hlt_iterator_list_deref sampleTimers hx ⟨some lx, some 0⟩ ex
          = .ok (none, some .InvalidIterator) :=
  ⟨sampleList_wellFormed,
   match (erased_node_stays_invalid sampleTimerMgr sampleTimers sampleHeap sampleList [] [1] 0 4
      none sampleList_wellFormed).1 with
   | ⟨h', l', e', e1, e2, e3, e4⟩ =>
     ⟨h', l', e', e1, e2, e3, fun hx lx ex hr => (e4 _ hx lx ex hr (some lx) ex).2.2.2⟩⟩

end libhilti

namespace pqueue

theorem heapOrder_of_up (k : Nat → Nat) (size i : Nat) (hu : UpOrder k size i)
    (hi : i ≤ 1 ∨ k (i / 2) ≤ k i) : HeapOrder k size := by
  intro j hj hs
  by_cases e : j = i
  · subst e
    rcases hi with hi | hi
    · omega
    · exact hi
  · exact hu.1 j hj hs e

theorem heapOrder_of_down (k : Nat → Nat) (size i : Nat) (hd : DownOrder k size i)
    (hi : ∀ c, 2 ≤ c → c < size → c / 2 = i → k i ≤ k c) : HeapOrder k size := by
  intro j hj hs
  by_cases e : j / 2 = i
  · rw [e]
    exact hi j hj hs e
  · exact hd.1 j hj hs e

theorem upOrder_swap (k : Nat → Nat) (size i : Nat) (hu : UpOrder k size i) (hi : 2 ≤ i)
    (hs : i < size) (hlt : k i < k (i / 2)) : UpOrder (swapKeys k i (i / 2)) size (i / 2) := by
  obtain ⟨h1, h2⟩ := hu
  refine ⟨?_, ?_⟩
  · intro j hj hjs hne
    by_cases e : j = i
    · subst e
      have : swapKeys k j (j / 2) j = k (j / 2) := by simp [swapKeys]
      have : swapKeys k j (j / 2) (j / 2) = k j := by
        unfold swapKeys
        rw [if_neg (by omega), if_pos rfl]
      omega
    · have hj' : swapKeys k i (i / 2) j = k j := by
        unfold swapKeys
        rw [if_neg e, if_neg hne]
      rw [hj']
      by_cases e1 : j / 2 = i
      · have : swapKeys k i (i / 2) (j / 2) = k (i / 2) := by
          unfold swapKeys
          rw [if_pos e1]
        rw [this]
        exact h2 j hi hjs e1
      · by_cases e2 : j / 2 = i / 2
        · have : swapKeys k i (i / 2) (j / 2) = k i := by
            unfold swapKeys
            rw [if_neg e1, if_pos e2]
          rw [this]
          have := h1 j hj hjs e
          rw [e2] at this
          omega
        · have : swapKeys k i (i / 2) (j / 2) = k (j / 2) := by
            unfold swapKeys
            rw [if_neg e1, if_neg e2]
          rw [this]
          exact h1 j hj hjs e
  · intro c hi1 hcs hc
    have hp : swapKeys k i (i / 2) (i / 2 / 2) = k (i / 2 / 2) := by
      unfold swapKeys
      rw [if_neg (by omega), if_neg (by omega)]
    rw [hp]
    have hpar := h1 (i / 2) hi1 (by omega) (by omega)
    by_cases e : c = i
    · subst e
      have : swapKeys k c (c / 2) c = k (c / 2) := by simp [swapKeys]
      rw [this]
      exact hpar
    · have : swapKeys k i (i / 2) c = k c := by
        unfold swapKeys
        rw [if_neg e, if_neg (by omega)]
      rw [this]
      have := h1 c (by omega) hcs e
      rw [hc] at this
      omega

theorem downOrder_swap (k : Nat → Nat) (size i c : Nat) (hd : DownOrder k size i) (hi : 1 ≤ i)
    (hc : c / 2 = i) (hcs : c < size) (hlt : k c < k i)
    (hmin : ∀ s, s < size → s / 2 = i → k c ≤ k s) : DownOrder (swapKeys k i c) size c := by
  obtain ⟨h1, h2⟩ := hd
  have hci : c ≠ i := by omega
  have hii : swapKeys k i c i = k c := by simp [swapKeys]
  have hcc : swapKeys k i c c = k i := by
    unfold swapKeys
    rw [if_neg hci, if_pos rfl]
  have hoth : ∀ j, j ≠ i → j ≠ c → swapKeys k i c j = k j := by
    intro j e1 e2
    unfold swapKeys
    rw [if_neg e1, if_neg e2]
  refine ⟨?_, ?_⟩
  · intro j hj hjs hne
    by_cases e : j = c
    · subst e
      rw [hc, hii, hcc]
      omega
    · by_cases e1 : j = i
      · subst e1
        rw [hii, hoth (j / 2) (by omega) (by omega)]
        exact h2 c hj hcs hc
      · rw [hoth j e1 e]
        by_cases e2 : j / 2 = i
        · rw [e2, hii]
          exact hmin j hjs e2
        · rw [hoth (j / 2) e2 hne]
          exact h1 j hj hjs e2
  · intro s hc2 hss hs
    rw [hc, hii, hoth s (by omega) (by omega)]
    have := h1 s (by omega) hss (by omega)
    rw [hs] at this
    exact this

theorem upOrder_of_heap (k k' : Nat → Nat) (size i : Nat) (hk : HeapOrder k size) (hi : 1 ≤ i)
    (hsame : ∀ j, 1 ≤ j → j < size → j ≠ i → k' j = k j)
    (hle : ∀ c, 2 ≤ c → c < size → c / 2 = i → k' i ≤ k c) : UpOrder k' size i := by
  refine ⟨?_, ?_⟩
  · intro j hj hjs hne
    rw [hsame j (by omega) hjs hne]
    by_cases e : j / 2 = i
    · rw [e]
      exact hle j hj hjs e
    · rw [hsame _ (by omega) (by omega) e]
      exact hk j hj hjs
  · intro c hi2 hcs hc
    rw [hsame _ (by omega) (by omega) (by omega), hsame c (by omega) hcs (by omega)]
    have h1 := hk c (by omega) hcs
    have h2 := hk i hi2 (by omega)
    rw [hc] at h1
    omega

theorem downOrder_of_heap (k k' : Nat → Nat) (size i : Nat) (hk : HeapOrder k size)
    (hi : 1 ≤ i) (hsame : ∀ j, 1 ≤ j → j < size → j ≠ i → k' j = k j)
    (hle : 2 ≤ i → i < size → k (i / 2) ≤ k' i) : DownOrder k' size i := by
  refine ⟨?_, ?_⟩
  · intro j hj hjs hne
    rw [hsame _ (by omega) (by omega) hne]
    by_cases e : j = i
    · subst e
      exact hle hj hjs
    · rw [hsame j (by omega) hjs e]
      exact hk j hj hjs
  · intro c hi2 hcs hc
    rw [hsame _ (by omega) (by omega) (by omega), hsame c (by omega) hcs (by omega)]
    have h1 := hk c (by omega) hcs
    have h2 := hk i hi2 (by omega)
    rw [hc] at h1
    omega

theorem cell_of (q : priority_queue_t) (i a : Nat) (h : q.d[i]? = some a) :
    cell q i = .ok a := by
  simp [cell, h]

theorem getpri_of (mem : Memory) (a : Nat) (t : hlt_timer) (h : mem[a]? = some t) :
    getpri mem a = .ok t.time := by
  simp [getpri, h]

theorem getpos_of (mem : Memory) (a : Nat) (t : hlt_timer) (h : mem[a]? = some t) :
    getpos mem a = .ok t.queue_pos := by
  simp [getpos, h]

theorem setCell_of (q : priority_queue_t) (i a : Nat) (h : i < q.d.length) :
    setCell q i a = .ok { q with d := q.d.set i a } := by
  simp [setCell, h]

theorem setpos_of (mem : Memory) (a p : Nat) (t : hlt_timer) (h : mem[a]? = some t) :
    setpos mem a p = .ok (mem.set a { t with queue_pos := p }) := by
  simp [setpos, h]

theorem timeAt_of (mem : Memory) (a : Nat) (t : hlt_timer) (h : mem[a]? = some t) :
    timeAt mem a = t.time := by
  simp [timeAt, h]

theorem keyAt_of (mem : Memory) (d : List Nat) (j a : Nat) (h : d[j]? = some a) :
    keyAt mem d j = timeAt mem a := by
  simp [keyAt, h]

theorem timeAt_setpos (mem : Memory) (a p : Nat) (t : hlt_timer) (h : mem[a]? = some t)
    (b : Nat) : timeAt (mem.set a { t with queue_pos := p }) b = timeAt mem b := by
  unfold timeAt
  by_cases e : a = b
  · subst e
    rw [List.getElem?_set_self (List.getElem?_eq_some.mp h).1, h]
  · rw [List.getElem?_set_ne e]

theorem keyAt_congr (mem mem' : Memory) (d : List Nat) (j : Nat)
    (h : ∀ a, timeAt mem' a = timeAt mem a) : keyAt mem' d j = keyAt mem d j := by
  unfold keyAt
  cases d[j]? with
  | none => rfl
  | some a => exact h a

/-- Two cells that hold the same timer are the same cell. -/
theorem placed_inj (mem : Memory) (d : List Nat) (size i m : Nat) (hh : Hole mem d size i m)
    (j j' a : Nat) (hj : 1 ≤ j ∧ j < size ∧ j ≠ i) (hj' : 1 ≤ j' ∧ j' < size ∧ j' ≠ i)
    (h1 : d[j]? = some a) (h2 : d[j']? = some a) : j = j' := by
  obtain ⟨a1, t1, e1, e2, e3, -⟩ := hh.placed j hj.1 hj.2.1 hj.2.2
  obtain ⟨a2, t2, f1, f2, f3, -⟩ := hh.placed j' hj'.1 hj'.2.1 hj'.2.2
  rw [h1] at e1
  rw [h2] at f1
  cases e1
  cases f1
  rw [e2] at f2
  cases f2
  omega

/-- The timer of the cell `c` put into the cell `i`, which was free: now the
cell `c` is free, and the keys at `i` and `c` are exchanged. -/
theorem move_spec (mem : Memory) (d : List Nat) (size i m c a : Nat) (t : hlt_timer)
    (hh : Hole mem d size i m) (hi : 1 ≤ i) (hil : i < d.length) (hc : 1 ≤ c) (hcs : c < size)
    (hci : c ≠ i) (ha : d[c]? = some a) (ht : mem[a]? = some t) :
    Hole (mem.set a { t with queue_pos := i }) (d.set i a) size c m ∧
    (∀ b, timeAt (mem.set a { t with queue_pos := i }) b = timeAt mem b) ∧
    (∀ j, keyAt (mem.set a { t with queue_pos := i }) ((d.set i a).set c m) j
      = swapKeys (keyAt mem (d.set i m)) i c j) ∧
    (i < size → ∀ x, Holds ((d.set i a).set c m) size x ↔ Holds (d.set i m) size x) := by
  obtain ⟨a', t', e1, e2, e3, e4⟩ := hh.placed c hc hcs hci
  rw [ha] at e1
  cases e1
  rw [ht] at e2
  cases e2
  have hal : a < mem.length := (List.getElem?_eq_some.mp ht).1
  have hcl : c < d.length := (List.getElem?_eq_some.mp ha).1
  have htime := timeAt_setpos mem a i t ht
  refine ⟨⟨?_, ?_⟩, htime, ?_, ?_⟩
  · obtain ⟨tm, htm⟩ := hh.timer
    exact ⟨tm, by rw [List.getElem?_set_ne e4]; exact htm⟩
  · intro j hj hjs hjc
    by_cases e : j = i
    · subst e
      exact ⟨a, { t with queue_pos := j }, List.getElem?_set_self hil,
        List.getElem?_set_self hal, rfl, e4⟩
    · obtain ⟨b, tb, f1, f2, f3, f4⟩ := hh.placed j hj hjs e
      have hab : a ≠ b := by
        intro hab
        subst hab
        rw [ht] at f2
        cases f2
        exact hjc (f3.symm.trans e3)
      exact ⟨b, tb, by rw [List.getElem?_set_ne (Ne.symm e)]; exact f1,
        by rw [List.getElem?_set_ne hab]; exact f2, f3, f4⟩
  · intro j
    unfold swapKeys
    by_cases e : j = i
    · subst e
      rw [if_pos rfl, keyAt_of _ _ j a (by
        rw [List.getElem?_set_ne hci, List.getElem?_set_self hil]), htime,
        keyAt_of mem _ c a (by rw [List.getElem?_set_ne (Ne.symm hci)]; exact ha)]
    · rw [if_neg e]
      by_cases e' : j = c
      · subst e'
        rw [if_pos rfl, keyAt_of _ _ j m (by
          rw [List.getElem?_set_self (by rw [List.length_set]; exact hcl)]), htime,
          keyAt_of mem _ i m (List.getElem?_set_self hil)]
      · rw [if_neg e']
        unfold keyAt
        rw [List.getElem?_set_ne (Ne.symm e'), List.getElem?_set_ne (Ne.symm e),
          List.getElem?_set_ne (Ne.symm e)]
        cases d[j]? with
        | none => rfl
        | some b => exact htime b
  · intro his x
    have hF1c : ((d.set i a).set c m)[c]? = some m :=
      List.getElem?_set_self (by rw [List.length_set]; exact hcl)
    have hF1i : ((d.set i a).set c m)[i]? = some a := by
      rw [List.getElem?_set_ne hci, List.getElem?_set_self hil]
    have hF1o : ∀ j, j ≠ i → j ≠ c → ((d.set i a).set c m)[j]? = d[j]? := by
      intro j e e'
      rw [List.getElem?_set_ne (Ne.symm e'), List.getElem?_set_ne (Ne.symm e)]
    have hFi : (d.set i m)[i]? = some m := List.getElem?_set_self hil
    have hFc : (d.set i m)[c]? = some a := by
      rw [List.getElem?_set_ne (Ne.symm hci)]; exact ha
    have hFo : ∀ j, j ≠ i → (d.set i m)[j]? = d[j]? := by
      intro j e
      rw [List.getElem?_set_ne (Ne.symm e)]
    constructor
    · rintro ⟨j, hj, hjs, hx⟩
      by_cases e : j = i
      · subst e
        rw [hF1i] at hx
        cases hx
        exact ⟨c, hc, hcs, hFc⟩
      · by_cases e' : j = c
        · subst e'
          rw [hF1c] at hx
          cases hx
          exact ⟨i, hi, his, hFi⟩
        · rw [hF1o j e e'] at hx
          exact ⟨j, hj, hjs, by rw [hFo j e]; exact hx⟩
    · rintro ⟨j, hj, hjs, hx⟩
      by_cases e : j = i
      · subst e
        rw [hFi] at hx
        cases hx
        exact ⟨c, hc, hcs, hF1c⟩
      · by_cases e' : j = c
        · subst e'
          rw [hFc] at hx
          cases hx
          exact ⟨i, hi, his, hF1i⟩
        · rw [hFo j e] at hx
          exact ⟨j, hj, hjs, by rw [hF1o j e e']; exact hx⟩

/-- The moving timer put into the free cell: all cells hold timers that know
their index. -/
theorem finish_spec (mem : Memory) (d : List Nat) (size i m : Nat) (tm : hlt_timer)
    (hh : Hole mem d size i m) (hil : i < d.length) (htm : mem[m]? = some tm) :
    Placed (mem.set m { tm with queue_pos := i }) (d.set i m) size := by
  have hml : m < mem.length := (List.getElem?_eq_some.mp htm).1
  intro j hj hjs
  by_cases e : j = i
  · subst e
    exact ⟨m, _, List.getElem?_set_self hil, List.getElem?_set_self hml, rfl⟩
  · obtain ⟨b, tb, f1, f2, f3, f4⟩ := hh.placed j hj hjs e
    exact ⟨b, tb, by rw [List.getElem?_set_ne (Ne.symm e)]; exact f1,
      by rw [List.getElem?_set_ne (Ne.symm f4)]; exact f2, f3⟩

theorem set_self (d : List Nat) (i m : Nat) (h : d[i]? = some m) : d.set i m = d := by
  apply List.ext_getElem?
  intro j
  by_cases e : i = j
  · subst e
    rw [List.getElem?_set_self (List.getElem?_eq_some.mp h).1, h]
  · rw [List.getElem?_set_ne e]

theorem parent_eq (i : Nat) : parent i = i / 2 := by
  simp [parent, Nat.shiftRight_eq_div_pow]

/-- The loop of `bubble_up` ends with the free cell at a place where the moving
timer is in heap order. -/
theorem bubble_up_loop_spec (m : Nat) : ∀ (fuel : Nat) (mem : Memory) (q : priority_queue_t)
    (i : Nat), i ≤ fuel → 1 ≤ i → i < q.size → q.size ≤ q.d.length → Hole mem q.d q.size i m →
    UpOrder (keyAt mem (q.d.set i m)) q.size i →
    ∃ mem' d' i', bubble_up_loop (timeAt mem m) fuel mem q i
        = .ok (mem', { q with d := d' }, i') ∧
      1 ≤ i' ∧ i' < q.size ∧ d'.length = q.d.length ∧ Hole mem' d' q.size i' m ∧
      (∀ b, timeAt mem' b = timeAt mem b) ∧
      HeapOrder (keyAt mem' (d'.set i' m)) q.size ∧
      (∀ x, Holds (d'.set i' m) q.size x ↔ Holds (q.d.set i m) q.size x) := by
  intro fuel
  induction fuel with
  | zero =>
    intro mem q i h0 h1
    omega
  | succ fuel ih =>
    intro mem q i hf hi his hcap hh hu
    have hil : i < q.d.length := by omega
    have hki : keyAt mem (q.d.set i m) i = timeAt mem m :=
      keyAt_of mem _ i m (List.getElem?_set_self hil)
    rw [bubble_up_loop]
    by_cases h1 : i > 1
    · rw [if_pos h1, parent_eq]
      obtain ⟨a, t, e1, e2, e3, e4⟩ := hh.placed (i / 2) (by omega) (by omega) (by omega)
      have hkp : keyAt mem (q.d.set i m) (i / 2) = t.time := by
        rw [keyAt_of mem _ (i / 2) a (by rw [List.getElem?_set_ne (by omega)]; exact e1),
          timeAt_of mem a t e2]
      simp only [cell_of q (i / 2) a e1, getpri_of mem a t e2]
      by_cases hcmp : cmppri t.time (timeAt mem m) = true
      · rw [if_pos hcmp]
        have hlt : timeAt mem m < t.time := by simpa [cmppri] using hcmp
        simp only [setCell_of q i a hil, setpos_of mem a i t e2]
        obtain ⟨g1, g2, g3, g4⟩ := move_spec mem q.d q.size i m (i / 2) a t hh hi hil
          (by omega) (by omega) (by omega) e1 e2
        have hu' : UpOrder (keyAt (mem.set a { t with queue_pos := i })
            ((q.d.set i a).set (i / 2) m)) q.size (i / 2) := by
          have hfun : keyAt (mem.set a { t with queue_pos := i })
              ((q.d.set i a).set (i / 2) m) = swapKeys (keyAt mem (q.d.set i m)) i (i / 2) :=
            funext g3
          rw [hfun]
          exact upOrder_swap _ q.size i hu (by omega) his (by rw [hki, hkp]; exact hlt)
        obtain ⟨mem', d', i', r1, r2, r3, r4, r5, r6, r7, r8⟩ :=
          ih (mem.set a { t with queue_pos := i }) { q with d := q.d.set i a } (i / 2)
            (by omega) (by omega) (by show i / 2 < q.size; omega)
            (by show q.size ≤ (q.d.set i a).length; rw [List.length_set]; exact hcap) g1 hu'
        rw [g2 m] at r1
        refine ⟨mem', d', i', r1, r2, r3, ?_, r5, ?_, r7, ?_⟩
        · rw [r4]
          exact List.length_set _ _ _
        · intro b
          rw [r6 b, g2 b]
        · intro x
          rw [r8 x]
          exact g4 his x
      · rw [if_neg hcmp]
        have hle : t.time ≤ timeAt mem m := by simpa [cmppri] using hcmp
        exact ⟨mem, q.d, i, rfl, hi, his, rfl, hh, fun _ => rfl,
          heapOrder_of_up _ q.size i hu (Or.inr (by rw [hki, hkp]; exact hle)), fun _ => Iff.rfl⟩
    · rw [if_neg h1]
      exact ⟨mem, q.d, i, rfl, hi, his, rfl, hh, fun _ => rfl,
        heapOrder_of_up _ q.size i hu (Or.inl (by omega)), fun _ => Iff.rfl⟩

/-- The function `bubble_up` at a cell whose timer may rank before those above
it: afterwards the array is in heap order, with the same timers. -/
theorem bubble_up_spec (mem : Memory) (q : priority_queue_t) (i m : Nat) (hi : 1 ≤ i)
    (his : i < q.size) (hcap : q.size ≤ q.d.length) (hm : q.d[i]? = some m)
    (hh : Hole mem q.d q.size i m) (hu : UpOrder (keyAt mem q.d) q.size i) :
    ∃ mem' d', bubble_up mem q i = .ok (mem', { q with d := d' }) ∧
      d'.length = q.d.length ∧ Placed mem' d' q.size ∧
      (∀ b, timeAt mem' b = timeAt mem b) ∧ HeapOrder (keyAt mem' d') q.size ∧
      (∀ x, Holds d' q.size x ↔ Holds q.d q.size x) := by
  obtain ⟨tm, htm⟩ := hh.timer
  have hset := set_self q.d i m hm
  obtain ⟨mem', d', i', r1, r2, r3, r4, r5, r6, r7, r8⟩ :=
    bubble_up_loop_spec m i mem q i (Nat.le_refl _) hi his hcap hh (by rw [hset]; exact hu)
  obtain ⟨tm', htm'⟩ := r5.timer
  have hil : i' < d'.length := by omega
  rw [timeAt_of mem m tm htm] at r1
  refine ⟨mem'.set m { tm' with queue_pos := i' }, d'.set i' m, ?_, ?_,
    finish_spec mem' d' q.size i' m tm' r5 hil htm', ?_, ?_, ?_⟩
  · simp only [bubble_up, cell_of q i m hm, getpri_of mem m tm htm, r1,
      setCell_of { q with d := d' } i' m hil, setpos_of mem' m i' tm' htm']
  · rw [List.length_set]
    exact r4
  · intro b
    rw [timeAt_setpos mem' m i' tm' htm' b, r6 b]
  · have : keyAt (mem'.set m { tm' with queue_pos := i' }) (d'.set i' m)
        = keyAt mem' (d'.set i' m) :=
      funext (fun j => keyAt_congr _ _ _ j (timeAt_setpos mem' m i' tm' htm'))
    rw [this]
    exact r7
  · intro x
    rw [r8 x, hset]

theorem left_eq (i : Nat) (h : i < 2 ^ 62) : left i = 2 * i := by
  unfold left
  rw [Nat.shiftLeft_eq, Nat.mod_eq_of_lt (by omega)]
  omega

theorem succ_mod (i : Nat) (h : i < 2 ^ 63) : (i + 1) % 2 ^ 64 = i + 1 :=
  Nat.mod_eq_of_lt (by omega)

/-- The function `maxchild`: 0 when the cell has no cell below it in the queue,
otherwise one below it whose time is not greater than that of the other. -/
theorem maxchild_spec (mem : Memory) (q : priority_queue_t) (i m : Nat) (hi : 1 ≤ i)
    (hb : i < 2 ^ 61) (hh : Hole mem q.d q.size i m) :
    (q.size ≤ 2 * i ∧ maxchild mem q i = .ok 0) ∨
    (∃ c a t, maxchild mem q i = .ok c ∧ c / 2 = i ∧ c < q.size ∧ q.d[c]? = some a ∧
      mem[a]? = some t ∧ a ≠ m ∧ keyAt mem q.d c = t.time ∧
      ∀ s, s < q.size → s / 2 = i → keyAt mem q.d c ≤ keyAt mem q.d s) := by
  unfold maxchild
  rw [left_eq i (by omega)]
  by_cases h1 : 2 * i ≥ q.size
  · exact Or.inl ⟨h1, by simp only [h1, if_true]⟩
  · right
    simp only [h1, if_false]
    rw [succ_mod (2 * i) (by omega)]
    obtain ⟨a, ta, e1, e2, e3, e4⟩ := hh.placed (2 * i) (by omega) (by omega) (by omega)
    have hka : keyAt mem q.d (2 * i) = ta.time := by
      rw [keyAt_of mem _ _ a e1, timeAt_of mem a ta e2]
    by_cases h2 : 2 * i + 1 < q.size
    · obtain ⟨b, tb, f1, f2, f3, f4⟩ := hh.placed (2 * i + 1) (by omega) h2 (by omega)
      have hkb : keyAt mem q.d (2 * i + 1) = tb.time := by
        rw [keyAt_of mem _ _ b f1, timeAt_of mem b tb f2]
      simp only [h2, if_true, cell_of q _ a e1, getpri_of mem a ta e2, cell_of q _ b f1,
        getpri_of mem b tb f2]
      by_cases hcmp : cmppri ta.time tb.time = true
      · have hlt : tb.time < ta.time := by simpa [cmppri] using hcmp
        refine ⟨2 * i + 1, b, tb, by rw [if_pos hcmp], by omega, h2, f1, f2, f4, hkb, ?_⟩
        intro s hs hsi
        have : s = 2 * i ∨ s = 2 * i + 1 := by omega
        rcases this with e | e
        · rw [e, hka, hkb]; omega
        · rw [e]
      · have hle : ta.time ≤ tb.time := by simpa [cmppri] using hcmp
        refine ⟨2 * i, a, ta, by rw [if_neg hcmp], by omega, by omega, e1, e2, e4, hka, ?_⟩
        intro s hs hsi
        have : s = 2 * i ∨ s = 2 * i + 1 := by omega
        rcases this with e | e
        · rw [e]
        · rw [e, hka, hkb]; exact hle
    · simp only [h2, if_false]
      refine ⟨2 * i, a, ta, rfl, by omega, by omega, e1, e2, e4, hka, ?_⟩
      intro s hs hsi
      have : s = 2 * i := by omega
      rw [this]

/-- The loop of `percolate_down` ends with the free cell at a place where the
moving timer is in heap order. -/
theorem percolate_down_loop_spec (m : Nat) : ∀ (fuel : Nat) (mem : Memory)
    (q : priority_queue_t) (i : Nat), q.size ≤ fuel + i → 1 ≤ i → i < q.d.length →
    q.size ≤ q.d.length → q.size ≤ 2 ^ 30 → i ≤ q.size → Hole mem q.d q.size i m →
    DownOrder (keyAt mem (q.d.set i m)) q.size i →
    ∃ mem' d' i', percolate_down_loop (timeAt mem m) fuel mem q i
        = .ok (mem', { q with d := d' }, i') ∧
      1 ≤ i' ∧ i' < d'.length ∧ d'.length = q.d.length ∧ Hole mem' d' q.size i' m ∧
      (∀ b, timeAt mem' b = timeAt mem b) ∧
      HeapOrder (keyAt mem' (d'.set i' m)) q.size ∧
      (∀ x, Holds (d'.set i' m) q.size x ↔ Holds (q.d.set i m) q.size x) := by
  intro fuel
  induction fuel with
  | zero =>
    intro mem q i hf hi hil hcap hb his hh hd
    rcases maxchild_spec mem q i m hi (by omega) hh with ⟨h1, h2⟩ | ⟨c, a, t, h2, h3, h4, -⟩
    · refine ⟨mem, q.d, i, ?_, hi, hil, rfl, hh, fun _ => rfl, ?_, fun _ => Iff.rfl⟩
      · rw [percolate_down_loop]
        simp [h2]
      · exact heapOrder_of_down _ q.size i hd (fun c hc hcs hci => by omega)
    · omega
  | succ fuel ih =>
    intro mem q i hf hi hil hcap hb his hh hd
    have hki : keyAt mem (q.d.set i m) i = timeAt mem m :=
      keyAt_of mem _ i m (List.getElem?_set_self hil)
    have hko : ∀ s, s ≠ i → keyAt mem (q.d.set i m) s = keyAt mem q.d s := by
      intro s hs
      unfold keyAt
      rw [List.getElem?_set_ne (Ne.symm hs)]
    rcases maxchild_spec mem q i m hi (by omega) hh with
      ⟨h1, h2⟩ | ⟨c, a, t, h2, h3, h4, h5, h6, h7, h8, h9⟩
    · refine ⟨mem, q.d, i, ?_, hi, hil, rfl, hh, fun _ => rfl, ?_, fun _ => Iff.rfl⟩
      · rw [percolate_down_loop]
        simp [h2]
      · exact heapOrder_of_down _ q.size i hd (fun c hc hcs hci => by omega)
    · have hc0 : (c != 0) = true := by
        simp only [bne_iff_ne, ne_eq]
        omega
      rw [percolate_down_loop]
      simp only [h2, hc0, if_true, cell_of q c a h5, getpri_of mem a t h6]
      by_cases hcmp : cmppri (timeAt mem m) t.time = true
      · rw [if_pos hcmp]
        have hlt : t.time < timeAt mem m := by simpa [cmppri] using hcmp
        simp only [setCell_of q i a hil, setpos_of mem a i t h6]
        obtain ⟨g1, g2, g3, g4⟩ := move_spec mem q.d q.size i m c a t hh hi hil
          (by omega) h4 (by omega) h5 h6
        have hd' : DownOrder (keyAt (mem.set a { t with queue_pos := i })
            ((q.d.set i a).set c m)) q.size c := by
          have hfun : keyAt (mem.set a { t with queue_pos := i })
              ((q.d.set i a).set c m) = swapKeys (keyAt mem (q.d.set i m)) i c :=
            funext g3
          rw [hfun]
          refine downOrder_swap _ q.size i c hd hi h3 h4 ?_ ?_
          · rw [hki, hko c (by omega), h8]
            exact hlt
          · intro s hs hsi
            rw [hko c (by omega), hko s (by omega)]
            exact h9 s hs hsi
        obtain ⟨mem', d', i', r1, r2, r3, r4, r5, r6, r7, r8⟩ :=
          ih (mem.set a { t with queue_pos := i }) { q with d := q.d.set i a } c
            (by show q.size ≤ fuel + c; omega) (by omega)
            (by show c < (q.d.set i a).length; rw [List.length_set]; omega)
            (by show q.size ≤ (q.d.set i a).length; rw [List.length_set]; exact hcap)
            hb (by show c ≤ q.size; omega) g1 hd'
        rw [g2 m] at r1
        refine ⟨mem', d', i', r1, r2, r3, ?_, r5, ?_, r7, ?_⟩
        · rw [r4]
          exact List.length_set _ _ _
        · intro b
          rw [r6 b, g2 b]
        · intro x
          rw [r8 x]
          exact g4 (by omega) x
      · rw [if_neg hcmp]
        have hle : timeAt mem m ≤ t.time := by simpa [cmppri] using hcmp
        refine ⟨mem, q.d, i, rfl, hi, hil, rfl, hh, fun _ => rfl, ?_, fun _ => Iff.rfl⟩
        refine heapOrder_of_down _ q.size i hd ?_
        intro s hs hss hsi
        rw [hki, hko s (by omega)]
        have := h9 s hss hsi
        rw [h8] at this
        omega

/-- The function `percolate_down` at a cell whose timer may rank after those
below it: afterwards the array is in heap order, with the same timers. -/
theorem percolate_down_spec (mem : Memory) (q : priority_queue_t) (i m : Nat) (hi : 1 ≤ i)
    (his : i ≤ q.size) (hil : i < q.d.length) (hcap : q.size ≤ q.d.length)
    (hb : q.size ≤ 2 ^ 30) (hm : q.d[i]? = some m)
    (hh : Hole mem q.d q.size i m) (hd : DownOrder (keyAt mem q.d) q.size i) :
    ∃ mem' d', percolate_down mem q i = .ok (mem', { q with d := d' }) ∧
      d'.length = q.d.length ∧ Placed mem' d' q.size ∧
      (∀ b, timeAt mem' b = timeAt mem b) ∧ HeapOrder (keyAt mem' d') q.size ∧
      (∀ x, Holds d' q.size x ↔ Holds q.d q.size x) := by
  obtain ⟨tm, htm⟩ := hh.timer
  have hset := set_self q.d i m hm
  obtain ⟨mem', d', i', r1, r2, r3, r4, r5, r6, r7, r8⟩ :=
    percolate_down_loop_spec m q.size mem q i (by omega) hi hil hcap hb his hh
      (by rw [hset]; exact hd)
  obtain ⟨tm', htm'⟩ := r5.timer
  rw [timeAt_of mem m tm htm] at r1
  refine ⟨mem'.set m { tm' with queue_pos := i' }, d'.set i' m, ?_, ?_,
    finish_spec mem' d' q.size i' m tm' r5 r3 htm', ?_, ?_, ?_⟩
  · simp only [percolate_down, cell_of q i m hm, getpri_of mem m tm htm, r1,
      setCell_of { q with d := d' } i' m r3, setpos_of mem' m i' tm' htm']
  · rw [List.length_set]
    exact r4
  · intro b
    rw [timeAt_setpos mem' m i' tm' htm' b, r6 b]
  · have : keyAt (mem'.set m { tm' with queue_pos := i' }) (d'.set i' m)
        = keyAt mem' (d'.set i' m) :=
      funext (fun j => keyAt_congr _ _ _ j (timeAt_setpos mem' m i' tm' htm'))
    rw [this]
    exact r7
  · intro x
    rw [r8 x, hset]

theorem intChild_of (pos add : Nat) (h : 2 * pos + add < 2 ^ 31) :
    intChild pos add = .ok (2 * pos + add) := by
  unfold intChild
  rw [Nat.shiftLeft_eq]
  have e : pos * 2 ^ 1 = 2 * pos := by omega
  rw [e, if_pos h]

theorem intChild_ok (pos add c : Nat) (h : intChild pos add = .ok c) :
    c = 2 * pos + add ∧ 2 * pos + add < 2 ^ 31 := by
  unfold intChild at h
  rw [Nat.shiftLeft_eq] at h
  have e : pos * 2 ^ 1 = 2 * pos := by omega
  rw [e] at h
  by_cases hlt : 2 * pos + add < 2 ^ 31
  · rw [if_pos hlt] at h
    cases h
    exact ⟨rfl, hlt⟩
  · rw [if_neg hlt] at h
    cases h

theorem keyAt_placed (mem : Memory) (d : List Nat) (size j : Nat) (hp : Placed mem d size)
    (hj : 1 ≤ j) (hjs : j < size) :
    ∃ a t, d[j]? = some a ∧ mem[a]? = some t ∧ keyAt mem d j = t.time := by
  obtain ⟨a, t, e1, e2, -⟩ := hp j hj hjs
  exact ⟨a, t, e1, e2, by rw [keyAt_of mem d j a e1, timeAt_of mem a t e2]⟩

/-- The test of a child in `subtree_is_valid`, for a child in the queue. -/
theorem childIsValid_eq (mem : Memory) (q : priority_queue_t) (pos child : Nat)
    (below : Nat → Except String Bool) (hp : Placed mem q.d q.size) (h1 : 1 ≤ pos)
    (h2 : pos < child) (h3 : child < q.size) :
    childIsValid mem q pos child below
      = if keyAt mem q.d child < keyAt mem q.d pos then .ok false else below child := by
  obtain ⟨a, ta, e1, e2, e3⟩ := keyAt_placed mem q.d q.size pos hp h1 (by omega)
  obtain ⟨c, tc, f1, f2, f3⟩ := keyAt_placed mem q.d q.size child hp (by omega) h3
  unfold childIsValid
  simp only [h3, if_true, cell_of q pos a e1, getpri_of mem a ta e2, cell_of q child c f1,
    getpri_of mem c tc f2, e3, f3, cmppri, gt_iff_lt, decide_eq_true_eq]

theorem childIsValid_out (mem : Memory) (q : priority_queue_t) (pos child : Nat)
    (below : Nat → Except String Bool) (h3 : ¬ child < q.size) :
    childIsValid mem q pos child below = .ok true := by
  unfold childIsValid
  rw [if_neg h3]

/-- What `subtree_is_valid` has tested when it returns true. -/
theorem subtree_true (mem : Memory) (q : priority_queue_t) (fuel pos : Nat)
    (hp : Placed mem q.d q.size) (h1 : 1 ≤ pos)
    (hv : subtree_is_valid mem q (fuel + 1) pos = .ok true) :
    2 * pos + 1 < 2 ^ 31 ∧
    ∀ c, c / 2 = pos → c < q.size →
      keyAt mem q.d pos ≤ keyAt mem q.d c ∧ subtree_is_valid mem q fuel c = .ok true := by
  rw [subtree_is_valid] at hv
  cases hl : intChild pos 0 with
  | error e => simp [hl] at hv
  | ok l =>
    obtain ⟨hl1, hl2⟩ := intChild_ok pos 0 l hl
    simp only [hl] at hv
    cases hcl : childIsValid mem q pos l (subtree_is_valid mem q fuel) with
    | error e => simp [hcl] at hv
    | ok b =>
      cases b with
      | false => simp [hcl] at hv
      | true =>
        simp only [hcl] at hv
        cases hr : intChild pos 1 with
        | error e => simp [hr] at hv
        | ok r =>
          obtain ⟨hr1, hr2⟩ := intChild_ok pos 1 r hr
          simp only [hr] at hv
          refine ⟨hr2, ?_⟩
          intro c hc hcs
          have hcc : c = l ∨ c = r := by omega
          rcases hcc with e | e
          · subst e
            rw [childIsValid_eq mem q pos c _ hp h1 (by omega) hcs] at hcl
            by_cases hk : keyAt mem q.d c < keyAt mem q.d pos
            · rw [if_pos hk] at hcl
              cases hcl
            · rw [if_neg hk] at hcl
              exact ⟨by omega, hcl⟩
          · subst e
            rw [childIsValid_eq mem q pos c _ hp h1 (by omega) hcs] at hv
            by_cases hk : keyAt mem q.d c < keyAt mem q.d pos
            · rw [if_pos hk] at hv
              cases hv
            · rw [if_neg hk] at hv
              exact ⟨by omega, hv⟩

/-- When `priority_queue_is_valid` returns true, every cell of the queue has
been visited: the array is in heap order, and the indices are in the range of
`int`. -/
theorem heapOrder_of_valid (mem : Memory) (q : priority_queue_t)
    (hp : Placed mem q.d q.size) (hv : priority_queue_is_valid mem q = .ok true) :
    HeapOrder (keyAt mem q.d) q.size ∧ q.size ≤ 2 ^ 30 := by
  have key : ∀ j, 1 ≤ j → j < q.size →
      (∃ f, subtree_is_valid mem q (f + 1) j = .ok true) ∧
      (2 ≤ j → keyAt mem q.d (j / 2) ≤ keyAt mem q.d j) := by
    intro j
    induction j using Nat.strong_induction_on with
    | _ j ih =>
      intro hj hjs
      by_cases h1 : j = 1
      · subst h1
        unfold priority_queue_is_valid at hv
        obtain ⟨f, hf⟩ : ∃ f, q.size = f + 1 := ⟨q.size - 1, by omega⟩
        rw [hf] at hv
        exact ⟨⟨f, hv⟩, fun h => by omega⟩
      · obtain ⟨⟨f, hf⟩, -⟩ := ih (j / 2) (by omega) (by omega) (by omega)
        obtain ⟨-, hsub⟩ := subtree_true mem q f (j / 2) hp (by omega) hf
        obtain ⟨g1, g2⟩ := hsub j rfl hjs
        cases f with
        | zero => simp [subtree_is_valid] at g2
        | succ f => exact ⟨⟨f, g2⟩, fun _ => g1⟩
  refine ⟨fun j hj hjs => (key j (by omega) hjs).2 hj, ?_⟩
  by_cases h1 : q.size ≤ 1
  · omega
  · obtain ⟨⟨f, hf⟩, -⟩ := key (q.size - 1) (by omega) (by omega)
    have := (subtree_true mem q f (q.size - 1) hp (by omega) hf).1
    omega

/-- On an array in heap order, `subtree_is_valid` returns true. -/
theorem subtree_of_heapOrder (mem : Memory) (q : priority_queue_t)
    (hp : Placed mem q.d q.size) (hk : HeapOrder (keyAt mem q.d) q.size)
    (hb : q.size ≤ 2 ^ 30) :
    ∀ (fuel pos : Nat), 1 ≤ pos → pos < 2 ^ 30 → pos ≤ q.size → q.size < fuel + pos →
      subtree_is_valid mem q fuel pos = .ok true := by
  intro fuel
  induction fuel with
  | zero =>
    intro pos h1 h2 h3 h4
    omega
  | succ fuel ih =>
    intro pos h1 h2 h3 h4
    have hchild : ∀ c, c / 2 = pos →
        childIsValid mem q pos c (subtree_is_valid mem q fuel) = .ok true := by
      intro c hc
      by_cases hcs : c < q.size
      · rw [childIsValid_eq mem q pos c _ hp h1 (by omega) hcs]
        have := hk c (by omega) hcs
        rw [hc] at this
        rw [if_neg (by omega)]
        exact ih c (by omega) (by omega) (by omega) (by omega)
      · exact childIsValid_out mem q pos c _ hcs
    rw [subtree_is_valid]
    simp only [intChild_of pos 0 (by omega), intChild_of pos 1 (by omega)]
    rw [hchild (2 * pos + 0) (by omega), hchild (2 * pos + 1) (by omega)]

theorem valid_of_heapOrder (mem : Memory) (q : priority_queue_t)
    (hp : Placed mem q.d q.size) (hk : HeapOrder (keyAt mem q.d) q.size) (h1 : 1 ≤ q.size)
    (hb : q.size ≤ 2 ^ 30) : priority_queue_is_valid mem q = .ok true :=
  subtree_of_heapOrder mem q hp hk hb q.size 1 (Nat.le_refl _) (by omega) h1 (by omega)

theorem placed_unique (mem : Memory) (d : List Nat) (size : Nat) (hp : Placed mem d size)
    (j j' a : Nat) (hj : 1 ≤ j) (hjs : j < size) (hj' : 1 ≤ j') (hjs' : j' < size)
    (h1 : d[j]? = some a) (h2 : d[j']? = some a) : j = j' := by
  obtain ⟨a1, t1, e1, e2, e3⟩ := hp j hj hjs
  obtain ⟨a2, t2, f1, f2, f3⟩ := hp j' hj' hjs'
  rw [h1] at e1
  rw [h2] at f1
  cases e1
  cases f1
  rw [e2] at f2
  cases f2
  omega

theorem mem_stored (q : priority_queue_t) (x : Nat) : x ∈ stored q ↔ Holds q.d q.size x := by
  unfold stored Holds
  rw [List.mem_iff_getElem?]
  constructor
  · rintro ⟨n, hn⟩
    rw [List.getElem?_drop, List.getElem?_take] at hn
    by_cases h : 1 + n < q.size
    · rw [if_pos h] at hn
      exact ⟨1 + n, by omega, h, hn⟩
    · rw [if_neg h] at hn
      cases hn
  · rintro ⟨j, hj, hjs, hx⟩
    refine ⟨j - 1, ?_⟩
    rw [List.getElem?_drop, List.getElem?_take]
    have : 1 + (j - 1) = j := by omega
    rw [this, if_pos hjs]
    exact hx

theorem nodup_stored (mem : Memory) (q : priority_queue_t) (hp : Placed mem q.d q.size) :
    (stored q).Nodup := by
  rw [List.nodup_iff_getElem?_ne_getElem?]
  intro i j hij hj heq
  unfold stored at hj heq
  have hlen : j < q.size - 1 ∧ j < q.d.length - 1 := by
    simp only [List.length_drop, List.length_take] at hj
    omega
  rw [List.getElem?_drop, List.getElem?_drop, List.getElem?_take, List.getElem?_take,
    if_pos (by omega), if_pos (by omega)] at heq
  obtain ⟨a, t, e1, -⟩ := hp (1 + j) (by omega) (by omega)
  rw [e1] at heq
  have := placed_unique mem q.d q.size hp (1 + i) (1 + j) a (by omega) (by omega) (by omega)
    (by omega) heq e1
  omega

/-- In heap order, no time is less than the one at index 1. -/
theorem root_least (k : Nat → Nat) (size : Nat) (hk : HeapOrder k size) :
    ∀ j, 1 ≤ j → j < size → k 1 ≤ k j := by
  intro j
  induction j using Nat.strong_induction_on with
  | _ j ih =>
    intro hj hjs
    by_cases h1 : j = 1
    · rw [h1]
    · have h2 := ih (j / 2) (by omega) (by omega) (by omega)
      have h3 := hk j (by omega) hjs
      omega

theorem heapOrder_mono (k : Nat → Nat) (size size' : Nat) (hk : HeapOrder k size)
    (h : size' ≤ size) : HeapOrder k size' :=
  fun j hj hjs => hk j hj (by omega)

theorem heapOrder_congr (k k' : Nat → Nat) (size : Nat) (hk : HeapOrder k size)
    (h : ∀ j, 1 ≤ j → j < size → k' j = k j) : HeapOrder k' size := by
  intro j hj hjs
  rw [h j (by omega) hjs, h (j / 2) (by omega) (by omega)]
  exact hk j hj hjs

theorem pred_mod (n : Nat) (h1 : 1 ≤ n) (h2 : n ≤ 2 ^ 30) : (n + 2 ^ 64 - 1) % 2 ^ 64 = n - 1 := by
  have : n + 2 ^ 64 - 1 = (n - 1) + 2 ^ 64 := by omega
  rw [this, Nat.add_mod_right, Nat.mod_eq_of_lt (by omega)]

/-- The last timer of the queue put into the cell `p`, the queue one shorter:
the cells but `p` hold what they held, and the timers are those there were but
the one of the cell `p`. -/
theorem replace_hole (mem : Memory) (q : priority_queue_t) (hw : WellFormedQueue mem q)
    (p last : Nat) (hp1 : 1 ≤ p) (hps : p < q.size)
    (hlast : q.d[q.size - 1]? = some last) :
    Hole mem (q.d.set p last) (q.size - 1) p last ∧
    (q.d.set p last)[p]? = some last ∧
    (∀ j, j ≠ p → keyAt mem (q.d.set p last) j = keyAt mem q.d j) ∧
    keyAt mem (q.d.set p last) p = keyAt mem q.d (q.size - 1) ∧
    (∀ x, Holds (q.d.set p last) (q.size - 1) x ↔ (Holds q.d q.size x ∧ q.d[p]? ≠ some x)) := by
  have hcap : q.size ≤ q.d.length := by rw [← hw.cells]; exact hw.size_le
  have hpl : p < q.d.length := by omega
  obtain ⟨a, t, e1, e2, e3⟩ := hw.placed (q.size - 1) (by omega) (by omega)
  rw [hlast] at e1
  cases e1
  have hsp : (q.d.set p last)[p]? = some last := List.getElem?_set_self hpl
  have hso : ∀ j, j ≠ p → (q.d.set p last)[j]? = q.d[j]? :=
    fun j hj => List.getElem?_set_ne (Ne.symm hj)
  refine ⟨⟨⟨t, e2⟩, ?_⟩, hsp, ?_, ?_, ?_⟩
  · intro j hj hjs hjp
    obtain ⟨b, tb, f1, f2, f3⟩ := hw.placed j hj (by omega)
    refine ⟨b, tb, by rw [hso j hjp]; exact f1, f2, f3, ?_⟩
    intro hb
    subst hb
    have := placed_unique mem q.d q.size hw.placed j (q.size - 1) b hj (by omega) (by omega)
      (by omega) f1 hlast
    omega
  · intro j hj
    unfold keyAt
    rw [hso j hj]
  · rw [keyAt_of mem _ p last hsp, keyAt_of mem q.d _ last hlast]
  · intro x
    constructor
    · rintro ⟨j, hj, hjs, hx⟩
      by_cases e : j = p
      · subst e
        rw [hsp] at hx
        cases hx
        refine ⟨⟨q.size - 1, by omega, by omega, hlast⟩, ?_⟩
        intro hc
        have := placed_unique mem q.d q.size hw.placed j (q.size - 1) last hj (by omega)
          (by omega) (by omega) hc hlast
        omega
      · rw [hso j e] at hx
        refine ⟨⟨j, hj, by omega, hx⟩, ?_⟩
        intro hc
        exact e (placed_unique mem q.d q.size hw.placed j p x hj (by omega) hp1 hps hx hc)
    · rintro ⟨⟨j, hj, hjs, hx⟩, hne⟩
      have hjp : j ≠ p := by
        intro e
        subst e
        exact hne hx
      by_cases e : j = q.size - 1
      · subst e
        rw [hlast] at hx
        cases hx
        exact ⟨p, hp1, by omega, hsp⟩
      · exact ⟨j, hj, by omega, by rw [hso j hjp]; exact hx⟩

/-- The function `percolate_down` after the last timer of the queue has been put into the
cell `p`, when its time is not less than the time above the cell. -/
theorem replace_down (mem : Memory) (q : priority_queue_t) (hw : WellFormedQueue mem q)
    (p last : Nat) (hp1 : 1 ≤ p) (hps : p < q.size)
    (hlast : q.d[q.size - 1]? = some last)
    (hle : 2 ≤ p → p < q.size - 1 → keyAt mem q.d (p / 2) ≤ keyAt mem q.d (q.size - 1)) :
    ∃ mem' d', percolate_down mem { q with size := q.size - 1, d := q.d.set p last } p
        = .ok (mem', { q with size := q.size - 1, d := d' }) ∧
      d'.length = q.d.length ∧ Placed mem' d' (q.size - 1) ∧
      (∀ b, timeAt mem' b = timeAt mem b) ∧ HeapOrder (keyAt mem' d') (q.size - 1) ∧
      (∀ x, Holds d' (q.size - 1) x ↔ (Holds q.d q.size x ∧ q.d[p]? ≠ some x)) := by
  have hcap : q.size ≤ q.d.length := by rw [← hw.cells]; exact hw.size_le
  obtain ⟨hk, hb⟩ := heapOrder_of_valid mem q hw.placed hw.valid
  obtain ⟨g1, g2, g3, g4, g5⟩ := replace_hole mem q hw p last hp1 hps hlast
  have hd : DownOrder (keyAt mem (q.d.set p last)) (q.size - 1) p :=
    downOrder_of_heap (keyAt mem q.d) _ (q.size - 1) p
      (heapOrder_mono _ q.size _ hk (by omega)) hp1 (fun j _ _ h => g3 j h) (by
        intro h2 h3
        rw [g4]
        exact hle h2 h3)
  obtain ⟨mem', d', r1, r2, r3, r4, r5, r6⟩ :=
    percolate_down_spec mem { q with size := q.size - 1, d := q.d.set p last } p last hp1
      (by show p ≤ q.size - 1; omega)
      (by show p < (q.d.set p last).length; rw [List.length_set]; omega)
      (by show q.size - 1 ≤ (q.d.set p last).length; rw [List.length_set]; omega)
      (by show q.size - 1 ≤ 2 ^ 30; omega) g2 g1 hd
  refine ⟨mem', d', r1, ?_, r3, r4, r5, ?_⟩
  · rw [r2]
    exact List.length_set _ _ _
  · intro x
    rw [← g5 x]
    exact r6 x

/-- The function `bubble_up` after the last timer of the queue has been put into the
cell `p`, when its time is less than the time that was there. -/
theorem replace_up (mem : Memory) (q : priority_queue_t) (hw : WellFormedQueue mem q)
    (p last : Nat) (hp1 : 1 ≤ p) (hps : p < q.size - 1)
    (hlast : q.d[q.size - 1]? = some last)
    (hlt : keyAt mem q.d (q.size - 1) < keyAt mem q.d p) :
    ∃ mem' d', bubble_up mem { q with size := q.size - 1, d := q.d.set p last } p
        = .ok (mem', { q with size := q.size - 1, d := d' }) ∧
      d'.length = q.d.length ∧ Placed mem' d' (q.size - 1) ∧
      (∀ b, timeAt mem' b = timeAt mem b) ∧ HeapOrder (keyAt mem' d') (q.size - 1) ∧
      (∀ x, Holds d' (q.size - 1) x ↔ (Holds q.d q.size x ∧ q.d[p]? ≠ some x)) := by
  have hcap : q.size ≤ q.d.length := by rw [← hw.cells]; exact hw.size_le
  obtain ⟨hk, hb⟩ := heapOrder_of_valid mem q hw.placed hw.valid
  obtain ⟨g1, g2, g3, g4, g5⟩ := replace_hole mem q hw p last hp1 (by omega) hlast
  have hu : UpOrder (keyAt mem (q.d.set p last)) (q.size - 1) p :=
    upOrder_of_heap (keyAt mem q.d) _ (q.size - 1) p
      (heapOrder_mono _ q.size _ hk (by omega)) hp1 (fun j _ _ h => g3 j h) (by
        intro c hc hcs hcp
        rw [g4]
        have := hk c hc (by omega)
        rw [hcp] at this
        omega)
  obtain ⟨mem', d', r1, r2, r3, r4, r5, r6⟩ :=
    bubble_up_spec mem { q with size := q.size - 1, d := q.d.set p last } p last hp1
      (by show p < q.size - 1; omega)
      (by show q.size - 1 ≤ (q.d.set p last).length; rw [List.length_set]; omega) g2 g1 hu
  refine ⟨mem', d', r1, ?_, r3, r4, r5, ?_⟩
  · rw [r2]
    exact List.length_set _ _ _
  · intro x
    rw [← g5 x]
    exact r6 x

/-- The parts of a well-formed queue. -/
theorem wellFormed_of (mem : Memory) (q : priority_queue_t) (h1 : 1 ≤ q.size)
    (h2 : q.size ≤ q.avail) (h3 : q.avail = q.d.length) (h4 : 1 ≤ q.step)
    (h5 : Placed mem q.d q.size) (h6 : HeapOrder (keyAt mem q.d) q.size)
    (h7 : q.size ≤ 2 ^ 30) : WellFormedQueue mem q :=
  ⟨h1, h2, h3, h4, h5, valid_of_heapOrder mem q h5 h6 h1 h7⟩

theorem pop_spec (mem : Memory) (q : priority_queue_t) (hw : WellFormedQueue mem q)
    (h2 : 2 ≤ q.size) :
    ∃ head mem' q', q.d[1]? = some head ∧
      priority_queue_pop mem (some q) = .ok (mem', some q', some head) ∧
      WellFormedQueue mem' q' ∧ q'.size = q.size - 1 ∧
      (∀ b, timeAt mem' b = timeAt mem b) ∧
      (∀ x, Holds q'.d q'.size x ↔ (Holds q.d q.size x ∧ x ≠ head)) ∧
      (∀ x, Holds q.d q.size x → timeAt mem head ≤ timeAt mem x) := by
  have hcap : q.size ≤ q.d.length := by rw [← hw.cells]; exact hw.size_le
  obtain ⟨hk, hb⟩ := heapOrder_of_valid mem q hw.placed hw.valid
  obtain ⟨head, th, e1, e2, e3⟩ := hw.placed 1 (Nat.le_refl _) (by omega)
  obtain ⟨last, tl, f1, f2, f3⟩ := hw.placed (q.size - 1) (by omega) (by omega)
  obtain ⟨mem', d', r1, r2, r3, r4, r5, r6⟩ :=
    replace_down mem q hw 1 last (Nat.le_refl _) (by omega) f1 (fun h => by omega)
  refine ⟨head, mem', { q with size := q.size - 1, d := d' }, e1, ?_, ?_, rfl, r4, ?_, ?_⟩
  · have hne : ¬ q.size = 1 := by omega
    have hc1 : cell ({ q with size := q.size - 1 } : priority_queue_t) (q.size - 1)
        = .ok last := cell_of _ _ last f1
    have hs1 : setCell ({ q with size := q.size - 1 } : priority_queue_t) 1 last
        = .ok { q with size := q.size - 1, d := q.d.set 1 last } :=
      setCell_of _ 1 last (by show 1 < q.d.length; omega)
    simp only [priority_queue_pop, hne, if_false, cell_of q 1 head e1,
      pred_mod q.size hw.size_pos hb, hc1, hs1, r1]
  · exact wellFormed_of mem' _ (by show 1 ≤ q.size - 1; omega)
      (by show q.size - 1 ≤ q.avail; have := hw.size_le; omega)
      (by show q.avail = d'.length; rw [r2]; exact hw.cells) hw.step_pos r3 r5
      (by show q.size - 1 ≤ 2 ^ 30; omega)
  · intro x
    rw [r6 x]
    constructor
    · rintro ⟨g1, g2⟩
      exact ⟨g1, fun e => g2 (by rw [e]; exact e1)⟩
    · rintro ⟨g1, g2⟩
      exact ⟨g1, fun e => g2 (by rw [e1] at e; cases e; rfl)⟩
  · rintro x ⟨j, hj, hjs, hx⟩
    have := root_least _ q.size hk j hj hjs
    rw [keyAt_of mem q.d 1 head e1, keyAt_of mem q.d j x hx] at this
    exact this

theorem remove_spec (mem : Memory) (q : priority_queue_t) (hw : WellFormedQueue mem q)
    (d p : Nat) (hp1 : 1 ≤ p) (hps : p < q.size) (hd : q.d[p]? = some d) :
    ∃ mem' q', priority_queue_remove mem q d = .ok (mem', q', 0) ∧
      WellFormedQueue mem' q' ∧ q'.size = q.size - 1 ∧
      (∀ b, timeAt mem' b = timeAt mem b) ∧
      (∀ x, Holds q'.d q'.size x ↔ (Holds q.d q.size x ∧ x ≠ d)) := by
  have hcap : q.size ≤ q.d.length := by rw [← hw.cells]; exact hw.size_le
  obtain ⟨hk, hb⟩ := heapOrder_of_valid mem q hw.placed hw.valid
  obtain ⟨d', td, e1, e2, e3⟩ := hw.placed p hp1 hps
  rw [hd] at e1
  cases e1
  obtain ⟨last, tl, f1, f2, f3⟩ := hw.placed (q.size - 1) (by omega) (by omega)
  have hkp : keyAt mem q.d p = td.time := by
    rw [keyAt_of mem q.d p d hd, timeAt_of mem d td e2]
  have hkl : keyAt mem q.d (q.size - 1) = tl.time := by
    rw [keyAt_of mem q.d _ last f1, timeAt_of mem last tl f2]
  have hc1 : cell ({ q with size := q.size - 1 } : priority_queue_t) (q.size - 1)
      = .ok last := cell_of _ _ last f1
  have hs1 : setCell ({ q with size := q.size - 1 } : priority_queue_t) p last
      = .ok { q with size := q.size - 1, d := q.d.set p last } :=
    setCell_of _ p last (by show p < q.d.length; omega)
  have hc2 : cell ({ q with size := q.size - 1, d := q.d.set p last } : priority_queue_t) p
      = .ok last := cell_of _ _ last (List.getElem?_set_self (by omega))
  have hpos : getpos mem d = .ok p := by rw [getpos_of mem d td e2, e3]
  have hfin : ∀ mem' d', d'.length = q.d.length → Placed mem' d' (q.size - 1) →
      HeapOrder (keyAt mem' d') (q.size - 1) →
      (∀ x, Holds d' (q.size - 1) x ↔ (Holds q.d q.size x ∧ q.d[p]? ≠ some x)) →
      WellFormedQueue mem' { q with size := q.size - 1, d := d' } ∧
      (∀ x, Holds d' (q.size - 1) x ↔ (Holds q.d q.size x ∧ x ≠ d)) := by
    intro mem' d' r2 r3 r5 r6
    refine ⟨wellFormed_of mem' _ (by show 1 ≤ q.size - 1; omega)
      (by show q.size - 1 ≤ q.avail; have := hw.size_le; omega)
      (by show q.avail = d'.length; rw [r2]; exact hw.cells) hw.step_pos r3 r5
      (by show q.size - 1 ≤ 2 ^ 30; omega), ?_⟩
    intro x
    rw [r6 x]
    constructor
    · rintro ⟨g1, g2⟩
      exact ⟨g1, fun e => g2 (by rw [e]; exact hd)⟩
    · rintro ⟨g1, g2⟩
      exact ⟨g1, fun e => g2 (by rw [hd] at e; cases e; rfl)⟩
  by_cases hcmp : cmppri td.time tl.time = true
  · have hlt : tl.time < td.time := by simpa [cmppri] using hcmp
    have hps' : p < q.size - 1 := by
      by_contra hc
      have : p = q.size - 1 := by omega
      rw [this, hkl] at hkp
      omega
    obtain ⟨mem', d', r1, r2, r3, r4, r5, r6⟩ :=
      replace_up mem q hw p last hp1 hps' f1 (by rw [hkp, hkl]; exact hlt)
    obtain ⟨w1, w2⟩ := hfin mem' d' r2 r3 r5 r6
    refine ⟨mem', { q with size := q.size - 1, d := d' }, ?_, w1, rfl, r4, w2⟩
    simp only [priority_queue_remove, hpos, pred_mod q.size hw.size_pos hb, hc1, hs1,
      getpri_of mem d td e2, hc2, getpri_of mem last tl f2, hcmp, if_true, r1]
  · have hle : td.time ≤ tl.time := by simpa [cmppri] using hcmp
    obtain ⟨mem', d', r1, r2, r3, r4, r5, r6⟩ :=
      replace_down mem q hw p last hp1 hps f1 (by
        intro h2 h3
        have := hk p h2 hps
        rw [hkp] at this
        rw [hkl]
        omega)
    obtain ⟨w1, w2⟩ := hfin mem' d' r2 r3 r5 r6
    refine ⟨mem', { q with size := q.size - 1, d := d' }, ?_, w1, rfl, r4, w2⟩
    simp only [priority_queue_remove, hpos, pred_mod q.size hw.size_pos hb, hc1, hs1,
      getpri_of mem d td e2, hc2, getpri_of mem last tl f2, hcmp, r1]
    rfl

theorem timeAt_setpri (mem : Memory) (d new_pri : Nat) (t : hlt_timer)
    (h : mem[d]? = some t) :
    timeAt (mem.set d { t with time := new_pri }) d = new_pri ∧
    ∀ b, b ≠ d → timeAt (mem.set d { t with time := new_pri }) b = timeAt mem b := by
  have hl : d < mem.length := (List.getElem?_eq_some.mp h).1
  refine ⟨?_, ?_⟩
  · unfold timeAt
    rw [List.getElem?_set_self hl]
  · intro b hb
    unfold timeAt
    rw [List.getElem?_set_ne (Ne.symm hb)]

theorem change_priority_spec (mem : Memory) (q : priority_queue_t)
    (hw : WellFormedQueue mem q) (d p new_pri : Nat) (hp1 : 1 ≤ p) (hps : p < q.size)
    (hd : q.d[p]? = some d) :
    ∃ mem' q', priority_queue_change_priority mem q new_pri d = .ok (mem', q') ∧
      WellFormedQueue mem' q' ∧ q'.size = q.size ∧ timeAt mem' d = new_pri ∧
      (∀ b, b ≠ d → timeAt mem' b = timeAt mem b) ∧
      (∀ x, Holds q'.d q'.size x ↔ Holds q.d q.size x) := by
  have hcap : q.size ≤ q.d.length := by rw [← hw.cells]; exact hw.size_le
  obtain ⟨hk, hb⟩ := heapOrder_of_valid mem q hw.placed hw.valid
  obtain ⟨d', td, e1, e2, e3⟩ := hw.placed p hp1 hps
  rw [hd] at e1
  cases e1
  have hdl : d < mem.length := (List.getElem?_eq_some.mp e2).1
  have hkp : keyAt mem q.d p = td.time := by
    rw [keyAt_of mem q.d p d hd, timeAt_of mem d td e2]
  obtain ⟨t1, t2⟩ := timeAt_setpri mem d new_pri td e2
  have hm1 : (mem.set d { td with time := new_pri })[d]? = some { td with time := new_pri } :=
    List.getElem?_set_self hdl
  have hother : ∀ j, 1 ≤ j → j < q.size → j ≠ p →
      ∃ a t, q.d[j]? = some a ∧ (mem.set d { td with time := new_pri })[a]? = some t ∧
        mem[a]? = some t ∧ t.queue_pos = j ∧ a ≠ d := by
    intro j hj hjs hjp
    obtain ⟨a, t, f1, f2, f3⟩ := hw.placed j hj hjs
    have had : a ≠ d := by
      intro e
      subst e
      exact hjp (placed_unique mem q.d q.size hw.placed j p a hj hjs hp1 hps f1 hd)
    exact ⟨a, t, f1, by rw [List.getElem?_set_ne (Ne.symm had)]; exact f2, f2, f3, had⟩
  have hhole : Hole (mem.set d { td with time := new_pri }) q.d q.size p d := by
    refine ⟨⟨_, hm1⟩, ?_⟩
    intro j hj hjs hjp
    obtain ⟨a, t, f1, f2, -, f3, f4⟩ := hother j hj hjs hjp
    exact ⟨a, t, f1, f2, f3, f4⟩
  have hsame : ∀ j, 1 ≤ j → j < q.size → j ≠ p →
      keyAt (mem.set d { td with time := new_pri }) q.d j = keyAt mem q.d j := by
    intro j hj hjs hjp
    obtain ⟨a, t, f1, -, -, -, f4⟩ := hother j hj hjs hjp
    rw [keyAt_of _ q.d j a f1, keyAt_of mem q.d j a f1, t2 a f4]
  have hkp' : keyAt (mem.set d { td with time := new_pri }) q.d p = new_pri := by
    rw [keyAt_of _ q.d p d hd, t1]
  have hpos : getpos (mem.set d { td with time := new_pri }) d = .ok p := by
    rw [getpos_of _ d _ hm1]
    exact congrArg Except.ok e3
  have hpri : setpri mem d new_pri = .ok (mem.set d { td with time := new_pri }) := by
    simp [setpri, e2]
  have hfin : ∀ mem' d', d'.length = q.d.length → Placed mem' d' q.size →
      HeapOrder (keyAt mem' d') q.size →
      (∀ b, timeAt mem' b = timeAt (mem.set d { td with time := new_pri }) b) →
      WellFormedQueue mem' { q with d := d' } ∧ timeAt mem' d = new_pri ∧
      (∀ b, b ≠ d → timeAt mem' b = timeAt mem b) := by
    intro mem' d' r2 r3 r5 r4
    refine ⟨wellFormed_of mem' _ hw.size_pos hw.size_le
      (by show q.avail = d'.length; rw [r2]; exact hw.cells) hw.step_pos r3 r5 hb, ?_, ?_⟩
    · rw [r4 d, t1]
    · intro b hbd
      rw [r4 b, t2 b hbd]
  by_cases hcmp : cmppri td.time new_pri = true
  · have hlt : new_pri < td.time := by simpa [cmppri] using hcmp
    have hu : UpOrder (keyAt (mem.set d { td with time := new_pri }) q.d) q.size p :=
      upOrder_of_heap (keyAt mem q.d) _ q.size p hk hp1 hsame (by
        intro c hc hcs hcp
        rw [hkp']
        have := hk c hc hcs
        rw [hcp, hkp] at this
        omega)
    obtain ⟨mem', d', r1, r2, r3, r4, r5, r6⟩ :=
      bubble_up_spec _ q p d hp1 hps hcap hd hhole hu
    obtain ⟨w1, w2, w3⟩ := hfin mem' d' r2 r3 r5 r4
    refine ⟨mem', { q with d := d' }, ?_, w1, rfl, w2, w3, r6⟩
    simp only [priority_queue_change_priority, getpri_of mem d td e2, hpri, hpos, hcmp,
      if_true, r1]
  · have hle : td.time ≤ new_pri := by simpa [cmppri] using hcmp
    have hdn : DownOrder (keyAt (mem.set d { td with time := new_pri }) q.d) q.size p :=
      downOrder_of_heap (keyAt mem q.d) _ q.size p hk hp1 hsame (by
        intro h2 h3
        rw [hkp']
        have := hk p h2 hps
        rw [hkp] at this
        omega)
    obtain ⟨mem', d', r1, r2, r3, r4, r5, r6⟩ :=
      percolate_down_spec _ q p d hp1 (by omega) (by omega) hcap hb hd hhole hdn
    obtain ⟨w1, w2, w3⟩ := hfin mem' d' r2 r3 r5 r4
    refine ⟨mem', { q with d := d' }, ?_, w1, rfl, w2, w3, r6⟩
    simp only [priority_queue_change_priority, getpri_of mem d td e2, hpri, hpos, hcmp, r1]
    rfl

theorem allocCells_spec (d : List Nat) (n : Nat) (h : n < 2 ^ 61) :
    (allocCells d ((8 * n) % 2 ^ 64)).length = n ∧
    ∀ j, j < n → j < d.length → (allocCells d ((8 * n) % 2 ^ 64))[j]? = d[j]? := by
  have e : (8 * n) % 2 ^ 64 / 8 = n := by
    rw [Nat.mod_eq_of_lt (by omega)]
    omega
  unfold allocCells
  rw [e]
  refine ⟨?_, ?_⟩
  · simp
  · intro j hj hjd
    rw [List.getElem?_take, if_pos hj, List.getElem?_append_left hjd]

theorem init_spec (mem : Memory) (n : Nat) (h : n + 1 < 2 ^ 61) :
    ∃ q, priority_queue_init true n = some q ∧ WellFormedQueue mem q ∧
      priority_queue_size q = 0 ∧ q.avail = n + 1 ∧ ∀ x, ¬ Holds q.d q.size x := by
  have hn1 : (n + 1) % 2 ^ 64 = n + 1 := Nat.mod_eq_of_lt (by omega)
  have hmul : (n + 1) * 8 = 8 * (n + 1) := by omega
  obtain ⟨a1, -⟩ := allocCells_spec [] (n + 1) h
  refine ⟨⟨1, n + 1, n + 1, allocCells [] ((8 * (n + 1)) % 2 ^ 64)⟩, ?_, ?_, ?_, rfl, ?_⟩
  · simp only [priority_queue_init, sizeofPtr, Bool.not_true, Bool.false_eq_true, if_false, hn1,
      hmul]
  · refine wellFormed_of mem _ (Nat.le_refl _) (by show 1 ≤ n + 1; omega)
      (by show n + 1 = _; rw [a1]) (by show 1 ≤ n + 1; omega) ?_ ?_ (by show 1 ≤ 2 ^ 30; omega)
    · intro j hj hjs
      have : j < 1 := hjs
      omega
    · intro j hj hjs
      have : j < 1 := hjs
      omega
  · show (1 + 2 ^ 64 - 1) % 2 ^ 64 = 0
    norm_num
  · rintro x ⟨j, hj, hjs, -⟩
    have : j < 1 := hjs
    omega

/-- The allocation step of `priority_queue_insert` leaves room for one more
timer. -/
theorem grow_spec (alloc : Bool) (mem : Memory) (q : priority_queue_t)
    (hw : WellFormedQueue mem q) (hstep : q.size + q.step < 2 ^ 61)
    (halloc : alloc = true ∨ q.size < q.avail) :
    ∃ dg, grow alloc q = some { q with d := dg, avail := dg.length } ∧ q.size < dg.length ∧
      ∀ j, j < q.size → dg[j]? = q.d[j]? := by
  have hcap : q.size ≤ q.d.length := by rw [← hw.cells]; exact hw.size_le
  unfold grow
  by_cases h : q.size ≥ q.avail
  · have ha : alloc = true := by
      rcases halloc with e | e
      · exact e
      · omega
    have hmod : (q.size + q.step) % 2 ^ 64 = q.size + q.step := Nat.mod_eq_of_lt (by omega)
    obtain ⟨a1, a2⟩ := allocCells_spec q.d (q.size + q.step) hstep
    refine ⟨allocCells q.d ((8 * (q.size + q.step)) % 2 ^ 64), ?_, ?_, ?_⟩
    · simp only [h, if_true, ha, Bool.not_true, Bool.false_eq_true, if_false, hmod, sizeofPtr, a1]
    · rw [a1]
      have := hw.step_pos
      omega
    · intro j hj
      have := hw.step_pos
      exact a2 j (by omega) (by omega)
  · refine ⟨q.d, ?_, ?_, fun _ _ => rfl⟩
    · rw [if_neg h, ← hw.cells]
    · rw [← hw.cells]
      omega

theorem priority_queue_insert_spec (alloc : Bool) (mem : Memory) (q : priority_queue_t)
    (hw : WellFormedQueue mem q) (d : Nat) (t : hlt_timer) (hd : mem[d]? = some t)
    (hnew : ¬ Holds q.d q.size d) (hsmall : q.size < 2 ^ 30) (hstep : q.size + q.step < 2 ^ 61)
    (halloc : alloc = true ∨ q.size < q.avail) :
    ∃ mem' q', priority_queue_insert alloc mem (some q) d = .ok (mem', some q', 0) ∧
      WellFormedQueue mem' q' ∧ q'.size = q.size + 1 ∧
      (∀ b, timeAt mem' b = timeAt mem b) ∧
      (∀ x, Holds q'.d q'.size x ↔ (x = d ∨ Holds q.d q.size x)) := by
  have hcap : q.size ≤ q.d.length := by rw [← hw.cells]; exact hw.size_le
  obtain ⟨hk, hb⟩ := heapOrder_of_valid mem q hw.placed hw.valid
  obtain ⟨dg, g1, g2, g3⟩ := grow_spec alloc mem q hw hstep halloc
  have hself : (dg.set q.size d)[q.size]? = some d := List.getElem?_set_self g2
  have hoth : ∀ j, j < q.size → (dg.set q.size d)[j]? = q.d[j]? := by
    intro j hj
    rw [List.getElem?_set_ne (by omega), g3 j hj]
  have hhole : Hole mem (dg.set q.size d) (q.size + 1) q.size d := by
    refine ⟨⟨t, hd⟩, ?_⟩
    intro j hj hjs hjn
    obtain ⟨a, ta, f1, f2, f3⟩ := hw.placed j hj (by omega)
    refine ⟨a, ta, by rw [hoth j (by omega)]; exact f1, f2, f3, ?_⟩
    intro e
    subst e
    exact hnew ⟨j, hj, by omega, f1⟩
  have hkey : ∀ j, j < q.size → keyAt mem (dg.set q.size d) j = keyAt mem q.d j := by
    intro j hj
    unfold keyAt
    rw [hoth j hj]
  have hu : UpOrder (keyAt mem (dg.set q.size d)) (q.size + 1) q.size := by
    refine ⟨?_, ?_⟩
    · intro j hj hjs hjn
      rw [hkey j (by omega), hkey (j / 2) (by omega)]
      exact hk j hj (by omega)
    · intro c h2 hcs hc
      omega
  obtain ⟨mem', d', r1, r2, r3, r4, r5, r6⟩ :=
    bubble_up_spec mem { q with d := dg.set q.size d, avail := dg.length, size := q.size + 1 }
      q.size d hw.size_pos (by show q.size < q.size + 1; omega)
      (by show q.size + 1 ≤ (dg.set q.size d).length; rw [List.length_set]; omega)
      hself hhole hu
  have hlen : d'.length = dg.length := by
    rw [r2]
    exact List.length_set _ _ _
  refine ⟨mem', { q with d := d', avail := dg.length, size := q.size + 1 }, ?_, ?_, rfl, r4, ?_⟩
  · have hs1 : setCell ({ q with d := dg, avail := dg.length, size := q.size + 1 } :
        priority_queue_t) q.size d
        = .ok { q with d := dg.set q.size d, avail := dg.length, size := q.size + 1 } :=
      setCell_of _ q.size d g2
    simp only [priority_queue_insert, g1, succ_mod q.size (by omega), hs1, r1]
  · exact wellFormed_of mem' _ (by show 1 ≤ q.size + 1; omega)
      (by show q.size + 1 ≤ dg.length; omega) (by show dg.length = d'.length; rw [hlen])
      hw.step_pos r3 r5 (by show q.size + 1 ≤ 2 ^ 30; omega)
  · intro x
    have r6' : Holds d' (q.size + 1) x ↔ Holds (dg.set q.size d) (q.size + 1) x := r6 x
    show Holds d' (q.size + 1) x ↔ _
    rw [r6']
    constructor
    · rintro ⟨j, hj, hjs, hx⟩
      by_cases e : j = q.size
      · subst e
        rw [hself] at hx
        cases hx
        exact Or.inl rfl
      · have hx' : (dg.set q.size d)[j]? = some x := hx
        rw [hoth j (by omega)] at hx'
        exact Or.inr ⟨j, hj, by omega, hx'⟩
    · rintro (e | ⟨j, hj, hjs, hx⟩)
      · subst e
        exact ⟨q.size, hw.size_pos, by omega, hself⟩
      · exact ⟨j, hj, by omega, by show (dg.set q.size d)[j]? = some x; rw [hoth j hjs]; exact hx⟩

theorem size_spec (mem : Memory) (q : priority_queue_t) (hw : WellFormedQueue mem q) :
    priority_queue_size q = q.size - 1 :=
  pred_mod q.size hw.size_pos (heapOrder_of_valid mem q hw.placed hw.valid).2

/-- Popping a well-formed queue until it is empty returns its timers, each one
once, in the order of their times. -/
theorem popAll_spec : ∀ (n : Nat) (mem : Memory) (q : priority_queue_t),
    WellFormedQueue mem q → q.size = n + 1 →
    ∃ mem' q' out, popAll n mem q = some (.ok (mem', q', out)) ∧ q'.size = 1 ∧
      WellFormedQueue mem' q' ∧ (∀ x, x ∈ out ↔ Holds q.d q.size x) ∧ out.Nodup ∧
      (out.map (timeAt mem)).Sorted (fun a b => a ≤ b) ∧ (∀ b, timeAt mem' b = timeAt mem b) := by
  intro n
  induction n with
  | zero =>
    intro mem q hw hs
    refine ⟨mem, q, [], ?_, hs, hw, ?_, List.nodup_nil, List.sorted_nil, fun _ => rfl⟩
    · have h1 : q.size = 1 := hs
      rw [popAll]
      simp only [priority_queue_pop, h1, if_true]
    · intro x
      constructor
      · intro h
        cases h
      · rintro ⟨j, hj, hjs, -⟩
        omega
  | succ n ih =>
    intro mem q hw hs
    obtain ⟨head, mem1, q1, e1, e2, e3, e4, e5, e6, e7⟩ := pop_spec mem q hw (by omega)
    obtain ⟨mem', q', out, r1, r2, r3, r4, r5, r6, r7⟩ := ih mem1 q1 e3 (by omega)
    have hfun : timeAt mem1 = timeAt mem := funext e5
    refine ⟨mem', q', head :: out, ?_, r2, r3, ?_, ?_, ?_, ?_⟩
    · rw [popAll]
      simp only [e2, r1]
    · intro x
      rw [List.mem_cons, r4 x, e6 x]
      constructor
      · rintro (e | ⟨h, -⟩)
        · rw [e]
          exact ⟨1, Nat.le_refl _, by omega, e1⟩
        · exact h
      · intro h
        by_cases e : x = head
        · exact Or.inl e
        · exact Or.inr ⟨h, e⟩
    · rw [List.nodup_cons]
      refine ⟨?_, r5⟩
      intro h
      exact ((e6 head).mp ((r4 head).mp h)).2 rfl
    · rw [List.map_cons, List.sorted_cons]
      refine ⟨?_, ?_⟩
      · intro b hb
        obtain ⟨x, hx, rfl⟩ := List.mem_map.mp hb
        exact e7 x ((e6 x).mp ((r4 x).mp hx)).1
      · rw [← hfun]
        exact r6
    · intro b
      rw [r7 b, e5 b]

theorem sampleQueue_wellFormed : WellFormedQueue sampleMemory sampleQueue :=
  { size_pos := by decide
    size_le := by decide
    cells := rfl
    step_pos := by decide
    placed := by
      intro j hj hjs
      have hj3 : j < 3 := hjs
      have : j = 1 ∨ j = 2 := by omega
      rcases this with e | e
      · subst e
        exact ⟨0, _, rfl, rfl, rfl⟩
      · subst e
        exact ⟨1, _, rfl, rfl, rfl⟩
    valid := by decide }

/-- C23: a priority queue is well-formed after `priority_queue_init`, with size
0, and a well-formed queue stays well-formed under `priority_queue_insert` of a
timer that is not in it, `priority_queue_pop`, `priority_queue_remove` of a
timer that is in it, the last one included, and
`priority_queue_change_priority` of a timer that is in it; the size goes up by
one, down by one, down by one, and stays. The array is taken to fit into the
address space (fewer than `2 ^ 61` cells), and the queue to have fewer than
`2 ^ 30 - 1` timers before an insert, the positions being `int` in
`priority_queue_is_valid`; an insert into a full array needs the allocation to
succeed. -/
theorem queue_stays_wellFormed (mem : Memory) (q : priority_queue_t)
    (hw : WellFormedQueue mem q) :
    (∀ n, n + 1 < 2 ^ 61 →
      ∃ q0, priority_queue_init true n = some q0 ∧ WellFormedQueue mem q0 ∧
        priority_queue_size q0 = 0) ∧
    (∀ alloc d t, mem[d]? = some t → d ∉ stored q → q.size < 2 ^ 30 →
      q.size + q.step < 2 ^ 61 → (alloc = true ∨ q.size < q.avail) →
      ∃ mem' q', priority_queue_insert alloc mem (some q) d = .ok (mem', some q', 0) ∧
        WellFormedQueue mem' q' ∧ priority_queue_size q' = priority_queue_size q + 1) ∧
    (2 ≤ q.size →
      ∃ mem' q' head, priority_queue_pop mem (some q) = .ok (mem', some q', some head) ∧
        WellFormedQueue mem' q' ∧ priority_queue_size q' + 1 = priority_queue_size q) ∧
    (∀ d, d ∈ stored q →
      ∃ mem' q', priority_queue_remove mem q d = .ok (mem', q', 0) ∧
        WellFormedQueue mem' q' ∧ priority_queue_size q' + 1 = priority_queue_size q) ∧
    (∀ d new_pri, d ∈ stored q →
      ∃ mem' q', priority_queue_change_priority mem q new_pri d = .ok (mem', q') ∧
        WellFormedQueue mem' q' ∧ priority_queue_size q' = priority_queue_size q) := by
  refine ⟨?_, ?_, ?_, ?_, ?_⟩
  · intro n hn
    obtain ⟨q0, e1, e2, e3, -⟩ := init_spec mem n hn
    exact ⟨q0, e1, e2, e3⟩
  · intro alloc d t hd hnew hsmall hstep halloc
    obtain ⟨mem', q', e1, e2, e3, -⟩ := priority_queue_insert_spec alloc mem q hw d t hd
      (fun h => hnew ((mem_stored q d).mpr h)) hsmall hstep halloc
    refine ⟨mem', q', e1, e2, ?_⟩
    rw [size_spec mem' q' e2, size_spec mem q hw, e3]
    have := hw.size_pos
    omega
  · intro h2
    obtain ⟨head, mem', q', -, e2, e3, e4, -⟩ := pop_spec mem q hw h2
    refine ⟨mem', q', head, e2, e3, ?_⟩
    rw [size_spec mem' q' e3, size_spec mem q hw, e4]
    omega
  · intro d hd
    obtain ⟨p, hp1, hps, hdp⟩ := (mem_stored q d).mp hd
    obtain ⟨mem', q', e1, e2, e3, -⟩ := remove_spec mem q hw d p hp1 hps hdp
    refine ⟨mem', q', e1, e2, ?_⟩
    rw [size_spec mem' q' e2, size_spec mem q hw, e3]
    omega
  · intro d new_pri hd
    obtain ⟨p, hp1, hps, hdp⟩ := (mem_stored q d).mp hd
    obtain ⟨mem', q', e1, e2, e3, -⟩ := change_priority_spec mem q hw d p new_pri hp1 hps hdp
    refine ⟨mem', q', e1, e2, ?_⟩
    rw [size_spec mem' q' e2, size_spec mem q hw, e3]

/-- C23 (witness): the sample queue with the timers at 0 and 1 is well-formed,
and removing the timer at 1, which is the last one, leaves a well-formed queue
of size 1. -/
theorem queue_stays_wellFormed_witness :
    WellFormedQueue sampleMemory sampleQueue ∧
    ∃ mem' q', priority_queue_remove sampleMemory sampleQueue 1 = .ok (mem', q', 0) ∧
      WellFormedQueue mem' q' ∧ priority_queue_size q' + 1 = priority_queue_size sampleQueue :=
  ⟨sampleQueue_wellFormed,
   (queue_stays_wellFormed sampleMemory sampleQueue sampleQueue_wellFormed).2.2.2.1 1
     (by decide)⟩

/-- C24: on a well-formed queue that is not empty, `priority_queue_peek` and
`priority_queue_pop` return the timer of the first cell, whose time is less than
or equal to the time of every timer in the queue; `pop` leaves the other
timers in the queue, each one once, and changes no time. Popping until the
queue is empty returns the timers that were in it, each one once, in
non-decreasing order of their times, and an insert puts the timer into the
queue next to those that are there. On an empty queue and on a null queue, both
return null and change nothing. -/
theorem pop_returns_least (mem : Memory) (q : priority_queue_t)
    (hw : WellFormedQueue mem q) :
    (2 ≤ q.size →
      ∃ head mem' q', priority_queue_peek (some q) = .ok (some head) ∧
        priority_queue_pop mem (some q) = .ok (mem', some q', some head) ∧
        head ∈ stored q ∧ (∀ x ∈ stored q, timeAt mem head ≤ timeAt mem x) ∧
        (stored q').Perm ((stored q).erase head) ∧ (∀ b, timeAt mem' b = timeAt mem b)) ∧
    (∃ mem' q' out, popAll (q.size - 1) mem q = some (.ok (mem', q', out)) ∧
      out.Perm (stored q) ∧ (out.map (timeAt mem)).Sorted (fun a b => a ≤ b) ∧
      stored q' = []) ∧
    (∀ alloc d t, mem[d]? = some t → d ∉ stored q → q.size < 2 ^ 30 →
      q.size + q.step < 2 ^ 61 → (alloc = true ∨ q.size < q.avail) →
      ∃ mem' q', priority_queue_insert alloc mem (some q) d = .ok (mem', some q', 0) ∧
        (stored q').Perm (d :: stored q) ∧ (∀ b, timeAt mem' b = timeAt mem b)) ∧
    (q.size = 1 →
      priority_queue_peek (some q) = .ok none ∧
      priority_queue_pop mem (some q) = .ok (mem, some q, none)) ∧
    (priority_queue_peek none = .ok none ∧ priority_queue_pop mem none = .ok (mem, none, none)) := by
  refine ⟨?_, ?_, ?_, ?_, ?_⟩
  · intro h2
    obtain ⟨head, mem', q', e1, e2, e3, e4, e5, e6, e7⟩ := pop_spec mem q hw h2
    have hne : ¬ q.size = 1 := by omega
    have hhead : head ∈ stored q := (mem_stored q head).mpr ⟨1, Nat.le_refl _, by omega, e1⟩
    refine ⟨head, mem', q', ?_, e2, hhead, ?_, ?_, e5⟩
    · simp only [priority_queue_peek, hne, if_false, cell_of q 1 head e1]
    · intro x hx
      exact e7 x ((mem_stored q x).mp hx)
    · have hnd := nodup_stored mem q hw.placed
      rw [List.perm_ext_iff_of_nodup (nodup_stored mem' q' e3.placed) (hnd.erase head)]
      intro x
      rw [mem_stored, e6 x, hnd.mem_erase_iff, mem_stored]
      exact and_comm
  · obtain ⟨mem', q', out, r1, r2, r3, r4, r5, r6, r7⟩ :=
      popAll_spec (q.size - 1) mem q hw (by have := hw.size_pos; omega)
    refine ⟨mem', q', out, r1, ?_, r6, ?_⟩
    · rw [List.perm_ext_iff_of_nodup r5 (nodup_stored mem q hw.placed)]
      intro x
      rw [r4 x, mem_stored]
    · unfold stored
      rw [r2]
      cases q'.d with
      | nil => rfl
      | cons a as => rfl
  · intro alloc d t hd hnew hsmall hstep halloc
    obtain ⟨mem', q', e1, e2, e3, e4, e5⟩ := priority_queue_insert_spec alloc mem q hw d t hd
      (fun h => hnew ((mem_stored q d).mpr h)) hsmall hstep halloc
    refine ⟨mem', q', e1, ?_, e4⟩
    rw [List.perm_ext_iff_of_nodup (nodup_stored mem' q' e2.placed)
      (List.nodup_cons.mpr ⟨hnew, nodup_stored mem q hw.placed⟩)]
    intro x
    rw [mem_stored, e5 x, List.mem_cons, mem_stored]
  · intro h1
    refine ⟨?_, ?_⟩
    · simp only [priority_queue_peek, h1, if_true]
    · simp only [priority_queue_pop, h1, if_true]
  · exact ⟨rfl, rfl⟩

/-- C24 (witness): popping the sample queue returns the timer at 0, whose time
3 is the least, and leaves the timer at 1. -/
theorem pop_returns_least_witness :
    WellFormedQueue sampleMemory sampleQueue ∧
    ∃ head mem' q', priority_queue_peek (some sampleQueue) = .ok (some head) ∧
      priority_queue_pop sampleMemory (some sampleQueue) = .ok (mem', some q', some head) ∧
      head ∈ stored sampleQueue ∧
      (∀ x ∈ stored sampleQueue, timeAt sampleMemory head ≤ timeAt sampleMemory x) ∧
      (stored q').Perm ((stored sampleQueue).erase head) ∧
      (∀ b, timeAt mem' b = timeAt sampleMemory b) :=
  ⟨sampleQueue_wellFormed,
   (pop_returns_least sampleMemory sampleQueue sampleQueue_wellFormed).1 (by decide)⟩

end pqueue

/-! ## The argument vector against the signature -/

namespace CodeGen

/-- What the call emitter pushes for an accepted argument fits, entry by entry,
what the adapter pushes for its parameter. -/
theorem fits_argument (coerceTo : Expression → HiltiType → Expression)
    (pairs : List (Parameter × Expression)) (ctx : Value) (excpt hook_result : Option Value)
    (cc : CallingConvention) (p : Parameter) (a : Expression) (cg : CG)
    (hcc : cc = .HILTI ∨ cc = .HOOK ∨ cc = .HILTI_C ∨ cc = .C)
    (hacc : argumentAccepted coerceTo cc p a) (hmem : (p, a) ∈ pairs) :
    ∃ vals sig cg',
      callArgument coerceTo cc p a cg = .ok (vals, cg') ∧
      adaptParameter cc p = .ok sig ∧
      List.Forall₂ (Fits coerceTo pairs ctx excpt hook_result) sig vals ∧ Frame cg cg' := by
  rcases hcc with h | h | h | h <;> subst h
  · have : (coerceTo a p.2).type.isTypeType = false := hacc
    exact ⟨[.expr (coerceTo a p.2) p.2 (some false)], [(p.1, llvmType p.2)], cg,
      by simp [callArgument, this], rfl,
      List.Forall₂.cons (Fits.value p a _ hmem) List.Forall₂.nil, Frame.refl cg⟩
  · have : (coerceTo a p.2).type.isTypeType = false := hacc
    exact ⟨[.expr (coerceTo a p.2) p.2 (some false)], [(p.1, llvmType p.2)], cg,
      by simp [callArgument, this], rfl,
      List.Forall₂.cons (Fits.value p a _ hmem) List.Forall₂.nil, Frame.refl cg⟩
  · cases hp : p.2.isTypeType
    · obtain ⟨h1, h2⟩ := callArgument_boundaryC coerceTo p a cg hacc hp
      cases hpti : (typeInfo p.2).pass_type_info
      · obtain ⟨k1, k2⟩ := h2 hpti
        exact ⟨_, _, cg, k2, k1,
          List.Forall₂.cons (Fits.value p a _ hmem) List.Forall₂.nil, Frame.refl cg⟩
      · obtain ⟨k1, cg', k2, k3, k4⟩ := h1 hpti
        exact ⟨_, _, cg', k2, k1,
          List.Forall₂.cons (Fits.typeInfo p a _ hmem)
            (List.Forall₂.cons (Fits.pointer p a _ hmem) List.Forall₂.nil), k4⟩
    · have hty : (coerceTo a p.2).type.isTypeType = true := by
        have := hacc.1
        rw [hp] at this
        exact this
      have hat : a.type.isTypeType = true := hacc.2 hty
      unfold HiltiType.isTypeType at hat
      cases hin : a.type.typeType with
      | none => simp [hin] at hat
      | some inner =>
        refine ⟨[.rtti inner], [("ti_" ++ p.1, llvmTypePtr (some llvmTypeRtti))], cg,
          ?_, ?_, List.Forall₂.cons (Fits.typeInfo p a _ hmem) List.Forall₂.nil, Frame.refl cg⟩
        · simp only [callArgument, hty, if_true, hin]
        · simp only [adaptParameter, hp, if_true]
  · have : (coerceTo a p.2).type.isTypeType = false := hacc
    exact ⟨[.expr (coerceTo a p.2) p.2 none], [(p.1, llvmType p.2)], cg,
      by simp [callArgument, this], rfl,
      List.Forall₂.cons (Fits.value p a _ hmem) List.Forall₂.nil, Frame.refl cg⟩

/-- What a successful `callArgument` says of its argument: the convention is one
the call emitter handles, and the argument is accepted, given that under
BoundaryC the coercer yields a type value exactly for a type-valued
parameter. -/
theorem argumentAccepted_of_ok (coerceTo : Expression → HiltiType → Expression)
    (cc : CallingConvention) (p : Parameter) (a : Expression) (cg : CG) (r : List Value × CG)
    (h : callArgument coerceTo cc p a cg = .ok r)
    (hco : cc = .HILTI_C → (coerceTo a p.2).type.isTypeType = p.2.isTypeType) :
    (cc = .HILTI ∨ cc = .HOOK ∨ cc = .HILTI_C ∨ cc = .C) ∧ argumentAccepted coerceTo cc p a := by
  cases cc with
  | HILTI =>
    refine ⟨Or.inl rfl, ?_⟩
    show (coerceTo a p.2).type.isTypeType = false
    cases hty : (coerceTo a p.2).type.isTypeType
    · rfl
    · simp [callArgument, hty] at h
  | HOOK =>
    refine ⟨Or.inr (Or.inl rfl), ?_⟩
    show (coerceTo a p.2).type.isTypeType = false
    cases hty : (coerceTo a p.2).type.isTypeType
    · rfl
    · simp [callArgument, hty] at h
  | C =>
    refine ⟨Or.inr (Or.inr (Or.inr rfl)), ?_⟩
    show (coerceTo a p.2).type.isTypeType = false
    cases hty : (coerceTo a p.2).type.isTypeType
    · rfl
    · simp [callArgument, hty] at h
  | HILTI_C =>
    refine ⟨Or.inr (Or.inr (Or.inl rfl)), hco rfl, ?_⟩
    intro hty
    cases hin : a.type.typeType
    · simp [callArgument, hty, hin] at h
    · simp [HiltiType.isTypeType, hin]
  | CALLABLE => simp [callArgument] at h
  | DEFAULT => simp [callArgument] at h

/-- The parameter loops of the call emitter and of the adapter push entries
that fit, one parameter after the other, whenever the loop of the call emitter
comes to its end. -/
theorem fits_arguments_of_ok (coerceTo : Expression → HiltiType → Expression)
    (pairs : List (Parameter × Expression)) (ctx : Value) (excpt hook_result : Option Value)
    (cc : CallingConvention) :
    ∀ (ps : List Parameter) (as : List Expression) (acc : List Value)
      (accS : List NativeParam) (cg : CG) (vals : List Value) (cg1 : CG),
      callArguments coerceTo cc ps as acc cg = .ok (vals, cg1) →
      (∀ x ∈ ps.zip as, x ∈ pairs) →
      (cc = .HILTI_C → ∀ x ∈ ps.zip as,
        (coerceTo x.2 x.1.2).type.isTypeType = x.1.2.isTypeType) →
      List.Forall₂ (Fits coerceTo pairs ctx excpt hook_result) accS acc →
      ∃ sig, adaptParameters cc ps accS = .ok sig ∧
        List.Forall₂ (Fits coerceTo pairs ctx excpt hook_result) sig vals ∧ Frame cg cg1 := by
  intro ps
  induction ps with
  | nil =>
    intro as acc accS cg vals cg1 h _ _ hf
    simp only [callArguments] at h
    cases h
    exact ⟨accS, rfl, hf, Frame.refl _⟩
  | cons p ps ih =>
    intro as acc accS cg vals cg1 h hsub hco hf
    cases as with
    | nil => simp [callArguments] at h
    | cons a as =>
      simp only [callArguments] at h
      cases hc : callArgument coerceTo cc p a cg with
      | error e => simp [hc] at h
      | ok r =>
        obtain ⟨v1, cga⟩ := r
        simp only [hc] at h
        obtain ⟨hcc, hacc⟩ := argumentAccepted_of_ok coerceTo cc p a cg _ hc
          (fun e => hco e (p, a) (by simp))
        obtain ⟨v1', s1, cg1', h1, h2, h3, h4⟩ :=
          fits_argument coerceTo pairs ctx excpt hook_result cc p a cg hcc hacc
            (hsub (p, a) (by simp))
        rw [hc] at h1
        cases h1
        obtain ⟨sig, k1, k2, k3⟩ := ih as (acc ++ v1) (accS ++ s1) cga vals cg1 h
          (fun x hx => hsub x (by simp [hx])) (fun e x hx => hco e x (by simp [hx]))
          (List.rel_append hf h3)
        refine ⟨sig, ?_, k2, h4.trans k3⟩
        rw [adaptParameters, h2]
        exact k1

/-- Making a temporary leaves the execution context in reach as it is. -/
theorem llvmAddTmp_context (name : String) (type : LType) (init : Option (Value × LType))
    (reuse : Bool) (al : Nat) (cg cg' : CG) (tmp : Value)
    (h : llvmAddTmp name type init reuse al cg = .ok (tmp, cg')) :
    llvmExecutionContext cg' = llvmExecutionContext cg := by
  have hs : ∀ (v : Value) (vt : LType) (p : Value) (pt : LType) (c c' : CG),
      llvmCreateStore v vt p pt c = .ok c' →
      c'.context = c.context ∧ c'.arguments = c.arguments := by
    intro v vt p pt c c' hc
    unfold llvmCreateStore at hc
    split at hc
    · split at hc
      · cases hc
      · cases hc
        exact ⟨rfl, rfl⟩
    · cases hc
  have hr : ∀ (n : String) (v : Value) (t : LType) (c : CG),
      (registerTmp n v t c).context = c.context ∧
      (registerTmp n v t c).arguments = c.arguments := by
    intro n v t c
    unfold registerTmp
    split <;> exact ⟨rfl, rfl⟩
  unfold llvmExecutionContext
  unfold llvmAddTmp at h
  simp only at h
  split at h
  · split at h
    · cases h
    · rename_i cg1 hst
      cases h
      rw [(hs _ _ _ _ _ _ hst).1, (hs _ _ _ _ _ _ hst).2]
  · split at h
    · split at h
      · cases h
      · rename_i cg1 hst
        cases h
        rw [(hr _ _ _ _).1, (hr _ _ _ _).2, (hs _ _ _ _ _ _ hst).1, (hs _ _ _ _ _ _ hst).2]
        rfl
    · cases h
      rw [(hr _ _ _ _).1, (hr _ _ _ _).2]
      rfl

/-- The hidden arguments fit the hidden parameters whenever they are as many;
for a hook this is the case exactly when a receiver is given for a result that is
not void. -/
theorem fits_hidden_of_ok (coerceTo : Expression → HiltiType → Expression)
    (pairs : List (Parameter × Expression)) (ftype : FunctionType)
    (hook_result : Option Value) (cg cg' : CG) (hidden : List Value) (excpt : Option Value)
    (hiddenS : List NativeParam)
    (h : hiddenArguments ftype hook_result cg = .ok (hidden, excpt, cg'))
    (hs : hiddenParameters (llvmType ftype.result) ftype.cc false = .ok hiddenS)
    (hlen : hidden.length = hiddenS.length) :
    ∃ ctx, (ftype.cc ≠ .C → llvmExecutionContext cg = .ok ctx) ∧
      List.Forall₂ (Fits coerceTo pairs ctx excpt hook_result) hiddenS hidden ∧
      (ftype.cc = .HOOK → hook_result.isSome = ! (llvmType ftype.result).isVoidTy) := by
  unfold hiddenArguments at h
  unfold hiddenParameters at hs
  cases hcc : ftype.cc with
  | DEFAULT => simp [hcc] at h
  | CALLABLE => simp [hcc] at h
  | C =>
    simp only [hcc] at h hs
    cases h
    cases hs
    exact ⟨llvmConstNull none, fun hne => absurd rfl hne, List.Forall₂.nil,
      fun e => by cases e⟩
  | HILTI =>
    simp only [hcc] at h hs
    cases hctx : llvmExecutionContext cg with
    | error e => simp [hctx] at h
    | ok ctx =>
      simp only [hctx] at h
      cases h
      cases hs
      exact ⟨ctx, fun _ => rfl, List.Forall₂.cons Fits.context List.Forall₂.nil,
        fun e => by cases e⟩
  | HOOK =>
    simp only [hcc] at h hs
    cases hctx : llvmExecutionContext cg with
    | error e => simp [hctx] at h
    | ok ctx =>
      simp only [hctx] at h
      cases hs
      cases hres : hook_result with
      | none =>
        simp only [hres] at h
        cases h
        cases hv : (llvmType ftype.result).isVoidTy
        · simp [hv] at hlen
        · refine ⟨ctx, fun _ => rfl, ?_, fun _ => rfl⟩
          simp only [hv, Bool.not_true, Bool.false_eq_true, if_false, List.append_nil]
          exact List.Forall₂.cons Fits.context List.Forall₂.nil
      | some r =>
        simp only [hres] at h
        cases h
        cases hv : (llvmType ftype.result).isVoidTy
        · refine ⟨ctx, fun _ => rfl, ?_, fun _ => rfl⟩
          simp only [hv, Bool.not_false, if_true, List.singleton_append]
          exact List.Forall₂.cons Fits.context
            (List.Forall₂.cons (Fits.receiver r _ rfl) List.Forall₂.nil)
        · simp [hv] at hlen
  | HILTI_C =>
    simp only [hcc] at h hs
    cases hs
    split at h
    · cases h
    · rename_i e cg2 hadd
      have hctx2 : llvmExecutionContext cg2 = llvmExecutionContext cg := by
        split at hadd
        · exact llvmAddTmp_context _ _ _ _ _ _ _ _ hadd
        · cases hadd
          rfl
      cases hctx : llvmExecutionContext cg2 with
      | error e => simp [hctx] at h
      | ok ctx =>
        simp only [hctx] at h
        cases h
        refine ⟨ctx, fun _ => hctx2.symm.trans hctx, ?_, fun e => by cases e⟩
        exact List.Forall₂.cons (Fits.exception _ rfl)
          (List.Forall₂.cons Fits.context List.Forall₂.nil)

end CodeGen

namespace abi

namespace X86_64

/-- A call `createCall` emits has as many arguments as the signature it is given
(`assert(cargs.args_in_mem.size() == args.size())`). -/
theorem createCall_length (tg : Target) (callee : Value) (args : List Value) (rtype : LType)
    (targs : List NativeParam) (cc : CallingConvention) (cg : CG) (r : Value × CG)
    (h : createCall tg callee args rtype targs cc cg = .ok r) :
    args.length = targs.length := by
  unfold createCall at h
  cases hc : classifyArguments tg "" rtype targs cc cg.classified with
  | error e => simp [hc] at h
  | ok x =>
    obtain ⟨cargs, m⟩ := x
    simp only [hc] at h
    have hl : cargs.args_in_mem.length = targs.length := by
      unfold classifyArguments at hc
      cases hk : classifyArgumentsCore tg rtype targs with
      | error e => simp [hk] at hc
      | ok y =>
        obtain ⟨c2, g, x⟩ := y
        simp only [hk] at hc
        have hc2 : c2 = cargs := by
          split at hc
          · cases hc
            rfl
          · cases hc
            rfl
        subst hc2
        obtain ⟨_, -, -, -, hl, -⟩ := classifyArgumentsCore_spec tg rtype targs c2 g x hk
        exact hl
    split at h
    · cases h
    · split at h
      · cases h
      · rename_i hne
        rw [← hl]
        exact (by simpa using hne : cargs.args_in_mem.length = args.length).symm

end X86_64

end abi

namespace CodeGen

/-- C21: whenever `llvmDoCall` emits a call without aborting, for a function type
whose convention is Internal, Hook, BoundaryC or PlainC (it aborts for every
other), the native argument list it builds and the native parameter list
`llvmAdaptFunctionArgs` computes for the function type have the same length,
and they fit position by position: where the signature has the parameter itself
the call has the value of its argument, coerced to the type of the parameter;
where it has the pair of type information and pointer, the call has the type
information and the pointer to a temporary that holds the value; after them,
where the signature has the exception slot, the execution context and the
receiver of the result of a hook, the call has its exception slot, the execution
context and the receiver it was given; and a hook call was given a receiver
exactly when the signature has one. Of the coercer, which is not part of the
sources, it is assumed that under BoundaryC it yields a type value exactly for a
type-valued parameter. -/
theorem call_arguments_fit_signature (tg : Target)
    (coerceTo : Expression → HiltiType → Expression) (llvm_func : Value) (hook : Option String)
    (ftype : FunctionType) (args : List Expression) (cctor_result : Bool)
    (hook_result : Option Value) (excpt_check : Bool) (cg : CG)
    (hco : ftype.cc = .HILTI_C → ∀ x ∈ ftype.parameters.zip args,
      (coerceTo x.2 x.1.2).type.isTypeType = x.1.2.isTypeType)
    (hok : (llvmDoCall tg coerceTo llvm_func hook ftype args cctor_result hook_result
      excpt_check cg).isOk = true) :
    (ftype.cc = .HILTI ∨ ftype.cc = .HOOK ∨ ftype.cc = .HILTI_C ∨ ftype.cc = .C) ∧
    ∃ llvm_args excpt cg1 t ctx,
      nativeArguments coerceTo ftype args hook_result cg = .ok (llvm_args, excpt, cg1) ∧
      llvmAdaptFunctionArgsOf ftype = .ok t ∧
      (ftype.cc ≠ .C → llvmExecutionContext cg = .ok ctx) ∧
      llvm_args.length = t.2.length ∧
      List.Forall₂ (Fits coerceTo (ftype.parameters.zip args) ctx excpt hook_result)
        t.2 llvm_args ∧
      (ftype.cc = .HOOK → hook_result.isSome = ! (llvmType ftype.result).isVoidTy) := by
  -- what the call went through
  have hbody : ∃ llvm_args excpt cg1 t cgc, ∃ r : Bool × Value × CG,
      resultIsCctored ftype = .ok r.1 ∧
      nativeArguments coerceTo ftype args hook_result cg = .ok (llvm_args, excpt, cg1) ∧
      llvmAdaptFunctionArgsOf ftype = .ok t ∧
      abi.X86_64.createCall tg (redirectToHook llvm_func hook) llvm_args t.1 t.2 ftype.cc cgc
        = .ok r.2 := by
    unfold llvmDoCall at hok
    cases hb : llvmDoCallBody tg coerceTo llvm_func hook ftype args cctor_result hook_result
        cg with
    | error e => simp [hb, Except.isOk, Except.toBool] at hok
    | ok rb =>
      unfold llvmDoCallBody at hb
      cases h1 : resultIsCctored ftype with
      | error e => simp [h1] at hb
      | ok ric =>
        cases h2 : nativeArguments coerceTo ftype args hook_result cg with
        | error e => simp [h1, h2] at hb
        | ok na =>
          obtain ⟨llvm_args, excpt, cg1⟩ := na
          cases h3 : llvmAdaptFunctionArgsOf ftype with
          | error e => simp [h1, h2, h3] at hb
          | ok t =>
            simp only [h1, h2, h3] at hb
            split at hb
            · cases hb
            · rename_i cgc _
              cases h4 : abi.X86_64.createCall tg (redirectToHook llvm_func hook) llvm_args
                  t.1 t.2 ftype.cc cgc with
              | error e => simp [h4] at hb
              | ok rc => exact ⟨llvm_args, excpt, cg1, t, cgc, (ric, rc), rfl, rfl, rfl, h4⟩
  obtain ⟨llvm_args, excpt, cg1, t, cgc, r, h1, h2, h3, h4⟩ := hbody
  have hcc : ftype.cc = .HILTI ∨ ftype.cc = .HOOK ∨ ftype.cc = .HILTI_C ∨ ftype.cc = .C := by
    unfold resultIsCctored at h1
    cases hc : ftype.cc <;> simp [hc] at h1 ⊢
  refine ⟨hcc, ?_⟩
  have hlen := abi.X86_64.createCall_length tg _ llvm_args t.1 t.2 ftype.cc cgc r.2 h4
  -- the two halves of the argument vector
  unfold nativeArguments at h2
  cases ha : callArguments coerceTo ftype.cc ftype.parameters args [] cg with
  | error e => simp [ha] at h2
  | ok va =>
    obtain ⟨v0, cga⟩ := va
    simp only [ha] at h2
    cases hh : hiddenArguments ftype hook_result cga with
    | error e => simp [hh] at h2
    | ok vh =>
      obtain ⟨hidden, excpt', cg2⟩ := vh
      simp only [hh, Except.ok.injEq, Prod.mk.injEq] at h2
      obtain ⟨e1, e2, e3⟩ := h2
      subst e1 e2 e3
      -- the two halves of the signature
      have hhs : ∃ hiddenS, hiddenParameters (llvmType ftype.result) ftype.cc false
          = .ok hiddenS := by
        unfold hiddenParameters
        rcases hcc with h | h | h | h <;> rw [h] <;> exact ⟨_, rfl⟩
      obtain ⟨hiddenS, hhs⟩ := hhs
      obtain ⟨s0, a2, -, a4⟩ := fits_arguments_of_ok coerceTo (ftype.parameters.zip args)
        (llvmConstNull none) none hook_result ftype.cc ftype.parameters args [] [] cg v0 cga ha
        (fun _ h => h) hco List.Forall₂.nil
      obtain ⟨rt, hrt⟩ := llvmAdaptFunctionArgsOf_ok ftype hcc s0 hiddenS a2 hhs
      rw [h3] at hrt
      cases hrt
      have hlen0 : v0.length = s0.length := by
        obtain ⟨s0', b2, b3, -⟩ := fits_arguments_of_ok coerceTo (ftype.parameters.zip args)
          (llvmConstNull none) none hook_result ftype.cc ftype.parameters args [] [] cg v0 cga
          ha (fun _ h => h) hco List.Forall₂.nil
        rw [a2] at b2
        cases b2
        exact b3.length_eq.symm
      have hlenH : hidden.length = hiddenS.length := by
        simp only [List.length_append] at hlen
        omega
      obtain ⟨ctx, c1, c2, c3⟩ := fits_hidden_of_ok coerceTo (ftype.parameters.zip args) ftype
        hook_result cga cg2 hidden excpt' hiddenS hh hhs hlenH
      obtain ⟨s0', b2, b3, -⟩ := fits_arguments_of_ok coerceTo (ftype.parameters.zip args)
        ctx excpt' hook_result ftype.cc ftype.parameters args [] [] cg v0 cga ha
        (fun _ h => h) hco List.Forall₂.nil
      rw [a2] at b2
      cases b2
      refine ⟨v0 ++ hidden, excpt', cg2, (rt, s0 ++ hiddenS), ctx,
        by simp only [nativeArguments, ha, hh], h3, ?_, hlen,
        List.rel_append b3 c2, c3⟩
      intro hne
      rw [← llvmExecutionContext_frame a4]
      exact c1 hne

/-- C21 (witness): the BoundaryC call `f(n, data)` of the sample function, whose
second parameter has type `any`: the signature is `n`, `ti_x`, `x`, `__excpt`,
`__ctx`, and the call passes the value of `n`, the type information of
`ref<bytes>`, the pointer to the temporary holding `data`, the exception
temporary and the execution context. -/
theorem call_arguments_fit_signature_witness :
    (sample.ftype.cc = .HILTI_C → ∀ x ∈ sample.ftype.parameters.zip [sample.eNum, sample.eData],
      (sample.keepType x.2 x.1.2).type.isTypeType = x.1.2.isTypeType) ∧
    (llvmDoCall sysv.target sample.keepType (.function "f") none sample.ftype
      [sample.eNum, sample.eData] false none true sample.cg).isOk = true ∧
    ((sample.ftype.cc = .HILTI ∨ sample.ftype.cc = .HOOK ∨
        sample.ftype.cc = .HILTI_C ∨ sample.ftype.cc = .C) ∧
    ∃ llvm_args excpt cg1 t ctx,
      nativeArguments sample.keepType sample.ftype [sample.eNum, sample.eData] none
        sample.cg = .ok (llvm_args, excpt, cg1) ∧
      llvmAdaptFunctionArgsOf sample.ftype = .ok t ∧
      (sample.ftype.cc ≠ .C → llvmExecutionContext sample.cg = .ok ctx) ∧
      llvm_args.length = t.2.length ∧
      List.Forall₂ (Fits sample.keepType (sample.ftype.parameters.zip [sample.eNum, sample.eData])
        ctx excpt none) t.2 llvm_args ∧
      (sample.ftype.cc = .HOOK →
        (none : Option Value).isSome = ! (llvmType sample.ftype.result).isVoidTy)) :=
  ⟨fun _ => by decide, by decide,
   call_arguments_fit_signature sysv.target sample.keepType (.function "f") none
     sample.ftype [sample.eNum, sample.eData] false none true sample.cg
     (fun _ => by decide) (by decide)⟩

/-- C21 (a hook): the call of the hook `h(n : int<64>) -> int<64>` with the
argument `n` is emitted with the receiver `r`, for the signature `n`, `__ctx`,
`__rval`; without a receiver it is not: `createCall` finds one argument less
than the signature has parameters. -/
theorem hook_call_needs_receiver :
    llvmAdaptFunctionArgsOf sample.ftypeHook
      = .ok (.int 1, [("n", .int 64), contextParam, ("__rval", .ptr (.int 64))]) ∧
    nativeArguments sample.keepType sample.ftypeHook [sample.eNum] (some (.argument "r"))
        sample.cg
      = .ok ([.expr sample.eNum sample.tInt64 (some false), .argument "__ctx", .argument "r"],
             none, sample.cg) ∧
    (llvmDoCall sysv.target sample.keepType (.function "h") (some "h") sample.ftypeHook
      [sample.eNum] false (some (.argument "r")) true sample.cg).isOk = true ∧
    llvmDoCall sysv.target sample.keepType (.function "h") (some "h") sample.ftypeHook
      [sample.eNum] false none true sample.cg
      = .error "assertion failed: cargs.args_in_mem.size() == args.size()" := by
  refine ⟨by decide, by decide, by decide, by decide⟩

end CodeGen

end hilti
